import Mathlib

/-! MTD: channel-specification parsers and the set/get driver.

A shallow embedding of the channel parsers of `kulgad.cpp`
(`parse_channels_token`, followed by the sort and unique of `main`), of
`set_get_compact.cpp` and `set_get.cpp` (`parse_channels`) and of `ref.cpp` (inside
`parse_args`), together with the drivers `main` of `kulgad.cpp`,
`set_get_compact.cpp` and `set_get.cpp` and the messages of `ref.cpp`, and the
properties proved about them.

Conventions of the embedding.
* A `std::string` is a `List Char`; one `Char` stands for one code unit. In the
  "C" locale only the ASCII characters are digits, spaces or letters, so the
  classification functions below leave every other character alone.
* `int` is `Int`. The only place where the width of `int` matters is
  `std::stoi`, which throws `std::out_of_range` outside `[-2^31, 2^31 - 1]`.
* `std::string::npos` is `none`.
* A loop whose variable is a position in a string is a function recursive on a
  fuel argument; running out of fuel is `none`. The callers supply the length of
  the string plus one, and the totality theorems of the channel parsers show that
  their loops never run out of it.
-/

namespace MTD

/-- A `std::string`, as the list of its code units. -/
abbrev Str := List Char

/-! ## Library functions of C and C++ used by the sources -/

/-- The function `std::isdigit` in the "C" locale. -/
def isdigit (c : Char) : Bool := decide (48 ≤ c.toNat) && decide (c.toNat ≤ 57)

/-- The function `std::isspace` in the "C" locale: space, `\t`, `\n`, `\v`, `\f`, `\r`. -/
def isspace (c : Char) : Bool := decide (c.toNat = 32) || (decide (9 ≤ c.toNat) && decide (c.toNat ≤ 13))

/-- The function `std::tolower` in the "C" locale. -/
def tolower (c : Char) : Char :=
  if 65 ≤ c.toNat ∧ c.toNat ≤ 90 then Char.ofNat (c.toNat + 32) else c

/-- First index of `c` in `s`, if any. -/
def findIdxFrom (c : Char) : Str → Option Nat
  | [] => none
  | x :: t => if x = c then some 0 else (findIdxFrom c t).map (· + 1)

/-- The call `s.find(c, pos)` of `std::string`; `none` is `npos`. -/
def find (s : Str) (c : Char) (pos : Nat) : Option Nat :=
  (findIdxFrom c (s.drop pos)).map (· + pos)

/-- First index at which `pat` occurs in `s`, if any. -/
def findSubFrom (pat : Str) : Str → Option Nat
  | [] => if pat.isEmpty then some 0 else none
  | x :: t => if pat.isPrefixOf (x :: t) then some 0 else (findSubFrom pat t).map (· + 1)

/-- The call `s.find(pat)` of `std::string` with a string pattern, from position 0. -/
def find_str (s : Str) (pat : Str) : Option Nat := findSubFrom pat s

/-- The call `s.substr(pos, len)`; `len = none` is `npos` (to the end). Every call
in the sources has `pos ≤ s.size()`, so the `std::out_of_range` of `substr` cannot occur. -/
def substr (s : Str) (pos : Nat) (len : Option Nat) : Str :=
  match len with
  | none => s.drop pos
  | some n => (s.drop pos).take n

/-- Value of a string of decimal digits, most significant first. -/
def digitsValue (ds : Str) : Nat := ds.foldl (fun acc c => acc * 10 + (c.toNat - 48)) 0

/-- Outcome of `std::stoi`. -/
inductive StoiResult
  | value (v : Int)
  | invalid_argument
  | out_of_range
  deriving DecidableEq, Repr

/-- The function `std::stoi(s)` (base 10, no position argument): skip leading
white space, read an optional sign, then the longest run of digits; what follows
is ignored. No digit: `std::invalid_argument`. Value outside `int`:
`std::out_of_range`. -/
def stoi (s : Str) : StoiResult :=
  let s1 := s.dropWhile isspace
  let neg := decide (s1.head? = some '-')
  let s2 := if s1.head? = some '-' ∨ s1.head? = some '+' then s1.tail else s1
  let ds := s2.takeWhile isdigit
  if ds.isEmpty then .invalid_argument
  else if neg then
    (if digitsValue ds > 2147483648 then .out_of_range else .value (-(digitsValue ds : Int)))
  else
    (if digitsValue ds > 2147483647 then .out_of_range else .value (digitsValue ds : Int))

/-- The character of a decimal digit. -/
def digitChar (d : Nat) : Char := Char.ofNat (48 + d)

/-- Decimal digits of `n`, most significant first; `fuel` bounds the number of digits. -/
def natDigits : Nat → Nat → Str
  | 0, _ => []
  | fuel + 1, n => if n < 10 then [digitChar n] else natDigits fuel (n / 10) ++ [digitChar (n % 10)]

/-- The function `std::to_string(int)`. -/
def to_string (n : Int) : Str :=
  if n < 0 then '-' :: natDigits (n.natAbs + 1) n.natAbs else natDigits (n.toNat + 1) n.toNat

/-- The function `std::sort` on a vector of `int`. -/
def std_sort (l : List Int) : List Int := l.insertionSort (· ≤ ·)

/-- Worker of `std_unique`: drop the elements equal to the last one kept. -/
def uniqueAux (prev : Int) : List Int → List Int
  | [] => []
  | y :: t => if prev = y then uniqueAux prev t else y :: uniqueAux y t

/-- The idiom `v.erase(std::unique(v.begin(), v.end()), v.end())`: keep the first
element of every run of equal consecutive elements. -/
def std_unique : List Int → List Int
  | [] => []
  | x :: t => x :: uniqueAux x t

/-- The loop `for (int ch = a; ch <= b; ++ch) out.push_back(ch);`. -/
def push_range (a b : Int) (out : List Int) : List Int :=
  out ++ (List.range (b + 1 - a).toNat).map (fun k => a + Int.ofNat k)

/-- Exceptions that reach the `catch` of a caller. -/
inductive Exn
  | invalid_argument
  | out_of_range
  deriving DecidableEq, Repr

/-- Outcome of a channel parser: `ok out` is `return true` with the vector `out`;
`fail err` is `return false` after writing `err` to `std::cerr`; `thrown e` is an
exception leaving the function. -/
inductive ParseResult
  | ok (out : List Int)
  | fail (err : Str)
  | thrown (e : Exn)
  deriving DecidableEq, Repr

/-! ## kulgad.cpp -/

namespace Kulgad

/-- The function `lower_copy`. -/
def lower_copy (s : Str) : Str := s.map tolower

/-- The function `is_all_digits`. -/
def is_all_digits (s : Str) : Bool := if s.isEmpty then false else s.all isdigit

/-- Body of the loop of `parse_channels_token` for one non-empty `part`
(kulgad.cpp lines 83-96): a single number or a range `A-B`. -/
def parse_part (part : Str) (out : List Int) : ParseResult :=
  match find part '-' 0 with
  | none =>
    if !is_all_digits part then .fail ("Invalid channel: ".toList ++ part ++ "\n".toList)
    else
      match stoi part with
      | .invalid_argument => .thrown .invalid_argument
      | .out_of_range => .thrown .out_of_range
      | .value ch =>
        if ch < 0 ∨ ch > 255 then
          .fail ("Channel out of range: ".toList ++ to_string ch ++ "\n".toList)
        else .ok (out ++ [ch])
  | some dash =>
    let a_str := substr part 0 (some dash)
    let b_str := substr part (dash + 1) none
    if !is_all_digits a_str || !is_all_digits b_str then
      .fail ("Invalid range: ".toList ++ part ++ "\n".toList)
    else
      match stoi a_str with
      | .invalid_argument => .thrown .invalid_argument
      | .out_of_range => .thrown .out_of_range
      | .value a0 =>
        match stoi b_str with
        | .invalid_argument => .thrown .invalid_argument
        | .out_of_range => .thrown .out_of_range
        | .value b0 =>
          let a := if a0 > b0 then b0 else a0
          let b := if a0 > b0 then a0 else b0
          if a < 0 ∨ b > 255 then .fail ("Range out of bounds: ".toList ++ part ++ "\n".toList)
          else .ok (push_range a b out)

/-- The `while (pos < token.size())` loop of `parse_channels_token`
(kulgad.cpp lines 79-99). -/
def parse_loop (token : Str) : Nat → Nat → List Int → Option ParseResult
  | 0, _, _ => none
  | fuel + 1, pos, out =>
    if pos < token.length then
      let comma := find token ',' pos
      let part := substr token pos (comma.map (· - pos))
      if part.isEmpty then some (.fail "Invalid channel list near ','\n".toList)
      else
        match parse_part part out with
        | .ok out1 =>
          (match comma with
           | none => some (.ok out1)
           | some c => parse_loop token fuel (c + 1) out1)
        | r => some r
    else some (.ok out)

/-- The function `parse_channels_token(token, out)`. -/
def parse_channels_token (token : Str) (out : List Int) : Option ParseResult :=
  if token.isEmpty then some (.fail "Empty channel token.\n".toList)
  else if lower_copy token = "all".toList then some (.ok (push_range 0 255 out))
  else parse_loop token (token.length + 1) 0 out

/-- The channel loop of `main` (kulgad.cpp lines 157-159): every specification is
parsed into the same vector; the first failure ends the run. -/
def parse_specs : List Str → List Int → Option ParseResult
  | [], out => some (.ok out)
  | spec :: rest, out =>
    match parse_channels_token spec out with
    | some (.ok out1) => parse_specs rest out1
    | r => r

/-- The canonical channel list of `main` (kulgad.cpp lines 156-161): the channel loop
followed by `std::sort` and `std::unique`. -/
def parse_canonical (chanSpecs : List Str) : Option ParseResult :=
  match parse_specs chanSpecs [] with
  | some (.ok out) => some (.ok (std_unique (std_sort out)))
  | r => r

/-- The `for` loop of `parse_pins_from_json` (kulgad.cpp lines 110-113); the
increments of the matching branches include the `++i` of the loop header. -/
def scan_pins (arr : Str) : Nat → Nat → List Bool → Option (List Bool)
  | 0, _, _ => none
  | fuel + 1, i, pins =>
    if i < arr.length then
      if i + 4 ≤ arr.length ∧ substr arr i (some 4) = "true".toList then
        scan_pins arr fuel (i + 3 + 1) (pins ++ [true])
      else if i + 5 ≤ arr.length ∧ substr arr i (some 5) = "false".toList then
        scan_pins arr fuel (i + 4 + 1) (pins ++ [false])
      else scan_pins arr fuel (i + 1) pins
    else some pins

/-- The function `parse_pins_from_json`. -/
def parse_pins_from_json (js : Str) : Option (List Bool) :=
  match find_str js "\"pins\"".toList with
  | none => some []
  | some p =>
    match find js '[' p with
    | none => some []
    | some lb =>
      match find js ']' lb with
      | none => some []
      | some rb =>
        let arr := substr js (lb + 1) (some (rb - lb - 1))
        scan_pins arr (arr.length + 1) 0 []

/-- What a run of `main` does, in order. The connection steps (resolve, connect,
handshake, text mode) are the single event `connect`; `usage` is the call of
`usage()`; `error e` is the line written by the `catch` of `main`. -/
inductive Event
  | usage
  | cerr (text : Str)
  | cout (text : Str)
  | connect
  | write (payload : Str)
  | sleep (ms : Nat)
  | read
  | close
  | error (e : Exn)
  deriving DecidableEq, Repr

/-- A finished run: its events and the value returned by `main`. -/
structure Run where
  events : List Event
  exit : Nat
  deriving DecidableEq, Repr

/-- The variables of `main` set by the argument scan. -/
structure Opts where
  want_set : Bool
  want_get : Bool
  have_val : Bool
  val : Bool
  chanSpecs : List Str
  deriving DecidableEq, Repr

/-- The variables of `main` before the argument scan (kulgad.cpp lines 125-127). -/
def initOpts : Opts := ⟨false, false, false, false, []⟩

/-- The argument loop of `main` (kulgad.cpp lines 132-148); `Except.error` is an
early `return 1` with what was written before it. -/
def scan_args : List Str → Opts → Except (List Event) Opts
  | [], o => .ok o
  | tok :: rest, o =>
    let low := lower_copy tok
    if low = "-s".toList ∨ low = "set".toList then scan_args rest { o with want_set := true }
    else if low = "-g".toList ∨ low = "get".toList then scan_args rest { o with want_get := true }
    else if low = "-on".toList ∨ low = "on".toList then
      if o.have_val && o.val == false then
        .error [.cerr "Conflicting options: -on and -off\n".toList]
      else scan_args rest { o with have_val := true, val := true }
    else if low = "-off".toList ∨ low = "off".toList then
      if o.have_val && o.val == true then
        .error [.cerr "Conflicting options: -on and -off\n".toList]
      else scan_args rest { o with have_val := true, val := false }
    else if !tok.isEmpty && tok.head? = some '-' then .error [.usage]
    else scan_args rest { o with chanSpecs := o.chanSpecs ++ [tok] }

/-- The text of a set message (kulgad.cpp lines 179-180). -/
def set_payload (ch : Int) (val : Bool) : Str :=
  "\x7b\"cmd\":\"set\",\"ch\":".toList ++ to_string ch ++ ",\"val\":".toList
    ++ (if val then "true".toList else "false".toList) ++ "\x7d".toList

/-- The text of the get message (kulgad.cpp line 190). -/
def get_payload : Str := "\x7b\"cmd\":\"get\"\x7d".toList

/-- The SET loop of `main` (kulgad.cpp lines 177-184); `rest` is not empty exactly
when `idx + 1 < channels.size()`. -/
def set_phase (val : Bool) : List Int → List Event
  | [] => []
  | ch :: rest =>
    [Event.write (set_payload ch val),
     Event.cout ("Sent: set ch=".toList ++ to_string ch ++ " val=".toList
        ++ (if val then "on".toList else "off".toList) ++ "\n".toList)]
      ++ (if rest.isEmpty then [] else [Event.sleep 50])
      ++ set_phase val rest

/-- The status text of one channel (kulgad.cpp lines 202-203). -/
def status_text (pins : List Bool) (ch : Int) : Str :=
  if 0 ≤ ch ∧ ch < (pins.length : Int) then
    (if pins.getD ch.toNat false then "on".toList else "off".toList)
  else "n/a".toList

/-- The report loop of `main` (kulgad.cpp lines 201-205); `cnt` is the counter before
the entry is written. -/
def report (pins : List Bool) : List Int → Nat → List Event
  | [], _ => []
  | ch :: rest, cnt =>
    Event.cout (to_string ch ++ ":".toList ++ status_text pins ch
        ++ (if (cnt + 1) % 16 ≠ 0 then "  ".toList else "\n".toList))
      :: report pins rest (cnt + 1)

/-- The GET block of `main` (kulgad.cpp lines 190-207) for the response `body`. -/
def get_phase (channels : List Int) (body : Str) : Option (List Event) :=
  match parse_pins_from_json body with
  | none => none
  | some pins =>
    some ([Event.write get_payload, Event.read] ++
      (if pins.isEmpty then
        [Event.cout ("Received (raw): ".toList ++ body ++ "\n".toList),
         Event.cerr "Warning: 'pins' array not found.\n".toList]
      else
        [Event.cout "Status:\n".toList] ++ report pins channels 0
          ++ (if channels.length % 16 ≠ 0 then [Event.cout "\n".toList] else [])))

/-- The function `main` of kulgad.cpp for the arguments `argv[1..]` and the text
`body` of the frame that `ws.read` receives. The network calls succeed (a run
without I/O failure); the only exception modelled is the one of `std::stoi`. -/
def main (argv : List Str) (body : Str) : Option Run :=
  if argv.isEmpty then some ⟨[.usage], 1⟩
  else
    match scan_args argv initOpts with
    | .error evs => some ⟨evs, 1⟩
    | .ok o =>
      if !o.want_set && !o.want_get then some ⟨[.usage], 1⟩
      else if o.chanSpecs.isEmpty then
        some ⟨[.cerr "No channels provided. Use e.g. 1,2,3 or 7-12 or all\n".toList], 1⟩
      else if o.want_set && !o.have_val then
        some ⟨[.cerr "Missing value for set. Use -on or -off\n".toList], 1⟩
      else
        match parse_canonical o.chanSpecs with
        | none => none
        | some (.fail err) => some ⟨[.cerr err], 1⟩
        | some (.thrown e) => some ⟨[.error e], 1⟩
        | some (.ok channels) =>
          match (if o.want_get then get_phase channels body else some []) with
          | none => none
          | some getEvents =>
            some ⟨[Event.connect, Event.cout "Connected to localhost:3001\n".toList]
                ++ (if o.want_set then set_phase o.val channels else [])
                ++ getEvents ++ [Event.close], 0⟩

end Kulgad

/-! ## set_get_compact.cpp -/

namespace SetGetCompact

/-- The lambda `add` of `parse_channels` (set_get_compact.cpp lines 68-71). -/
def add (ch : Int) (out : List Int) : ParseResult :=
  if ch < 0 ∨ ch > 255 then
    .fail ("Channel out of range: ".toList ++ to_string ch ++ "\n".toList)
  else .ok (out ++ [ch])

/-- Body of the loop of `parse_channels` for one non-empty `tok`
(set_get_compact.cpp lines 76-89). Both exceptions of `std::stoi` are caught by
the `catch (...)` next to the call. -/
def parse_tok (tok : Str) (out : List Int) : ParseResult :=
  match find tok '-' 0 with
  | none =>
    match stoi tok with
    | .value ch => add ch out
    | _ => .fail ("Invalid channel: ".toList ++ tok ++ "\n".toList)
  | some dash =>
    let a_str := substr tok 0 (some dash)
    let b_str := substr tok (dash + 1) none
    if a_str.isEmpty || b_str.isEmpty then
      .fail ("Invalid range: ".toList ++ tok ++ "\n".toList)
    else
      match stoi a_str with
      | .value a0 =>
        (match stoi b_str with
         | .value b0 =>
           let a := if a0 > b0 then b0 else a0
           let b := if a0 > b0 then a0 else b0
           if a < 0 ∨ b > 255 then
             .fail ("Range out of bounds: ".toList ++ tok ++ "\n".toList)
           else .ok (push_range a b out)
         | _ => .fail ("Invalid range: ".toList ++ tok ++ "\n".toList))
      | _ => .fail ("Invalid range: ".toList ++ tok ++ "\n".toList)

/-- The `while (pos < s.size())` loop of `parse_channels`
(set_get_compact.cpp lines 72-93); an empty `tok` is skipped. -/
def parse_loop (s : Str) : Nat → Nat → List Int → Option ParseResult
  | 0, _, _ => none
  | fuel + 1, pos, out =>
    if pos < s.length then
      let comma := find s ',' pos
      let tok := substr s pos (comma.map (· - pos))
      match (if tok.isEmpty then ParseResult.ok out else parse_tok tok out) with
      | .ok out1 =>
        (match comma with
         | none => some (.ok out1)
         | some c => parse_loop s fuel (c + 1) out1)
      | r => some r
    else some (.ok out)

/-- The function `parse_channels(s, out)`; `raw` is the argument before the white
space is erased. A `fail` with an empty text is a `return false` that writes nothing. -/
def parse_channels (raw : Str) (out : List Int) : Option ParseResult :=
  let s := raw.filter (fun c => !isspace c)
  if s.isEmpty then some (.fail [])
  else
    let lower := s.map tolower
    if lower = "all".toList ∨ (find_str lower "all".toList).isSome then
      some (.ok (std_unique (std_sort (push_range 0 255 out))))
    else
      match parse_loop s (s.length + 1) 0 out with
      | some (.ok out1) =>
        if out1.isEmpty then some (.fail "No valid channels parsed\n".toList)
        else some (.ok (std_unique (std_sort out1)))
      | r => r

end SetGetCompact

/-! ## set_get_compact.cpp: the driver -/

namespace SetGetCompact

/-- The `for` loop of `parse_pins_from_json` (set_get_compact.cpp lines 164-167); the
increments of the matching branches include the `++i` of the loop header. -/
def scan_pins (arr : Str) : Nat → Nat → List Bool → Option (List Bool)
  | 0, _, _ => none
  | fuel + 1, i, pins =>
    if i < arr.length then
      if i + 4 ≤ arr.length ∧ substr arr i (some 4) = "true".toList then
        scan_pins arr fuel (i + 3 + 1) (pins ++ [true])
      else if i + 5 ≤ arr.length ∧ substr arr i (some 5) = "false".toList then
        scan_pins arr fuel (i + 4 + 1) (pins ++ [false])
      else scan_pins arr fuel (i + 1) pins
    else some pins

/-- The function `parse_pins_from_json` of set_get_compact.cpp. -/
def parse_pins_from_json (js : Str) : Option (List Bool) :=
  match find_str js "\"pins\"".toList with
  | none => some []
  | some p =>
    match find js '[' p with
    | none => some []
    | some lb =>
      match find js ']' lb with
      | none => some []
      | some rb =>
        let arr := substr js (lb + 1) (some (rb - lb - 1))
        scan_pins arr (arr.length + 1) 0 []

/-- The type `Mode`. -/
inductive Mode
  | SET
  | GET
  deriving DecidableEq, Repr

/-- What a run of `main` of set_get_compact.cpp does, in order; `connect host port`
stands for resolve, connect, handshake and text mode. -/
inductive Event
  | usage
  | cerr (text : Str)
  | cout (text : Str)
  | connect (host port : Str)
  | write (payload : Str)
  | sleep (ms : Nat)
  | read
  | close
  | error (e : Exn)
  deriving DecidableEq, Repr

/-- A finished run: its events and the value returned by `main`. -/
structure Run where
  events : List Event
  exit : Nat
  deriving DecidableEq, Repr

/-- The output parameters of `parse_args`. -/
structure Args where
  host : Str
  port : Str
  mode : Mode
  channels : List Int
  val : Bool
  deriving DecidableEq, Repr

/-- The loops of `parse_args` that join the channel arguments with single spaces
(set_get_compact.cpp lines 123-126 and 141-144). -/
def join_specs (toks : List Str) : Str :=
  toks.foldl (fun chanSpec t => (if chanSpec.isEmpty then chanSpec else chanSpec ++ [' ']) ++ t) []

/-- The function `parse_args`; `args` is `argv[1..]`, so `argc = args.length + 1` and
`argv[j]` is `args[j - 1]`. `Except.error` is `return false` with what was written. -/
def parse_args (args : List Str) : Option (Except (List Event) Args) :=
  if args.length + 1 < 3 then some (.error [.usage])
  else
    let first := args.getD 0 []
    let withHost := decide (first ≠ "set".toList ∧ first ≠ "get".toList)
    if withHost && decide (args.length + 1 < 5) then some (.error [.usage])
    else
      let host := if withHost then args.getD 0 [] else "localhost".toList
      let port := if withHost then args.getD 1 [] else "3001".toList
      let idx := if withHost then 3 else 1
      let cmd := if withHost then args.getD 2 [] else first
      if cmd = "set".toList then
        if args.length + 1 < idx + 3 then some (.error [.usage])
        else
          match parse_channels (join_specs (args.drop idx).dropLast) [] with
          | none => none
          | some (.fail err) => some (.error (if err.isEmpty then [] else [.cerr err]))
          | some (.thrown e) => some (.error [.error e])
          | some (.ok channels) =>
            let state := (args.getLast?.getD []).map tolower
            if state = "on".toList ∨ state = "true".toList ∨ state = "1".toList then
              some (.ok ⟨host, port, .SET, channels, true⟩)
            else if state = "off".toList ∨ state = "false".toList ∨ state = "0".toList then
              some (.ok ⟨host, port, .SET, channels, false⟩)
            else some (.error [.cerr "State must be on/off\n".toList])
      else if cmd = "get".toList then
        if args.length + 1 < idx + 2 then some (.error [.usage])
        else
          match parse_channels (join_specs (args.drop idx)) [] with
          | none => none
          | some (.fail err) => some (.error (if err.isEmpty then [] else [.cerr err]))
          | some (.thrown e) => some (.error [.error e])
          | some (.ok channels) => some (.ok ⟨host, port, .GET, channels, false⟩)
      else some (.error [.usage])

/-- The text of a set message (set_get_compact.cpp lines 195-196). -/
def set_payload (ch : Int) (val : Bool) : Str :=
  "\x7b\"cmd\":\"set\",\"ch\":".toList ++ to_string ch ++ ",\"val\":".toList
    ++ (if val then "true".toList else "false".toList) ++ "\x7d".toList

/-- The text of the get message (set_get_compact.cpp line 204). -/
def get_payload : Str := "\x7b\"cmd\":\"get\"\x7d".toList

/-- The SET loop of `main` (set_get_compact.cpp lines 193-200); `rest` is not empty
exactly when `i + 1 < channels.size()`. -/
def set_phase (val : Bool) : List Int → List Event
  | [] => []
  | ch :: rest =>
    [Event.write (set_payload ch val),
     Event.cout ("Sent: set ch=".toList ++ to_string ch ++ " val=".toList
        ++ (if val then "on".toList else "off".toList) ++ "\n".toList)]
      ++ (if rest.isEmpty then [] else [Event.sleep 50])
      ++ set_phase val rest

/-- The status text of one channel (set_get_compact.cpp lines 217-218). -/
def status_text (pins : List Bool) (ch : Int) : Str :=
  if 0 ≤ ch ∧ ch < (pins.length : Int) then
    (if pins.getD ch.toNat false then "on".toList else "off".toList)
  else "n/a".toList

/-- The report loop of `main` (set_get_compact.cpp lines 216-220); `cnt` is the
counter before the entry is written. -/
def report (pins : List Bool) : List Int → Nat → List Event
  | [], _ => []
  | ch :: rest, cnt =>
    Event.cout (to_string ch ++ ":".toList ++ status_text pins ch
        ++ (if (cnt + 1) % 16 ≠ 0 then "  ".toList else "\n".toList))
      :: report pins rest (cnt + 1)

/-- The function `main` of set_get_compact.cpp for the arguments `argv[1..]` and the
text `body` of the frame that `ws.read` receives; the network calls succeed. After
the SET loop there is one more `sleep_for(kDelay)`, and the get message is written
in both modes. -/
def main (args : List Str) (body : Str) : Option Run :=
  match parse_args args with
  | none => none
  | some (.error evs) => some ⟨evs, 1⟩
  | some (.ok a) =>
    match parse_pins_from_json body with
    | none => none
    | some pins =>
      some ⟨[Event.connect a.host a.port,
             Event.cout ("Connected to ".toList ++ a.host ++ ":".toList ++ a.port ++ "\n".toList)]
          ++ (if a.mode = Mode.SET then set_phase a.val a.channels ++ [Event.sleep 50] else [])
          ++ [Event.write get_payload, Event.read]
          ++ (if pins.isEmpty then
                [Event.cout ("Received (raw): ".toList ++ body ++ "\n".toList),
                 Event.cerr "Warning: 'pins' array not found.\n".toList]
              else
                [Event.cout "Status:\n".toList] ++ report pins a.channels 0
                  ++ (if a.channels.length % 16 ≠ 0 then [Event.cout "\n".toList] else []))
          ++ [Event.close], 0⟩

end SetGetCompact

/-! ## set_get.cpp: the pins decoder -/

namespace SetGet

/-- The `for` loop of `parse_pins_from_json` (set_get.cpp lines 152-158); the
increments of the matching branches include the `++i` of the loop header. -/
def scan_pins (arr : Str) : Nat → Nat → List Bool → Option (List Bool)
  | 0, _, _ => none
  | fuel + 1, i, pins =>
    if i < arr.length then
      if i + 4 ≤ arr.length ∧ substr arr i (some 4) = "true".toList then
        scan_pins arr fuel (i + 3 + 1) (pins ++ [true])
      else if i + 5 ≤ arr.length ∧ substr arr i (some 5) = "false".toList then
        scan_pins arr fuel (i + 4 + 1) (pins ++ [false])
      else scan_pins arr fuel (i + 1) pins
    else some pins

/-- The function `parse_pins_from_json` of set_get.cpp. -/
def parse_pins_from_json (js : Str) : Option (List Bool) :=
  match find_str js "\"pins\"".toList with
  | none => some []
  | some p =>
    match find js '[' p with
    | none => some []
    | some lb =>
      match find js ']' lb with
      | none => some []
      | some rb =>
        let arr := substr js (lb + 1) (some (rb - lb - 1))
        scan_pins arr (arr.length + 1) 0 []

end SetGet

/-! ## Words of the command line of kulgad.cpp -/

namespace Kulgad

/-- The argument asks for SET: `-s` or `set`, in any case. -/
def is_set_word (tok : Str) : Bool :=
  decide (lower_copy tok = "-s".toList ∨ lower_copy tok = "set".toList)

/-- The argument asks for GET: `-g` or `get`, in any case. -/
def is_get_word (tok : Str) : Bool :=
  decide (lower_copy tok = "-g".toList ∨ lower_copy tok = "get".toList)

/-- The argument is the value on: `-on` or `on`, in any case. -/
def is_on_word (tok : Str) : Bool :=
  decide (lower_copy tok = "-on".toList ∨ lower_copy tok = "on".toList)

/-- The argument is the value off: `-off` or `off`, in any case. -/
def is_off_word (tok : Str) : Bool :=
  decide (lower_copy tok = "-off".toList ∨ lower_copy tok = "off".toList)

/-- The argument is one of the option words. -/
def is_option_word (tok : Str) : Bool :=
  is_set_word tok || is_get_word tok || is_on_word tok || is_off_word tok

/-- SET is requested by the argument list. -/
def SetRequested (argv : List Str) : Prop := argv.any is_set_word = true

/-- GET is requested by the argument list. -/
def GetRequested (argv : List Str) : Prop := argv.any is_get_word = true

/-- An on/off value is given in the argument list. -/
def ValueGiven (argv : List Str) : Prop :=
  argv.any (fun tok => is_on_word tok || is_off_word tok) = true

instance (argv : List Str) : Decidable (SetRequested argv) := by
  unfold SetRequested; exact inferInstance

instance (argv : List Str) : Decidable (GetRequested argv) := by
  unfold GetRequested; exact inferInstance

instance (argv : List Str) : Decidable (ValueGiven argv) := by
  unfold ValueGiven; exact inferInstance

/-- The arguments that are not option words: the channel specifications (and the
unknown options, which end the run). -/
def specArgs (argv : List Str) : List Str := argv.filter (fun tok => !is_option_word tok)

end Kulgad

/-! ## Comma-separated pieces -/

/-- The pieces joined by single commas. -/
def joinComma : List Str → Str
  | [] => []
  | [p] => p
  | p :: q :: ps => p ++ ',' :: joinComma (q :: ps)

/-- The comma-separated pieces of a string; there is always at least one, and
`"3,"` has the two pieces `"3"` and `""`. -/
def splitComma : Str → List Str
  | [] => [[]]
  | c :: t =>
    if c = ',' then [] :: splitComma t
    else
      match splitComma t with
      | [] => [[c]]
      | p :: ps => (c :: p) :: ps

namespace Kulgad

/-- What the loop of `parse_channels_token` does, piece by piece: an empty piece
is an error unless it is the last one, which the loop never reaches. -/
def loopPieces : List Str → List Int → ParseResult
  | [], out => .ok out
  | [p], out => if p.isEmpty then .ok out else parse_part p out
  | p :: q :: ps, out =>
    if p.isEmpty then .fail "Invalid channel list near ','\n".toList
    else
      match parse_part p out with
      | .ok out1 => loopPieces (q :: ps) out1
      | r => r

end Kulgad

namespace SetGetCompact

/-- What the loop of `parse_channels` does, piece by piece: empty pieces are skipped. -/
def loopPieces : List Str → List Int → ParseResult
  | [], out => .ok out
  | p :: ps, out =>
    match (if p.isEmpty then ParseResult.ok out else parse_tok p out) with
    | .ok out1 => loopPieces ps out1
    | r => r

end SetGetCompact

/-- The channels `0, 1, ..., 255`. -/
def allChannels : List Int := (List.range 256).map Int.ofNat

/-! ## Pieces of a channel list, as the specification describes them -/

/-- A NUMBER of the grammar: a non-empty string of decimal digits of value at most 255. -/
def IsNumber (s : Str) : Prop := s ≠ [] ∧ (∀ c ∈ s, isdigit c = true) ∧ digitsValue s ≤ 255

/-- A piece of a channel list: a single number, or a range `A-B`. -/
inductive Piece
  | single (n : Str)
  | range (a b : Str)
  deriving DecidableEq, Repr

/-- The text of a piece. -/
def Piece.text : Piece → Str
  | .single n => n
  | .range a b => a ++ '-' :: b

/-- Every number of the piece is a NUMBER of the grammar. -/
def Piece.WF : Piece → Prop
  | .single n => IsNumber n
  | .range a b => IsNumber a ∧ IsNumber b

/-- The channel `c` is the value of a single piece, or lies between the bounds of a
range piece (in either order). -/
def Piece.covers : Piece → Int → Bool
  | .single n, c => decide (c = (digitsValue n : Int))
  | .range a b, c =>
    decide (min (digitsValue a : Int) (digitsValue b : Int) ≤ c) &&
      decide (c ≤ max (digitsValue a : Int) (digitsValue b : Int))

/-- The channels that a piece appends to the vector. -/
def Piece.apply : Piece → List Int → List Int
  | .single n, out => out ++ [(digitsValue n : Int)]
  | .range a b, out =>
    push_range (min (digitsValue a : Int) (digitsValue b : Int))
      (max (digitsValue a : Int) (digitsValue b : Int)) out

/-- The ascending list of the channels covered by at least one piece. -/
def channelsOf (ps : List Piece) : List Int :=
  allChannels.filter (fun c => ps.any (fun p => p.covers c))

/-- A string made only of digits, dashes and commas. -/
def Plain (s : Str) : Prop := ∀ c ∈ s, isdigit c = true ∨ c = '-' ∨ c = ','

/-- The vector after the pieces have been appended in order. -/
def applyPieces (ps : List Piece) (out : List Int) : List Int :=
  ps.foldl (fun o p => p.apply o) out

instance (s : Str) : Decidable (IsNumber s) := by
  unfold IsNumber; exact inferInstance

instance (p : Piece) : Decidable p.WF := by
  cases p <;> (unfold Piece.WF; exact inferInstance)

/-- Every element of `out1` is an element of `out` or a channel in `[0, 255]`. -/
def Extends (out out1 : List Int) : Prop := ∀ c ∈ out1, c ∈ out ∨ (0 ≤ c ∧ c ≤ 255)

/-- The parser did not succeed: it returned `false`, or an exception left it. -/
def Fails (res : Option ParseResult) : Prop :=
  (∃ err, res = some (.fail err)) ∨ (∃ e, res = some (.thrown e))

/-- A non-empty string of decimal digits. -/
def IsDigits (s : Str) : Prop := s ≠ [] ∧ ∀ c ∈ s, isdigit c = true

/-- A piece that is an all-digit number above 255, or that has a dash with an
all-digit side above 255. -/
def BadPiece (p : Str) : Prop :=
  (IsDigits p ∧ 255 < digitsValue p) ∨
  ∃ a b, p = a ++ '-' :: b ∧
    ((IsDigits a ∧ 255 < digitsValue a) ∨ (IsDigits b ∧ 255 < digitsValue b))

/-- A piece that has the shape of a number or of a range of two numbers, with a
number above 255. -/
def OutOfRangePiece (p : Str) : Prop :=
  (IsDigits p ∧ 255 < digitsValue p) ∨
  ∃ a b, p = a ++ '-' :: b ∧ IsDigits a ∧ IsDigits b ∧
    (255 < digitsValue a ∨ 255 < digitsValue b)

/-- The out-of-range outcomes of the parser of kulgad.cpp: the two messages of the
range checks, and the `std::out_of_range` of `std::stoi`. -/
def OutOfRangeResult (r : ParseResult) : Prop :=
  r = .thrown .out_of_range ∨
  (∃ t, r = .fail ("Channel out of range: ".toList ++ t)) ∨
  (∃ t, r = .fail ("Range out of bounds: ".toList ++ t))

namespace Kulgad

/-- The events that use the connection. -/
def Event.isNetwork : Event → Bool
  | .connect => true
  | .write _ => true
  | .read => true
  | .close => true
  | _ => false

/-- The run did nothing on the network. -/
def Run.noNetwork (run : Run) : Prop := ∀ e ∈ run.events, e.isNetwork = false

/-- The run ended with exit code 1 after reporting an out-of-range error and nothing else. -/
def Run.outOfRange (run : Run) : Prop :=
  run.exit = 1 ∧
  (run.events = [.error .out_of_range] ∨
   (∃ t, run.events = [.cerr ("Channel out of range: ".toList ++ t)]) ∨
   (∃ t, run.events = [.cerr ("Range out of bounds: ".toList ++ t)]))

/-- The option words of the argument scan of `main`, in lower case. -/
def IsKeyword (low : Str) : Prop :=
  low = "-s".toList ∨ low = "set".toList ∨ low = "-g".toList ∨ low = "get".toList ∨
  low = "-on".toList ∨ low = "on".toList ∨ low = "-off".toList ∨ low = "off".toList

end Kulgad

/-! ## The grammar of the specification -/

/-- A token of the grammar: NUMBER, or NUMBER `-` NUMBER. -/
def IsToken (t : Str) : Prop :=
  IsNumber t ∨ ∃ a b, t = a ++ '-' :: b ∧ IsNumber a ∧ IsNumber b

/-- A list of the grammar: one or more tokens separated by single commas. -/
def IsTokenList (s : Str) : Prop :=
  ∃ ts : List Str, ts ≠ [] ∧ (∀ t ∈ ts, IsToken t) ∧ s = joinComma ts

/-- The grammar `spec := "all" | token ("," token)*`, with `all` in any case. -/
def Conforms (spec : Str) : Prop :=
  spec.map tolower = "all".toList ∨ IsTokenList spec

/-! ## The text of a pins array -/

/-- The token of a boolean in a pins array. -/
def boolToken (b : Bool) : Str := if b then "true".toList else "false".toList

/-- The tokens of the booleans, joined by commas. -/
def pinsText (bs : List Bool) : Str := joinComma (bs.map boolToken)

/-- A response in which the key `"pins"` is followed by the array of `bs`, after the
text `p` and before the text `s`. -/
def pinsResponse (p : Str) (bs : List Bool) (s : Str) : Str :=
  p ++ "\"pins\":[".toList ++ pinsText bs ++ "]".toList ++ s

/-! ## Observations on the events of a run -/

namespace Kulgad

/-- The payloads written to the connection, in order. -/
def sends (evs : List Event) : List Str :=
  evs.filterMap (fun e => match e with | .write p => some p | _ => none)

/-- The pauses of the run, in milliseconds, in order. -/
def delays (evs : List Event) : List Nat :=
  evs.filterMap (fun e => match e with | .sleep ms => some ms | _ => none)

/-- The number of receives of the run. -/
def reads (evs : List Event) : Nat := evs.count Event.read

/-- The writes and pauses of the run, in order. -/
def wire (evs : List Event) : List Event :=
  evs.filter (fun e => match e with | .write _ => true | .sleep _ => true | _ => false)

/-- The events of the GET block once the response `body` has been decoded into `pins`
(kulgad.cpp lines 190-207). -/
def get_events (channels : List Int) (body : Str) (pins : List Bool) : List Event :=
  [Event.write get_payload, Event.read] ++
    (if pins.isEmpty then
      [Event.cout ("Received (raw): ".toList ++ body ++ "\n".toList),
       Event.cerr "Warning: 'pins' array not found.\n".toList]
    else
      [Event.cout "Status:\n".toList] ++ report pins channels 0
        ++ (if channels.length % 16 ≠ 0 then [Event.cout "\n".toList] else []))

/-- The events of a run that passes the argument checks and the channel parsing. -/
def normal_events (o : Opts) (channels : List Int) (body : Str) (pins : List Bool) :
    List Event :=
  [Event.connect, Event.cout "Connected to localhost:3001\n".toList]
    ++ (if o.want_set then set_phase o.val channels else [])
    ++ (if o.want_get then get_events channels body pins else []) ++ [Event.close]

end Kulgad

namespace SetGetCompact

/-- The payloads written to the connection, in order. -/
def sends (evs : List Event) : List Str :=
  evs.filterMap (fun e => match e with | .write p => some p | _ => none)

end SetGetCompact

/-- The text that the claims give for a set message with the channel field `d`. -/
def setMessage (d : Str) (v : Bool) : Str :=
  "\x7b\"cmd\":\"set\",\"ch\":".toList ++ d ++ ",\"val\":".toList ++ boolToken v ++ "\x7d".toList

/-! ## set_get.cpp: the channel parser and the driver

The events, the mode and the output parameters are those of set_get_compact.cpp:
the two programs make the same calls. -/

namespace SetGet

/-- The lambda `add` of `parse_channels` (set_get.cpp lines 53-56). -/
def add (ch : Int) (out : List Int) : ParseResult :=
  if ch < 0 ∨ ch > 255 then
    .fail ("Channel out of range: ".toList ++ to_string ch ++ "\n".toList)
  else .ok (out ++ [ch])

/-- Body of the loop of `parse_channels` for one non-empty `tok` (set_get.cpp lines
61-75). Both exceptions of `std::stoi` are caught by the `catch (...)` next to the
call. -/
def parse_tok (tok : Str) (out : List Int) : ParseResult :=
  match find tok '-' 0 with
  | none =>
    match stoi tok with
    | .value ch => add ch out
    | _ => .fail ("Invalid channel: ".toList ++ tok ++ "\n".toList)
  | some dash =>
    let a_str := substr tok 0 (some dash)
    let b_str := substr tok (dash + 1) none
    if a_str.isEmpty || b_str.isEmpty then
      .fail ("Invalid range: ".toList ++ tok ++ "\n".toList)
    else
      match stoi a_str with
      | .value a0 =>
        (match stoi b_str with
         | .value b0 =>
           let a := if a0 > b0 then b0 else a0
           let b := if a0 > b0 then a0 else b0
           if a < 0 ∨ b > 255 then
             .fail ("Range out of bounds: ".toList ++ tok ++ "\n".toList)
           else .ok (push_range a b out)
         | _ => .fail ("Invalid range: ".toList ++ tok ++ "\n".toList))
      | _ => .fail ("Invalid range: ".toList ++ tok ++ "\n".toList)

/-- The `while (start < s.size())` loop of `parse_channels` (set_get.cpp lines
57-79); an empty `tok` is skipped. -/
def parse_loop (s : Str) : Nat → Nat → List Int → Option ParseResult
  | 0, _, _ => none
  | fuel + 1, start, out =>
    if start < s.length then
      let pos := find s ',' start
      let tok := substr s start (pos.map (· - start))
      match (if tok.isEmpty then ParseResult.ok out else parse_tok tok out) with
      | .ok out1 =>
        (match pos with
         | none => some (.ok out1)
         | some p => parse_loop s fuel (p + 1) out1)
      | r => some r
    else some (.ok out)

/-- The function `parse_channels(raw, out)` of set_get.cpp. A `fail` with an empty
text is a `return false` that writes nothing. -/
def parse_channels (raw : Str) (out : List Int) : Option ParseResult :=
  let s := raw.filter (fun c => !isspace c)
  if s.isEmpty then some (.fail [])
  else
    let lower := s.map tolower
    if lower = "all".toList ∨ (find_str lower "all".toList).isSome then
      some (.ok (std_unique (std_sort (push_range 0 255 out))))
    else
      match parse_loop s (s.length + 1) 0 out with
      | some (.ok out1) =>
        if out1.isEmpty then some (.fail "No valid channels parsed\n".toList)
        else some (.ok (std_unique (std_sort out1)))
      | r => r

/-- The loops of `parse_args` that join the channel arguments with single spaces
(set_get.cpp lines 109-112 and 128-131). -/
def join_specs (toks : List Str) : Str :=
  toks.foldl
    (fun chanJoined t => (if chanJoined.isEmpty then chanJoined else chanJoined ++ [' ']) ++ t)
    []

/-- The function `parse_args` of set_get.cpp; `args` is `argv[1..]`, so
`argc = args.length + 1` and `argv[j]` is `args[j - 1]`. `Except.error` is
`return false` with what was written. -/
def parse_args (args : List Str) :
    Option (Except (List SetGetCompact.Event) SetGetCompact.Args) :=
  if args.length + 1 < 3 then some (.error [.usage])
  else
    let first := args.getD 0 []
    let withHost := decide (first ≠ "set".toList ∧ first ≠ "get".toList)
    if withHost && decide (args.length + 1 < 5) then some (.error [.usage])
    else
      let host := if withHost then args.getD 0 [] else "localhost".toList
      let port := if withHost then args.getD 1 [] else "3001".toList
      let idx := if withHost then 3 else 1
      let cmd := if withHost then args.getD 2 [] else first
      if cmd = "set".toList then
        if args.length + 1 < idx + 3 then some (.error [.usage])
        else
          match parse_channels (join_specs (args.drop idx).dropLast) [] with
          | none => none
          | some (.fail err) => some (.error (if err.isEmpty then [] else [.cerr err]))
          | some (.thrown e) => some (.error [.error e])
          | some (.ok channels) =>
            let state := (args.getLast?.getD []).map tolower
            if state = "on".toList ∨ state = "true".toList ∨ state = "1".toList then
              some (.ok ⟨host, port, .SET, channels, true⟩)
            else if state = "off".toList ∨ state = "false".toList ∨ state = "0".toList then
              some (.ok ⟨host, port, .SET, channels, false⟩)
            else some (.error [.cerr "State must be on/off\n".toList])
      else if cmd = "get".toList then
        if args.length + 1 < idx + 2 then some (.error [.usage])
        else
          match parse_channels (join_specs (args.drop idx)) [] with
          | none => none
          | some (.fail err) => some (.error (if err.isEmpty then [] else [.cerr err]))
          | some (.thrown e) => some (.error [.error e])
          | some (.ok channels) => some (.ok ⟨host, port, .GET, channels, false⟩)
      else some (.error [.usage])

/-- The text of a set message (set_get.cpp lines 186-188). -/
def set_payload (ch : Int) (val : Bool) : Str :=
  "\x7b\"cmd\": \"set\", \"ch\":".toList ++ to_string ch ++ ", \"val\": ".toList
    ++ (if val then "true".toList else "false".toList) ++ "\x7d".toList

/-- The text of the get message (set_get.cpp line 198). -/
def get_payload : Str := "\x7b\"cmd\": \"get\"\x7d".toList

/-- The SET loop of `main` (set_get.cpp lines 184-194); `rest` is not empty exactly
when `i + 1 < channels.size()`. -/
def set_phase (val : Bool) : List Int → List SetGetCompact.Event
  | [] => []
  | ch :: rest =>
    [SetGetCompact.Event.write (set_payload ch val),
     SetGetCompact.Event.cout ("Sent: set ch=".toList ++ to_string ch ++ " val=".toList
        ++ (if val then "on".toList else "off".toList) ++ "\n".toList)]
      ++ (if rest.isEmpty then [] else [SetGetCompact.Event.sleep 50])
      ++ set_phase val rest

/-- The status text of one channel (set_get.cpp lines 212-214). -/
def status_text (pins : List Bool) (ch : Int) : Str :=
  if ch ≥ 0 ∧ ch < (pins.length : Int) then
    (if pins.getD ch.toNat false then "on".toList else "off".toList)
  else "n/a".toList

/-- The report loop of `main` (set_get.cpp lines 211-216); `cnt` is the counter
before the entry is written. -/
def report (pins : List Bool) : List Int → Nat → List SetGetCompact.Event
  | [], _ => []
  | ch :: rest, cnt =>
    SetGetCompact.Event.cout (to_string ch ++ ":".toList ++ status_text pins ch
        ++ (if (cnt + 1) % 16 ≠ 0 then "  ".toList else "\n".toList))
      :: report pins rest (cnt + 1)

/-- The function `main` of set_get.cpp for the arguments `argv[1..]` and the text
`body` of the frame that `ws.read` receives; the network calls succeed. After the
SET loop there is one more `sleep_for(kDelay)`, and the get message is written in
both modes. -/
def main (args : List Str) (body : Str) : Option SetGetCompact.Run :=
  match parse_args args with
  | none => none
  | some (.error evs) => some ⟨evs, 1⟩
  | some (.ok a) =>
    match parse_pins_from_json body with
    | none => none
    | some pins =>
      some ⟨[SetGetCompact.Event.connect a.host a.port,
             SetGetCompact.Event.cout
               ("Connected to ".toList ++ a.host ++ ":".toList ++ a.port ++ "\n".toList)]
          ++ (if a.mode = SetGetCompact.Mode.SET then
                set_phase a.val a.channels ++ [SetGetCompact.Event.sleep 50]
              else [])
          ++ [SetGetCompact.Event.write get_payload, SetGetCompact.Event.read]
          ++ (if pins.isEmpty then
                [SetGetCompact.Event.cout ("Received (raw): ".toList ++ body ++ "\n".toList),
                 SetGetCompact.Event.cerr
                   "Warning: 'pins' array not found in response.\n".toList]
              else
                [SetGetCompact.Event.cout "Status:\n".toList] ++ report pins a.channels 0
                  ++ (if a.channels.length % 16 ≠ 0 then
                        [SetGetCompact.Event.cout "\n".toList] else []))
          ++ [SetGetCompact.Event.close], 0⟩

end SetGet

/-! ## ref.cpp: the channel parsing of `parse_args` and the messages -/

namespace Ref

/-- The output parameters of `parse_args` of ref.cpp. -/
structure Args where
  host : Str
  port : Str
  channels : List Int
  val : Bool
  deriving DecidableEq, Repr

/-- The lambda `add_channel` of `parse_args` (ref.cpp lines 87-94). -/
def add_channel (ch : Int) (channels : List Int) : ParseResult :=
  if ch < 0 ∨ ch > 255 then
    .fail ("Channel out of range: ".toList ++ to_string ch ++ "\n".toList)
  else .ok (channels ++ [ch])

/-- Body of the loop of `parse_args` for one non-empty `tok` (ref.cpp lines
103-128). -/
def parse_tok (tok : Str) (channels : List Int) : ParseResult :=
  match find tok '-' 0 with
  | none =>
    match stoi tok with
    | .value ch => add_channel ch channels
    | _ => .fail ("Invalid channel: ".toList ++ tok ++ "\n".toList)
  | some dash =>
    let a_str := substr tok 0 (some dash)
    let b_str := substr tok (dash + 1) none
    if a_str.isEmpty || b_str.isEmpty then
      .fail ("Invalid range: ".toList ++ tok ++ "\n".toList)
    else
      match stoi a_str with
      | .value a0 =>
        (match stoi b_str with
         | .value b0 =>
           let a := if a0 > b0 then b0 else a0
           let b := if a0 > b0 then a0 else b0
           if a < 0 ∨ b > 255 then
             .fail ("Range out of bounds: ".toList ++ tok ++ "\n".toList)
           else .ok (push_range a b channels)
         | _ => .fail ("Invalid range: ".toList ++ tok ++ "\n".toList))
      | _ => .fail ("Invalid range: ".toList ++ tok ++ "\n".toList)

/-- The `while (start < chanJoined.size())` loop of `parse_args` (ref.cpp lines
97-132); an empty `tok` is skipped. -/
def parse_loop (chanJoined : Str) : Nat → Nat → List Int → Option ParseResult
  | 0, _, _ => none
  | fuel + 1, start, channels =>
    if start < chanJoined.length then
      let pos := find chanJoined ',' start
      let tok := substr chanJoined start (pos.map (· - start))
      match (if tok.isEmpty then ParseResult.ok channels else parse_tok tok channels) with
      | .ok channels1 =>
        (match pos with
         | none => some (.ok channels1)
         | some p => parse_loop chanJoined fuel (p + 1) channels1)
      | r => some r
    else some (.ok channels)

/-- The channel parsing of `parse_args` (ref.cpp lines 67-144): what the function
does with the joined channel arguments `joined`, from the erasure of the white
space to the final sort and unique. -/
def parse_joined (joined : Str) (channels : List Int) : Option ParseResult :=
  let chanJoined := joined.filter (fun c => !isspace c)
  if chanJoined.isEmpty then some (.fail "No channels given\n".toList)
  else
    let lower := chanJoined.map tolower
    if lower = "all".toList ∨ (find_str lower "all".toList).isSome then
      some (.ok (std_unique (std_sort (push_range 0 255 channels))))
    else
      match parse_loop chanJoined (chanJoined.length + 1) 0 channels with
      | some (.ok channels1) =>
        if channels1.isEmpty then some (.fail "No valid channels parsed\n".toList)
        else some (.ok (std_unique (std_sort channels1)))
      | r => r

/-- The loop of `parse_args` that joins the channel arguments with single spaces
(ref.cpp lines 63-66). -/
def join_specs (toks : List Str) : Str :=
  toks.foldl
    (fun chanJoined t => (if chanJoined.isEmpty then chanJoined else chanJoined ++ [' ']) ++ t)
    []

/-- The end of `parse_args` of ref.cpp, once `host`, `port` and `val` are set (ref.cpp
lines 62-145): the channel arguments `specs` are joined and parsed. -/
def parse_rest (host port : Str) (val : Bool) (specs : List Str) :
    Option (Except (List SetGetCompact.Event) Args) :=
  match parse_joined (join_specs specs) [] with
  | none => none
  | some (.fail err) => some (.error [.cerr err])
  | some (.thrown e) => some (.error [.error e])
  | some (.ok channels) => some (.ok ⟨host, port, channels, val⟩)

/-- The function `parse_args` of ref.cpp; `args` is `argv[1..]`, so
`argc = args.length + 1` and `argv[j]` is `args[j - 1]`. `Except.error` is
`return false` with what was written. -/
def parse_args (args : List Str) : Option (Except (List SetGetCompact.Event) Args) :=
  if args.length + 1 < 4 then some (.error [.usage])
  else
    let withHost := decide (args.getD 0 [] ≠ "set".toList)
    if withHost && decide (args.length + 1 < 6) then some (.error [.usage])
    else if withHost && decide (args.getD 2 [] ≠ "set".toList) then some (.error [.usage])
    else
      let host := if withHost then args.getD 0 [] else "localhost".toList
      let port := if withHost then args.getD 1 [] else "3001".toList
      let idx := if withHost then 3 else 1
      let state := (args.getLast?.getD []).map tolower
      if state = "on".toList ∨ state = "true".toList ∨ state = "1".toList then
        parse_rest host port true (args.drop idx).dropLast
      else if state = "off".toList ∨ state = "false".toList ∨ state = "0".toList then
        parse_rest host port false (args.drop idx).dropLast
      else some (.error [.cerr "State must be on/off\n".toList])

/-- The text of a set message (ref.cpp lines 172-174). -/
def set_payload (ch : Int) (val : Bool) : Str :=
  "\x7b\"cmd\": \"set\", \"ch\":".toList ++ to_string ch ++ ", \"val\": ".toList
    ++ (if val then "true".toList else "false".toList) ++ "\x7d".toList

/-- The text of the get message (ref.cpp line 183). -/
def get_payload : Str := "\x7b\"cmd\": \"get\"\x7d".toList

end Ref

/-! ## Unknown options of kulgad.cpp and observations on the other drivers -/

namespace Kulgad

/-- The argument is not an option word and begins with a dash: an unknown option. -/
def is_unknown_option (tok : Str) : Bool :=
  !is_option_word tok && (!tok.isEmpty && decide (tok.head? = some '-'))

end Kulgad

namespace SetGetCompact

/-- The pauses of the run, in milliseconds, in order. -/
def delays (evs : List Event) : List Nat :=
  evs.filterMap (fun e => match e with | .sleep ms => some ms | _ => none)

/-- The number of receives of the run. -/
def reads (evs : List Event) : Nat := evs.count Event.read

/-- The writes and pauses of the run, in order. -/
def wire (evs : List Event) : List Event :=
  evs.filter (fun e => match e with | .write _ => true | .sleep _ => true | _ => false)

end SetGetCompact

/-! ## Pieces of the lenient parsers -/

/-- The non-empty comma-separated pieces of a spec once its white space is removed. -/
def nonEmptyPieces (raw : Str) : List Str :=
  (splitComma (raw.filter (fun c => !isspace c))).filter (fun p => !p.isEmpty)

/-- The text begins with a decimal digit, or with a sign followed by a decimal digit:
what `std::stoi` needs, on a text without leading white space, to convert a number. -/
def startsNumber : Str → Bool
  | [] => false
  | [c] => isdigit c
  | c :: d :: _ => isdigit c || ((decide (c = '+') || decide (c = '-')) && isdigit d)

/-- The non-empty piece has a number part without a leading number: the piece itself
when it has no dash, otherwise the left or the right side of its first dash. -/
def BadNumberPart (p : Str) : Prop :=
  p ≠ [] ∧
  (('-' ∉ p ∧ startsNumber p = false) ∨
    ∃ a b, p = a ++ '-' :: b ∧ '-' ∉ a ∧ (startsNumber a = false ∨ startsNumber b = false))

/-! ## The comparisons of the pins decoder -/

namespace Kulgad

/-- The loop of `parse_pins_from_json` (kulgad.cpp lines 110-113) together with the
calls `arr.compare(pos, n, ...)` it makes, in order, as pairs `(pos, n)`: by the
short-circuit `&&`, a comparison is made only when its guard `i + n <= arr.size()`
holds, and the second one only when the first condition is false. -/
def scan_pins_traced (arr : Str) :
    Nat → Nat → List Bool → List (Nat × Nat) → Option (List Bool × List (Nat × Nat))
  | 0, _, _, _ => none
  | fuel + 1, i, pins, calls =>
    if i < arr.length then
      let calls1 := if i + 4 ≤ arr.length then calls ++ [(i, 4)] else calls
      if i + 4 ≤ arr.length ∧ substr arr i (some 4) = "true".toList then
        scan_pins_traced arr fuel (i + 3 + 1) (pins ++ [true]) calls1
      else
        let calls2 := if i + 5 ≤ arr.length then calls1 ++ [(i, 5)] else calls1
        if i + 5 ≤ arr.length ∧ substr arr i (some 5) = "false".toList then
          scan_pins_traced arr fuel (i + 4 + 1) (pins ++ [false]) calls2
        else scan_pins_traced arr fuel (i + 1) pins calls2
    else some (pins, calls)

end Kulgad

/-- The text between the brackets that `parse_pins_from_json` extracts (kulgad.cpp
lines 105-109), or `none` when the key, an opening bracket after it or a closing
bracket after that is not found. -/
def Kulgad.located_array (js : Str) : Option Str :=
  match find_str js "\"pins\"".toList with
  | none => none
  | some p =>
    match find js '[' p with
    | none => none
    | some lb =>
      match find js ']' lb with
      | none => none
      | some rb => some (substr js (lb + 1) (some (rb - lb - 1)))

/-- The text holds a `true` or a `false` token. -/
def HasToken (arr : Str) : Prop := "true".toList <:+: arr ∨ "false".toList <:+: arr

instance (arr : Str) : Decidable (HasToken arr) := by
  unfold HasToken; exact inferInstance

/-- The results of the calls of `std::stoi` that the loop body of `parse_channels` of
set_get_compact.cpp makes for one piece (lines 76-89) when no side of a dash is empty:
on the piece itself when it has no dash, else on the two sides of its first dash. -/
def SetGetCompact.numbers_read (p : Str) : List StoiResult :=
  match find p '-' 0 with
  | none => [stoi p]
  | some dash => [stoi (substr p 0 (some dash)), stoi (substr p (dash + 1) none)]

/-! ## Sorting and deduplication -/

theorem std_sort_sorted (l : List Int) : (std_sort l).Sorted (· ≤ ·) :=
  List.sorted_insertionSort (· ≤ ·) l

theorem mem_std_sort {l : List Int} {x : Int} : x ∈ std_sort l ↔ x ∈ l :=
  List.mem_insertionSort (· ≤ ·)

theorem std_sort_of_sorted {l : List Int} (h : l.Sorted (· ≤ ·)) : std_sort l = l :=
  List.Sorted.insertionSort_eq h

theorem mem_uniqueAux {prev x : Int} {l : List Int} :
    x ∈ uniqueAux prev l → x ∈ l := by
  induction l generalizing prev with
  | nil => simp [uniqueAux]
  | cons y t ih =>
    unfold uniqueAux
    split
    · intro h; exact List.mem_cons_of_mem _ (ih h)
    · intro h
      rcases List.mem_cons.mp h with h | h
      · exact h ▸ List.mem_cons_self _ _
      · exact List.mem_cons_of_mem _ (ih h)

theorem mem_uniqueAux_of_mem (prev : Int) {x : Int} {l : List Int} (hx : x ∈ l) :
    x ∈ uniqueAux prev l ∨ x = prev := by
  induction l generalizing prev with
  | nil => simp at hx
  | cons y t ih =>
    unfold uniqueAux
    rcases List.mem_cons.mp hx with h | h
    · split
      · right; omega
      · left; exact h ▸ List.mem_cons_self _ _
    · split
      · exact ih prev h
      · rcases ih y h with h1 | h1
        · left; exact List.mem_cons_of_mem _ h1
        · left; exact h1 ▸ List.mem_cons_self _ _

theorem mem_std_unique {x : Int} {l : List Int} : x ∈ std_unique l ↔ x ∈ l := by
  cases l with
  | nil => simp [std_unique]
  | cons y t =>
    unfold std_unique
    constructor
    · intro h
      rcases List.mem_cons.mp h with h | h
      · exact h ▸ List.mem_cons_self _ _
      · exact List.mem_cons_of_mem _ (mem_uniqueAux h)
    · intro h
      rcases List.mem_cons.mp h with h | h
      · exact h ▸ List.mem_cons_self _ _
      · rcases mem_uniqueAux_of_mem y h with h1 | h1
        · exact List.mem_cons_of_mem _ h1
        · exact h1 ▸ List.mem_cons_self _ _

theorem uniqueAux_strict (prev : Int) {l : List Int} (hs : l.Sorted (· ≤ ·))
    (hp : ∀ y ∈ l, prev ≤ y) :
    (uniqueAux prev l).Pairwise (· < ·) ∧ ∀ y ∈ uniqueAux prev l, prev < y := by
  induction l generalizing prev with
  | nil => simp [uniqueAux]
  | cons y t ih =>
    have hs1 : t.Sorted (· ≤ ·) := hs.of_cons
    have hy : ∀ z ∈ t, y ≤ z := fun z hz => List.rel_of_sorted_cons hs z hz
    unfold uniqueAux
    split
    · rename_i hpy
      exact ih prev hs1 (fun z hz => hpy ▸ hy z hz)
    · rename_i hpy
      have hlt : prev < y := lt_of_le_of_ne (hp y (List.mem_cons_self _ _)) hpy
      obtain ⟨h1, h2⟩ := ih y hs1 hy
      refine ⟨List.pairwise_cons.mpr ⟨h2, h1⟩, ?_⟩
      intro z hz
      rcases List.mem_cons.mp hz with h | h
      · exact h ▸ hlt
      · exact lt_trans hlt (h2 z h)

theorem std_unique_strict {l : List Int} (hs : l.Sorted (· ≤ ·)) :
    (std_unique l).Pairwise (· < ·) := by
  cases l with
  | nil => simp [std_unique]
  | cons y t =>
    unfold std_unique
    obtain ⟨h1, h2⟩ := uniqueAux_strict y hs.of_cons
      (fun z hz => List.rel_of_sorted_cons hs z hz)
    exact List.pairwise_cons.mpr ⟨h2, h1⟩

theorem uniqueAux_of_strict {prev : Int} {l : List Int} (hs : l.Pairwise (· < ·))
    (hp : ∀ y ∈ l, prev < y) : uniqueAux prev l = l := by
  induction l generalizing prev with
  | nil => rfl
  | cons y t ih =>
    obtain ⟨hy, ht⟩ := List.pairwise_cons.mp hs
    unfold uniqueAux
    have : prev ≠ y := ne_of_lt (hp y (List.mem_cons_self _ _))
    rw [if_neg this, ih ht hy]

theorem std_unique_of_strict {l : List Int} (hs : l.Pairwise (· < ·)) : std_unique l = l := by
  cases l with
  | nil => rfl
  | cons y t =>
    obtain ⟨hy, ht⟩ := List.pairwise_cons.mp hs
    show y :: uniqueAux y t = y :: t
    rw [uniqueAux_of_strict ht hy]

/-- Sorting and deduplicating gives a strictly ascending list. -/
theorem canonical_strict (l : List Int) : (std_unique (std_sort l)).Pairwise (· < ·) :=
  std_unique_strict (std_sort_sorted l)

theorem mem_canonical {l : List Int} {x : Int} : x ∈ std_unique (std_sort l) ↔ x ∈ l :=
  mem_std_unique.trans mem_std_sort

theorem canonical_of_strict {l : List Int} (hs : l.Pairwise (· < ·)) :
    std_unique (std_sort l) = l := by
  have h1 : l.Sorted (· ≤ ·) := hs.imp (fun h => le_of_lt h)
  rw [std_sort_of_sorted h1, std_unique_of_strict hs]

/-- A strictly ascending list is determined by its elements. -/
theorem strict_ext {l₁ l₂ : List Int} (h₁ : l₁.Pairwise (· < ·)) (h₂ : l₂.Pairwise (· < ·))
    (h : ∀ x, x ∈ l₁ ↔ x ∈ l₂) : l₁ = l₂ := by
  have n₁ : l₁.Nodup := h₁.imp (fun h => ne_of_lt h)
  have n₂ : l₂.Nodup := h₂.imp (fun h => ne_of_lt h)
  have hp : l₁.Perm l₂ := (List.perm_ext_iff_of_nodup n₁ n₂).mpr h
  exact List.eq_of_perm_of_sorted (r := (· < ·)) hp h₁ h₂

theorem canonical_eq_of_mem {l m : List Int} (hm : m.Pairwise (· < ·))
    (h : ∀ x, x ∈ l ↔ x ∈ m) : std_unique (std_sort l) = m :=
  strict_ext (canonical_strict l) hm (fun x => mem_canonical.trans (h x))

theorem mem_push_range {a b : Int} {out : List Int} {x : Int} :
    x ∈ push_range a b out ↔ x ∈ out ∨ (a ≤ x ∧ x ≤ b) := by
  unfold push_range
  rw [List.mem_append, List.mem_map]
  constructor
  · rintro (h | ⟨k, hk, rfl⟩)
    · exact Or.inl h
    · right
      have hk1 : (k : Int) < b + 1 - a := Int.lt_toNat.mp (List.mem_range.mp hk)
      simp only [Int.ofNat_eq_coe]
      omega
  · rintro (h | ⟨h1, h2⟩)
    · exact Or.inl h
    · right
      have hx : ((x - a).toNat : Int) = x - a := Int.toNat_of_nonneg (by omega)
      refine ⟨(x - a).toNat, List.mem_range.mpr (Int.lt_toNat.mpr (by omega)), ?_⟩
      simp only [Int.ofNat_eq_coe]
      omega

theorem push_range_all : push_range 0 255 [] = allChannels := by
  unfold push_range allChannels
  have h : ((255 : Int) + 1 - 0).toNat = 256 := by decide
  rw [h, List.nil_append]
  apply List.map_congr_left
  intro k _
  exact Int.zero_add _

theorem range_ofNat_strict (n : Nat) :
    ((List.range n).map Int.ofNat).Pairwise (· < ·) := by
  rw [List.pairwise_map]
  exact (List.pairwise_lt_range n).imp (fun h => Int.ofNat_lt.mpr h)

theorem allChannels_strict : allChannels.Pairwise (· < ·) := range_ofNat_strict _

theorem mem_allChannels {x : Int} : x ∈ allChannels ↔ 0 ≤ x ∧ x ≤ 255 := by
  rw [← push_range_all, mem_push_range]; simp

/-! ## Searching and splitting strings -/

theorem findIdxFrom_none {c : Char} {s : Str} (h : c ∉ s) : findIdxFrom c s = none := by
  induction s with
  | nil => rfl
  | cons x t ih =>
    have hx : x ≠ c := fun e => h (e ▸ List.mem_cons_self _ _)
    have ht : c ∉ t := fun e => h (List.mem_cons_of_mem _ e)
    simp [findIdxFrom, hx, ih ht]

theorem findIdxFrom_append {c : Char} {p : Str} (r : Str) (h : c ∉ p) :
    findIdxFrom c (p ++ c :: r) = some p.length := by
  induction p with
  | nil => simp [findIdxFrom]
  | cons x t ih =>
    have hx : x ≠ c := fun e => h (e ▸ List.mem_cons_self _ _)
    have ht : c ∉ t := fun e => h (List.mem_cons_of_mem _ e)
    simp [findIdxFrom, hx, ih ht]

theorem find_last {token : Str} {pos : Nat} {p : Str} (hd : token.drop pos = p)
    (h : ',' ∉ p) : find token ',' pos = none ∧ substr token pos none = p := by
  unfold find substr
  rw [hd, findIdxFrom_none h]
  exact ⟨rfl, rfl⟩

theorem find_next {token : Str} {pos : Nat} {p r : Str} (hd : token.drop pos = p ++ ',' :: r)
    (h : ',' ∉ p) :
    find token ',' pos = some (p.length + pos) ∧
    substr token pos (some (p.length + pos - pos)) = p ∧
    token.drop (p.length + pos + 1) = r := by
  refine ⟨?_, ?_, ?_⟩
  · unfold find
    rw [hd, findIdxFrom_append r h]
    rfl
  · unfold substr
    simp [hd]
  · have : p.length + pos + 1 = pos + (p.length + 1) := by omega
    rw [this, ← List.drop_drop, hd]
    simp

theorem drop_eq_nil_or {token : Str} {pos : Nat} :
    (pos < token.length ↔ token.drop pos ≠ []) := by
  rw [Ne, List.drop_eq_nil_iff]
  omega

theorem splitComma_ne_nil (s : Str) : splitComma s ≠ [] := by
  induction s with
  | nil => simp [splitComma]
  | cons c t ih =>
    unfold splitComma
    split
    · simp
    · split <;> simp

theorem joinComma_cons_cons (p q : Str) (ps : List Str) :
    joinComma (p :: q :: ps) = p ++ ',' :: joinComma (q :: ps) := rfl

theorem joinComma_cons_of_ne_nil (p : Str) {ps : List Str} (h : ps ≠ []) :
    joinComma (p :: ps) = p ++ ',' :: joinComma ps := by
  cases ps with
  | nil => exact absurd rfl h
  | cons q qs => rfl

theorem joinComma_splitComma (s : Str) : joinComma (splitComma s) = s := by
  induction s with
  | nil => rfl
  | cons c t ih =>
    unfold splitComma
    split
    · rename_i hc
      rw [joinComma_cons_of_ne_nil _ (splitComma_ne_nil t), ih, hc]
      rfl
    · split
      · rename_i h; exact absurd h (splitComma_ne_nil t)
      · rename_i p ps h
        rw [h] at ih
        cases ps with
        | nil =>
          have : p = t := ih
          simp [joinComma, this]
        | cons q qs =>
          rw [joinComma_cons_cons] at ih
          rw [joinComma_cons_cons, ← ih]
          rfl

theorem splitComma_free (s : Str) : ∀ p ∈ splitComma s, ',' ∉ p := by
  induction s with
  | nil => simp [splitComma]
  | cons c t ih =>
    unfold splitComma
    split
    · intro p hp
      rcases List.mem_cons.mp hp with h | h
      · simp [h]
      · exact ih p h
    · rename_i hc
      split
      · intro p hp
        simp only [List.mem_singleton] at hp
        subst hp
        simp [Ne.symm hc]
      · rename_i q qs h
        rw [h] at ih
        intro p hp
        rcases List.mem_cons.mp hp with h1 | h1
        · subst h1
          have := ih q (List.mem_cons_self _ _)
          simp [Ne.symm hc, this]
        · exact ih p (List.mem_cons_of_mem _ h1)

theorem splitComma_free_append (p r : Str) (h : ',' ∉ p) :
    splitComma (p ++ ',' :: r) = p :: splitComma r := by
  induction p with
  | nil => simp [splitComma]
  | cons x t ih =>
    have hx : x ≠ ',' := fun e => h (e ▸ List.mem_cons_self _ _)
    have ht : ',' ∉ t := fun e => h (List.mem_cons_of_mem _ e)
    simp [splitComma, hx, ih ht]

theorem splitComma_free_single (p : Str) (h : ',' ∉ p) : splitComma p = [p] := by
  induction p with
  | nil => rfl
  | cons x t ih =>
    have hx : x ≠ ',' := fun e => h (e ▸ List.mem_cons_self _ _)
    have ht : ',' ∉ t := fun e => h (List.mem_cons_of_mem _ e)
    simp [splitComma, hx, ih ht]

theorem splitComma_joinComma {ps : List Str} (hne : ps ≠ []) (hfree : ∀ p ∈ ps, ',' ∉ p) :
    splitComma (joinComma ps) = ps := by
  induction ps with
  | nil => exact absurd rfl hne
  | cons p qs ih =>
    have hp : ',' ∉ p := hfree p (List.mem_cons_self _ _)
    cases qs with
    | nil => exact splitComma_free_single p hp
    | cons q qs =>
      rw [joinComma_cons_cons, splitComma_free_append _ _ hp,
        ih (by simp) (fun x hx => hfree x (List.mem_cons_of_mem _ hx))]

namespace Kulgad

theorem kulgad_loop_pieces (ps : List Str) (hfree : ∀ p ∈ ps, ',' ∉ p) :
    ∀ (token : Str) (pos fuel : Nat) (out : List Int), token.drop pos = joinComma ps →
      (joinComma ps).length < fuel → parse_loop token fuel pos out = some (loopPieces ps out) := by
  induction ps with
  | nil =>
    intro token pos fuel out hd hf
    cases fuel with
    | zero => omega
    | succ fuel =>
      have : ¬ pos < token.length := by rw [drop_eq_nil_or, hd]; simp [joinComma]
      simp [parse_loop, this, loopPieces]
  | cons p qs ih =>
    intro token pos fuel out hd hf
    have hp : ',' ∉ p := hfree p (List.mem_cons_self _ _)
    cases fuel with
    | zero => omega
    | succ fuel =>
      cases qs with
      | nil =>
        change token.drop pos = p at hd
        by_cases hpe : p = []
        · have : ¬ pos < token.length := by rw [drop_eq_nil_or, hd]; simp [hpe]
          simp [parse_loop, this, loopPieces, hpe]
        · have hlt : pos < token.length := by rw [drop_eq_nil_or, hd]; exact hpe
          obtain ⟨h1, h2⟩ := find_last hd hp
          have hpe1 : p.isEmpty = false := by simpa using hpe
          simp only [parse_loop, hlt, if_true, h1, Option.map_none', h2, hpe1, loopPieces]
          cases parse_part p out <;> rfl
      | cons q qs =>
        rw [joinComma_cons_cons] at hd hf
        have hlt : pos < token.length := by rw [drop_eq_nil_or, hd]; simp
        obtain ⟨h1, h2, h3⟩ := find_next hd hp
        by_cases hpe : p = []
        · subst hpe
          simp only [List.length_nil, Nat.zero_add, Nat.sub_self] at h1 h2
          simp [parse_loop, hlt, h1, h2, loopPieces]
        · have hpe1 : p.isEmpty = false := by simpa using hpe
          have hrec := fun out1 => ih (fun x hx => hfree x (List.mem_cons_of_mem _ hx)) token
            (p.length + pos + 1) fuel out1 h3 (by simp at hf; omega)
          simp only [parse_loop, hlt, if_true, h1, Option.map_some', h2, hpe1, loopPieces]
          cases hpp : parse_part p out with
          | ok out1 => simpa using hrec out1
          | fail e => rfl
          | thrown e => rfl

/-- The loop of `parse_channels_token` is what `loopPieces` does on the pieces of the token. -/
theorem kulgad_loop_eq (token : Str) (out : List Int) :
    parse_loop token (token.length + 1) 0 out = some (loopPieces (splitComma token) out) := by
  apply kulgad_loop_pieces _ (splitComma_free token)
  · rw [joinComma_splitComma]; rfl
  · rw [joinComma_splitComma]; omega

theorem parse_channels_token_eq (token : Str) (out : List Int) :
    parse_channels_token token out =
      if token.isEmpty then some (.fail "Empty channel token.\n".toList)
      else if lower_copy token = "all".toList then some (.ok (push_range 0 255 out))
      else some (loopPieces (splitComma token) out) := by
  unfold parse_channels_token
  rw [kulgad_loop_eq]

end Kulgad

namespace SetGetCompact

theorem compact_loop_pieces (ps : List Str) (hfree : ∀ p ∈ ps, ',' ∉ p) :
    ∀ (s : Str) (pos fuel : Nat) (out : List Int), s.drop pos = joinComma ps →
      (joinComma ps).length < fuel → parse_loop s fuel pos out = some (loopPieces ps out) := by
  induction ps with
  | nil =>
    intro s pos fuel out hd hf
    cases fuel with
    | zero => omega
    | succ fuel =>
      have : ¬ pos < s.length := by rw [drop_eq_nil_or, hd]; simp [joinComma]
      simp [parse_loop, this, loopPieces]
  | cons p qs ih =>
    intro s pos fuel out hd hf
    have hp : ',' ∉ p := hfree p (List.mem_cons_self _ _)
    cases fuel with
    | zero => omega
    | succ fuel =>
      cases qs with
      | nil =>
        change s.drop pos = p at hd
        by_cases hpe : p = []
        · have : ¬ pos < s.length := by rw [drop_eq_nil_or, hd]; simp [hpe]
          simp [parse_loop, this, loopPieces, hpe]
        · have hlt : pos < s.length := by rw [drop_eq_nil_or, hd]; exact hpe
          obtain ⟨h1, h2⟩ := find_last hd hp
          have hpe1 : p.isEmpty = false := by simpa using hpe
          simp only [parse_loop, hlt, if_true, h1, Option.map_none', h2, hpe1, loopPieces]
          cases parse_tok p out <;> rfl
      | cons q qs =>
        rw [joinComma_cons_cons] at hd hf
        have hlt : pos < s.length := by rw [drop_eq_nil_or, hd]; simp
        obtain ⟨h1, h2, h3⟩ := find_next hd hp
        have hrec := fun out1 => ih (fun x hx => hfree x (List.mem_cons_of_mem _ hx)) s
            (p.length + pos + 1) fuel out1 h3 (by simp at hf; omega)
        simp only [parse_loop, hlt, if_true, h1, Option.map_some', h2]
        rw [loopPieces]
        cases hpp : (if p.isEmpty then ParseResult.ok out else parse_tok p out) with
        | ok out1 => simpa using hrec out1
        | fail e => rfl
        | thrown e => rfl

theorem compact_loop_eq (s : Str) (out : List Int) :
    parse_loop s (s.length + 1) 0 out = some (loopPieces (splitComma s) out) := by
  apply compact_loop_pieces _ (splitComma_free s)
  · rw [joinComma_splitComma]; rfl
  · rw [joinComma_splitComma]; omega

end SetGetCompact

/-! ## Digits, `std::stoi` and `std::to_string` -/

theorem isdigit_ne_dash {c : Char} (h : isdigit c = true) : c ≠ '-' := by
  intro e; subst e; revert h; decide

theorem isdigit_ne_comma {c : Char} (h : isdigit c = true) : c ≠ ',' := by
  intro e; subst e; revert h; decide

theorem isdigit_ne_plus {c : Char} (h : isdigit c = true) : c ≠ '+' := by
  intro e; subst e; revert h; decide

theorem isdigit_not_space {c : Char} (h : isdigit c = true) : isspace c = false := by
  unfold isdigit at h
  unfold isspace
  simp only [Bool.and_eq_true, decide_eq_true_eq] at h
  simp only [Bool.or_eq_false_iff, Bool.and_eq_false_iff, decide_eq_false_iff_not]
  omega

theorem isdigit_tolower {c : Char} (h : isdigit c = true) : tolower c = c := by
  unfold isdigit at h
  unfold tolower
  simp only [Bool.and_eq_true, decide_eq_true_eq] at h
  rw [if_neg (by omega)]

theorem digits_no_dash {s : Str} (h : ∀ c ∈ s, isdigit c = true) : '-' ∉ s :=
  fun hm => isdigit_ne_dash (h _ hm) rfl

theorem digits_no_comma {s : Str} (h : ∀ c ∈ s, isdigit c = true) : ',' ∉ s :=
  fun hm => isdigit_ne_comma (h _ hm) rfl

theorem is_all_digits_iff {s : Str} :
    Kulgad.is_all_digits s = true ↔ s ≠ [] ∧ ∀ c ∈ s, isdigit c = true := by
  unfold Kulgad.is_all_digits
  cases s with
  | nil => simp
  | cons x t => simp

theorem stoi_digits {s : Str} (hne : s ≠ []) (hd : ∀ c ∈ s, isdigit c = true) :
    stoi s = if digitsValue s > 2147483647 then StoiResult.out_of_range
      else StoiResult.value (digitsValue s : Int) := by
  cases s with
  | nil => exact absurd rfl hne
  | cons x t =>
    have hx : isdigit x = true := hd x (List.mem_cons_self _ _)
    have h1 : (x :: t).dropWhile isspace = x :: t := by
      simp [List.dropWhile, isdigit_not_space hx]
    have h2 : (x :: t).takeWhile isdigit = x :: t := by
      rw [List.takeWhile_eq_self_iff]; exact hd
    have h3 : x ≠ '-' := isdigit_ne_dash hx
    have h4 : x ≠ '+' := isdigit_ne_plus hx
    unfold stoi
    simp only [h1, List.head?_cons, Option.some.injEq, h3, h4, or_self, if_false, h2,
      decide_False, List.isEmpty_cons, Bool.false_eq_true]

theorem digitChar_toNat {d : Nat} (h : d < 10) : (digitChar d).toNat = 48 + d := by
  unfold digitChar
  interval_cases d <;> rfl

theorem digitChar_isdigit {d : Nat} (h : d < 10) : isdigit (digitChar d) = true := by
  unfold isdigit
  rw [digitChar_toNat h]
  simp
  omega

theorem digitsValue_append (s : Str) (c : Char) :
    digitsValue (s ++ [c]) = digitsValue s * 10 + (c.toNat - 48) := by
  unfold digitsValue
  rw [List.foldl_append]
  rfl

theorem natDigits_spec : ∀ (fuel n : Nat), n < fuel →
    natDigits fuel n ≠ [] ∧ (∀ c ∈ natDigits fuel n, isdigit c = true) ∧
      digitsValue (natDigits fuel n) = n := by
  intro fuel
  induction fuel with
  | zero => intro n h; omega
  | succ fuel ih =>
    intro n h
    unfold natDigits
    split
    · rename_i hn
      refine ⟨by simp, ?_, ?_⟩
      · intro c hc
        simp only [List.mem_singleton] at hc
        subst hc
        exact digitChar_isdigit hn
      · simp [digitsValue, digitChar_toNat hn]
    · rename_i hn
      obtain ⟨h1, h2, h3⟩ := ih (n / 10) (by omega)
      have hm : n % 10 < 10 := Nat.mod_lt _ (by omega)
      refine ⟨by simp, ?_, ?_⟩
      · intro c hc
        rcases List.mem_append.mp hc with hc | hc
        · exact h2 c hc
        · simp only [List.mem_singleton] at hc
          subst hc
          exact digitChar_isdigit hm
      · rw [digitsValue_append, h3, digitChar_toNat hm]
        omega

theorem to_string_nat (n : Nat) : to_string (n : Int) = natDigits (n + 1) n := by
  unfold to_string
  rw [if_neg (by omega)]
  simp

/-- The decimal rendering of a channel in `[0, 255]` is a NUMBER of the grammar, and
its value is the channel. -/
theorem to_string_number {c : Int} (h0 : 0 ≤ c) (h1 : c ≤ 255) :
    IsNumber (to_string c) ∧ (digitsValue (to_string c) : Int) = c := by
  obtain ⟨n, rfl⟩ := Int.eq_ofNat_of_zero_le h0
  rw [to_string_nat]
  obtain ⟨h2, h3, h4⟩ := natDigits_spec (n + 1) n (by omega)
  refine ⟨⟨h2, h3, ?_⟩, ?_⟩
  · rw [h4]; omega
  · rw [h4]

theorem find_dash_none {p : Str} (h : '-' ∉ p) : find p '-' 0 = none := by
  unfold find
  rw [List.drop_zero, findIdxFrom_none h]
  rfl

theorem find_dash_some {a : Str} (b : Str) (h : '-' ∉ a) :
    find (a ++ '-' :: b) '-' 0 = some a.length ∧
    substr (a ++ '-' :: b) 0 (some a.length) = a ∧
    substr (a ++ '-' :: b) (a.length + 1) none = b := by
  refine ⟨?_, ?_, ?_⟩
  · unfold find
    rw [List.drop_zero, findIdxFrom_append b h]
    rfl
  · unfold substr
    simp
  · unfold substr
    simp

/-! ## One piece -/

theorem Piece.text_ne_nil {p : Piece} (h : p.WF) : p.text ≠ [] := by
  cases p with
  | single n => exact h.1
  | range a b => simp [Piece.text]

theorem Piece.text_no_comma {p : Piece} (h : p.WF) : ',' ∉ p.text := by
  cases p with
  | single n => exact digits_no_comma h.2.1
  | range a b =>
    intro hm
    rcases List.mem_append.mp hm with h1 | h1
    · exact digits_no_comma h.1.2.1 h1
    · rcases List.mem_cons.mp h1 with h2 | h2
      · revert h2; decide
      · exact digits_no_comma h.2.2.1 h2

theorem stoi_number {s : Str} (h : IsNumber s) : stoi s = .value (digitsValue s : Int) := by
  rw [stoi_digits h.1 h.2.1, if_neg (by have := h.2.2; omega)]

theorem Kulgad.parse_part_piece {p : Piece} (h : p.WF) (out : List Int) :
    Kulgad.parse_part p.text out = .ok (p.apply out) := by
  cases p with
  | single n =>
    have hd : Kulgad.is_all_digits n = true := is_all_digits_iff.mpr ⟨h.1, h.2.1⟩
    have hv := h.2.2
    simp only [Piece.text, Kulgad.parse_part, find_dash_none (digits_no_dash h.2.1), hd,
      stoi_number h, Piece.apply]
    rw [if_neg (by simp), if_neg (by omega)]
  | range a b =>
    obtain ⟨ha, hb⟩ := h
    obtain ⟨h1, h2, h3⟩ := find_dash_some b (digits_no_dash ha.2.1)
    have hda : Kulgad.is_all_digits a = true := is_all_digits_iff.mpr ⟨ha.1, ha.2.1⟩
    have hdb : Kulgad.is_all_digits b = true := is_all_digits_iff.mpr ⟨hb.1, hb.2.1⟩
    have hva := ha.2.2
    have hvb := hb.2.2
    simp only [Piece.text, Kulgad.parse_part, h1, h2, h3, hda, hdb, stoi_number ha,
      stoi_number hb, Piece.apply]
    rw [if_neg (by simp)]
    by_cases hab : (digitsValue a : Int) > (digitsValue b : Int)
    · simp only [hab, if_true]
      rw [if_neg (by omega), min_eq_right (by omega), max_eq_left (by omega)]
    · simp only [hab, if_false]
      rw [if_neg (by omega), min_eq_left (by omega), max_eq_right (by omega)]

theorem SetGetCompact.parse_tok_piece {p : Piece} (h : p.WF) (out : List Int) :
    SetGetCompact.parse_tok p.text out = .ok (p.apply out) := by
  cases p with
  | single n =>
    have hv := h.2.2
    simp only [Piece.text, SetGetCompact.parse_tok, find_dash_none (digits_no_dash h.2.1),
      stoi_number h, Piece.apply, SetGetCompact.add]
    rw [if_neg (by omega)]
  | range a b =>
    obtain ⟨ha, hb⟩ := h
    obtain ⟨h1, h2, h3⟩ := find_dash_some b (digits_no_dash ha.2.1)
    have hea : a.isEmpty = false := by simpa using ha.1
    have heb : b.isEmpty = false := by simpa using hb.1
    have hva := ha.2.2
    have hvb := hb.2.2
    simp only [Piece.text, SetGetCompact.parse_tok, h1, h2, h3, hea, heb, stoi_number ha,
      stoi_number hb, Piece.apply]
    rw [if_neg (by simp)]
    by_cases hab : (digitsValue a : Int) > (digitsValue b : Int)
    · simp only [hab, if_true]
      rw [if_neg (by omega), min_eq_right (by omega), max_eq_left (by omega)]
    · simp only [hab, if_false]
      rw [if_neg (by omega), min_eq_left (by omega), max_eq_right (by omega)]

theorem Piece.mem_apply {p : Piece} {out : List Int} {x : Int} :
    x ∈ p.apply out ↔ x ∈ out ∨ p.covers x = true := by
  cases p with
  | single n => simp [Piece.apply, Piece.covers]
  | range a b => simp [Piece.apply, Piece.covers, mem_push_range]

theorem Piece.covers_range {p : Piece} (h : p.WF) {x : Int} (hc : p.covers x = true) :
    0 ≤ x ∧ x ≤ 255 := by
  cases p with
  | single n =>
    have := h.2.2
    simp only [Piece.covers, decide_eq_true_eq] at hc
    omega
  | range a b =>
    have := h.1.2.2
    have := h.2.2.2
    simp only [Piece.covers, Bool.and_eq_true, decide_eq_true_eq] at hc
    omega

/-! ## Lists of well-formed pieces -/

theorem plain_char_not_space {c : Char} (h : isdigit c = true ∨ c = '-' ∨ c = ',') :
    isspace c = false := by
  rcases h with h | h | h
  · exact isdigit_not_space h
  · subst h; decide
  · subst h; decide

theorem plain_char_tolower {c : Char} (h : isdigit c = true ∨ c = '-' ∨ c = ',') :
    tolower c = c := by
  rcases h with h | h | h
  · exact isdigit_tolower h
  · subst h; decide
  · subst h; decide

theorem plain_char_ne_a {c : Char} (h : isdigit c = true ∨ c = '-' ∨ c = ',') : c ≠ 'a' := by
  rcases h with h | h | h
  · intro e; subst e; revert h; decide
  · subst h; decide
  · subst h; decide

theorem Plain.filter {s : Str} (h : Plain s) : s.filter (fun c => !isspace c) = s := by
  rw [List.filter_eq_self]
  intro c hc
  simp [plain_char_not_space (h c hc)]

theorem Plain.lower {s : Str} (h : Plain s) : s.map tolower = s := by
  induction s with
  | nil => rfl
  | cons x t ih =>
    rw [List.map_cons, plain_char_tolower (h x (List.mem_cons_self _ _)),
      ih (fun c hc => h c (List.mem_cons_of_mem _ hc))]

theorem Plain.no_a {s : Str} (h : Plain s) : 'a' ∉ s :=
  fun hm => plain_char_ne_a (h _ hm) rfl

theorem findSubFrom_none_of_head {x : Char} {rest s : Str} (h : x ∉ s) :
    findSubFrom (x :: rest) s = none := by
  induction s with
  | nil => rfl
  | cons y t ih =>
    have hy : x ≠ y := fun e => h (e ▸ List.mem_cons_self _ _)
    have ht : x ∉ t := fun e => h (List.mem_cons_of_mem _ e)
    simp [findSubFrom, List.isPrefixOf, hy, ih ht]

theorem Plain.not_all {s : Str} (h : Plain s) :
    s ≠ "all".toList ∧ find_str s "all".toList = none := by
  constructor
  · intro e
    apply h.no_a
    rw [e]
    decide
  · exact findSubFrom_none_of_head h.no_a

theorem Piece.text_plain {p : Piece} (h : p.WF) : Plain p.text := by
  cases p with
  | single n => exact fun c hc => Or.inl (h.2.1 c hc)
  | range a b =>
    intro c hc
    rcases List.mem_append.mp hc with h1 | h1
    · exact Or.inl (h.1.2.1 c h1)
    · rcases List.mem_cons.mp h1 with h2 | h2
      · exact Or.inr (Or.inl h2)
      · exact Or.inl (h.2.2.1 c h2)

theorem joinComma_plain {ts : List Str} (h : ∀ t ∈ ts, Plain t) : Plain (joinComma ts) := by
  induction ts with
  | nil => intro c hc; simp [joinComma] at hc
  | cons p qs ih =>
    have hp := h p (List.mem_cons_self _ _)
    have hq := ih (fun t ht => h t (List.mem_cons_of_mem _ ht))
    cases qs with
    | nil => exact hp
    | cons q qs =>
      rw [joinComma_cons_cons]
      intro c hc
      rcases List.mem_append.mp hc with h1 | h1
      · exact hp c h1
      · rcases List.mem_cons.mp h1 with h2 | h2
        · exact Or.inr (Or.inr h2)
        · exact hq c h2

theorem joinComma_ne_nil {p : Str} (qs : List Str) (hp : p ≠ []) : joinComma (p :: qs) ≠ [] := by
  cases qs with
  | nil => exact hp
  | cons q qs => rw [joinComma_cons_cons]; simp [hp]

theorem pieces_text_plain {ps : List Piece} (hwf : ∀ p ∈ ps, p.WF) :
    Plain (joinComma (ps.map Piece.text)) := by
  apply joinComma_plain
  intro t ht
  obtain ⟨p, hp, rfl⟩ := List.mem_map.mp ht
  exact Piece.text_plain (hwf p hp)

theorem pieces_text_ne_nil {ps : List Piece} (hne : ps ≠ []) (hwf : ∀ p ∈ ps, p.WF) :
    joinComma (ps.map Piece.text) ≠ [] := by
  cases ps with
  | nil => exact absurd rfl hne
  | cons p qs =>
    exact joinComma_ne_nil _ (Piece.text_ne_nil (hwf p (List.mem_cons_self _ _)))

theorem pieces_split {ps : List Piece} (hne : ps ≠ []) (hwf : ∀ p ∈ ps, p.WF) :
    splitComma (joinComma (ps.map Piece.text)) = ps.map Piece.text := by
  apply splitComma_joinComma
  · simpa using hne
  · intro t ht
    obtain ⟨p, hp, rfl⟩ := List.mem_map.mp ht
    exact Piece.text_no_comma (hwf p hp)

theorem mem_applyPieces {ps : List Piece} {out : List Int} {x : Int} :
    x ∈ applyPieces ps out ↔ x ∈ out ∨ ∃ p ∈ ps, p.covers x = true := by
  induction ps generalizing out with
  | nil => simp [applyPieces]
  | cons p qs ih =>
    have : applyPieces (p :: qs) out = applyPieces qs (p.apply out) := rfl
    rw [this, ih, Piece.mem_apply]
    simp only [List.mem_cons, exists_eq_or_imp]
    tauto

theorem Piece.covers_some (p : Piece) : ∃ x, p.covers x = true := by
  cases p with
  | single n => exact ⟨(digitsValue n : Int), by simp [Piece.covers]⟩
  | range a b =>
    refine ⟨min (digitsValue a : Int) (digitsValue b : Int), ?_⟩
    simp [Piece.covers]

theorem applyPieces_ne_nil {ps : List Piece} (hne : ps ≠ []) : applyPieces ps [] ≠ [] := by
  cases ps with
  | nil => exact absurd rfl hne
  | cons p qs =>
    obtain ⟨x, hx⟩ := p.covers_some
    have : x ∈ applyPieces (p :: qs) [] :=
      mem_applyPieces.mpr (Or.inr ⟨p, List.mem_cons_self _ _, hx⟩)
    exact List.ne_nil_of_mem this

theorem channelsOf_strict (ps : List Piece) : (channelsOf ps).Pairwise (· < ·) :=
  allChannels_strict.filter _

theorem mem_channelsOf {ps : List Piece} (hwf : ∀ p ∈ ps, p.WF) {x : Int} :
    x ∈ channelsOf ps ↔ ∃ p ∈ ps, p.covers x = true := by
  unfold channelsOf
  rw [List.mem_filter, mem_allChannels, List.any_eq_true]
  constructor
  · exact fun h => h.2
  · rintro ⟨p, hp, hc⟩
    exact ⟨Piece.covers_range (hwf p hp) hc, p, hp, hc⟩

theorem canonical_applyPieces {ps : List Piece} (hwf : ∀ p ∈ ps, p.WF) :
    std_unique (std_sort (applyPieces ps [])) = channelsOf ps := by
  apply canonical_eq_of_mem (channelsOf_strict ps)
  intro x
  rw [mem_applyPieces, mem_channelsOf hwf]
  simp

theorem Kulgad.kulgad_pieces {ps : List Piece} (hwf : ∀ p ∈ ps, p.WF) (out : List Int) :
    Kulgad.loopPieces (ps.map Piece.text) out = .ok (applyPieces ps out) := by
  induction ps generalizing out with
  | nil => rfl
  | cons p qs ih =>
    have hp := hwf p (List.mem_cons_self _ _)
    have hq := fun o => ih (fun x hx => hwf x (List.mem_cons_of_mem _ hx)) o
    have hpe : p.text.isEmpty = false := by simpa using Piece.text_ne_nil hp
    cases qs with
    | nil =>
      simp only [List.map_cons, List.map_nil, Kulgad.loopPieces, hpe,
        Kulgad.parse_part_piece hp]
      rfl
    | cons q qs =>
      have := hq (p.apply out)
      simp only [List.map_cons] at this ⊢
      simp only [Kulgad.loopPieces, hpe, Kulgad.parse_part_piece hp]
      exact this

theorem SetGetCompact.compact_pieces {ps : List Piece} (hwf : ∀ p ∈ ps, p.WF)
    (out : List Int) :
    SetGetCompact.loopPieces (ps.map Piece.text) out = .ok (applyPieces ps out) := by
  induction ps generalizing out with
  | nil => rfl
  | cons p qs ih =>
    have hp := hwf p (List.mem_cons_self _ _)
    have hq := ih (fun x hx => hwf x (List.mem_cons_of_mem _ hx)) (p.apply out)
    have hpe : p.text.isEmpty = false := by simpa using Piece.text_ne_nil hp
    simp only [List.map_cons, SetGetCompact.loopPieces, hpe,
      SetGetCompact.parse_tok_piece hp]
    exact hq

/-- On a list of well-formed pieces `parse_channels_token` appends the channels of
the pieces, in order. -/
theorem Kulgad.parse_channels_token_pieces {ps : List Piece} (hne : ps ≠ [])
    (hwf : ∀ p ∈ ps, p.WF) (out : List Int) :
    Kulgad.parse_channels_token (joinComma (ps.map Piece.text)) out
      = some (.ok (applyPieces ps out)) := by
  have hpl := pieces_text_plain hwf
  have hnn : (joinComma (ps.map Piece.text)).isEmpty = false := by
    simpa using pieces_text_ne_nil hne hwf
  rw [Kulgad.parse_channels_token_eq, hnn, Kulgad.lower_copy, hpl.lower,
    if_neg hpl.not_all.1, pieces_split hne hwf, Kulgad.kulgad_pieces hwf]
  rfl

theorem Kulgad.parse_canonical_pieces {ps : List Piece} (hne : ps ≠ [])
    (hwf : ∀ p ∈ ps, p.WF) :
    Kulgad.parse_canonical [joinComma (ps.map Piece.text)] = some (.ok (channelsOf ps)) := by
  simp only [Kulgad.parse_canonical, Kulgad.parse_specs,
    Kulgad.parse_channels_token_pieces hne hwf, canonical_applyPieces hwf]

theorem SetGetCompact.parse_channels_pieces {ps : List Piece} (hne : ps ≠ [])
    (hwf : ∀ p ∈ ps, p.WF) :
    SetGetCompact.parse_channels (joinComma (ps.map Piece.text)) []
      = some (.ok (channelsOf ps)) := by
  have hpl := pieces_text_plain hwf
  have hnn : (joinComma (ps.map Piece.text)).isEmpty = false := by
    simpa using pieces_text_ne_nil hne hwf
  have hout : (applyPieces ps []).isEmpty = false := by
    simpa using applyPieces_ne_nil hne
  unfold SetGetCompact.parse_channels
  have hall : ¬ (joinComma (ps.map Piece.text) = "all".toList ∨
      (none : Option Nat).isSome = true) := fun h => h.elim hpl.not_all.1 (by simp)
  simp only [hpl.filter, hnn, hpl.lower, hpl.not_all.2, SetGetCompact.compact_loop_eq,
    pieces_split hne hwf, SetGetCompact.compact_pieces hwf, hout,
    canonical_applyPieces hwf, Bool.false_eq_true, if_false, if_neg hall]

/-! ## Totality and range of the parsers -/

theorem Kulgad.parse_channels_token_total (token : Str) (out : List Int) :
    ∃ r, Kulgad.parse_channels_token token out = some r := by
  rw [Kulgad.parse_channels_token_eq]
  split
  · exact ⟨_, rfl⟩
  · split <;> exact ⟨_, rfl⟩

theorem Kulgad.parse_specs_total (chanSpecs : List Str) (out : List Int) :
    ∃ r, Kulgad.parse_specs chanSpecs out = some r := by
  induction chanSpecs generalizing out with
  | nil => exact ⟨_, rfl⟩
  | cons spec rest ih =>
    obtain ⟨r, hr⟩ := Kulgad.parse_channels_token_total spec out
    unfold Kulgad.parse_specs
    rw [hr]
    cases r with
    | ok out1 => exact ih out1
    | fail e => exact ⟨_, rfl⟩
    | thrown e => exact ⟨_, rfl⟩

theorem Kulgad.parse_canonical_total (chanSpecs : List Str) :
    ∃ r, Kulgad.parse_canonical chanSpecs = some r := by
  obtain ⟨r, hr⟩ := Kulgad.parse_specs_total chanSpecs []
  unfold Kulgad.parse_canonical
  rw [hr]
  cases r <;> exact ⟨_, rfl⟩

theorem SetGetCompact.parse_channels_total (raw : Str) (out : List Int) :
    ∃ r, SetGetCompact.parse_channels raw out = some r := by
  unfold SetGetCompact.parse_channels
  simp only [SetGetCompact.compact_loop_eq]
  split
  · exact ⟨_, rfl⟩
  · split
    · exact ⟨_, rfl⟩
    · split
      · split <;> exact ⟨_, rfl⟩
      · exact ⟨_, rfl⟩

theorem Extends.refl (out : List Int) : Extends out out := fun _ h => Or.inl h

theorem Extends.trans {a b c : List Int} (h1 : Extends a b) (h2 : Extends b c) :
    Extends a c := by
  intro x hx
  rcases h2 x hx with h | h
  · exact h1 x h
  · exact Or.inr h

theorem extends_push_range {a b : Int} (out : List Int) (ha : 0 ≤ a) (hb : b ≤ 255) :
    Extends out (push_range a b out) := by
  intro x hx
  rcases mem_push_range.mp hx with h | h
  · exact Or.inl h
  · right; omega

theorem extends_push {ch : Int} (out : List Int) (h0 : 0 ≤ ch) (h1 : ch ≤ 255) :
    Extends out (out ++ [ch]) := by
  intro x hx
  rcases List.mem_append.mp hx with h | h
  · exact Or.inl h
  · simp only [List.mem_singleton] at h
    subst h
    exact Or.inr ⟨h0, h1⟩

theorem Kulgad.parse_part_extends {part : Str} {out out1 : List Int}
    (h : Kulgad.parse_part part out = .ok out1) : Extends out out1 := by
  unfold Kulgad.parse_part at h
  simp only at h
  repeat' split at h
  all_goals first
    | (cases h; done)
    | (cases h; exact extends_push out (by omega) (by omega))
    | (cases h; exact extends_push_range out (by omega) (by omega))

theorem SetGetCompact.parse_tok_extends {tok : Str} {out out1 : List Int}
    (h : SetGetCompact.parse_tok tok out = .ok out1) : Extends out out1 := by
  unfold SetGetCompact.parse_tok SetGetCompact.add at h
  simp only at h
  repeat' split at h
  all_goals first
    | (cases h; done)
    | (cases h; exact extends_push out (by omega) (by omega))
    | (cases h; exact extends_push_range out (by omega) (by omega))

theorem Kulgad.kulgad_loop_extends (ps : List Str) : ∀ {out out1 : List Int},
    Kulgad.loopPieces ps out = .ok out1 → Extends out out1 := by
  induction ps with
  | nil => intro out out1 h; cases h; exact Extends.refl _
  | cons p qs ih =>
    intro out out1 h
    cases qs with
    | nil =>
      simp only [Kulgad.loopPieces] at h
      split at h
      · cases h; exact Extends.refl _
      · exact Kulgad.parse_part_extends h
    | cons q qs =>
      simp only [Kulgad.loopPieces] at h
      split at h
      · cases h
      · split at h
        · rename_i out2 hp
          exact (Kulgad.parse_part_extends hp).trans (ih h)
        · rename_i r hr
          rw [h] at hr
          exact absurd rfl (hr out1)

theorem SetGetCompact.compact_loop_extends (ps : List Str) : ∀ {out out1 : List Int},
    SetGetCompact.loopPieces ps out = .ok out1 → Extends out out1 := by
  induction ps with
  | nil => intro out out1 h; cases h; exact Extends.refl _
  | cons p qs ih =>
    intro out out1 h
    simp only [SetGetCompact.loopPieces] at h
    split at h
    · rename_i out2 hp
      refine Extends.trans ?_ (ih h)
      split at hp
      · cases hp; exact Extends.refl _
      · exact SetGetCompact.parse_tok_extends hp
    · rename_i r hr
      rw [h] at hr
      exact absurd rfl (hr out1)

theorem Kulgad.parse_channels_token_extends {token : Str} {out out1 : List Int}
    (h : Kulgad.parse_channels_token token out = some (.ok out1)) : Extends out out1 := by
  rw [Kulgad.parse_channels_token_eq] at h
  split at h
  · cases h
  · split at h
    · cases h
      exact extends_push_range out (by omega) (by omega)
    · exact Kulgad.kulgad_loop_extends _ (Option.some.inj h)

theorem extends_canonical {out out1 : List Int} (h : Extends out out1) :
    Extends out (std_unique (std_sort out1)) :=
  fun c hc => h c (mem_canonical.mp hc)

theorem SetGetCompact.parse_channels_extends {raw : Str} {out L : List Int}
    (h : SetGetCompact.parse_channels raw out = some (.ok L)) : Extends out L := by
  unfold SetGetCompact.parse_channels at h
  simp only [SetGetCompact.compact_loop_eq] at h
  split at h
  · cases h
  · split at h
    · cases h
      exact extends_canonical (extends_push_range out (by omega) (by omega))
    · split at h
      · rename_i out1 hl
        split at h
        · cases h
        · cases h
          exact extends_canonical (SetGetCompact.compact_loop_extends _ (by
            simpa using hl))
      · rename_i r hr
        rw [h] at hr
        exact absurd rfl (hr L)

theorem SetGetCompact.parse_channels_strict {raw : Str} {out L : List Int}
    (h : SetGetCompact.parse_channels raw out = some (.ok L)) : L.Pairwise (· < ·) := by
  unfold SetGetCompact.parse_channels at h
  simp only [SetGetCompact.compact_loop_eq] at h
  split at h
  · cases h
  · split at h
    · cases h
      exact canonical_strict _
    · split at h
      · split at h
        · cases h
        · cases h
          exact canonical_strict _
      · rename_i r hr
        rw [h] at hr
        exact absurd rfl (hr L)

theorem Kulgad.parse_canonical_strict {chanSpecs : List Str} {L : List Int}
    (h : Kulgad.parse_canonical chanSpecs = some (.ok L)) : L.Pairwise (· < ·) := by
  unfold Kulgad.parse_canonical at h
  split at h
  · cases h
    exact canonical_strict _
  · rename_i r hr
    rw [h] at hr
    exact absurd rfl (hr L)

theorem fails_not_ok {res : Option ParseResult} (h : Fails res) (out : List Int) :
    res ≠ some (.ok out) := by
  rcases h with ⟨e, h⟩ | ⟨e, h⟩ <;> rw [h] <;> simp

theorem comma_free_plain_digits {ds : Str} (hd : ∀ c ∈ ds, isdigit c = true) : Plain ds :=
  fun c hc => Or.inl (hd c hc)

/-- A single all-digit number above 255: kulgad.cpp reports it, or `std::stoi` throws. -/
theorem Kulgad.parse_part_big {ds : Str} (hne : ds ≠ []) (hd : ∀ c ∈ ds, isdigit c = true)
    (hv : 255 < digitsValue ds) (out : List Int) :
    Kulgad.parse_part ds out =
      if digitsValue ds > 2147483647 then .thrown .out_of_range
      else .fail ("Channel out of range: ".toList ++ to_string (digitsValue ds : Int)
        ++ "\n".toList) := by
  have hdig : Kulgad.is_all_digits ds = true := is_all_digits_iff.mpr ⟨hne, hd⟩
  simp only [Kulgad.parse_part, find_dash_none (digits_no_dash hd), hdig, stoi_digits hne hd]
  rw [if_neg (by simp)]
  by_cases hbig : digitsValue ds > 2147483647
  · simp only [hbig, if_true]
  · simp only [hbig, if_false]
    rw [if_pos (by omega)]

theorem Kulgad.parse_token_big {ds : Str} (hne : ds ≠ []) (hd : ∀ c ∈ ds, isdigit c = true)
    (hv : 255 < digitsValue ds) (out : List Int) :
    Fails (Kulgad.parse_channels_token ds out) := by
  have hpl := comma_free_plain_digits hd
  have hnn : ds.isEmpty = false := by simpa using hne
  rw [Kulgad.parse_channels_token_eq, hnn, Kulgad.lower_copy, hpl.lower,
    if_neg hpl.not_all.1, splitComma_free_single ds (digits_no_comma hd)]
  simp only [Bool.false_eq_true, if_false, Kulgad.loopPieces, hnn,
    Kulgad.parse_part_big hne hd hv]
  split
  · exact Or.inr ⟨_, rfl⟩
  · exact Or.inl ⟨_, rfl⟩

theorem SetGetCompact.parse_tok_big {ds : Str} (hne : ds ≠ []) (hd : ∀ c ∈ ds, isdigit c = true)
    (hv : 255 < digitsValue ds) (out : List Int) :
    ∃ err, SetGetCompact.parse_tok ds out = .fail err := by
  simp only [SetGetCompact.parse_tok, find_dash_none (digits_no_dash hd), stoi_digits hne hd]
  by_cases hbig : digitsValue ds > 2147483647
  · simp only [hbig, if_true]
    exact ⟨_, rfl⟩
  · simp only [hbig, if_false, SetGetCompact.add]
    rw [if_pos (by omega)]
    exact ⟨_, rfl⟩

theorem SetGetCompact.parse_channels_big {ds : Str} (hne : ds ≠ [])
    (hd : ∀ c ∈ ds, isdigit c = true) (hv : 255 < digitsValue ds) (out : List Int) :
    Fails (SetGetCompact.parse_channels ds out) := by
  have hpl := comma_free_plain_digits hd
  have hnn : ds.isEmpty = false := by simpa using hne
  have hall : ¬ (ds = "all".toList ∨ (none : Option Nat).isSome = true) :=
    fun h => h.elim hpl.not_all.1 (by simp)
  obtain ⟨err, herr⟩ := SetGetCompact.parse_tok_big hne hd hv out
  unfold SetGetCompact.parse_channels
  simp only [hpl.filter, hnn, hpl.lower, hpl.not_all.2, SetGetCompact.compact_loop_eq,
    splitComma_free_single ds (digits_no_comma hd), Bool.false_eq_true, if_false, if_neg hall,
    SetGetCompact.loopPieces, herr]
  exact Or.inl ⟨_, rfl⟩

/-! ## Ranges, the keyword, and canonical lists -/

theorem push_range_strict (a b : Int) : (push_range a b []).Pairwise (· < ·) := by
  unfold push_range
  rw [List.nil_append, List.pairwise_map]
  refine (List.pairwise_lt_range _).imp ?_
  intro i j hij
  simp only [Int.ofNat_eq_coe]
  omega

theorem push_range_length (a b : Int) (out : List Int) :
    (push_range a b out).length = out.length + (b + 1 - a).toNat := by
  unfold push_range
  simp

theorem canonical_push_all : std_unique (std_sort (push_range 0 255 [])) = allChannels := by
  rw [push_range_all]
  exact canonical_of_strict allChannels_strict

theorem allChannels_length : allChannels.length = 256 := by
  unfold allChannels
  simp

theorem tolower_all {c1 c2 c3 : Char} (h1 : c1 = 'a' ∨ c1 = 'A') (h2 : c2 = 'l' ∨ c2 = 'L')
    (h3 : c3 = 'l' ∨ c3 = 'L') : [c1, c2, c3].map tolower = "all".toList := by
  rcases h1 with rfl | rfl <;> rcases h2 with rfl | rfl <;> rcases h3 with rfl | rfl <;> decide

theorem not_space_all {c1 c2 c3 : Char} (h1 : c1 = 'a' ∨ c1 = 'A') (h2 : c2 = 'l' ∨ c2 = 'L')
    (h3 : c3 = 'l' ∨ c3 = 'L') : [c1, c2, c3].filter (fun c => !isspace c) = [c1, c2, c3] := by
  rcases h1 with rfl | rfl <;> rcases h2 with rfl | rfl <;> rcases h3 with rfl | rfl <;> decide

theorem channelsOf_range_eq {a b : Str} (ha : IsNumber a) (hb : IsNumber b) :
    channelsOf [Piece.range a b] =
      push_range (min (digitsValue a : Int) (digitsValue b : Int))
        (max (digitsValue a : Int) (digitsValue b : Int)) [] := by
  have hwf : ∀ p ∈ [Piece.range a b], p.WF := by
    intro p hp
    simp only [List.mem_singleton] at hp
    subst hp
    exact ⟨ha, hb⟩
  apply strict_ext (channelsOf_strict _) (push_range_strict _ _)
  intro x
  rw [mem_channelsOf hwf, mem_push_range]
  simp [Piece.covers]

theorem channelsOf_singles {L : List Int} (hs : L.Pairwise (· < ·))
    (hr : ∀ c ∈ L, 0 ≤ c ∧ c ≤ 255) :
    channelsOf (L.map (fun c => Piece.single (to_string c))) = L := by
  have hwf : ∀ p ∈ L.map (fun c => Piece.single (to_string c)), p.WF := by
    intro p hp
    obtain ⟨c, hc, rfl⟩ := List.mem_map.mp hp
    exact (to_string_number (hr c hc).1 (hr c hc).2).1
  apply strict_ext (channelsOf_strict _) hs
  intro x
  rw [mem_channelsOf hwf]
  constructor
  · rintro ⟨p, hp, hx⟩
    obtain ⟨c, hc, rfl⟩ := List.mem_map.mp hp
    simp only [Piece.covers, decide_eq_true_eq] at hx
    rw [(to_string_number (hr c hc).1 (hr c hc).2).2] at hx
    exact hx ▸ hc
  · intro hx
    refine ⟨Piece.single (to_string x), List.mem_map.mpr ⟨x, hx, rfl⟩, ?_⟩
    simp only [Piece.covers, decide_eq_true_eq]
    exact (to_string_number (hr x hx).1 (hr x hx).2).2.symm

/-! ## What `parse_channels_token` accepts -/

theorem findIdxFrom_some {c : Char} {s : Str} {d : Nat} (h : findIdxFrom c s = some d) :
    s = s.take d ++ c :: s.drop (d + 1) ∧ c ∉ s.take d := by
  induction s generalizing d with
  | nil => simp [findIdxFrom] at h
  | cons x t ih =>
    unfold findIdxFrom at h
    by_cases hx : x = c
    · rw [if_pos hx] at h
      cases h
      simp [hx]
    · rw [if_neg hx] at h
      cases ht : findIdxFrom c t with
      | none => rw [ht] at h; simp at h
      | some d' =>
        rw [ht] at h
        simp only [Option.map_some', Option.some.injEq] at h
        subst h
        obtain ⟨h1, h2⟩ := ih ht
        refine ⟨?_, ?_⟩
        · simp only [List.take_succ_cons, List.drop_succ_cons, List.cons_append]
          rw [← h1]
        · simp only [List.take_succ_cons, List.mem_cons, not_or]
          exact ⟨Ne.symm hx, h2⟩

theorem find_zero_some {c : Char} {s : Str} {d : Nat} (h : find s c 0 = some d) :
    s = substr s 0 (some d) ++ c :: substr s (d + 1) none ∧ c ∉ substr s 0 (some d) := by
  unfold find at h
  rw [List.drop_zero] at h
  cases hf : findIdxFrom c s with
  | none => rw [hf] at h; simp at h
  | some d' =>
    rw [hf] at h
    simp only [Option.map_some', Nat.add_zero, Option.some.injEq] at h
    subst h
    unfold substr
    simp only [List.drop_zero]
    exact findIdxFrom_some hf

/-- The parts accepted by the loop body of `parse_channels_token` are exactly the
texts of the well-formed pieces. -/
theorem Kulgad.parse_part_ok {p : Str} {out out1 : List Int}
    (h : Kulgad.parse_part p out = .ok out1) :
    ∃ piece : Piece, piece.WF ∧ piece.text = p ∧ out1 = piece.apply out := by
  unfold Kulgad.parse_part at h
  cases hf : find p '-' 0 with
  | none =>
    rw [hf] at h
    simp only at h
    by_cases hd : Kulgad.is_all_digits p = true
    · obtain ⟨hne, hdig⟩ := is_all_digits_iff.mp hd
      simp only [hd, Bool.not_true, Bool.false_eq_true, if_false, stoi_digits hne hdig] at h
      by_cases hbig : digitsValue p > 2147483647
      · simp only [hbig, if_true] at h
        cases h
      · simp only [hbig, if_false] at h
        by_cases hr : (digitsValue p : Int) < 0 ∨ (digitsValue p : Int) > 255
        · rw [if_pos hr] at h; cases h
        · rw [if_neg hr] at h
          cases h
          exact ⟨Piece.single p, ⟨hne, hdig, by omega⟩, rfl, rfl⟩
    · simp only [hd, Bool.not_false, if_true] at h
      cases h
  | some d =>
    rw [hf] at h
    simp only at h
    obtain ⟨hsplit, -⟩ := find_zero_some hf
    generalize substr p 0 (some d) = a at h hsplit
    generalize substr p (d + 1) none = b at h hsplit
    by_cases hda : Kulgad.is_all_digits a = true
    · by_cases hdb : Kulgad.is_all_digits b = true
      · obtain ⟨hnea, hdiga⟩ := is_all_digits_iff.mp hda
        obtain ⟨hneb, hdigb⟩ := is_all_digits_iff.mp hdb
        simp only [hda, hdb, Bool.not_true, Bool.or_self, Bool.false_eq_true, if_false,
          stoi_digits hnea hdiga, stoi_digits hneb hdigb] at h
        by_cases hba : digitsValue a > 2147483647
        · simp only [hba, if_true] at h
          cases h
        · simp only [hba, if_false] at h
          by_cases hbb : digitsValue b > 2147483647
          · simp only [hbb, if_true] at h
            cases h
          · simp only [hbb, if_false] at h
            by_cases hab : (digitsValue a : Int) > (digitsValue b : Int)
            · simp only [hab, if_true] at h
              by_cases hr : (digitsValue b : Int) < 0 ∨ (digitsValue a : Int) > 255
              · rw [if_pos hr] at h; cases h
              · rw [if_neg hr] at h
                cases h
                refine ⟨Piece.range a b, ⟨⟨hnea, hdiga, by omega⟩, ⟨hneb, hdigb, by omega⟩⟩,
                  hsplit.symm, ?_⟩
                simp only [Piece.apply]
                rw [min_eq_right (by omega), max_eq_left (by omega)]
            · simp only [hab, if_false] at h
              by_cases hr : (digitsValue a : Int) < 0 ∨ (digitsValue b : Int) > 255
              · rw [if_pos hr] at h; cases h
              · rw [if_neg hr] at h
                cases h
                refine ⟨Piece.range a b, ⟨⟨hnea, hdiga, by omega⟩, ⟨hneb, hdigb, by omega⟩⟩,
                  hsplit.symm, ?_⟩
                simp only [Piece.apply]
                rw [min_eq_left (by omega), max_eq_right (by omega)]
      · simp only [hda, hdb, Bool.not_true, Bool.not_false, Bool.or_true, if_true] at h
        cases h
    · simp only [hda, Bool.not_false, Bool.true_or, if_true] at h
      cases h

/-- A non-empty piece that the loop body rejects makes the whole loop fail. -/
theorem Kulgad.kulgad_loop_rejects {ps : List Str} {p : Str} (hp : p ∈ ps) (hne : p ≠ [])
    (hrej : ∀ out out1, Kulgad.parse_part p out ≠ .ok out1) :
    ∀ out out1, Kulgad.loopPieces ps out ≠ .ok out1 := by
  induction ps with
  | nil => simp at hp
  | cons q qs ih =>
    intro out out1 h
    cases qs with
    | nil =>
      simp only [List.mem_singleton] at hp
      subst hp
      have hpe : p.isEmpty = false := by simpa using hne
      simp only [Kulgad.loopPieces, hpe, Bool.false_eq_true, if_false] at h
      exact hrej out out1 h
    | cons r rs =>
      simp only [Kulgad.loopPieces] at h
      split at h
      · cases h
      · split at h
        · rename_i out2 hq
          rcases List.mem_cons.mp hp with e | e
          · subst e
            exact hrej out out2 hq
          · exact ih e out2 out1 h
        · rename_i r0 hr0
          rw [h] at hr0
          exact hr0 out1 rfl

theorem lower_eq_all_mem {spec : Str} (h : Kulgad.lower_copy spec = "all".toList) {c : Char}
    (hc : c ∈ spec) : tolower c = 'a' ∨ tolower c = 'l' := by
  have : tolower c ∈ Kulgad.lower_copy spec := List.mem_map.mpr ⟨c, hc, rfl⟩
  rw [h] at this
  simp only [String.toList, List.mem_cons, List.mem_singleton] at this
  tauto

theorem not_all_of_plain_char {spec : Str} {c : Char} (hc : c ∈ spec)
    (hp : isdigit c = true ∨ c = '-' ∨ c = ',') : Kulgad.lower_copy spec ≠ "all".toList := by
  intro h
  have h1 := lower_eq_all_mem h hc
  rw [plain_char_tolower hp] at h1
  rcases h1 with h1 | h1
  · exact plain_char_ne_a hp h1
  · subst h1
    rcases hp with hp | hp | hp
    · revert hp; decide
    · revert hp; decide
    · revert hp; decide

theorem mem_splitComma_subset {spec p : Str} (hp : p ∈ splitComma spec) {c : Char}
    (hc : c ∈ p) : c ∈ spec := by
  induction spec generalizing p with
  | nil =>
    simp only [splitComma, List.mem_singleton] at hp
    subst hp
    exact hc
  | cons x t ih =>
    unfold splitComma at hp
    split at hp
    · rcases List.mem_cons.mp hp with e | e
      · subst e; simp at hc
      · exact List.mem_cons_of_mem _ (ih e hc)
    · split at hp
      · rename_i hnil
        exact absurd hnil (splitComma_ne_nil t)
      · rename_i q qs hq
        rcases List.mem_cons.mp hp with e | e
        · subst e
          rcases List.mem_cons.mp hc with e1 | e1
          · exact e1 ▸ List.mem_cons_self _ _
          · exact List.mem_cons_of_mem _ (ih (hq ▸ List.mem_cons_self _ _) e1)
        · exact List.mem_cons_of_mem _ (ih (hq ▸ List.mem_cons_of_mem _ e) hc)

/-- A spec with a piece that contains a digit, a dash or a comma-free character of
the list syntax, and that the loop body rejects, is not accepted. -/
theorem Kulgad.parse_token_rejects {spec p : Str} (hp : p ∈ splitComma spec) {c : Char}
    (hc : c ∈ p) (hplain : isdigit c = true ∨ c = '-' ∨ c = ',')
    (hrej : ∀ out out1, Kulgad.parse_part p out ≠ .ok out1) (out0 : List Int) :
    Fails (Kulgad.parse_channels_token spec out0) := by
  have hcs : c ∈ spec := mem_splitComma_subset hp hc
  have hne : spec.isEmpty = false := by
    cases spec with
    | nil => simp at hcs
    | cons x t => rfl
  have hpne : p ≠ [] := List.ne_nil_of_mem hc
  rw [Kulgad.parse_channels_token_eq, hne, if_neg (not_all_of_plain_char hcs hplain)]
  simp only [Bool.false_eq_true, if_false]
  have := Kulgad.kulgad_loop_rejects hp hpne hrej out0
  cases hl : Kulgad.loopPieces (splitComma spec) out0 with
  | ok out1 => exact absurd hl (this out1)
  | fail e => exact Or.inl ⟨e, rfl⟩
  | thrown e => exact Or.inr ⟨e, rfl⟩

/-! ## Out-of-range pieces and failing runs -/

theorem first_split_unique {c : Char} {a a' b b' : Str} (h : a ++ c :: b = a' ++ c :: b')
    (ha : c ∉ a) (ha' : c ∉ a') : a = a' ∧ b = b' := by
  induction a generalizing a' with
  | nil =>
    cases a' with
    | nil => simpa using h
    | cons x t =>
      simp only [List.nil_append, List.cons_append, List.cons.injEq] at h
      exact absurd (h.1 ▸ List.mem_cons_self _ _) ha'
  | cons y s ih =>
    cases a' with
    | nil =>
      simp only [List.nil_append, List.cons_append, List.cons.injEq] at h
      exact absurd (h.1 ▸ List.mem_cons_self _ _) ha
    | cons x t =>
      simp only [List.cons_append, List.cons.injEq] at h
      obtain ⟨h1, h2⟩ := ih h.2 (fun e => ha (List.mem_cons_of_mem _ e))
        (fun e => ha' (List.mem_cons_of_mem _ e))
      exact ⟨by rw [h.1, h1], h2⟩

theorem last_split_unique {c : Char} {a a' b b' : Str} (h : a ++ c :: b = a' ++ c :: b')
    (hb : c ∉ b) (hb' : c ∉ b') : a = a' ∧ b = b' := by
  have hr : b.reverse ++ c :: a.reverse = b'.reverse ++ c :: a'.reverse := by
    have := congrArg List.reverse h
    simpa using this
  obtain ⟨h1, h2⟩ := first_split_unique hr (by simpa using hb) (by simpa using hb')
  exact ⟨List.reverse_injective h2, List.reverse_injective h1⟩

theorem IsDigits.no_dash {s : Str} (h : IsDigits s) : '-' ∉ s := digits_no_dash h.2

theorem IsDigits.digits_free_of_comma {s : Str} (h : IsDigits s) : ',' ∉ s := digits_no_comma h.2

theorem IsDigits.has_digit {s : Str} (h : IsDigits s) : ∃ c ∈ s, isdigit c = true := by
  obtain ⟨hne, hd⟩ := h
  cases s with
  | nil => exact absurd rfl hne
  | cons x t => exact ⟨x, List.mem_cons_self _ _, hd x (List.mem_cons_self _ _)⟩

theorem BadPiece.bad_has_digit {p : Str} (h : BadPiece p) : ∃ c ∈ p, isdigit c = true := by
  rcases h with ⟨hd, -⟩ | ⟨a, b, rfl, ⟨hd, -⟩ | ⟨hd, -⟩⟩
  · exact hd.has_digit
  · obtain ⟨c, hc, h⟩ := hd.has_digit
    exact ⟨c, List.mem_append_left _ hc, h⟩
  · obtain ⟨c, hc, h⟩ := hd.has_digit
    exact ⟨c, List.mem_append_right _ (List.mem_cons_of_mem _ hc), h⟩

/-- The loop body of `parse_channels_token` never accepts a piece with a number above 255. -/
theorem Kulgad.parse_part_bad {p : Str} (h : BadPiece p) (out out1 : List Int) :
    Kulgad.parse_part p out ≠ .ok out1 := by
  intro hok
  obtain ⟨piece, hwf, htext, -⟩ := Kulgad.parse_part_ok hok
  cases piece with
  | single n =>
    simp only [Piece.text] at htext
    subst htext
    rcases h with ⟨-, hv⟩ | ⟨a, b, hab, -⟩
    · have := hwf.2.2
      omega
    · exact digits_no_dash hwf.2.1 (hab ▸ List.mem_append_right _ (List.mem_cons_self _ _))
  | range a' b' =>
    simp only [Piece.text] at htext
    obtain ⟨ha', hb'⟩ := hwf
    rcases h with ⟨hd, -⟩ | ⟨a, b, hab, ⟨hd, hv⟩ | ⟨hd, hv⟩⟩
    · exact hd.no_dash (htext ▸ List.mem_append_right _ (List.mem_cons_self _ _))
    · obtain ⟨e, -⟩ := first_split_unique (htext.trans hab) (digits_no_dash ha'.2.1) hd.no_dash
      have := ha'.2.2
      rw [e] at this
      omega
    · obtain ⟨-, e⟩ := last_split_unique (htext.trans hab) (digits_no_dash hb'.2.1) hd.no_dash
      have := hb'.2.2
      rw [e] at this
      omega

theorem OutOfRangePiece.bad {p : Str} (h : OutOfRangePiece p) : BadPiece p := by
  rcases h with h | ⟨a, b, hab, ha, hb, hv | hv⟩
  · exact Or.inl h
  · exact Or.inr ⟨a, b, hab, Or.inl ⟨ha, hv⟩⟩
  · exact Or.inr ⟨a, b, hab, Or.inr ⟨hb, hv⟩⟩

theorem OutOfRangePiece.piece_free_of_comma {p : Str} (h : OutOfRangePiece p) : ',' ∉ p := by
  rcases h with ⟨hd, -⟩ | ⟨a, b, rfl, ha, hb, -⟩
  · exact hd.digits_free_of_comma
  · intro hm
    rcases List.mem_append.mp hm with h1 | h1
    · exact ha.digits_free_of_comma h1
    · rcases List.mem_cons.mp h1 with h2 | h2
      · revert h2; decide
      · exact hb.digits_free_of_comma h2

/-- On a number or a range of two numbers with a number above 255 the loop body
reports an out-of-range error. -/
theorem Kulgad.parse_part_out_of_range {p : Str} (h : OutOfRangePiece p) (out : List Int) :
    OutOfRangeResult (Kulgad.parse_part p out) := by
  rcases h with ⟨hd, hv⟩ | ⟨a, b, rfl, ha, hb, hv⟩
  · rw [Kulgad.parse_part_big hd.1 hd.2 hv]
    split
    · exact Or.inl rfl
    · exact Or.inr (Or.inl ⟨_, by rw [List.append_assoc]⟩)
  · obtain ⟨h1, h2, h3⟩ := find_dash_some b ha.no_dash
    have hda : Kulgad.is_all_digits a = true := is_all_digits_iff.mpr ha
    have hdb : Kulgad.is_all_digits b = true := is_all_digits_iff.mpr hb
    simp only [Kulgad.parse_part, h1, h2, h3, hda, hdb, stoi_digits ha.1 ha.2,
      stoi_digits hb.1 hb.2]
    rw [if_neg (by simp)]
    by_cases hba : digitsValue a > 2147483647
    · simp only [hba, if_true]
      exact Or.inl rfl
    · simp only [hba, if_false]
      by_cases hbb : digitsValue b > 2147483647
      · simp only [hbb, if_true]
        exact Or.inl rfl
      · simp only [hbb, if_false]
        by_cases hab : (digitsValue a : Int) > (digitsValue b : Int)
        · simp only [hab, if_true]
          rw [if_pos (by omega)]
          exact Or.inr (Or.inr ⟨_, by rw [List.append_assoc]⟩)
        · simp only [hab, if_false]
          rw [if_pos (by omega)]
          exact Or.inr (Or.inr ⟨_, by rw [List.append_assoc]⟩)

/-- After well-formed pieces, the first piece that the loop body rejects decides the
outcome of the loop. -/
theorem Kulgad.kulgad_loop_first_error {valid : List Piece} (hwf : ∀ p ∈ valid, p.WF)
    {bad : Str} (hne : bad ≠ []) (hrej : ∀ o o1, Kulgad.parse_part bad o ≠ .ok o1)
    (rest : List Str) (out : List Int) :
    Kulgad.loopPieces (valid.map Piece.text ++ bad :: rest) out
      = Kulgad.parse_part bad (applyPieces valid out) := by
  have hbe : bad.isEmpty = false := by simpa using hne
  induction valid generalizing out with
  | nil =>
    simp only [List.map_nil, List.nil_append, applyPieces, List.foldl_nil]
    cases rest with
    | nil => simp only [Kulgad.loopPieces, hbe, Bool.false_eq_true, if_false]
    | cons q qs =>
      simp only [Kulgad.loopPieces, hbe, Bool.false_eq_true, if_false]
      cases hp : Kulgad.parse_part bad out with
      | ok o1 => exact absurd hp (hrej out o1)
      | fail e => rfl
      | thrown e => rfl
  | cons v vs ih =>
    have hv := hwf v (List.mem_cons_self _ _)
    have hve : v.text.isEmpty = false := by simpa using Piece.text_ne_nil hv
    obtain ⟨q, qs, hq⟩ : ∃ q qs, vs.map Piece.text ++ bad :: rest = q :: qs := by
      cases hvs : vs.map Piece.text with
      | nil => exact ⟨bad, rest, rfl⟩
      | cons x xs => exact ⟨x, xs ++ bad :: rest, rfl⟩
    rw [List.map_cons, List.cons_append, hq]
    simp only [Kulgad.loopPieces, hve, Bool.false_eq_true, if_false,
      Kulgad.parse_part_piece hv]
    rw [← hq, ih (fun p hp => hwf p (List.mem_cons_of_mem _ hp))]
    rfl

/-- A spec whose first invalid piece is a number or a range with a number above 255:
`parse_channels_token` reports an out-of-range error. -/
theorem Kulgad.parse_token_out_of_range {valid : List Piece} (hwf : ∀ p ∈ valid, p.WF)
    {bad : Str} (hbad : OutOfRangePiece bad) {rest : List Str} (hrest : ∀ t ∈ rest, ',' ∉ t)
    (out0 : List Int) :
    ∃ r, Kulgad.parse_channels_token (joinComma (valid.map Piece.text ++ bad :: rest)) out0
      = some r ∧ OutOfRangeResult r := by
  obtain ⟨c, hc, hcd⟩ := hbad.bad.bad_has_digit
  have hbne : bad ≠ [] := List.ne_nil_of_mem hc
  have hfree : ∀ t ∈ valid.map Piece.text ++ bad :: rest, ',' ∉ t := by
    intro t ht
    rcases List.mem_append.mp ht with h | h
    · obtain ⟨p, hp, rfl⟩ := List.mem_map.mp h
      exact Piece.text_no_comma (hwf p hp)
    · rcases List.mem_cons.mp h with h1 | h1
      · exact h1 ▸ hbad.piece_free_of_comma
      · exact hrest t h1
  have hsplit : splitComma (joinComma (valid.map Piece.text ++ bad :: rest))
      = valid.map Piece.text ++ bad :: rest := splitComma_joinComma (by simp) hfree
  have hmem : bad ∈ splitComma (joinComma (valid.map Piece.text ++ bad :: rest)) := by
    rw [hsplit]; simp
  have hcs : c ∈ joinComma (valid.map Piece.text ++ bad :: rest) :=
    mem_splitComma_subset hmem hc
  have hne : (joinComma (valid.map Piece.text ++ bad :: rest)).isEmpty = false := by
    cases hj : joinComma (valid.map Piece.text ++ bad :: rest) with
    | nil => rw [hj] at hcs; simp at hcs
    | cons x t => rfl
  refine ⟨Kulgad.parse_part bad (applyPieces valid out0), ?_,
    Kulgad.parse_part_out_of_range hbad _⟩
  rw [Kulgad.parse_channels_token_eq, hne, if_neg (not_all_of_plain_char hcs (Or.inl hcd)),
    hsplit, Kulgad.kulgad_loop_first_error hwf hbne (Kulgad.parse_part_bad hbad.bad)]
  rfl

/-- A spec with a piece that has a number above 255 is never accepted. -/
theorem Kulgad.parse_token_bad {spec p : Str} (hp : p ∈ splitComma spec) (h : BadPiece p)
    (out0 : List Int) : Fails (Kulgad.parse_channels_token spec out0) := by
  obtain ⟨c, hc, hcd⟩ := h.bad_has_digit
  exact Kulgad.parse_token_rejects hp hc (Or.inl hcd) (Kulgad.parse_part_bad h) out0

/-! ## Runs of `main` of kulgad.cpp that stop before the connection -/

theorem Kulgad.not_keyword_of_digit {spec : Str} {c : Char} (hc : c ∈ spec)
    (hd : isdigit c = true) : ¬ Kulgad.IsKeyword (Kulgad.lower_copy spec) := by
  intro hk
  have hm : c ∈ Kulgad.lower_copy spec := by
    have : tolower c ∈ Kulgad.lower_copy spec := List.mem_map.mpr ⟨c, hc, rfl⟩
    rwa [isdigit_tolower hd] at this
  have hall : ∀ kw : Str, (∀ x ∈ kw, isdigit x = false) → Kulgad.lower_copy spec ≠ kw := by
    intro kw hkw e
    rw [e] at hm
    rw [hkw c hm] at hd
    cases hd
  rcases hk with h | h | h | h | h | h | h | h <;> exact hall _ (by decide) h

/-- An argument that is not an option word is kept as a channel specification by a
scan that reaches its end. -/
theorem Kulgad.scan_args_keeps : ∀ (argv : List Str) (o o1 : Kulgad.Opts),
    Kulgad.scan_args argv o = .ok o1 →
      (∀ s ∈ o.chanSpecs, s ∈ o1.chanSpecs) ∧
      (∀ s ∈ argv, ¬ Kulgad.IsKeyword (Kulgad.lower_copy s) → s ∈ o1.chanSpecs) := by
  intro argv
  induction argv with
  | nil =>
    intro o o1 h
    simp only [Kulgad.scan_args, Except.ok.injEq] at h
    subst h
    exact ⟨fun s hs => hs, fun s hs => by simp at hs⟩
  | cons tok rest ih =>
    intro o o1 h
    unfold Kulgad.scan_args at h
    simp only at h
    split_ifs at h with h1 h2 h3 h4 h5 h6 h7
    · obtain ⟨ha, hb⟩ := ih _ _ h
      refine ⟨ha, fun s hs hk => ?_⟩
      rcases List.mem_cons.mp hs with e | e
      · subst e
        exact absurd (by unfold Kulgad.IsKeyword; tauto) hk
      · exact hb s e hk
    · obtain ⟨ha, hb⟩ := ih _ _ h
      refine ⟨ha, fun s hs hk => ?_⟩
      rcases List.mem_cons.mp hs with e | e
      · subst e
        exact absurd (by unfold Kulgad.IsKeyword; tauto) hk
      · exact hb s e hk
    · obtain ⟨ha, hb⟩ := ih _ _ h
      refine ⟨ha, fun s hs hk => ?_⟩
      rcases List.mem_cons.mp hs with e | e
      · subst e
        exact absurd (by unfold Kulgad.IsKeyword; tauto) hk
      · exact hb s e hk
    · obtain ⟨ha, hb⟩ := ih _ _ h
      refine ⟨ha, fun s hs hk => ?_⟩
      rcases List.mem_cons.mp hs with e | e
      · subst e
        exact absurd (by unfold Kulgad.IsKeyword; tauto) hk
      · exact hb s e hk
    · obtain ⟨ha, hb⟩ := ih _ _ h
      refine ⟨fun s hs => ha s (List.mem_append_left _ hs), fun s hs hk => ?_⟩
      rcases List.mem_cons.mp hs with e | e
      · subst e
        exact ha s (List.mem_append_right _ (List.mem_singleton_self _))
      · exact hb s e hk

theorem Kulgad.scan_args_error : ∀ (argv : List Str) (o : Kulgad.Opts) (evs : List Kulgad.Event),
    Kulgad.scan_args argv o = .error evs → ∀ e ∈ evs, e.isNetwork = false := by
  intro argv
  induction argv with
  | nil => intro o evs h; simp [Kulgad.scan_args] at h
  | cons tok rest ih =>
    intro o evs h
    unfold Kulgad.scan_args at h
    simp only at h
    split_ifs at h
    all_goals first
      | exact ih _ _ h
      | (simp only [Except.error.injEq] at h
         subst h
         intro e he
         simp only [List.mem_singleton] at he
         subst he
         rfl)

theorem Kulgad.parse_specs_rejects {spec : Str}
    (hrej : ∀ out0, Fails (Kulgad.parse_channels_token spec out0)) :
    ∀ (specs : List Str), spec ∈ specs → ∀ out0, Fails (Kulgad.parse_specs specs out0) := by
  intro specs
  induction specs with
  | nil => intro h; simp at h
  | cons q qs ih =>
    intro hmem out0
    unfold Kulgad.parse_specs
    obtain ⟨r, hr⟩ := Kulgad.parse_channels_token_total q out0
    rw [hr]
    cases r with
    | ok out1 =>
      rcases List.mem_cons.mp hmem with e | e
      · subst e
        exact absurd hr (fails_not_ok (hrej out0) out1)
      · exact ih e out1
    | fail e => exact Or.inl ⟨e, rfl⟩
    | thrown e => exact Or.inr ⟨e, rfl⟩

theorem Kulgad.parse_canonical_fails {specs : List Str}
    (h : Fails (Kulgad.parse_specs specs [])) : Fails (Kulgad.parse_canonical specs) := by
  unfold Kulgad.parse_canonical
  rcases h with ⟨e, h⟩ | ⟨e, h⟩
  · rw [h]; exact Or.inl ⟨e, rfl⟩
  · rw [h]; exact Or.inr ⟨e, rfl⟩

/-- A run whose channel parsing fails, or which stops earlier, returns 1 and does
nothing on the network. -/
theorem Kulgad.main_stops (argv : List Str) (body : Str)
    (h : ∀ o, Kulgad.scan_args argv Kulgad.initOpts = .ok o →
      Fails (Kulgad.parse_canonical o.chanSpecs)) :
    ∃ run, Kulgad.main argv body = some run ∧ run.exit = 1 ∧ run.noNetwork := by
  unfold Kulgad.main
  split
  · exact ⟨_, rfl, rfl, by intro e he; simp at he; subst he; rfl⟩
  · split
    · rename_i evs hscan
      exact ⟨_, rfl, rfl, Kulgad.scan_args_error _ _ _ hscan⟩
    · rename_i o hscan
      split
      · exact ⟨_, rfl, rfl, by intro e he; simp at he; subst he; rfl⟩
      · split
        · exact ⟨_, rfl, rfl, by intro e he; simp at he; subst he; rfl⟩
        · split
          · exact ⟨_, rfl, rfl, by intro e he; simp at he; subst he; rfl⟩
          · rcases h o hscan with ⟨e, he⟩ | ⟨e, he⟩
            · rw [he]
              exact ⟨_, rfl, rfl, by intro e he; simp at he; subst he; rfl⟩
            · rw [he]
              exact ⟨_, rfl, rfl, by intro e he; simp at he; subst he; rfl⟩

/-! ## Empty pieces and dashes with an empty side -/

theorem splitComma_cons_comma (t : Str) : splitComma (',' :: t) = [] :: splitComma t := by
  simp [splitComma]

theorem splitComma_cons_ne {c : Char} (hc : c ≠ ',') {t q : Str} {qs : List Str}
    (h : splitComma t = q :: qs) : splitComma (c :: t) = (c :: q) :: qs := by
  simp [splitComma, hc, h]

theorem splitComma_append_comma (pre rest : Str) :
    splitComma (pre ++ ',' :: rest) = splitComma pre ++ splitComma rest := by
  induction pre with
  | nil => rw [List.nil_append, splitComma_cons_comma]; rfl
  | cons c t ih =>
    rw [List.cons_append]
    by_cases hc : c = ','
    · subst hc
      rw [splitComma_cons_comma, splitComma_cons_comma, ih]
      rfl
    · obtain ⟨q, qs, hq⟩ := List.exists_cons_of_ne_nil (splitComma_ne_nil t)
      have h2 : splitComma (t ++ ',' :: rest) = q :: (qs ++ splitComma rest) := by
        rw [ih, hq]; rfl
      rw [splitComma_cons_ne hc h2, splitComma_cons_ne hc hq]
      rfl

/-- An empty piece followed by another piece stops the loop of `parse_channels_token`. -/
theorem Kulgad.kulgad_loop_empty_piece (xs : List Str) {ys : List Str} (hys : ys ≠ []) :
    ∀ out out1, Kulgad.loopPieces (xs ++ [] :: ys) out ≠ .ok out1 := by
  obtain ⟨y, ys', rfl⟩ := List.exists_cons_of_ne_nil hys
  induction xs with
  | nil =>
    intro out out1 h
    simp [Kulgad.loopPieces] at h
  | cons x xs ih =>
    intro out out1 h
    obtain ⟨q, qs, hq⟩ : ∃ q qs, xs ++ [] :: y :: ys' = q :: qs := by
      cases xs with
      | nil => exact ⟨_, _, rfl⟩
      | cons a as => exact ⟨_, _, rfl⟩
    rw [List.cons_append, hq] at h
    simp only [Kulgad.loopPieces] at h
    split at h
    · cases h
    · split at h
      · rw [← hq] at h
        exact ih _ _ h
      · rename_i r0 hr0
        rw [h] at hr0
        exact hr0 out1 rfl

theorem Kulgad.parse_token_empty_piece {spec : Str} (xs : List Str) {ys : List Str}
    (hsplit : splitComma spec = xs ++ [] :: ys) (hys : ys ≠ []) (hcomma : ',' ∈ spec)
    (out0 : List Int) : Fails (Kulgad.parse_channels_token spec out0) := by
  have hne : spec.isEmpty = false := by
    cases spec with
    | nil => simp at hcomma
    | cons x t => rfl
  rw [Kulgad.parse_channels_token_eq, hne,
    if_neg (not_all_of_plain_char hcomma (Or.inr (Or.inr rfl))), hsplit]
  simp only [Bool.false_eq_true, if_false]
  cases hl : Kulgad.loopPieces (xs ++ [] :: ys) out0 with
  | ok out1 => exact absurd hl (Kulgad.kulgad_loop_empty_piece xs hys out0 out1)
  | fail e => exact Or.inl ⟨e, rfl⟩
  | thrown e => exact Or.inr ⟨e, rfl⟩

/-- The loop body of `parse_channels_token` rejects a piece that begins or ends with a dash. -/
theorem Kulgad.parse_part_empty_side {a b : Str} (h : a = [] ∨ b = []) (out out1 : List Int) :
    Kulgad.parse_part (a ++ '-' :: b) out ≠ .ok out1 := by
  intro hok
  obtain ⟨piece, hwf, htext, -⟩ := Kulgad.parse_part_ok hok
  cases piece with
  | single n =>
    simp only [Piece.text] at htext
    exact digits_no_dash hwf.2.1 (htext ▸ List.mem_append_right _ (List.mem_cons_self _ _))
  | range a' b' =>
    simp only [Piece.text] at htext
    obtain ⟨ha', hb'⟩ := hwf
    rcases h with h | h
    · subst h
      obtain ⟨e, -⟩ := first_split_unique htext (digits_no_dash ha'.2.1) (by simp)
      exact ha'.1 e
    · subst h
      obtain ⟨-, e⟩ := last_split_unique htext (digits_no_dash hb'.2.1) (by simp)
      exact hb'.1 e

theorem splitComma_filter (s : Str) :
    splitComma (s.filter (fun c => !isspace c))
      = (splitComma s).map (fun p => p.filter (fun c => !isspace c)) := by
  induction s with
  | nil => rfl
  | cons x t ih =>
    by_cases hx : x = ','
    · subst hx
      have : isspace ',' = false := by decide
      simp [splitComma, List.filter, this, ih]
    · by_cases hsp : isspace x = true
      · simp only [List.filter, hsp, Bool.not_true, splitComma, hx, if_false]
        rw [ih]
        cases hs : splitComma t with
        | nil => exact absurd hs (splitComma_ne_nil t)
        | cons q qs => simp [List.filter, hsp]
      · have hsp1 : isspace x = false := by simpa using hsp
        simp only [List.filter, hsp1, Bool.not_false, splitComma, hx, if_false]
        rw [ih]
        cases hs : splitComma t with
        | nil => exact absurd hs (splitComma_ne_nil t)
        | cons q qs => simp [List.filter, hsp1]

/-- A non-empty piece that the loop body of `parse_channels` rejects makes the loop fail. -/
theorem SetGetCompact.compact_loop_rejects {ps : List Str} {p : Str} (hp : p ∈ ps)
    (hne : p ≠ []) (hrej : ∀ out out1, SetGetCompact.parse_tok p out ≠ .ok out1) :
    ∀ out out1, SetGetCompact.loopPieces ps out ≠ .ok out1 := by
  induction ps with
  | nil => simp at hp
  | cons q qs ih =>
    intro out out1 h
    simp only [SetGetCompact.loopPieces] at h
    split at h
    · rename_i out2 hq
      rcases List.mem_cons.mp hp with e | e
      · subst e
        have hpe : p.isEmpty = false := by simpa using hne
        simp only [hpe, Bool.false_eq_true, if_false] at hq
        exact hrej out out2 hq
      · exact ih e out2 out1 h
    · rename_i r0 hr0
      rw [h] at hr0
      exact hr0 out1 rfl

theorem SetGetCompact.parse_tok_empty_side {a b : Str} (hd : '-' ∉ a) (h : a = [] ∨ b = [])
    (out out1 : List Int) : SetGetCompact.parse_tok (a ++ '-' :: b) out ≠ .ok out1 := by
  obtain ⟨h1, h2, h3⟩ := find_dash_some b hd
  have he : (a.isEmpty || b.isEmpty) = true := by
    rcases h with h | h <;> simp [h]
  simp only [SetGetCompact.parse_tok, h1, h2, h3, he, if_true]
  simp

/-- When the stripped, lower-cased spec has no `all` in it, the outcome of
`parse_channels` is the one of its loop. -/
theorem SetGetCompact.parse_channels_rejects {raw p : Str} {out0 : List Int}
    (hall : find_str ((raw.filter (fun c => !isspace c)).map tolower) "all".toList = none)
    (hp : p ∈ splitComma (raw.filter (fun c => !isspace c))) (hne : p ≠ [])
    (hrej : ∀ out out1, SetGetCompact.parse_tok p out ≠ .ok out1) :
    Fails (SetGetCompact.parse_channels raw out0) := by
  have hs : (raw.filter (fun c => !isspace c)).isEmpty = false := by
    cases hf : raw.filter (fun c => !isspace c) with
    | nil =>
      rw [hf] at hp
      simp only [splitComma, List.mem_singleton] at hp
      exact absurd hp hne
    | cons x t => rfl
  have hnall : ¬ ((raw.filter (fun c => !isspace c)).map tolower = "all".toList ∨
      (find_str ((raw.filter (fun c => !isspace c)).map tolower) "all".toList).isSome
        = true) := by
    rintro (h | h)
    · rw [h] at hall
      revert hall
      decide
    · rw [hall] at h
      simp at h
  unfold SetGetCompact.parse_channels
  simp only [hs, Bool.false_eq_true, if_false, if_neg hnall, SetGetCompact.compact_loop_eq]
  cases hl : SetGetCompact.loopPieces (splitComma (raw.filter (fun c => !isspace c))) out0 with
  | ok out1 => exact absurd hl (SetGetCompact.compact_loop_rejects hp hne hrej out0 out1)
  | fail e => exact Or.inl ⟨e, rfl⟩
  | thrown e => exact Or.inr ⟨e, rfl⟩

/-- A spec whose stripped, lower-cased form contains `all` is read as every channel. -/
theorem SetGetCompact.parse_channels_all {raw : Str}
    (hall : (find_str ((raw.filter (fun c => !isspace c)).map tolower) "all".toList).isSome
      = true) :
    SetGetCompact.parse_channels raw [] = some (.ok allChannels) := by
  have hs : (raw.filter (fun c => !isspace c)).isEmpty = false := by
    cases hf : raw.filter (fun c => !isspace c) with
    | nil => rw [hf] at hall; revert hall; decide
    | cons x t => rfl
  unfold SetGetCompact.parse_channels
  simp only [hs, Bool.false_eq_true, if_false, hall, or_true, if_true, canonical_push_all]

/-! ## The specs accepted by `parse_channels_token` -/

theorem isToken_iff {t : Str} : IsToken t ↔ ∃ piece : Piece, piece.WF ∧ piece.text = t := by
  constructor
  · rintro (h | ⟨a, b, rfl, ha, hb⟩)
    · exact ⟨Piece.single t, h, rfl⟩
    · exact ⟨Piece.range a b, ⟨ha, hb⟩, rfl⟩
  · rintro ⟨piece, hwf, rfl⟩
    cases piece with
    | single n => exact Or.inl hwf
    | range a b => exact Or.inr ⟨a, b, rfl, hwf.1, hwf.2⟩

theorem IsToken.ne_nil {t : Str} (h : IsToken t) : t ≠ [] := by
  obtain ⟨piece, hwf, rfl⟩ := isToken_iff.mp h
  exact Piece.text_ne_nil hwf

theorem IsToken.token_free_of_comma {t : Str} (h : IsToken t) : ',' ∉ t := by
  obtain ⟨piece, hwf, rfl⟩ := isToken_iff.mp h
  exact Piece.text_no_comma hwf

theorem isTokenList_iff {s : Str} :
    IsTokenList s ↔ ∃ ps : List Piece, ps ≠ [] ∧ (∀ p ∈ ps, p.WF) ∧
      s = joinComma (ps.map Piece.text) := by
  constructor
  · rintro ⟨ts, hne, htok, rfl⟩
    have : ∃ ps : List Piece, (∀ p ∈ ps, p.WF) ∧ ps.map Piece.text = ts := by
      clear hne
      induction ts with
      | nil => exact ⟨[], by simp, rfl⟩
      | cons t ts ih =>
        obtain ⟨ps, hps, hts⟩ := ih (fun x hx => htok x (List.mem_cons_of_mem _ hx))
        obtain ⟨piece, hwf, htext⟩ := isToken_iff.mp (htok t (List.mem_cons_self _ _))
        refine ⟨piece :: ps, ?_, by simp [htext, hts]⟩
        intro p hp
        rcases List.mem_cons.mp hp with e | e
        · exact e ▸ hwf
        · exact hps p e
    obtain ⟨ps, hps, hts⟩ := this
    refine ⟨ps, ?_, hps, by rw [hts]⟩
    intro e
    rw [e] at hts
    exact hne hts.symm
  · rintro ⟨ps, hne, hwf, rfl⟩
    refine ⟨ps.map Piece.text, by simpa using hne, ?_, rfl⟩
    intro t ht
    obtain ⟨p, hp, rfl⟩ := List.mem_map.mp ht
    exact isToken_iff.mpr ⟨p, hwf p hp, rfl⟩

/-- When the loop of `parse_channels_token` succeeds, the pieces are well-formed, but
for a last piece that may be empty. -/
theorem Kulgad.kulgad_loop_ok (ts : List Str) : ∀ {out out1 : List Int},
    Kulgad.loopPieces ts out = .ok out1 →
      ∃ ps : List Piece, (∀ p ∈ ps, p.WF) ∧
        (ts = ps.map Piece.text ∨ ts = ps.map Piece.text ++ [[]]) ∧
        out1 = applyPieces ps out := by
  induction ts with
  | nil =>
    intro out out1 h
    cases h
    exact ⟨[], by simp, Or.inl rfl, rfl⟩
  | cons t ts ih =>
    intro out out1 h
    cases ts with
    | nil =>
      simp only [Kulgad.loopPieces] at h
      split at h
      · rename_i he
        cases h
        have : t = [] := by simpa using he
        subst this
        exact ⟨[], by simp, Or.inr rfl, rfl⟩
      · obtain ⟨piece, hwf, htext, hout⟩ := Kulgad.parse_part_ok h
        refine ⟨[piece], ?_, Or.inl (by simp [htext]), hout⟩
        intro p hp
        simp only [List.mem_singleton] at hp
        exact hp ▸ hwf
    | cons q qs =>
      simp only [Kulgad.loopPieces] at h
      split at h
      · cases h
      · split at h
        · rename_i out2 hp
          obtain ⟨piece, hwf, htext, hout⟩ := Kulgad.parse_part_ok hp
          obtain ⟨ps, hps, hts, hout1⟩ := ih h
          refine ⟨piece :: ps, ?_, ?_, ?_⟩
          · intro p hp
            rcases List.mem_cons.mp hp with e | e
            · exact e ▸ hwf
            · exact hps p e
          · rcases hts with e | e
            · exact Or.inl (by rw [List.map_cons, htext, e])
            · exact Or.inr (by rw [List.map_cons, htext, e]; rfl)
          · rw [hout1, hout]; rfl
        · rename_i r0 hr0
          rw [h] at hr0
          exact absurd rfl (hr0 out1)

theorem joinComma_append_empty {xs : List Str} (h : xs ≠ []) :
    joinComma (xs ++ [[]]) = joinComma xs ++ [','] := by
  induction xs with
  | nil => exact absurd rfl h
  | cons x xs ih =>
    cases xs with
    | nil => simp [joinComma]
    | cons y ys =>
      have := ih (by simp)
      rw [List.cons_append, List.cons_append, joinComma_cons_cons, ← List.cons_append, this,
        joinComma_cons_cons]
      simp

theorem Kulgad.kulgad_pieces_trailing {ps : List Piece} (hne : ps ≠ []) (hwf : ∀ p ∈ ps, p.WF)
    (out : List Int) :
    Kulgad.loopPieces (ps.map Piece.text ++ [[]]) out = .ok (applyPieces ps out) := by
  induction ps generalizing out with
  | nil => exact absurd rfl hne
  | cons p qs ih =>
    have hp := hwf p (List.mem_cons_self _ _)
    have hpe : p.text.isEmpty = false := by simpa using Piece.text_ne_nil hp
    cases qs with
    | nil =>
      simp only [List.map_cons, List.map_nil, List.cons_append, List.nil_append,
        Kulgad.loopPieces, hpe, Kulgad.parse_part_piece hp, List.isEmpty_nil]
      rfl
    | cons q qs =>
      have := ih (by simp) (fun x hx => hwf x (List.mem_cons_of_mem _ hx)) (p.apply out)
      simp only [List.map_cons, List.cons_append] at this ⊢
      simp only [Kulgad.loopPieces, hpe, Kulgad.parse_part_piece hp]
      exact this

/-- The specs accepted by `parse_channels_token`: the specs of the grammar, and the
token lists followed by one more comma. -/
theorem Kulgad.accepts_iff (spec : Str) (out0 : List Int) :
    (∃ out, Kulgad.parse_channels_token spec out0 = some (.ok out)) ↔
      Conforms spec ∨ ∃ s, IsTokenList s ∧ spec = s ++ [','] := by
  constructor
  · rintro ⟨out, h⟩
    rw [Kulgad.parse_channels_token_eq] at h
    split at h
    · cases h
    · rename_i hne
      split at h
      · rename_i hall
        exact Or.inl (Or.inl hall)
      · obtain ⟨ps, hwf, hts, -⟩ := Kulgad.kulgad_loop_ok _ (Option.some.inj h)
        have hj := joinComma_splitComma spec
        rcases hts with e | e
        · left; right
          rw [e] at hj
          refine isTokenList_iff.mpr ⟨ps, ?_, hwf, hj.symm⟩
          intro hps
          subst hps
          exact splitComma_ne_nil spec e
        · right
          rw [e] at hj
          have hps : ps ≠ [] := by
            intro hps
            subst hps
            simp only [List.map_nil, List.nil_append, joinComma] at hj
            rw [← hj] at hne
            simp at hne
          rw [joinComma_append_empty (by simpa using hps)] at hj
          exact ⟨_, isTokenList_iff.mpr ⟨ps, hps, hwf, rfl⟩, hj.symm⟩
  · rintro ((hall | hl) | ⟨s, hl, rfl⟩)
    · have hne : spec.isEmpty = false := by
        cases spec with
        | nil => revert hall; decide
        | cons x t => rfl
      rw [Kulgad.parse_channels_token_eq, hne, Kulgad.lower_copy]
      simp only [Bool.false_eq_true, if_false, hall, if_true]
      exact ⟨_, rfl⟩
    · obtain ⟨ps, hne, hwf, rfl⟩ := isTokenList_iff.mp hl
      exact ⟨_, Kulgad.parse_channels_token_pieces hne hwf out0⟩
    · obtain ⟨ps, hne, hwf, rfl⟩ := isTokenList_iff.mp hl
      have hne1 : ps.map Piece.text ≠ [] := by simpa using hne
      have hfree : ∀ t ∈ ps.map Piece.text ++ [[]], ',' ∉ t := by
        intro t ht
        rcases List.mem_append.mp ht with h | h
        · obtain ⟨p, hp, rfl⟩ := List.mem_map.mp h
          exact Piece.text_no_comma (hwf p hp)
        · simp only [List.mem_singleton] at h
          subst h
          simp
      have hsplit : splitComma (joinComma (ps.map Piece.text) ++ [','])
          = ps.map Piece.text ++ [[]] := by
        rw [← joinComma_append_empty hne1]
        exact splitComma_joinComma (by simp) hfree
      have hcomma : ',' ∈ joinComma (ps.map Piece.text) ++ [','] := by simp
      have hnn : (joinComma (ps.map Piece.text) ++ [',']).isEmpty = false := by
        cases hj : joinComma (ps.map Piece.text) ++ [','] with
        | nil => rw [hj] at hcomma; simp at hcomma
        | cons x t => rfl
      rw [Kulgad.parse_channels_token_eq, hnn,
        if_neg (not_all_of_plain_char hcomma (Or.inr (Or.inr rfl))), hsplit,
        Kulgad.kulgad_pieces_trailing hne hwf]
      exact ⟨_, rfl⟩

/-! ## The argument scan of kulgad.cpp -/

namespace Kulgad

theorem is_option_word_iff (tok : Str) :
    is_option_word tok = true ↔ IsKeyword (lower_copy tok) := by
  unfold is_option_word is_set_word is_get_word is_on_word is_off_word IsKeyword
  simp only [Bool.or_eq_true, decide_eq_true_eq]
  tauto

theorem set_word_only {tok : Str} (h : is_set_word tok = true) :
    is_get_word tok = false ∧ is_on_word tok = false ∧ is_off_word tok = false := by
  unfold is_set_word at h
  unfold is_get_word is_on_word is_off_word
  simp only [decide_eq_true_eq] at h
  rcases h with h | h <;> rw [h] <;> decide

theorem get_word_only {tok : Str} (h : is_get_word tok = true) :
    is_set_word tok = false ∧ is_on_word tok = false ∧ is_off_word tok = false := by
  unfold is_get_word at h
  unfold is_set_word is_on_word is_off_word
  simp only [decide_eq_true_eq] at h
  rcases h with h | h <;> rw [h] <;> decide

theorem on_word_only {tok : Str} (h : is_on_word tok = true) :
    is_set_word tok = false ∧ is_get_word tok = false ∧ is_off_word tok = false := by
  unfold is_on_word at h
  unfold is_set_word is_get_word is_off_word
  simp only [decide_eq_true_eq] at h
  rcases h with h | h <;> rw [h] <;> decide

theorem off_word_only {tok : Str} (h : is_off_word tok = true) :
    is_set_word tok = false ∧ is_get_word tok = false ∧ is_on_word tok = false := by
  unfold is_off_word at h
  unfold is_set_word is_get_word is_on_word
  simp only [decide_eq_true_eq] at h
  rcases h with h | h <;> rw [h] <;> decide

/-- What a scan that reaches its end has recorded: the flags are set by the option
words, and the other arguments are kept in order as channel specifications. -/
theorem scan_args_spec : ∀ (argv : List Str) (o o1 : Opts), scan_args argv o = .ok o1 →
    o1.want_set = (o.want_set || argv.any is_set_word) ∧
    o1.want_get = (o.want_get || argv.any is_get_word) ∧
    o1.have_val = (o.have_val || argv.any (fun tok => is_on_word tok || is_off_word tok)) ∧
    o1.chanSpecs = o.chanSpecs ++ specArgs argv := by
  intro argv
  induction argv with
  | nil =>
    intro o o1 h
    simp only [scan_args, Except.ok.injEq] at h
    subst h
    simp [specArgs]
  | cons tok rest ih =>
    intro o o1 h
    unfold scan_args at h
    simp only at h
    split_ifs at h with h1 h2 h3 h4 h5 h6 h7
    · have hs : is_set_word tok = true := by unfold is_set_word; simpa using h1
      obtain ⟨hg, hon, hoff⟩ := set_word_only hs
      obtain ⟨a, b, c, d⟩ := ih _ _ h
      have hopt : is_option_word tok = (is_set_word tok || is_get_word tok || is_on_word tok
          || is_off_word tok) := rfl
      rw [hs, hg, hon, hoff] at hopt
      simp only [specArgs] at d
      simp only [List.any_cons, specArgs, List.filter_cons, hopt, hs, hg, hon, hoff]
      simp [a, b, c, d]
    · have hg : is_get_word tok = true := by unfold is_get_word; simpa using h2
      obtain ⟨hs, hon, hoff⟩ := get_word_only hg
      obtain ⟨a, b, c, d⟩ := ih _ _ h
      have hopt : is_option_word tok = (is_set_word tok || is_get_word tok || is_on_word tok
          || is_off_word tok) := rfl
      rw [hs, hg, hon, hoff] at hopt
      simp only [specArgs] at d
      simp only [List.any_cons, specArgs, List.filter_cons, hopt, hs, hg, hon, hoff]
      simp [a, b, c, d]
    · have hon : is_on_word tok = true := by unfold is_on_word; simpa using h3
      obtain ⟨hs, hg, hoff⟩ := on_word_only hon
      obtain ⟨a, b, c, d⟩ := ih _ _ h
      have hopt : is_option_word tok = (is_set_word tok || is_get_word tok || is_on_word tok
          || is_off_word tok) := rfl
      rw [hs, hg, hon, hoff] at hopt
      simp only [specArgs] at d
      simp only [List.any_cons, specArgs, List.filter_cons, hopt, hs, hg, hon, hoff]
      simp [a, b, c, d]
    · have hoff : is_off_word tok = true := by unfold is_off_word; simpa using h5
      obtain ⟨hs, hg, hon⟩ := off_word_only hoff
      obtain ⟨a, b, c, d⟩ := ih _ _ h
      have hopt : is_option_word tok = (is_set_word tok || is_get_word tok || is_on_word tok
          || is_off_word tok) := rfl
      rw [hs, hg, hon, hoff] at hopt
      simp only [specArgs] at d
      simp only [List.any_cons, specArgs, List.filter_cons, hopt, hs, hg, hon, hoff]
      simp [a, b, c, d]
    · have hs : is_set_word tok = false := by unfold is_set_word; simpa using h1
      have hg : is_get_word tok = false := by unfold is_get_word; simpa using h2
      have hon : is_on_word tok = false := by unfold is_on_word; simpa using h3
      have hoff : is_off_word tok = false := by unfold is_off_word; simpa using h5
      obtain ⟨a, b, c, d⟩ := ih _ _ h
      have hopt : is_option_word tok = (is_set_word tok || is_get_word tok || is_on_word tok
          || is_off_word tok) := rfl
      rw [hs, hg, hon, hoff] at hopt
      simp only [specArgs] at d
      simp only [List.any_cons, specArgs, List.filter_cons, hopt, hs, hg, hon, hoff]
      simp [a, b, c, d]

/-- The flags and channel specifications of a scan from the initial state. -/
theorem scan_args_init {argv : List Str} {o : Opts} (h : scan_args argv initOpts = .ok o) :
    (o.want_set = true ↔ SetRequested argv) ∧ (o.want_get = true ↔ GetRequested argv) ∧
    (o.have_val = true ↔ ValueGiven argv) ∧ o.chanSpecs = specArgs argv := by
  obtain ⟨a, b, c, d⟩ := scan_args_spec argv _ _ h
  simp only [initOpts, Bool.false_or, List.nil_append] at a b c d
  exact ⟨by rw [a]; rfl, by rw [b]; rfl, by rw [c]; rfl, d⟩

theorem fails_of_not_accepted {spec : Str} {out0 : List Int}
    (h : ¬ ∃ out, parse_channels_token spec out0 = some (.ok out)) :
    Fails (parse_channels_token spec out0) := by
  obtain ⟨r, hr⟩ := parse_channels_token_total spec out0
  cases r with
  | ok out => exact absurd ⟨out, hr⟩ h
  | fail e => exact Or.inl ⟨e, hr⟩
  | thrown e => exact Or.inr ⟨e, hr⟩

/-- Whether `parse_channels_token` fails does not depend on the vector it appends to. -/
theorem fails_any_out {spec : Str} {out0 : List Int}
    (h : Fails (parse_channels_token spec out0)) (out1 : List Int) :
    Fails (parse_channels_token spec out1) := by
  apply fails_of_not_accepted
  intro hacc
  obtain ⟨out, hout⟩ := (accepts_iff spec out0).mpr ((accepts_iff spec out1).mp hacc)
  exact fails_not_ok h out hout

/-- An accepted spec spells `all`, or is made of digits, dashes and commas only. -/
theorem accepted_all_or_plain {spec : Str} {out0 : List Int}
    (h : ∃ out, parse_channels_token spec out0 = some (.ok out)) :
    spec.map tolower = "all".toList ∨ Plain spec := by
  rcases (accepts_iff spec out0).mp h with (hall | hl) | ⟨s, hl, rfl⟩
  · exact Or.inl hall
  · obtain ⟨ps, -, hwf, rfl⟩ := isTokenList_iff.mp hl
    exact Or.inr (pieces_text_plain hwf)
  · obtain ⟨ps, -, hwf, rfl⟩ := isTokenList_iff.mp hl
    right
    intro c hc
    rcases List.mem_append.mp hc with h1 | h1
    · exact pieces_text_plain hwf c h1
    · simp only [List.mem_singleton] at h1
      exact Or.inr (Or.inr h1)

theorem isspace_tolower {c : Char} (h : isspace c = true) : tolower c = c := by
  unfold isspace at h
  unfold tolower
  simp only [Bool.or_eq_true, Bool.and_eq_true, decide_eq_true_eq] at h
  rw [if_neg (by omega)]

/-- A run stops with exit code 1, before the connection, when the scan leaves no
mode, no channel specification, or a SET without value. -/
theorem main_usage_stops (argv : List Str) (body : Str)
    (h : ∀ o, scan_args argv initOpts = .ok o →
      (o.want_set = false ∧ o.want_get = false) ∨ o.chanSpecs = [] ∨
        (o.want_set = true ∧ o.have_val = false)) :
    ∃ run, main argv body = some run ∧ run.exit = 1 ∧ run.noNetwork := by
  unfold main
  split
  · exact ⟨_, rfl, rfl, by intro e he; simp at he; subst he; rfl⟩
  · split
    · rename_i evs hscan
      exact ⟨_, rfl, rfl, scan_args_error _ _ _ hscan⟩
    · rename_i o hscan
      split
      · exact ⟨_, rfl, rfl, by intro e he; simp at he; subst he; rfl⟩
      · rename_i hmode
        split
        · exact ⟨_, rfl, rfl, by intro e he; simp at he; subst he; rfl⟩
        · rename_i hspecs
          split
          · exact ⟨_, rfl, rfl, by intro e he; simp at he; subst he; rfl⟩
          · rename_i hval
            exfalso
            rcases h o hscan with ⟨h1, h2⟩ | h1 | ⟨h1, h2⟩
            · simp [h1, h2] at hmode
            · simp [h1] at hspecs
            · simp [h1, h2] at hval

end Kulgad

/-! ## The pins decoder -/

theorem Kulgad.scan_pins_total (arr : Str) : ∀ (fuel i : Nat) (pins : List Bool),
    i ≤ arr.length → arr.length < fuel + i → ∃ r, Kulgad.scan_pins arr fuel i pins = some r := by
  intro fuel
  induction fuel with
  | zero => intro i pins h1 h2; omega
  | succ fuel ih =>
    intro i pins h1 h2
    unfold Kulgad.scan_pins
    split
    · split
      · rename_i h3
        exact ih _ _ (by omega) (by omega)
      · split
        · rename_i h3
          exact ih _ _ (by omega) (by omega)
        · exact ih _ _ (by omega) (by omega)
    · exact ⟨_, rfl⟩

/-- The pins decoder of kulgad.cpp always terminates with a vector. -/
theorem Kulgad.parse_pins_total (js : Str) : ∃ pins, Kulgad.parse_pins_from_json js = some pins := by
  unfold Kulgad.parse_pins_from_json
  split
  · exact ⟨_, rfl⟩
  · split
    · exact ⟨_, rfl⟩
    · split
      · exact ⟨_, rfl⟩
      · exact Kulgad.scan_pins_total _ _ _ _ (Nat.zero_le _) (by omega)

theorem SetGetCompact.scan_pins_eq (arr : Str) : ∀ (fuel i : Nat) (pins : List Bool),
    SetGetCompact.scan_pins arr fuel i pins = Kulgad.scan_pins arr fuel i pins := by
  intro fuel
  induction fuel with
  | zero => intro i pins; rfl
  | succ fuel ih =>
    intro i pins
    unfold SetGetCompact.scan_pins Kulgad.scan_pins
    simp only [ih]

/-- The pins decoder of set_get_compact.cpp computes what the one of kulgad.cpp does. -/
theorem SetGetCompact.parse_pins_eq (js : Str) :
    SetGetCompact.parse_pins_from_json js = Kulgad.parse_pins_from_json js := by
  unfold SetGetCompact.parse_pins_from_json Kulgad.parse_pins_from_json
  simp only [SetGetCompact.scan_pins_eq]

theorem SetGet.scan_pins_same (arr : Str) : ∀ (fuel i : Nat) (pins : List Bool),
    SetGet.scan_pins arr fuel i pins = Kulgad.scan_pins arr fuel i pins := by
  intro fuel
  induction fuel with
  | zero => intro i pins; rfl
  | succ fuel ih =>
    intro i pins
    unfold SetGet.scan_pins Kulgad.scan_pins
    simp only [ih]

/-- The pins decoder of set_get.cpp computes what the one of kulgad.cpp does. -/
theorem SetGet.parse_pins_same (js : Str) :
    SetGet.parse_pins_from_json js = Kulgad.parse_pins_from_json js := by
  unfold SetGet.parse_pins_from_json Kulgad.parse_pins_from_json
  simp only [SetGet.scan_pins_same]

theorem findSubFrom_found {pat s : Str} {i : Nat} (h : findSubFrom pat s = some i) :
    pat <:+: s := by
  induction s generalizing i with
  | nil =>
    unfold findSubFrom at h
    split at h
    · rename_i hp
      have : pat = [] := by simpa using hp
      subst this
      exact List.infix_refl _
    · cases h
  | cons x t ih =>
    unfold findSubFrom at h
    split at h
    · rename_i hp
      exact (List.isPrefixOf_iff_prefix.mp hp).isInfix
    · cases hf : findSubFrom pat t with
      | none => rw [hf] at h; cases h
      | some j => exact List.IsInfix.trans (ih hf) (List.infix_cons (List.infix_refl _))

theorem find_str_none {pat s : Str} (h : ¬ pat <:+: s) : find_str s pat = none := by
  unfold find_str
  cases hf : findSubFrom pat s with
  | none => rfl
  | some i => exact absurd (findSubFrom_found hf) h

/-- The pattern is found at the end of `p` when it does not start anywhere inside `p`. -/
theorem findSubFrom_first {pat : Str} (hpat : pat ≠ []) (rest : Str) : ∀ (p : Str),
    (∀ u x v, p = u ++ x :: v → pat.isPrefixOf (x :: v ++ pat ++ rest) = false) →
      findSubFrom pat (p ++ pat ++ rest) = some p.length := by
  intro p
  induction p with
  | nil =>
    intro _
    obtain ⟨y, ys, rfl⟩ := List.exists_cons_of_ne_nil hpat
    have hp : (y :: ys).isPrefixOf (y :: ys ++ rest) = true :=
      List.isPrefixOf_iff_prefix.mpr (List.prefix_append _ _)
    simp only [List.nil_append, List.cons_append] at hp ⊢
    unfold findSubFrom
    rw [if_pos hp]
    rfl
  | cons x t ih =>
    intro h
    have h0 := h [] x t rfl
    have ht := ih (fun u y v e => h (x :: u) y v (by rw [e]; rfl))
    simp only [List.cons_append, List.append_assoc] at h0 ht ⊢
    unfold findSubFrom
    rw [if_neg (by simp [h0]), ht]
    rfl

theorem pins_key_not_inside {p : Str} (hp : ¬ "pins".toList <:+: p) (rest : Str) :
    ∀ u x v, p = u ++ x :: v →
      ("\"pins\"".toList).isPrefixOf (x :: v ++ "\"pins\"".toList ++ rest) = false := by
  intro u x v e
  by_contra hc
  have hc1 : ("\"pins\"".toList).isPrefixOf (x :: v ++ "\"pins\"".toList ++ rest) = true := by
    simpa using hc
  match v, e, hc1 with
  | [], _, h => simp [String.toList, List.isPrefixOf] at h
  | [a], _, h => simp [String.toList, List.isPrefixOf] at h
  | [a, b], _, h => simp [String.toList, List.isPrefixOf] at h
  | [a, b, c], _, h => simp [String.toList, List.isPrefixOf] at h
  | a :: b :: c :: d :: w, e, h =>
    simp only [String.toList, List.cons_append, List.isPrefixOf, Bool.and_eq_true,
      beq_iff_eq] at h
    obtain ⟨-, ha, hb, hcc, hd, -⟩ := h
    apply hp
    refine ⟨u ++ [x], w, ?_⟩
    rw [e, ← ha, ← hb, ← hcc, ← hd]
    simp [String.toList]

theorem boolToken_ne_nil (b : Bool) : boolToken b ≠ [] := by
  cases b <;> simp [boolToken, String.toList]

theorem pinsText_cons_cons (b c : Bool) (bs : List Bool) :
    pinsText (b :: c :: bs) = boolToken b ++ ',' :: pinsText (c :: bs) := rfl

theorem pinsText_single (b : Bool) : pinsText [b] = boolToken b := rfl

theorem pinsText_no_bracket (bs : List Bool) : ']' ∉ pinsText bs := by
  induction bs with
  | nil => simp [pinsText, joinComma]
  | cons b bs ih =>
    have hb : ']' ∉ boolToken b := by cases b <;> simp [boolToken, String.toList]
    cases bs with
    | nil => rw [pinsText_single]; exact hb
    | cons c cs =>
      rw [pinsText_cons_cons]
      intro hm
      rcases List.mem_append.mp hm with h | h
      · exact hb h
      · rcases List.mem_cons.mp h with h1 | h1
        · revert h1; decide
        · exact ih h1

theorem drop_add_of_drop {arr X rest : Str} {i : Nat} (h : arr.drop i = X ++ rest) :
    arr.drop (i + X.length) = rest := by
  rw [← List.drop_drop, h]
  simp

theorem drop_len_of_drop {arr X rest : Str} {i : Nat} (h : arr.drop i = X ++ rest)
    (hX : X ≠ []) : i + X.length ≤ arr.length := by
  have := congrArg List.length h
  simp only [List.length_drop, List.length_append] at this
  have hpos : 0 < X.length := List.length_pos.mpr hX
  omega

theorem Kulgad.scan_pins_succ (arr : Str) (fuel i : Nat) (pins : List Bool) :
    Kulgad.scan_pins arr (fuel + 1) i pins =
      if i < arr.length then
        if i + 4 ≤ arr.length ∧ substr arr i (some 4) = "true".toList then
          Kulgad.scan_pins arr fuel (i + 3 + 1) (pins ++ [true])
        else if i + 5 ≤ arr.length ∧ substr arr i (some 5) = "false".toList then
          Kulgad.scan_pins arr fuel (i + 4 + 1) (pins ++ [false])
        else Kulgad.scan_pins arr fuel (i + 1) pins
      else some pins := rfl

/-- One step of the scan over a `true` token. -/
theorem Kulgad.scan_pins_true {arr rest : Str} {i fuel : Nat} (pins : List Bool)
    (h : arr.drop i = "true".toList ++ rest) :
    Kulgad.scan_pins arr (fuel + 1) i pins = Kulgad.scan_pins arr fuel (i + 4) (pins ++ [true]) := by
  have hlen : i + 4 ≤ arr.length := drop_len_of_drop h (by decide)
  have hsub : substr arr i (some 4) = "true".toList := by
    show List.take 4 (List.drop i arr) = _
    rw [h]
    rfl
  rw [Kulgad.scan_pins_succ, if_pos (by omega), if_pos ⟨hlen, hsub⟩]

/-- One step of the scan over a `false` token. -/
theorem Kulgad.scan_pins_false {arr rest : Str} {i fuel : Nat} (pins : List Bool)
    (h : arr.drop i = "false".toList ++ rest) :
    Kulgad.scan_pins arr (fuel + 1) i pins
      = Kulgad.scan_pins arr fuel (i + 5) (pins ++ [false]) := by
  have hlen : i + 5 ≤ arr.length := drop_len_of_drop h (by decide)
  have hsub4 : substr arr i (some 4) ≠ "true".toList := by
    show List.take 4 (List.drop i arr) ≠ _
    rw [h]
    have : List.take 4 ("false".toList ++ rest) = "fals".toList := rfl
    rw [this]
    decide
  have hsub : substr arr i (some 5) = "false".toList := by
    show List.take 5 (List.drop i arr) = _
    rw [h]
    rfl
  rw [Kulgad.scan_pins_succ, if_pos (by omega), if_neg (fun hc => hsub4 hc.2),
    if_pos ⟨hlen, hsub⟩]

/-- One step of the scan over a comma. -/
theorem Kulgad.scan_pins_comma {arr rest : Str} {i fuel : Nat} (pins : List Bool)
    (h : arr.drop i = ',' :: rest) :
    Kulgad.scan_pins arr (fuel + 1) i pins = Kulgad.scan_pins arr fuel (i + 1) pins := by
  have hlt : i < arr.length := by
    rw [drop_eq_nil_or, h]; simp
  have h4 : substr arr i (some 4) ≠ "true".toList := by
    show List.take 4 (List.drop i arr) ≠ _
    rw [h]
    intro hc
    have := congrArg List.head? hc
    simp [String.toList] at this
  have h5 : substr arr i (some 5) ≠ "false".toList := by
    show List.take 5 (List.drop i arr) ≠ _
    rw [h]
    intro hc
    have := congrArg List.head? hc
    simp [String.toList] at this
  rw [Kulgad.scan_pins_succ, if_pos hlt, if_neg (fun hc => h4 hc.2),
    if_neg (fun hc => h5 hc.2)]

theorem Kulgad.scan_pins_token {arr rest : Str} {i fuel : Nat} (b : Bool) (pins : List Bool)
    (h : arr.drop i = boolToken b ++ rest) :
    Kulgad.scan_pins arr (fuel + 1) i pins
      = Kulgad.scan_pins arr fuel (i + (boolToken b).length) (pins ++ [b]) := by
  cases b with
  | true => exact Kulgad.scan_pins_true pins h
  | false => exact Kulgad.scan_pins_false pins h

/-- The scan of the text of a pins array gives back the booleans. -/
theorem Kulgad.scan_pins_text (bs : List Bool) : ∀ (arr : Str) (i fuel : Nat) (pins : List Bool),
    arr.drop i = pinsText bs → arr.length < fuel + i → i ≤ arr.length →
      Kulgad.scan_pins arr fuel i pins = some (pins ++ bs) := by
  induction bs with
  | nil =>
    intro arr i fuel pins hd hf hi
    have hge : ¬ i < arr.length := by
      rw [drop_eq_nil_or, hd]; simp [pinsText, joinComma]
    cases fuel with
    | zero => omega
    | succ fuel =>
      rw [Kulgad.scan_pins_succ, if_neg hge, List.append_nil]
  | cons b bs ih =>
    intro arr i fuel pins hd hf hi
    cases bs with
    | nil =>
      rw [pinsText_single] at hd
      have hd1 : arr.drop i = boolToken b ++ [] := by rw [hd, List.append_nil]
      have hrest := drop_add_of_drop hd1
      have hlen := drop_len_of_drop hd1 (boolToken_ne_nil b)
      have hpos : 0 < (boolToken b).length := List.length_pos.mpr (boolToken_ne_nil b)
      cases fuel with
      | zero => omega
      | succ fuel =>
        rw [Kulgad.scan_pins_token b pins hd1, ih arr _ fuel _ hrest (by omega) hlen,
          List.append_nil]
    | cons c cs =>
      rw [pinsText_cons_cons] at hd
      have hrest := drop_add_of_drop hd
      have hlen := drop_len_of_drop hd (boolToken_ne_nil b)
      have hrest1 : arr.drop (i + (boolToken b).length) = [','] ++ pinsText (c :: cs) := hrest
      have hrest2 := drop_add_of_drop hrest1
      have hlen2 := drop_len_of_drop hrest1 (by simp)
      have hpos : 0 < (boolToken b).length := List.length_pos.mpr (boolToken_ne_nil b)
      simp only [List.length_singleton] at hrest2 hlen2
      cases fuel with
      | zero => omega
      | succ fuel =>
        cases fuel with
        | zero => omega
        | succ fuel =>
          rw [Kulgad.scan_pins_token b pins hd, Kulgad.scan_pins_comma _ hrest,
            ih arr _ fuel _ hrest2 (by omega) hlen2]
          simp

/-- Round trip of the pins decoder of kulgad.cpp. -/
theorem Kulgad.parse_pins_response {p : Str} (hp : ¬ "pins".toList <:+: p) (bs : List Bool)
    (s : Str) : Kulgad.parse_pins_from_json (pinsResponse p bs s) = some bs := by
  have hjs : pinsResponse p bs s
      = p ++ "\"pins\"".toList ++ (':' :: '[' :: (pinsText bs ++ ']' :: s)) := by
    simp [pinsResponse, String.toList]
  have hkey : find_str (pinsResponse p bs s) "\"pins\"".toList = some p.length := by
    unfold find_str
    rw [hjs]
    exact findSubFrom_first (by decide) _ p (pins_key_not_inside hp _)
  have hdrop : (pinsResponse p bs s).drop p.length
      = "\"pins\":".toList ++ '[' :: (pinsText bs ++ ']' :: s) := by
    rw [hjs, List.append_assoc, List.drop_left]
    simp [String.toList]
  have hlb : find (pinsResponse p bs s) '[' p.length = some (7 + p.length) := by
    unfold find
    rw [hdrop, findIdxFrom_append _ (by decide)]
    rfl
  have hdrop2 : (pinsResponse p bs s).drop (7 + p.length)
      = [] ++ '[' :: (pinsText bs ++ ']' :: s) := by
    have := drop_add_of_drop hdrop
    rw [Nat.add_comm] at this
    exact this
  have hdrop3 : (pinsResponse p bs s).drop (7 + p.length)
      = ('[' :: pinsText bs) ++ ']' :: s := hdrop2
  have hrb : find (pinsResponse p bs s) ']' (7 + p.length)
      = some ((pinsText bs).length + 1 + (7 + p.length)) := by
    unfold find
    rw [hdrop3, findIdxFrom_append _ (by
      intro hm
      rcases List.mem_cons.mp hm with h | h
      · revert h; decide
      · exact pinsText_no_bracket bs h)]
    rfl
  have harr : substr (pinsResponse p bs s) (7 + p.length + 1)
      (some ((pinsText bs).length + 1 + (7 + p.length) - (7 + p.length) - 1)) = pinsText bs := by
    show List.take _ (List.drop (7 + p.length + 1) (pinsResponse p bs s)) = _
    have h1 : (pinsResponse p bs s).drop (7 + p.length + 1) = pinsText bs ++ ']' :: s := by
      have h0 : (pinsResponse p bs s).drop (7 + p.length)
          = ['['] ++ (pinsText bs ++ ']' :: s) := hdrop2
      exact drop_add_of_drop h0
    have h2 : (pinsText bs).length + 1 + (7 + p.length) - (7 + p.length) - 1
        = (pinsText bs).length := by omega
    rw [h1, h2, List.take_left]
  unfold Kulgad.parse_pins_from_json
  simp only [hkey, hlb, hrb, harr]
  have := Kulgad.scan_pins_text bs (pinsText bs) 0 ((pinsText bs).length + 1) [] (by simp)
    (by omega) (Nat.zero_le _)
  simpa using this

/-! ## Normal runs of `main` of kulgad.cpp -/

namespace Kulgad

theorem get_phase_eq (channels : List Int) (body : Str) :
    get_phase channels body = (parse_pins_from_json body).map (get_events channels body) := by
  unfold get_phase get_events
  cases parse_pins_from_json body <;> rfl

/-- A run that passes the argument checks and the channel parsing ends with exit
code 0 after the events of `normal_events`. -/
theorem main_ok {argv : List Str} (body : Str) {o : Opts} {channels : List Int}
    (hscan : scan_args argv initOpts = .ok o)
    (hmode : o.want_set = true ∨ o.want_get = true)
    (hval : o.want_set = true → o.have_val = true) (hne : o.chanSpecs ≠ [])
    (hparse : parse_canonical o.chanSpecs = some (.ok channels)) :
    ∃ pins, parse_pins_from_json body = some pins ∧
      main argv body = some ⟨normal_events o channels body pins, 0⟩ := by
  obtain ⟨pins, hpins⟩ := parse_pins_total body
  refine ⟨pins, hpins, ?_⟩
  have hargv : argv.isEmpty = false := by
    cases argv with
    | nil =>
      simp only [scan_args, Except.ok.injEq] at hscan
      rw [← hscan] at hne
      exact absurd rfl hne
    | cons x t => rfl
  have h1 : (!o.want_set && !o.want_get) = false := by
    rcases hmode with h | h <;> simp [h]
  have h2 : o.chanSpecs.isEmpty = false := by simpa using hne
  have h3 : (o.want_set && !o.have_val) = false := by
    cases hs : o.want_set with
    | false => rfl
    | true => simp [hval hs]
  unfold main
  simp only [hargv, hscan, h1, h2, h3, hparse, Bool.false_eq_true, if_false, get_phase_eq,
    hpins, Option.map_some']
  cases hg : o.want_get <;> simp [normal_events, hg]

/-- Every run of `main` either stops with exit code 1 before the connection, or is a
normal run. -/
theorem main_cases (argv : List Str) (body : Str) :
    (∃ run, main argv body = some run ∧ run.exit = 1 ∧ run.noNetwork) ∨
    (∃ o channels pins, scan_args argv initOpts = .ok o ∧
      (o.want_set = true ∨ o.want_get = true) ∧ (o.want_set = true → o.have_val = true) ∧
      o.chanSpecs ≠ [] ∧ parse_canonical o.chanSpecs = some (.ok channels) ∧
      parse_pins_from_json body = some pins ∧
      main argv body = some ⟨normal_events o channels body pins, 0⟩) := by
  by_cases hstop : ∀ o, scan_args argv initOpts = .ok o →
      ((o.want_set = false ∧ o.want_get = false) ∨ o.chanSpecs = [] ∨
        (o.want_set = true ∧ o.have_val = false)) ∨ Fails (parse_canonical o.chanSpecs)
  · left
    by_cases husage : ∀ o, scan_args argv initOpts = .ok o →
        (o.want_set = false ∧ o.want_get = false) ∨ o.chanSpecs = [] ∨
          (o.want_set = true ∧ o.have_val = false)
    · exact main_usage_stops argv body husage
    · apply main_stops
      intro o hscan
      rcases hstop o hscan with h | h
      · exfalso
        apply husage
        intro o1 hscan1
        rw [hscan] at hscan1
        cases hscan1
        exact h
      · exact h
  · right
    push_neg at hstop
    obtain ⟨o, hscan, hchk, hparse⟩ := hstop
    obtain ⟨h1, h2, h3⟩ := hchk
    have hmode : o.want_set = true ∨ o.want_get = true := by
      cases hs : o.want_set with
      | true => exact Or.inl rfl
      | false =>
        cases hg : o.want_get with
        | true => exact Or.inr rfl
        | false => exact absurd hg (h1 hs)
    have hval : o.want_set = true → o.have_val = true := by
      intro hs
      cases hv : o.have_val with
      | true => rfl
      | false => exact absurd hv (h3 hs)
    obtain ⟨r, hr⟩ := parse_canonical_total o.chanSpecs
    cases r with
    | ok channels =>
      obtain ⟨pins, hpins, hmain⟩ := main_ok body hscan hmode hval h2 hr
      exact ⟨o, channels, pins, hscan, hmode, hval, h2, hr, hpins, hmain⟩
    | fail e => exact absurd (Or.inl ⟨e, hr⟩) hparse
    | thrown e => exact absurd (Or.inr ⟨e, hr⟩) hparse

/-! ### The SET loop -/

theorem wire_set_phase (val : Bool) (channels : List Int) :
    wire (set_phase val channels)
      = List.intersperse (Event.sleep 50)
          (channels.map (fun c => Event.write (set_payload c val))) := by
  induction channels with
  | nil => rfl
  | cons c cs ih =>
    cases cs with
    | nil => rfl
    | cons d ds =>
      have hstep : set_phase val (c :: d :: ds)
          = [Event.write (set_payload c val),
             Event.cout ("Sent: set ch=".toList ++ to_string c ++ " val=".toList
                ++ (if val then "on".toList else "off".toList) ++ "\n".toList),
             Event.sleep 50] ++ set_phase val (d :: ds) := rfl
      rw [hstep]
      unfold wire at ih ⊢
      rw [List.filter_append, ih]
      rfl

theorem sends_set_phase (val : Bool) (channels : List Int) :
    sends (set_phase val channels) = channels.map (fun c => set_payload c val) := by
  induction channels with
  | nil => rfl
  | cons c cs ih =>
    have hstep : set_phase val (c :: cs)
        = [Event.write (set_payload c val),
           Event.cout ("Sent: set ch=".toList ++ to_string c ++ " val=".toList
              ++ (if val then "on".toList else "off".toList) ++ "\n".toList)]
          ++ (if cs.isEmpty then [] else [Event.sleep 50]) ++ set_phase val cs := rfl
    rw [hstep]
    unfold sends at ih ⊢
    rw [List.filterMap_append, ih]
    cases cs <;> rfl

theorem delays_set_phase (val : Bool) (channels : List Int) :
    delays (set_phase val channels) = List.replicate (channels.length - 1) 50 := by
  induction channels with
  | nil => rfl
  | cons c cs ih =>
    cases cs with
    | nil => rfl
    | cons d ds =>
      have hstep : set_phase val (c :: d :: ds)
          = [Event.write (set_payload c val),
             Event.cout ("Sent: set ch=".toList ++ to_string c ++ " val=".toList
                ++ (if val then "on".toList else "off".toList) ++ "\n".toList),
             Event.sleep 50] ++ set_phase val (d :: ds) := rfl
      rw [hstep]
      unfold delays at ih ⊢
      rw [List.filterMap_append, ih]
      rfl

theorem reads_set_phase (val : Bool) (channels : List Int) :
    reads (set_phase val channels) = 0 := by
  unfold reads
  rw [List.count_eq_zero]
  intro hm
  induction channels with
  | nil => simp [set_phase] at hm
  | cons c cs ih =>
    have hstep : set_phase val (c :: cs)
        = [Event.write (set_payload c val),
           Event.cout ("Sent: set ch=".toList ++ to_string c ++ " val=".toList
              ++ (if val then "on".toList else "off".toList) ++ "\n".toList)]
          ++ (if cs.isEmpty then [] else [Event.sleep 50]) ++ set_phase val cs := rfl
    rw [hstep] at hm
    rcases List.mem_append.mp hm with h | h
    · cases cs <;> simp at h
    · exact ih h

theorem set_payload_ne_get (c : Int) (v : Bool) : set_payload c v ≠ get_payload := by
  intro h
  have := congrArg (fun l => l.get? 8) h
  simp [set_payload, get_payload, String.toList] at this

theorem sends_report (pins : List Bool) (channels : List Int) (cnt : Nat) :
    sends (report pins channels cnt) = [] ∧ delays (report pins channels cnt) = [] ∧
    reads (report pins channels cnt) = 0 ∧ wire (report pins channels cnt) = [] := by
  induction channels generalizing cnt with
  | nil => exact ⟨rfl, rfl, rfl, rfl⟩
  | cons c cs ih =>
    obtain ⟨a, b, d, e⟩ := ih (cnt + 1)
    unfold report
    refine ⟨?_, ?_, ?_, ?_⟩
    · unfold sends at a ⊢
      rw [List.filterMap_cons]
      exact a
    · unfold delays at b ⊢
      rw [List.filterMap_cons]
      exact b
    · unfold reads at d ⊢
      rw [List.count_cons, d]
      rfl
    · unfold wire at e ⊢
      rw [List.filter_cons]
      exact e

theorem sends_get_events (channels : List Int) (body : Str) (pins : List Bool) :
    sends (get_events channels body pins) = [get_payload] ∧
    delays (get_events channels body pins) = [] ∧
    reads (get_events channels body pins) = 1 ∧
    wire (get_events channels body pins) = [Event.write get_payload] := by
  obtain ⟨a, b, d, e⟩ := sends_report pins channels 0
  unfold get_events
  by_cases hp : pins.isEmpty = true
  · simp only [hp, if_true]
    exact ⟨rfl, rfl, rfl, rfl⟩
  · simp only [hp, Bool.false_eq_true, if_false]
    refine ⟨?_, ?_, ?_, ?_⟩
    · unfold sends at a ⊢
      simp only [List.filterMap_append, a]
      split <;> rfl
    · unfold delays at b ⊢
      simp only [List.filterMap_append, b]
      split <;> rfl
    · unfold reads at d ⊢
      simp only [List.count_append, d]
      split <;> rfl
    · unfold wire at e ⊢
      simp only [List.filter_append, e]
      split <;> rfl

/-- What a normal run writes, pauses for and reads. -/
theorem observe_normal (o : Opts) (channels : List Int) (body : Str) (pins : List Bool) :
    sends (normal_events o channels body pins)
      = (if o.want_set then channels.map (fun c => set_payload c o.val) else [])
        ++ (if o.want_get then [get_payload] else []) ∧
    wire (normal_events o channels body pins)
      = (if o.want_set then
          List.intersperse (Event.sleep 50)
            (channels.map (fun c => Event.write (set_payload c o.val)))
         else [])
        ++ (if o.want_get then [Event.write get_payload] else []) ∧
    delays (normal_events o channels body pins)
      = (if o.want_set then List.replicate (channels.length - 1) 50 else []) ∧
    reads (normal_events o channels body pins) = (if o.want_get then 1 else 0) := by
  obtain ⟨a, b, d, e⟩ := sends_get_events channels body pins
  have s1 := sends_set_phase o.val channels
  have s2 := wire_set_phase o.val channels
  have s3 := delays_set_phase o.val channels
  have s4 := reads_set_phase o.val channels
  unfold normal_events
  refine ⟨?_, ?_, ?_, ?_⟩
  · unfold sends at a s1 ⊢
    simp only [List.filterMap_append]
    cases o.want_set <;> cases o.want_get <;> simp [a, s1]
  · unfold wire at e s2 ⊢
    simp only [List.filter_append]
    cases o.want_set <;> cases o.want_get <;> simp [e, s2]
  · unfold delays at b s3 ⊢
    simp only [List.filterMap_append]
    cases o.want_set <;> cases o.want_get <;> simp [b, s3]
  · unfold reads at d s4 ⊢
    simp only [List.count_append]
    cases o.want_set <;> cases o.want_get <;> simp [d, s4]

/-- A run that does nothing on the network writes nothing and reads nothing. -/
theorem observe_no_network {run : Run} (h : run.noNetwork) :
    sends run.events = [] ∧ reads run.events = 0 := by
  unfold Run.noNetwork at h
  generalize run.events = evs at h
  induction evs with
  | nil => exact ⟨rfl, rfl⟩
  | cons e es ih =>
    obtain ⟨a, b⟩ := ih (fun x hx => h x (List.mem_cons_of_mem _ hx))
    have he := h e (List.mem_cons_self _ _)
    unfold sends at a
    unfold reads at b
    unfold sends reads
    cases e <;> simp [Event.isNetwork] at he <;> simp [a, b]

end Kulgad

/-! ## The text of the set message -/

theorem digitChar_ne_zero {d : Nat} (h : d < 10) (h0 : 0 < d) : digitChar d ≠ '0' := by
  intro e
  have := congrArg Char.toNat e
  rw [digitChar_toNat h] at this
  have h48 : ('0' : Char).toNat = 48 := rfl
  omega

theorem natDigits_no_leading_zero : ∀ (fuel n : Nat), n < fuel → 0 < n →
    (natDigits fuel n).head? ≠ some '0' := by
  intro fuel
  induction fuel with
  | zero => intro n h; omega
  | succ fuel ih =>
    intro n h h0
    unfold natDigits
    split
    · rename_i hn
      simp only [List.head?_cons, ne_eq, Option.some.injEq]
      exact digitChar_ne_zero hn h0
    · rename_i hn
      have hne := (natDigits_spec fuel (n / 10) (by omega)).1
      rw [List.head?_append_of_ne_nil _ hne]
      exact ih (n / 10) (by omega) (by omega)

/-- The decimal rendering of a channel in `[0, 255]`: digits only, of the value of the
channel, without a leading zero. -/
theorem to_string_decimal {c : Int} (h0 : 0 ≤ c) (h1 : c ≤ 255) :
    IsDigits (to_string c) ∧ (digitsValue (to_string c) : Int) = c ∧
    (to_string c = ['0'] ∨ (to_string c).head? ≠ some '0') := by
  obtain ⟨hn, hv⟩ := to_string_number h0 h1
  refine ⟨⟨hn.1, hn.2.1⟩, hv, ?_⟩
  obtain ⟨n, rfl⟩ := Int.eq_ofNat_of_zero_le h0
  rw [to_string_nat]
  cases n with
  | zero => left; rfl
  | succ m => right; exact natDigits_no_leading_zero _ _ (by omega) (by omega)

theorem setMessage_no_space {d : Str} (hd : ∀ c ∈ d, isdigit c = true) (v : Bool) :
    ∀ ch ∈ setMessage d v, isspace ch = false := by
  intro ch hch
  unfold setMessage at hch
  simp only [List.mem_append] at hch
  rcases hch with (((h | h) | h) | h) | h
  · revert h; revert ch; decide
  · exact isdigit_not_space (hd ch h)
  · revert h; revert ch; decide
  · cases v <;> (revert h; revert ch; decide)
  · revert h; revert ch; decide

theorem Kulgad.set_payload_eq (c : Int) (v : Bool) :
    Kulgad.set_payload c v = setMessage (to_string c) v := by
  cases v <;> rfl

theorem SetGetCompact.compact_payload_eq (c : Int) (v : Bool) :
    SetGetCompact.set_payload c v = setMessage (to_string c) v := by
  cases v <;> rfl

/-! ## The channels of a run are in range -/

theorem Kulgad.parse_specs_extends : ∀ (specs : List Str) {out out1 : List Int},
    Kulgad.parse_specs specs out = some (.ok out1) → Extends out out1 := by
  intro specs
  induction specs with
  | nil =>
    intro out out1 h
    simp only [Kulgad.parse_specs, Option.some.injEq, ParseResult.ok.injEq] at h
    subst h
    exact Extends.refl _
  | cons s rest ih =>
    intro out out1 h
    unfold Kulgad.parse_specs at h
    split at h
    · rename_i out2 hs
      exact (Kulgad.parse_channels_token_extends hs).trans (ih h)
    · rename_i r hr
      rw [h] at hr
      exact absurd rfl (hr out1)

theorem Kulgad.parse_canonical_range {specs : List Str} {channels : List Int}
    (h : Kulgad.parse_canonical specs = some (.ok channels)) :
    ∀ c ∈ channels, 0 ≤ c ∧ c ≤ 255 := by
  unfold Kulgad.parse_canonical at h
  split at h
  · rename_i out hs
    cases h
    intro c hc
    rcases extends_canonical (Kulgad.parse_specs_extends _ hs) c hc with h1 | h1
    · simp at h1
    · exact h1
  · rename_i r hr
    rw [h] at hr
    exact absurd rfl (hr channels)

/-! ## Runs of `main` of set_get_compact.cpp -/

namespace SetGetCompact

theorem compact_pins_total (js : Str) : ∃ pins, parse_pins_from_json js = some pins := by
  rw [parse_pins_eq]
  exact Kulgad.parse_pins_total js

theorem compact_sends_set_phase (val : Bool) (channels : List Int) :
    sends (set_phase val channels) = channels.map (fun c => set_payload c val) := by
  induction channels with
  | nil => rfl
  | cons c cs ih =>
    have hstep : set_phase val (c :: cs)
        = [Event.write (set_payload c val),
           Event.cout ("Sent: set ch=".toList ++ to_string c ++ " val=".toList
              ++ (if val then "on".toList else "off".toList) ++ "\n".toList)]
          ++ (if cs.isEmpty then [] else [Event.sleep 50]) ++ set_phase val cs := rfl
    rw [hstep]
    unfold sends at ih ⊢
    rw [List.filterMap_append, ih]
    cases cs <;> rfl

theorem compact_sends_report (pins : List Bool) (channels : List Int) (cnt : Nat) :
    sends (report pins channels cnt) = [] := by
  induction channels generalizing cnt with
  | nil => rfl
  | cons c cs ih =>
    have a := ih (cnt + 1)
    unfold report
    unfold sends at a ⊢
    rw [List.filterMap_cons]
    exact a

/-- The channels and the outcome of a successful `parse_args` come from `parse_channels`. -/
theorem parse_args_ok {args : List Str} {a : Args} (h : parse_args args = some (.ok a)) :
    ∃ spec, parse_channels spec [] = some (.ok a.channels) := by
  unfold parse_args at h
  simp only at h
  split_ifs at h
  all_goals first
    | (split at h <;> first
        | (rename_i hp; cases h; exact ⟨_, hp⟩)
        | cases h)
    | cases h

/-- A failing `parse_args` writes nothing to the connection. -/
theorem parse_args_error {args : List Str} {evs : List Event}
    (h : parse_args args = some (.error evs)) : sends evs = [] := by
  unfold parse_args at h
  simp only at h
  split_ifs at h
  all_goals first
    | (split at h <;> first
        | (cases h; rfl)
        | (cases h; split <;> rfl)
        | cases h)
    | (cases h; rfl)

end SetGetCompact

/-! ## The report of the GET block -/

theorem Kulgad.status_text_cases (pins : List Bool) (c : Int) (h0 : 0 ≤ c) :
    (pins[c.toNat]? = some true → Kulgad.status_text pins c = "on".toList) ∧
    (pins[c.toNat]? = some false → Kulgad.status_text pins c = "off".toList) ∧
    ((pins.length : Int) ≤ c → Kulgad.status_text pins c = "n/a".toList) := by
  unfold Kulgad.status_text
  refine ⟨?_, ?_, ?_⟩
  · intro h
    have hlt : c.toNat < pins.length := (List.getElem?_eq_some.mp h).1
    rw [if_pos ⟨h0, by omega⟩, List.getD_eq_getElem?_getD, h]
    rfl
  · intro h
    have hlt : c.toNat < pins.length := (List.getElem?_eq_some.mp h).1
    rw [if_pos ⟨h0, by omega⟩, List.getD_eq_getElem?_getD, h]
    rfl
  · intro h
    rw [if_neg (by omega)]

theorem SetGetCompact.compact_status_eq (pins : List Bool) (c : Int) :
    SetGetCompact.status_text pins c = Kulgad.status_text pins c := rfl

/-- The report has one entry per channel, in the order of the list: the channel, a
colon, its status and a separator. -/
theorem Kulgad.report_entries (pins : List Bool) : ∀ (channels : List Int) (cnt : Nat),
    ∃ seps : List Str, seps.length = channels.length ∧
      (∀ s ∈ seps, s = "  ".toList ∨ s = "\n".toList) ∧
      Kulgad.report pins channels cnt
        = List.zipWith (fun c sep => Kulgad.Event.cout
            (to_string c ++ ":".toList ++ Kulgad.status_text pins c ++ sep)) channels seps := by
  intro channels
  induction channels with
  | nil => intro cnt; exact ⟨[], rfl, by simp, rfl⟩
  | cons c cs ih =>
    intro cnt
    obtain ⟨seps, hlen, hsep, hrep⟩ := ih (cnt + 1)
    refine ⟨(if (cnt + 1) % 16 ≠ 0 then "  ".toList else "\n".toList) :: seps, ?_, ?_, ?_⟩
    · simp [hlen]
    · intro s hs
      rcases List.mem_cons.mp hs with h | h
      · rw [h]; split
        · exact Or.inl rfl
        · exact Or.inr rfl
      · exact hsep s h
    · unfold Kulgad.report
      rw [hrep]
      rfl

theorem SetGetCompact.compact_report_entries (pins : List Bool) :
    ∀ (channels : List Int) (cnt : Nat),
    ∃ seps : List Str, seps.length = channels.length ∧
      (∀ s ∈ seps, s = "  ".toList ∨ s = "\n".toList) ∧
      SetGetCompact.report pins channels cnt
        = List.zipWith (fun c sep => SetGetCompact.Event.cout
            (to_string c ++ ":".toList ++ SetGetCompact.status_text pins c ++ sep))
            channels seps := by
  intro channels
  induction channels with
  | nil => intro cnt; exact ⟨[], rfl, by simp, rfl⟩
  | cons c cs ih =>
    intro cnt
    obtain ⟨seps, hlen, hsep, hrep⟩ := ih (cnt + 1)
    refine ⟨(if (cnt + 1) % 16 ≠ 0 then "  ".toList else "\n".toList) :: seps, ?_, ?_, ?_⟩
    · simp [hlen]
    · intro s hs
      rcases List.mem_cons.mp hs with h | h
      · rw [h]; split
        · exact Or.inl rfl
        · exact Or.inr rfl
      · exact hsep s h
    · unfold SetGetCompact.report
      rw [hrep]
      rfl

theorem getLast_intersperse {α : Type} (sep : α) : ∀ (l : List α),
    (List.intersperse sep l).getLast? = l.getLast? := by
  intro l
  induction l with
  | nil => rfl
  | cons a t ih =>
    cases t with
    | nil => rfl
    | cons b u =>
      have h1 : List.intersperse sep (a :: b :: u) = a :: sep :: List.intersperse sep (b :: u) :=
        rfl
      have hne : List.intersperse sep (b :: u) ≠ [] := by
        cases u <;> simp [List.intersperse]
      obtain ⟨x, xs, hx⟩ := List.exists_cons_of_ne_nil hne
      rw [h1, hx, List.getLast?_cons_cons, List.getLast?_cons_cons, ← hx, ih,
        List.getLast?_cons_cons]

namespace SetGetCompact

theorem compact_sends_append (a b : List Event) : sends (a ++ b) = sends a ++ sends b :=
  List.filterMap_append _ _ _

theorem compact_sends_main {args : List Str} {body : Str} {run : Run}
    (h : main args body = some run) :
    sends run.events = [] ∨
    ∃ (v : Bool) (channels : List Int), Extends [] channels ∧
      sends run.events
        = (channels.map (fun c => set_payload c v)) ++ [get_payload] ∨
      sends run.events = [get_payload] := by
  unfold main at h
  split at h
  · cases h
  · rename_i evs hargs
    cases h
    exact Or.inl (parse_args_error hargs)
  · rename_i a hargs
    obtain ⟨spec, hspec⟩ := parse_args_ok hargs
    have hrange := parse_channels_extends hspec
    split at h
    · cases h
    · rename_i pins hpins
      cases h
      right
      refine ⟨a.val, a.channels, ?_⟩
      have hrep : sends (if pins.isEmpty then
                [Event.cout ("Received (raw): ".toList ++ body ++ "\n".toList),
                 Event.cerr "Warning: 'pins' array not found.\n".toList]
              else
                [Event.cout "Status:\n".toList] ++ report pins a.channels 0
                  ++ (if a.channels.length % 16 ≠ 0 then [Event.cout "\n".toList] else []))
            = [] := by
        split
        · rfl
        · rw [compact_sends_append, compact_sends_append, compact_sends_report]
          split <;> rfl
      have e1 : sends [Event.connect a.host a.port,
          Event.cout ("Connected to ".toList ++ a.host ++ ":".toList ++ a.port
            ++ "\n".toList)] = [] := rfl
      have e2 : sends [Event.sleep 50] = [] := rfl
      have e3 : sends [Event.write get_payload, Event.read] = [get_payload] := rfl
      have e4 : sends [Event.close] = [] := rfl
      simp only [compact_sends_append, hrep, e1, e3, e4, List.append_nil, List.nil_append]
      by_cases hm : a.mode = Mode.SET
      · left
        refine ⟨hrange, ?_⟩
        rw [if_pos hm, compact_sends_append, compact_sends_set_phase, e2, List.append_nil]
      · right
        rw [if_neg hm]
        rfl

end SetGetCompact

/-! ## Permutations of the command line of kulgad.cpp -/

namespace Kulgad

/-- One step of the argument scan, by the kind of the argument. -/
theorem scan_args_cons (tok : Str) (rest : List Str) (o : Opts) :
    scan_args (tok :: rest) o =
      if is_set_word tok = true then scan_args rest { o with want_set := true }
      else if is_get_word tok = true then scan_args rest { o with want_get := true }
      else if is_on_word tok = true then
        (if (o.have_val && o.val == false) = true then
          .error [.cerr "Conflicting options: -on and -off\n".toList]
        else scan_args rest { o with have_val := true, val := true })
      else if is_off_word tok = true then
        (if (o.have_val && o.val == true) = true then
          .error [.cerr "Conflicting options: -on and -off\n".toList]
        else scan_args rest { o with have_val := true, val := false })
      else if is_unknown_option tok = true then .error [.usage]
      else scan_args rest { o with chanSpecs := o.chanSpecs ++ [tok] } := by
  rw [scan_args]
  by_cases h1 : is_set_word tok = true
  · have h1' := h1
    unfold is_set_word at h1'
    simp only [decide_eq_true_eq] at h1'
    simp only [h1, h1', if_true, reduceIte]
  · have h1' := h1
    unfold is_set_word at h1'
    simp only [decide_eq_true_eq] at h1'
    by_cases h2 : is_get_word tok = true
    · have h2' := h2
      unfold is_get_word at h2'
      simp only [decide_eq_true_eq] at h2'
      simp only [h1, h1', h2, h2', if_true, if_false, Bool.false_eq_true, reduceIte]
    · have h2' := h2
      unfold is_get_word at h2'
      simp only [decide_eq_true_eq] at h2'
      by_cases h3 : is_on_word tok = true
      · have h3' := h3
        unfold is_on_word at h3'
        simp only [decide_eq_true_eq] at h3'
        simp only [h1, h1', h2, h2', h3, h3', if_true, if_false, Bool.false_eq_true, reduceIte]
      · have h3' := h3
        unfold is_on_word at h3'
        simp only [decide_eq_true_eq] at h3'
        by_cases h4 : is_off_word tok = true
        · have h4' := h4
          unfold is_off_word at h4'
          simp only [decide_eq_true_eq] at h4'
          simp only [h1, h1', h2, h2', h3, h3', h4, h4', if_true, if_false, Bool.false_eq_true, reduceIte]
        · have h4' := h4
          unfold is_off_word at h4'
          simp only [decide_eq_true_eq] at h4'
          have hopt : is_option_word tok = false := by
            unfold is_option_word
            simp only [Bool.not_eq_true] at h1 h2 h3 h4
            rw [h1, h2, h3, h4]
            rfl
          have hu : is_unknown_option tok = (!tok.isEmpty && decide (tok.head? = some '-')) := by
            unfold is_unknown_option
            rw [hopt]
            rfl
          simp only [h1, h1', h2, h2', h3, h3', h4, h4', if_false, hu, Bool.and_eq_true, Bool.false_eq_true, reduceIte,
            decide_eq_true_eq]

theorem option_not_unknown (tok : Str) (h : is_option_word tok = true) :
    is_unknown_option tok = false := by
  unfold is_unknown_option
  rw [h]
  rfl

/-- The scan reaches its end exactly when there is no unknown option and the on and
off words do not conflict, among themselves or with the value already recorded. -/
theorem scan_args_ok_iff : ∀ (argv : List Str) (o : Opts),
    (∃ o1, scan_args argv o = .ok o1) ↔
      argv.any is_unknown_option = false ∧
      (argv.any is_on_word = true →
        argv.any is_off_word = false ∧ (o.have_val && o.val == false) = false) ∧
      (argv.any is_off_word = true → (o.have_val && o.val == true) = false) := by
  intro argv
  induction argv with
  | nil => intro o; simp [scan_args]
  | cons tok rest ih =>
    intro o
    rw [scan_args_cons]
    by_cases hs : is_set_word tok = true
    · obtain ⟨hg, hon, hoff⟩ := set_word_only hs
      have hu := option_not_unknown tok (by unfold is_option_word; rw [hs]; rfl)
      rw [if_pos hs, ih]
      simp only [List.any_cons, hon, hoff, hu, Bool.false_or]
    · rw [if_neg hs]
      by_cases hg : is_get_word tok = true
      · obtain ⟨-, hon, hoff⟩ := get_word_only hg
        have hu := option_not_unknown tok
          (by unfold is_option_word; rw [hg]; simp)
        rw [if_pos hg, ih]
        simp only [List.any_cons, hon, hoff, hu, Bool.false_or]
      · rw [if_neg hg]
        by_cases hon : is_on_word tok = true
        · obtain ⟨-, -, hoff⟩ := on_word_only hon
          have hu := option_not_unknown tok
            (by unfold is_option_word; rw [hon]; simp)
          rw [if_pos hon]
          simp only [List.any_cons, hon, hoff, hu, Bool.false_or, Bool.true_or, true_implies]
          by_cases hc : (o.have_val && o.val == false) = true
          · rw [if_pos hc]
            constructor
            · rintro ⟨o1, h⟩
              cases h
            · rintro ⟨-, ⟨-, h2⟩, -⟩
              rw [hc] at h2
              cases h2
          · rw [if_neg hc, ih]
            simp only [Bool.not_eq_true] at hc
            simp only [hc, and_true]
            cases List.any rest is_on_word <;> cases List.any rest is_off_word <;> simp
        · rw [if_neg hon]
          by_cases hoff : is_off_word tok = true
          · have hu := option_not_unknown tok
              (by unfold is_option_word; rw [hoff]; simp)
            simp only [Bool.not_eq_true] at hon
            rw [if_pos hoff]
            simp only [List.any_cons, hon, hoff, hu, Bool.false_or, Bool.true_or, true_implies]
            by_cases hc : (o.have_val && o.val == true) = true
            · rw [if_pos hc]
              constructor
              · rintro ⟨o1, h⟩
                cases h
              · rintro ⟨-, -, h3⟩
                rw [hc] at h3
                cases h3
            · rw [if_neg hc, ih]
              simp only [Bool.not_eq_true] at hc
              simp only [hc]
              cases List.any rest is_on_word <;> cases List.any rest is_off_word <;> simp
          · rw [if_neg hoff]
            simp only [Bool.not_eq_true] at hon hoff
            by_cases hu : is_unknown_option tok = true
            · rw [if_pos hu]
              simp [hu]
            · rw [if_neg hu, ih]
              simp only [Bool.not_eq_true] at hu
              simp only [List.any_cons, hon, hoff, hu, Bool.false_or]

/-- The value recorded by a scan that reaches its end. -/
theorem scan_args_val : ∀ (argv : List Str) (o o1 : Opts), scan_args argv o = .ok o1 →
    o1.val = (argv.any is_on_word || (o.val && !argv.any is_off_word)) := by
  intro argv
  induction argv with
  | nil =>
    intro o o1 h
    simp only [scan_args, Except.ok.injEq] at h
    subst h
    simp
  | cons tok rest ih =>
    intro o o1 h
    rw [scan_args_cons] at h
    by_cases hs : is_set_word tok = true
    · obtain ⟨hg, hon, hoff⟩ := set_word_only hs
      rw [if_pos hs] at h
      rw [ih _ _ h]
      simp only [List.any_cons, hon, hoff, Bool.false_or]
    · rw [if_neg hs] at h
      by_cases hg : is_get_word tok = true
      · obtain ⟨-, hon, hoff⟩ := get_word_only hg
        rw [if_pos hg] at h
        rw [ih _ _ h]
        simp only [List.any_cons, hon, hoff, Bool.false_or]
      · rw [if_neg hg] at h
        by_cases hon : is_on_word tok = true
        · obtain ⟨-, -, hoff⟩ := on_word_only hon
          rw [if_pos hon] at h
          by_cases hc : (o.have_val && o.val == false) = true
          · rw [if_pos hc] at h
            cases h
          · rw [if_neg hc] at h
            have hok := (scan_args_ok_iff rest _).mp ⟨o1, h⟩
            have hno : List.any rest is_off_word = false := by
              cases hb : List.any rest is_off_word with
              | false => rfl
              | true => simpa using hok.2.2 hb
            rw [ih _ _ h]
            simp [List.any_cons, hon, hno]
        · rw [if_neg hon] at h
          by_cases hoff : is_off_word tok = true
          · rw [if_pos hoff] at h
            simp only [Bool.not_eq_true] at hon
            by_cases hc : (o.have_val && o.val == true) = true
            · rw [if_pos hc] at h
              cases h
            · rw [if_neg hc] at h
              have hok := (scan_args_ok_iff rest _).mp ⟨o1, h⟩
              have hno : List.any rest is_on_word = false := by
                cases hb : List.any rest is_on_word with
                | false => rfl
                | true => simpa using (hok.2.1 hb).2
              rw [ih _ _ h]
              simp [List.any_cons, hon, hoff, hno]
          · rw [if_neg hoff] at h
            simp only [Bool.not_eq_true] at hon hoff
            by_cases hu : is_unknown_option tok = true
            · rw [if_pos hu] at h
              cases h
            · rw [if_neg hu] at h
              rw [ih _ _ h]
              simp only [List.any_cons, hon, hoff, Bool.false_or]

theorem any_perm {α : Type} (p : α → Bool) {l₁ l₂ : List α} (h : l₁.Perm l₂) :
    l₁.any p = l₂.any p := by
  rw [Bool.eq_iff_iff, List.any_eq_true, List.any_eq_true]
  constructor
  · rintro ⟨x, hx, hp⟩
    exact ⟨x, h.mem_iff.mp hx, hp⟩
  · rintro ⟨x, hx, hp⟩
    exact ⟨x, h.mem_iff.mpr hx, hp⟩

/-- The scan of a permuted argument list reaches its end too, with the same flags
and value and with the channel specifications permuted. -/
theorem scan_args_perm {argv argv1 : List Str} (hperm : argv.Perm argv1) {o : Opts}
    (h : scan_args argv initOpts = .ok o) :
    ∃ o1, scan_args argv1 initOpts = .ok o1 ∧ o1.want_set = o.want_set ∧
      o1.want_get = o.want_get ∧ o1.have_val = o.have_val ∧ o1.val = o.val ∧
      o1.chanSpecs.Perm o.chanSpecs := by
  have hok := (scan_args_ok_iff argv initOpts).mp ⟨o, h⟩
  rw [any_perm _ hperm, any_perm is_on_word hperm, any_perm is_off_word hperm] at hok
  obtain ⟨o1, h1⟩ := (scan_args_ok_iff argv1 initOpts).mpr hok
  obtain ⟨a, b, c, d⟩ := scan_args_spec _ _ _ h
  obtain ⟨a1, b1, c1, d1⟩ := scan_args_spec _ _ _ h1
  have v := scan_args_val _ _ _ h
  have v1 := scan_args_val _ _ _ h1
  refine ⟨o1, h1, ?_, ?_, ?_, ?_, ?_⟩
  · rw [a, a1, any_perm _ hperm]
  · rw [b, b1, any_perm _ hperm]
  · rw [c, c1, any_perm _ hperm]
  · rw [v, v1, any_perm is_on_word hperm, any_perm is_off_word hperm]
  · rw [d, d1]
    simp only [initOpts, List.nil_append]
    exact (hperm.filter _).symm

/-- An accepted specification stands for a non-empty list of well-formed pieces, and
is accepted whatever the vector holds, adding the channels of its pieces. -/
theorem token_shape {spec : Str} {out out1 : List Int}
    (h : parse_channels_token spec out = some (.ok out1)) :
    ∃ ps : List Piece, ps ≠ [] ∧ (∀ p ∈ ps, p.WF) ∧
      ∀ out2, ∃ out3, parse_channels_token spec out2 = some (.ok out3) ∧
        ∀ x, x ∈ out3 ↔ x ∈ out2 ∨ ∃ p ∈ ps, p.covers x = true := by
  rw [parse_channels_token_eq] at h
  by_cases h1 : spec.isEmpty = true
  · rw [if_pos h1] at h
    cases h
  rw [if_neg h1] at h
  by_cases h2 : lower_copy spec = "all".toList
  · refine ⟨[Piece.range "0".toList "255".toList], by simp, ?_, ?_⟩
    · intro p hp
      rw [List.mem_singleton] at hp
      subst hp
      decide
    · intro out2
      refine ⟨push_range 0 255 out2, ?_, ?_⟩
      · rw [parse_channels_token_eq, if_neg h1, if_pos h2]
      · intro x
        rw [mem_push_range]
        have hc : (Piece.range "0".toList "255".toList).covers x = true ↔ 0 ≤ x ∧ x ≤ 255 := by
          have e : (digitsValue "0".toList : Int) = 0 := by decide
          have e2 : (digitsValue "255".toList : Int) = 255 := by decide
          simp only [Piece.covers, e, e2, Bool.and_eq_true, decide_eq_true_eq]
          omega
        simp only [List.mem_singleton, exists_eq_left, hc]
  · rw [if_neg h2] at h
    simp only [Option.some.injEq] at h
    obtain ⟨ps, hwf, hts, -⟩ := kulgad_loop_ok _ h
    have hne : ps ≠ [] := by
      rintro rfl
      rcases hts with e | e
      · exact splitComma_ne_nil spec e
      · have := joinComma_splitComma spec
        rw [e] at this
        simp only [List.map_nil, List.nil_append] at this
        rw [← this] at h1
        exact h1 rfl
    refine ⟨ps, hne, hwf, ?_⟩
    intro out2
    refine ⟨applyPieces ps out2, ?_, fun x => mem_applyPieces⟩
    rw [parse_channels_token_eq, if_neg h1, if_neg h2]
    rcases hts with e | e
    · rw [e, kulgad_pieces hwf]
    · rw [e, kulgad_pieces_trailing hne hwf]

/-- An accepted specification adds at least one channel. -/
theorem token_adds {spec : Str} {out out1 : List Int}
    (h : parse_channels_token spec out = some (.ok out1)) :
    ∃ x, x ∈ out1 ∧ 0 ≤ x ∧ x ≤ 255 := by
  obtain ⟨ps, hne, hwf, hall⟩ := token_shape h
  obtain ⟨out3, h3, hm⟩ := hall out
  rw [h] at h3
  cases h3
  obtain ⟨p, rest, rfl⟩ := List.exists_cons_of_ne_nil hne
  obtain ⟨x, hx⟩ := p.covers_some
  exact ⟨x, (hm x).mpr (Or.inr ⟨p, List.mem_cons_self _ _, hx⟩),
    Piece.covers_range (hwf p (List.mem_cons_self _ _)) hx⟩

/-- The channels added by a specification are those it gives when parsed alone. -/
theorem token_mem {spec : Str} {out out1 : List Int}
    (h : parse_channels_token spec out = some (.ok out1)) :
    ∃ r, parse_channels_token spec [] = some (.ok r) ∧ ∀ x, x ∈ out1 ↔ x ∈ out ∨ x ∈ r := by
  obtain ⟨ps, -, -, hall⟩ := token_shape h
  obtain ⟨out3, h3, hm⟩ := hall out
  rw [h] at h3
  cases h3
  obtain ⟨r, hr, hmr⟩ := hall []
  refine ⟨r, hr, ?_⟩
  intro x
  rw [hm x, hmr x]
  simp

theorem token_accepts_any {spec : Str} {r : List Int}
    (h : parse_channels_token spec [] = some (.ok r)) (out : List Int) :
    ∃ out1, parse_channels_token spec out = some (.ok out1) := by
  obtain ⟨ps, -, -, hall⟩ := token_shape h
  obtain ⟨out3, h3, -⟩ := hall out
  exact ⟨out3, h3⟩

/-- What the channel loop of `main` yields when it succeeds: every specification is
accepted alone, and the vector holds what it held and their channels. -/
theorem parse_specs_mem : ∀ (specs : List Str) {out out1 : List Int},
    parse_specs specs out = some (.ok out1) →
      (∀ spec ∈ specs, ∃ r, parse_channels_token spec [] = some (.ok r)) ∧
      ∀ x, x ∈ out1 ↔
        x ∈ out ∨ ∃ spec ∈ specs, ∃ r, parse_channels_token spec [] = some (.ok r) ∧ x ∈ r := by
  intro specs
  induction specs with
  | nil =>
    intro out out1 h
    simp only [parse_specs, Option.some.injEq, ParseResult.ok.injEq] at h
    subst h
    simp
  | cons spec rest ih =>
    intro out out1 h
    rw [parse_specs] at h
    obtain ⟨r0, hr0⟩ := parse_channels_token_total spec out
    rw [hr0] at h
    cases r0 with
    | fail e => cases h
    | thrown e => cases h
    | ok out2 =>
      simp only at h
      obtain ⟨hacc, hm⟩ := ih h
      obtain ⟨r, hr, hmr⟩ := token_mem hr0
      refine ⟨?_, ?_⟩
      · intro s hs
        rcases List.mem_cons.mp hs with e | e
        · subst e; exact ⟨r, hr⟩
        · exact hacc s e
      · intro x
        rw [hm x, hmr x]
        constructor
        · rintro ((hx | hx) | ⟨s, hs, r1, hr1, hx⟩)
          · exact Or.inl hx
          · exact Or.inr ⟨spec, List.mem_cons_self _ _, r, hr, hx⟩
          · exact Or.inr ⟨s, List.mem_cons_of_mem _ hs, r1, hr1, hx⟩
        · rintro (hx | ⟨s, hs, r1, hr1, hx⟩)
          · exact Or.inl (Or.inl hx)
          · rcases List.mem_cons.mp hs with e | e
            · subst e
              rw [hr] at hr1
              cases hr1
              exact Or.inl (Or.inr hx)
            · exact Or.inr ⟨s, e, r1, hr1, hx⟩

theorem parse_specs_accepts : ∀ (specs : List Str),
    (∀ spec ∈ specs, ∃ r, parse_channels_token spec [] = some (.ok r)) →
    ∀ out, ∃ out1, parse_specs specs out = some (.ok out1) := by
  intro specs
  induction specs with
  | nil => intro _ out; exact ⟨out, rfl⟩
  | cons spec rest ih =>
    intro hacc out
    obtain ⟨r, hr⟩ := hacc spec (List.mem_cons_self _ _)
    obtain ⟨out2, h2⟩ := token_accepts_any hr out
    obtain ⟨out1, h1⟩ := ih (fun s hs => hacc s (List.mem_cons_of_mem _ hs)) out2
    refine ⟨out1, ?_⟩
    rw [parse_specs, h2]
    exact h1

theorem parse_canonical_ok {specs : List Str} {channels : List Int}
    (h : parse_canonical specs = some (.ok channels)) :
    ∃ out, parse_specs specs [] = some (.ok out) ∧ channels = std_unique (std_sort out) := by
  unfold parse_canonical at h
  obtain ⟨r, hr⟩ := parse_specs_total specs []
  rw [hr] at h
  cases r with
  | fail e => cases h
  | thrown e => cases h
  | ok out =>
    simp only [Option.some.injEq, ParseResult.ok.injEq] at h
    exact ⟨out, hr, h.symm⟩

/-- The canonical channel set does not depend on the order of the specifications. -/
theorem parse_canonical_perm {specs specs1 : List Str} (hperm : specs.Perm specs1)
    {channels : List Int} (h : parse_canonical specs = some (.ok channels)) :
    parse_canonical specs1 = some (.ok channels) := by
  obtain ⟨out, hout, rfl⟩ := parse_canonical_ok h
  obtain ⟨hacc, hm⟩ := parse_specs_mem specs hout
  obtain ⟨out1, h1⟩ := parse_specs_accepts specs1
    (fun s hs => hacc s (hperm.mem_iff.mpr hs)) []
  obtain ⟨-, hm1⟩ := parse_specs_mem specs1 h1
  unfold parse_canonical
  rw [h1]
  simp only [Option.some.injEq, ParseResult.ok.injEq]
  apply canonical_eq_of_mem (canonical_strict out)
  intro x
  rw [mem_canonical, hm x, hm1 x]
  constructor
  · rintro (hx | ⟨s, hs, rest⟩)
    · exact Or.inl hx
    · exact Or.inr ⟨s, hperm.mem_iff.mpr hs, rest⟩
  · rintro (hx | ⟨s, hs, rest⟩)
    · exact Or.inl hx
    · exact Or.inr ⟨s, hperm.mem_iff.mp hs, rest⟩

/-- A run that passes the argument checks and the channel parsing is repeated, event
for event, by every permutation of its argument list. -/
theorem main_perm_normal {argv argv1 : List Str} (hperm : argv.Perm argv1) (body : Str)
    {o : Opts} {channels : List Int}
    (hscan : scan_args argv initOpts = .ok o)
    (hmode : o.want_set = true ∨ o.want_get = true)
    (hval : o.want_set = true → o.have_val = true) (hne : o.chanSpecs ≠ [])
    (hparse : parse_canonical o.chanSpecs = some (.ok channels)) :
    ∃ o1, scan_args argv1 initOpts = .ok o1 ∧ o1.want_set = o.want_set ∧
      o1.want_get = o.want_get ∧ o1.have_val = o.have_val ∧ o1.val = o.val ∧
      parse_canonical o1.chanSpecs = some (.ok channels) ∧
      main argv1 body = main argv body := by
  obtain ⟨o1, h1, a, b, c, d, e⟩ := scan_args_perm hperm hscan
  have hparse1 := parse_canonical_perm e.symm hparse
  have hne1 : o1.chanSpecs ≠ [] := by
    intro h0
    rw [h0] at e
    exact hne e.symm.eq_nil
  obtain ⟨pins1, hp1, hmain1⟩ := main_ok body h1 (by rw [a, b]; exact hmode)
    (by rw [a, c]; exact hval) hne1 hparse1
  obtain ⟨pins0, hp0, hmain0⟩ := main_ok body hscan hmode hval hne hparse
  refine ⟨o1, h1, a, b, c, d, hparse1, ?_⟩
  rw [hmain1, hmain0]
  rw [hp0] at hp1
  cases hp1
  unfold normal_events
  rw [a, b, d]

end Kulgad

/-! ## The size of a canonical channel set -/

/-- A strictly ascending list of integers between `lo` and 255 has at most
`256 - lo` elements. -/
theorem strict_range_length : ∀ (l : List Int) (lo : Int), l.Pairwise (· < ·) →
    (∀ x ∈ l, lo ≤ x ∧ x ≤ 255) → l = [] ∨ (l.length : Int) + lo ≤ 256 := by
  intro l
  induction l with
  | nil => intro lo _ _; exact Or.inl rfl
  | cons x t ih =>
    intro lo hs hb
    right
    rw [List.pairwise_cons] at hs
    have hx := hb x (List.mem_cons_self _ _)
    have ht : ∀ y ∈ t, x + 1 ≤ y ∧ y ≤ 255 := by
      intro y hy
      have := hs.1 y hy
      exact ⟨by omega, (hb y (List.mem_cons_of_mem _ hy)).2⟩
    rcases ih (x + 1) hs.2 ht with h | h
    · subst h
      simp only [List.length_singleton, Nat.cast_one]
      omega
    · simp only [List.length_cons, Nat.cast_add, Nat.cast_one]
      omega

/-- A canonical channel list has at most 256 elements. -/
theorem canonical_length_le {L : List Int} (hs : L.Pairwise (· < ·))
    (hr : ∀ c ∈ L, 0 ≤ c ∧ c ≤ 255) : L.length ≤ 256 := by
  rcases strict_range_length L 0 hs hr with h | h
  · subst h; simp
  · omega

theorem Kulgad.parse_specs_adds : ∀ (specs : List Str), specs ≠ [] →
    ∀ {out out1 : List Int}, Kulgad.parse_specs specs out = some (.ok out1) → out1 ≠ [] := by
  intro specs hne out out1 h
  obtain ⟨spec, rest, rfl⟩ := List.exists_cons_of_ne_nil hne
  obtain ⟨hacc, hm⟩ := Kulgad.parse_specs_mem _ h
  obtain ⟨r, hr⟩ := hacc spec (List.mem_cons_self _ _)
  obtain ⟨x, hx, -⟩ := Kulgad.token_adds hr
  intro h0
  have := (hm x).mpr (Or.inr ⟨spec, List.mem_cons_self _ _, r, hr, hx⟩)
  rw [h0] at this
  simp at this

theorem canonical_ne_nil {l : List Int} (h : l ≠ []) : std_unique (std_sort l) ≠ [] := by
  obtain ⟨x, rest, rfl⟩ := List.exists_cons_of_ne_nil h
  intro h0
  have := (mem_canonical (l := x :: rest) (x := x)).mpr (List.mem_cons_self _ _)
  rw [h0] at this
  simp at this

theorem Kulgad.parse_canonical_size {specs : List Str} (hne : specs ≠ [])
    {channels : List Int} (h : Kulgad.parse_canonical specs = some (.ok channels)) :
    1 ≤ channels.length ∧ channels.length ≤ 256 := by
  refine ⟨?_, canonical_length_le (Kulgad.parse_canonical_strict h)
    (Kulgad.parse_canonical_range h)⟩
  obtain ⟨out, hout, rfl⟩ := Kulgad.parse_canonical_ok h
  have := canonical_ne_nil (Kulgad.parse_specs_adds specs hne hout)
  exact List.length_pos.mpr this

theorem SetGetCompact.parse_channels_ne_nil {raw : Str} {L : List Int}
    (h : SetGetCompact.parse_channels raw [] = some (.ok L)) : L ≠ [] := by
  unfold SetGetCompact.parse_channels at h
  simp only at h
  split_ifs at h with h1 h2
  · simp only [Option.some.injEq] at h
    cases h
  · simp only [Option.some.injEq, ParseResult.ok.injEq] at h
    rw [← h, canonical_push_all]
    decide
  · split at h
    · rename_i out1 hloop
      split_ifs at h with h3
      · simp only [Option.some.injEq] at h
        cases h
      · simp only [Option.some.injEq, ParseResult.ok.injEq] at h
        rw [← h]
        apply canonical_ne_nil
        intro h0
        rw [h0] at h3
        exact h3 rfl
    · rename_i hno
      exact absurd h (hno L)

theorem SetGetCompact.parse_channels_size {raw : Str} {L : List Int}
    (h : SetGetCompact.parse_channels raw [] = some (.ok L)) :
    1 ≤ L.length ∧ L.length ≤ 256 := by
  refine ⟨List.length_pos.mpr (SetGetCompact.parse_channels_ne_nil h), ?_⟩
  apply canonical_length_le (SetGetCompact.parse_channels_strict h)
  intro c hc
  rcases SetGetCompact.parse_channels_extends h c hc with h0 | h0
  · simp at h0
  · exact h0

/-! ## The close of a normal run of kulgad.cpp -/

namespace Kulgad

theorem close_not_in_set_phase (val : Bool) (channels : List Int) :
    Event.close ∉ set_phase val channels := by
  induction channels with
  | nil => simp [set_phase]
  | cons c cs ih =>
    rw [set_phase]
    simp only [List.mem_append, List.mem_cons, List.mem_singleton, List.not_mem_nil, or_false,
      not_or]
    refine ⟨⟨⟨by simp, by simp⟩, ?_⟩, ih⟩
    split <;> simp

theorem close_not_in_report (pins : List Bool) (channels : List Int) (cnt : Nat) :
    Event.close ∉ report pins channels cnt := by
  induction channels generalizing cnt with
  | nil => simp [report]
  | cons c cs ih =>
    rw [report]
    simp only [List.mem_cons, not_or]
    exact ⟨by simp, ih (cnt + 1)⟩

theorem close_not_in_get_events (channels : List Int) (body : Str) (pins : List Bool) :
    Event.close ∉ get_events channels body pins := by
  unfold get_events
  have hr := close_not_in_report pins channels 0
  split
  · simp
  · simp only [List.mem_append, List.mem_cons, List.mem_singleton, List.not_mem_nil, or_false,
      not_or]
    refine ⟨⟨by simp, by simp⟩, ⟨by simp, hr⟩, ?_⟩
    split <;> simp

theorem sends_before_close (init : List Event) :
    sends (init ++ [Event.close]) = sends init := by
  unfold sends
  rw [List.filterMap_append]
  exact List.append_nil _

theorem reads_before_close (init : List Event) :
    reads (init ++ [Event.close]) = reads init := by
  unfold reads
  rw [List.count_append]
  rfl

/-- The events of a normal run end with the close, which occurs nowhere before. -/
theorem normal_events_close (o : Opts) (channels : List Int) (body : Str) (pins : List Bool) :
    ∃ init, normal_events o channels body pins = init ++ [Event.close] ∧ Event.close ∉ init ∧
      sends init = sends (normal_events o channels body pins) ∧
      reads init = reads (normal_events o channels body pins) := by
  refine ⟨[Event.connect, Event.cout "Connected to localhost:3001\n".toList]
    ++ (if o.want_set then set_phase o.val channels else [])
    ++ (if o.want_get then get_events channels body pins else []), rfl, ?_, ?_, ?_⟩
  · simp only [List.mem_append, List.mem_cons, List.mem_singleton, List.not_mem_nil, or_false,
      not_or]
    refine ⟨⟨⟨by simp, by simp⟩, ?_⟩, ?_⟩
    · split
      · exact close_not_in_set_phase _ _
      · simp
    · split
      · exact close_not_in_get_events _ _ _
      · simp
  · exact (sends_before_close _).symm
  · exact (reads_before_close _).symm

theorem no_network_no_close {run : Run} (h : run.noNetwork) : Event.close ∉ run.events := by
  intro hc
  have := h _ hc
  cases this

end Kulgad

/-! ## The channel parsers of set_get.cpp and ref.cpp against set_get_compact.cpp -/

theorem SetGet.parse_tok_same (tok : Str) (out : List Int) :
    SetGet.parse_tok tok out = SetGetCompact.parse_tok tok out := rfl

theorem SetGet.parse_loop_same (s : Str) : ∀ (fuel pos : Nat) (out : List Int),
    SetGet.parse_loop s fuel pos out = SetGetCompact.parse_loop s fuel pos out := by
  intro fuel
  induction fuel with
  | zero => intro pos out; rfl
  | succ fuel ih =>
    intro pos out
    unfold SetGet.parse_loop SetGetCompact.parse_loop
    simp only [ih, SetGet.parse_tok_same]

/-- The channel parser of set_get.cpp computes what the one of set_get_compact.cpp does. -/
theorem SetGet.parse_channels_same (raw : Str) (out : List Int) :
    SetGet.parse_channels raw out = SetGetCompact.parse_channels raw out := by
  unfold SetGet.parse_channels SetGetCompact.parse_channels
  simp only [SetGet.parse_loop_same]

theorem Ref.ref_tok_same (tok : Str) (out : List Int) :
    Ref.parse_tok tok out = SetGetCompact.parse_tok tok out := rfl

theorem Ref.ref_loop_same (s : Str) : ∀ (fuel pos : Nat) (out : List Int),
    Ref.parse_loop s fuel pos out = SetGetCompact.parse_loop s fuel pos out := by
  intro fuel
  induction fuel with
  | zero => intro pos out; rfl
  | succ fuel ih =>
    intro pos out
    unfold Ref.parse_loop SetGetCompact.parse_loop
    simp only [ih, Ref.ref_tok_same]

/-- The channel parsing of ref.cpp computes what `parse_channels` of
set_get_compact.cpp does, when the joined text is not blank. -/
theorem Ref.parse_joined_same {joined : Str}
    (hne : joined.filter (fun c => !isspace c) ≠ []) (out : List Int) :
    Ref.parse_joined joined out = SetGetCompact.parse_channels joined out := by
  unfold Ref.parse_joined SetGetCompact.parse_channels
  have h : (joined.filter (fun c => !isspace c)).isEmpty = false := by
    cases hf : joined.filter (fun c => !isspace c) with
    | nil => exact absurd hf hne
    | cons _ _ => rfl
  simp only [h, Bool.false_eq_true, if_false, Ref.ref_loop_same]

/-! ## Substrings -/

theorem findSubFrom_complete {pat : Str} : ∀ {s : Str}, pat <:+: s →
    (findSubFrom pat s).isSome = true := by
  intro s
  induction s with
  | nil =>
    intro h
    have : pat = [] := List.eq_nil_of_infix_nil h
    subst this
    rfl
  | cons x t ih =>
    intro h
    rw [findSubFrom]
    by_cases hp : pat.isPrefixOf (x :: t) = true
    · rw [if_pos hp]; rfl
    · rw [if_neg hp]
      rcases List.infix_cons_iff.mp h with h1 | h1
      · exact absurd (List.isPrefixOf_iff_prefix.mpr h1) hp
      · have := ih h1
        cases hf : findSubFrom pat t with
        | none => rw [hf] at this; cases this
        | some i => rfl

/-- The call `find` with a string pattern succeeds exactly on the strings that contain it. -/
theorem find_str_isSome_iff {pat s : Str} : (find_str s pat).isSome = true ↔ pat <:+: s := by
  constructor
  · intro h
    unfold find_str at h
    cases hf : findSubFrom pat s with
    | none => rw [hf] at h; cases h
    | some i => exact findSubFrom_found hf
  · exact findSubFrom_complete

theorem starts_append_sep {pat a b : Str} {c : Char} (hc : c ∉ pat)
    (h : pat <+: a ++ c :: b) : pat <+: a := by
  rcases List.prefix_or_prefix_of_prefix h (List.prefix_append a (c :: b)) with h1 | ⟨r, hr⟩
  · exact h1
  · subst hr
    have h2 := (List.prefix_append_right_inj a).mp h
    cases r with
    | nil => simp
    | cons x xs =>
      obtain ⟨t, ht⟩ := h2
      simp only [List.cons_append, List.cons.injEq] at ht
      exact absurd (ht.1 ▸ (List.mem_append_right a (List.mem_cons_self x xs))) hc

/-- A string without the character `c` that lies in `a ++ c :: b` lies in `a` or in `b`. -/
theorem within_append_sep {pat : Str} {c : Char} (hc : c ∉ pat) (b : Str) :
    ∀ {a : Str}, pat <:+: a ++ c :: b → pat <:+: a ∨ pat <:+: b := by
  intro a
  induction a with
  | nil =>
    intro h
    rw [List.nil_append] at h
    rcases List.infix_cons_iff.mp h with h1 | h1
    · left
      have := starts_append_sep (a := []) hc (by simpa using h1)
      exact this.isInfix
    · exact Or.inr h1
  | cons x a ih =>
    intro h
    rw [List.cons_append] at h
    rcases List.infix_cons_iff.mp h with h1 | h1
    · left
      have := starts_append_sep (a := x :: a) hc (by simpa using h1)
      exact this.isInfix
    · rcases ih h1 with h2 | h2
      · exact Or.inl (h2.trans (List.infix_cons (List.infix_refl a)))
      · exact Or.inr h2

theorem mem_joinComma : ∀ {ps : List Str} {c : Char}, c ∈ joinComma ps →
    c = ',' ∨ ∃ p ∈ ps, c ∈ p := by
  intro ps
  induction ps with
  | nil => intro c h; simp [joinComma] at h
  | cons p qs ih =>
    intro c h
    cases qs with
    | nil =>
      simp only [joinComma] at h
      exact Or.inr ⟨p, List.mem_cons_self _ _, h⟩
    | cons q rs =>
      rw [joinComma_cons_cons] at h
      rcases List.mem_append.mp h with h1 | h1
      · exact Or.inr ⟨p, List.mem_cons_self _ _, h1⟩
      · rcases List.mem_cons.mp h1 with h2 | h2
        · exact Or.inl h2
        · rcases ih h2 with h3 | ⟨p1, hp1, h3⟩
          · exact Or.inl h3
          · exact Or.inr ⟨p1, List.mem_cons_of_mem _ hp1, h3⟩

/-- A non-empty comma-free string lies in the joined pieces exactly when it lies in
one of them. -/
theorem within_joinComma {pat : Str} (hne : pat ≠ []) (hc : ',' ∉ pat) :
    ∀ {ps : List Str}, pat <:+: joinComma ps ↔ ∃ p ∈ ps, pat <:+: p := by
  intro ps
  induction ps with
  | nil =>
    simp only [joinComma, List.not_mem_nil, false_and, exists_false, iff_false]
    intro h
    exact hne (List.eq_nil_of_infix_nil h)
  | cons p qs ih =>
    cases qs with
    | nil => simp [joinComma]
    | cons q rs =>
      rw [joinComma_cons_cons]
      constructor
      · intro h
        rcases within_append_sep hc _ h with h1 | h1
        · exact ⟨p, List.mem_cons_self _ _, h1⟩
        · obtain ⟨p1, hp1, h2⟩ := ih.mp h1
          exact ⟨p1, List.mem_cons_of_mem _ hp1, h2⟩
      · rintro ⟨p1, hp1, h1⟩
        rcases List.mem_cons.mp hp1 with e | e
        · subst e
          exact h1.trans (List.infix_append' [] p1 (',' :: joinComma (q :: rs)))
        · have := ih.mpr ⟨p1, e, h1⟩
          exact this.trans ⟨p ++ [','], [], by simp⟩

theorem map_tolower_joinComma : ∀ (ps : List Str),
    (joinComma ps).map tolower = joinComma (ps.map (fun p => p.map tolower)) := by
  intro ps
  induction ps with
  | nil => rfl
  | cons p qs ih =>
    cases qs with
    | nil => rfl
    | cons q rs =>
      rw [joinComma_cons_cons, List.map_cons, List.map_cons, joinComma_cons_cons,
        List.map_append, List.map_cons, ih]
      rfl

/-! ## Empty pieces in set_get_compact.cpp and set_get.cpp -/

theorem SetGetCompact.compact_loop_skip : ∀ (ps : List Str) (out : List Int),
    SetGetCompact.loopPieces ps out
      = SetGetCompact.loopPieces (ps.filter (fun p => !p.isEmpty)) out := by
  intro ps
  induction ps with
  | nil => intro out; rfl
  | cons p qs ih =>
    intro out
    by_cases hp : p.isEmpty = true
    · rw [List.filter_cons_of_neg (by simpa using hp), SetGetCompact.loopPieces]
      simp only [hp, if_true]
      exact ih out
    · rw [List.filter_cons_of_pos (by simpa using hp), SetGetCompact.loopPieces,
        SetGetCompact.loopPieces]
      simp only [hp, Bool.false_eq_true, if_false]
      cases SetGetCompact.parse_tok p out with
      | ok out1 => exact ih out1
      | fail e => rfl
      | thrown e => rfl

/-- The test for `all` of the lenient parsers, on the test string `lower`. -/
theorem all_test_iff (lower : Str) :
    (lower = "all".toList ∨ (find_str lower "all".toList).isSome = true)
      ↔ "all".toList <:+: lower := by
  rw [find_str_isSome_iff]
  constructor
  · rintro (h | h)
    · rw [h]
    · exact h
  · exact Or.inr

theorem all_in_pieces (ps : List Str) :
    "all".toList <:+: (joinComma ps).map tolower ↔
      ∃ p ∈ ps, "all".toList <:+: p.map tolower := by
  rw [map_tolower_joinComma, within_joinComma (by decide) (by decide)]
  simp only [List.mem_map, exists_exists_and_eq_and]

theorem all_in_nonempty_pieces (ps : List Str) :
    "all".toList <:+: (joinComma (ps.filter (fun p => !p.isEmpty))).map tolower ↔
      "all".toList <:+: (joinComma ps).map tolower := by
  rw [all_in_pieces, all_in_pieces]
  constructor
  · rintro ⟨p, hp, h⟩
    exact ⟨p, (List.mem_filter.mp hp).1, h⟩
  · rintro ⟨p, hp, h⟩
    refine ⟨p, List.mem_filter.mpr ⟨hp, ?_⟩, h⟩
    cases p with
    | nil =>
      have := List.eq_nil_of_infix_nil h
      cases this
    | cons _ _ => rfl

theorem strip_strip (raw : Str) :
    (raw.filter (fun c => !isspace c)).filter (fun c => !isspace c)
      = raw.filter (fun c => !isspace c) := by
  rw [List.filter_filter]
  simp

/-- The non-empty pieces of a stripped spec, joined again, hold no white space. -/
theorem strip_nonempty_pieces (raw : Str) :
    (joinComma ((splitComma (raw.filter (fun c => !isspace c))).filter
        (fun p => !p.isEmpty))).filter (fun c => !isspace c)
      = joinComma ((splitComma (raw.filter (fun c => !isspace c))).filter
          (fun p => !p.isEmpty)) := by
  rw [List.filter_eq_self]
  intro c hc
  rcases mem_joinComma hc with h | ⟨p, hp, h⟩
  · subst h; decide
  · have hs := mem_splitComma_subset (List.mem_filter.mp hp).1 h
    exact (List.mem_filter.mp hs).2

/-- A spec with at least one non-empty piece parses like the spec made of its
non-empty pieces: `parse_channels` of set_get_compact.cpp skips the empty ones. -/
theorem SetGetCompact.parse_channels_skip (raw : Str) (out : List Int)
    (hne : (splitComma (raw.filter (fun c => !isspace c))).filter (fun p => !p.isEmpty) ≠ []) :
    SetGetCompact.parse_channels raw out
      = SetGetCompact.parse_channels
          (joinComma ((splitComma (raw.filter (fun c => !isspace c))).filter
            (fun p => !p.isEmpty))) out := by
  have hfree : ∀ p ∈ (splitComma (raw.filter (fun c => !isspace c))).filter
      (fun p => !p.isEmpty), ',' ∉ p :=
    fun p hp => splitComma_free _ p (List.mem_filter.mp hp).1
  obtain ⟨p0, rest, hP⟩ := List.exists_cons_of_ne_nil hne
  have hp0 : p0 ≠ [] := by
    have : p0 ∈ (splitComma (raw.filter (fun c => !isspace c))).filter
        (fun p => !p.isEmpty) := by
      rw [hP]; exact List.mem_cons_self _ _
    have h2 := (List.mem_filter.mp this).2
    intro h0
    rw [h0] at h2
    cases h2
  have hjoin : joinComma ((splitComma (raw.filter (fun c => !isspace c))).filter
      (fun p => !p.isEmpty)) ≠ [] := by
    rw [hP]; exact joinComma_ne_nil rest hp0
  have hs : raw.filter (fun c => !isspace c) ≠ [] := by
    intro h0
    rw [h0] at hne
    exact hne rfl
  have e1 : (raw.filter (fun c => !isspace c)).isEmpty = false := by
    cases hf : raw.filter (fun c => !isspace c) with
    | nil => exact absurd hf hs
    | cons _ _ => rfl
  have e2 : (joinComma ((splitComma (raw.filter (fun c => !isspace c))).filter
      (fun p => !p.isEmpty))).isEmpty = false := by
    cases hf : joinComma ((splitComma (raw.filter (fun c => !isspace c))).filter
        (fun p => !p.isEmpty)) with
    | nil => exact absurd hf hjoin
    | cons _ _ => rfl
  have hall := all_in_nonempty_pieces (splitComma (raw.filter (fun c => !isspace c)))
  rw [joinComma_splitComma] at hall
  unfold SetGetCompact.parse_channels
  simp only [strip_nonempty_pieces, e1, e2, Bool.false_eq_true, if_false, all_test_iff,
    hall, SetGetCompact.compact_loop_eq, splitComma_joinComma hne hfree]
  rw [SetGetCompact.compact_loop_skip (splitComma (raw.filter (fun c => !isspace c)))]

/-- A spec without any non-empty piece is rejected by `parse_channels` of
set_get_compact.cpp. -/
theorem SetGetCompact.parse_channels_no_piece (raw : Str)
    (h : (splitComma (raw.filter (fun c => !isspace c))).filter (fun p => !p.isEmpty) = []) :
    SetGetCompact.parse_channels raw [] = some (.fail [])
      ∨ SetGetCompact.parse_channels raw []
          = some (.fail "No valid channels parsed\n".toList) := by
  unfold SetGetCompact.parse_channels
  by_cases hs : (raw.filter (fun c => !isspace c)).isEmpty = true
  · left
    simp only [hs, if_true]
  · right
    have hno : ¬ "all".toList <:+: (raw.filter (fun c => !isspace c)).map tolower := by
      intro hin
      have := (all_in_nonempty_pieces (splitComma (raw.filter (fun c => !isspace c)))).mpr
        (by rw [joinComma_splitComma]; exact hin)
      rw [h] at this
      exact absurd (List.eq_nil_of_infix_nil this) (by decide)
    simp only [hs, Bool.false_eq_true, if_false, all_test_iff, hno,
      SetGetCompact.compact_loop_eq]
    rw [SetGetCompact.compact_loop_skip, h]
    rfl

/-! ## What `std::stoi` accepts in the lenient parsers -/

theorem takeWhile_digits_append {ds rest : Str} (hd : ∀ c ∈ ds, isdigit c = true)
    (hr : ∀ c, rest.head? = some c → isdigit c = false) :
    (ds ++ rest).takeWhile isdigit = ds := by
  induction ds with
  | nil =>
    cases rest with
    | nil => rfl
    | cons x t =>
      have := hr x rfl
      simp [List.takeWhile, this]
  | cons d t ih =>
    have hx := hd d (List.mem_cons_self _ _)
    rw [List.cons_append, List.takeWhile_cons, hx]
    simp only [if_true]
    rw [ih (fun c hc => hd c (List.mem_cons_of_mem _ hc))]

/-- The conversion reads the digits at the start and ignores what follows them. -/
theorem stoi_leading {ds rest : Str} (h : IsNumber ds)
    (hr : ∀ c, rest.head? = some c → isdigit c = false) :
    stoi (ds ++ rest) = .value (digitsValue ds : Int) ∧
    stoi ('+' :: (ds ++ rest)) = .value (digitsValue ds : Int) := by
  obtain ⟨hne, hd, hv⟩ := h
  have htw := takeWhile_digits_append hd hr
  obtain ⟨x, t, rfl⟩ := List.exists_cons_of_ne_nil hne
  have hx : isdigit x = true := hd x (List.mem_cons_self _ _)
  have h3 : x ≠ '-' := isdigit_ne_dash hx
  have h4 : x ≠ '+' := isdigit_ne_plus hx
  have hbig : ¬ digitsValue (x :: t) > 2147483647 := by omega
  have htw1 : (x :: (t ++ rest)).takeWhile isdigit = x :: t := htw
  constructor
  · have h1 : (x :: (t ++ rest)).dropWhile isspace = x :: (t ++ rest) := by
      simp [List.dropWhile, isdigit_not_space hx]
    show stoi (x :: (t ++ rest)) = _
    unfold stoi
    simp only [h1, List.head?_cons, Option.some.injEq, h3, h4, or_self,
      if_false, decide_False, Bool.false_eq_true, htw1, List.isEmpty_cons, hbig]
  · have h1 : ('+' :: x :: (t ++ rest)).dropWhile isspace = '+' :: x :: (t ++ rest) := by
      have : isspace '+' = false := by decide
      simp [List.dropWhile, this]
    have h5 : ('+' : Char) ≠ '-' := by decide
    show stoi ('+' :: x :: (t ++ rest)) = _
    unfold stoi
    simp only [h1, List.head?_cons, Option.some.injEq, h5, or_true, if_true, List.tail_cons,
      decide_False, Bool.false_eq_true, if_false, false_or, htw1, List.isEmpty_cons, hbig]

/-- Without a digit at the start, after an optional sign, the conversion throws. -/
theorem stoi_not_number {s : Str} (h : startsNumber s = false)
    (hsp : ∀ c, s.head? = some c → isspace c = false) : stoi s = .invalid_argument := by
  cases s with
  | nil => rfl
  | cons c t =>
    have hc := hsp c rfl
    have h1 : (c :: t).dropWhile isspace = c :: t := by simp [List.dropWhile, hc]
    unfold stoi
    simp only [h1, List.head?_cons, Option.some.injEq]
    cases t with
    | nil =>
      simp only [startsNumber] at h
      by_cases hs : c = '-' ∨ c = '+'
      · simp [hs]
      · simp [hs, List.takeWhile, h]
    | cons d u =>
      simp only [startsNumber, Bool.or_eq_false_iff, Bool.and_eq_false_iff,
        decide_eq_false_iff_not] at h
      obtain ⟨hcd, hrest⟩ := h
      by_cases hs : c = '-' ∨ c = '+'
      · have hd : isdigit d = false := by
          rcases hrest with h0 | h0
          · exact absurd hs (by
              intro h1
              rcases h1 with h1 | h1
              · exact h0.2 h1
              · exact h0.1 h1)
          · exact h0
        simp [hs, List.takeWhile, hd]
      · simp [hs, List.takeWhile, hcd]

namespace SetGetCompact

/-- A single-number piece is accepted on its leading digits, with or without a plus
sign, whatever follows them. -/
theorem parse_tok_leading {ds rest : Str} (h : IsNumber ds)
    (hr : ∀ c, rest.head? = some c → isdigit c = false) (hdash : '-' ∉ rest)
    (out : List Int) :
    parse_tok (ds ++ rest) out = .ok (out ++ [(digitsValue ds : Int)]) ∧
    parse_tok ('+' :: (ds ++ rest)) out = .ok (out ++ [(digitsValue ds : Int)]) := by
  have hv := h.2.2
  have hnd : '-' ∉ ds ++ rest := by
    intro hm
    rcases List.mem_append.mp hm with h1 | h1
    · exact digits_no_dash h.2.1 h1
    · exact hdash h1
  have hnd2 : '-' ∉ '+' :: (ds ++ rest) := by
    intro hm
    rcases List.mem_cons.mp hm with h1 | h1
    · cases h1
    · exact hnd h1
  obtain ⟨s1, s2⟩ := stoi_leading h hr
  constructor
  · simp only [parse_tok, find_dash_none hnd, s1, add]
    rw [if_neg (by omega)]
  · simp only [parse_tok, find_dash_none hnd2, s2, add]
    rw [if_neg (by omega)]

/-- A range piece is split at its first dash and accepted on the leading digits of
each side, whatever follows them. -/
theorem parse_tok_range_leading {a ra b rb : Str} (ha : IsNumber a) (hb : IsNumber b)
    (hra : ∀ c, ra.head? = some c → isdigit c = false) (hdash : '-' ∉ ra)
    (hrb : ∀ c, rb.head? = some c → isdigit c = false) (out : List Int) :
    parse_tok ((a ++ ra) ++ '-' :: (b ++ rb)) out
      = .ok (push_range (min (digitsValue a : Int) (digitsValue b : Int))
          (max (digitsValue a : Int) (digitsValue b : Int)) out) := by
  have hnd : '-' ∉ a ++ ra := by
    intro hm
    rcases List.mem_append.mp hm with h1 | h1
    · exact digits_no_dash ha.2.1 h1
    · exact hdash h1
  obtain ⟨h1, h2, h3⟩ := find_dash_some (b ++ rb) hnd
  have hea : (a ++ ra).isEmpty = false := by
    obtain ⟨x, t, e⟩ := List.exists_cons_of_ne_nil ha.1
    rw [e]; rfl
  have heb : (b ++ rb).isEmpty = false := by
    obtain ⟨x, t, e⟩ := List.exists_cons_of_ne_nil hb.1
    rw [e]; rfl
  have hva := ha.2.2
  have hvb := hb.2.2
  simp only [parse_tok, h1, h2, h3, hea, heb, (stoi_leading ha hra).1, (stoi_leading hb hrb).1]
  rw [if_neg (by simp)]
  by_cases hab : (digitsValue a : Int) > (digitsValue b : Int)
  · simp only [hab, if_true]
    rw [if_neg (by omega), min_eq_right (by omega), max_eq_left (by omega)]
  · simp only [hab, if_false]
    rw [if_neg (by omega), min_eq_left (by omega), max_eq_right (by omega)]

/-- A piece with a number part that has no leading number is rejected. -/
theorem parse_tok_bad_number {p : Str} (h : BadNumberPart p)
    (hsp : ∀ c ∈ p, isspace c = false) (out out1 : List Int) :
    parse_tok p out ≠ .ok out1 := by
  rcases h.2 with ⟨hnd, hs⟩ | ⟨a, b, rfl, hnd, hs⟩
  · have := stoi_not_number hs (fun c hc => hsp c (List.mem_of_mem_head? hc))
    simp only [parse_tok, find_dash_none hnd, this]
    intro h0
    cases h0
  · obtain ⟨h1, h2, h3⟩ := find_dash_some b hnd
    simp only [parse_tok, h1, h2, h3]
    split_ifs with he
    · intro h0; cases h0
    · have hspa : ∀ c, a.head? = some c → isspace c = false := fun c hc =>
        hsp c (List.mem_append_left _ (List.mem_of_mem_head? hc))
      have hspb : ∀ c, b.head? = some c → isspace c = false := fun c hc =>
        hsp c (List.mem_append_right _ (List.mem_cons_of_mem _ (List.mem_of_mem_head? hc)))
      rcases hs with hs | hs
      · rw [stoi_not_number hs hspa]
        intro h0; cases h0
      · rw [stoi_not_number hs hspb]
        cases stoi a <;> (intro h0; cases h0)

/-- A spec that does not contain `all` and has a piece with a number part without a
leading number is rejected. -/
theorem parse_channels_bad_number {raw p : Str} (out0 : List Int)
    (hall : ¬ "all".toList <:+: (raw.filter (fun c => !isspace c)).map tolower)
    (hp : p ∈ splitComma (raw.filter (fun c => !isspace c))) (hbad : BadNumberPart p) :
    Fails (parse_channels raw out0) := by
  have hsp : ∀ c ∈ p, isspace c = false := by
    intro c hc
    have := (List.mem_filter.mp (mem_splitComma_subset hp hc)).2
    simpa using this
  have hne : p ≠ [] := hbad.1
  apply parse_channels_rejects ?_ hp hne (parse_tok_bad_number hbad hsp)
  cases hf : find_str ((raw.filter (fun c => !isspace c)).map tolower) "all".toList with
  | none => rfl
  | some i =>
    exact absurd (find_str_isSome_iff.mp (by rw [hf]; rfl)) hall

end SetGetCompact

/-! ## One-piece specs of the lenient parsers -/

namespace SetGetCompact

/-- A spec made of one piece, without white space and without `all`, has the outcome
of the loop body on that piece. -/
theorem parse_channels_one_piece {tok : Str} {out1 : List Int} (hne : tok ≠ [])
    (hsp : ∀ c ∈ tok, isspace c = false) (hcomma : ',' ∉ tok)
    (hall : ¬ "all".toList <:+: tok.map tolower)
    (htok : parse_tok tok [] = .ok out1) (hout : out1 ≠ []) :
    parse_channels tok [] = some (.ok (std_unique (std_sort out1))) := by
  have hf : tok.filter (fun c => !isspace c) = tok := by
    rw [List.filter_eq_self]
    intro c hc
    rw [hsp c hc]
    rfl
  have he : tok.isEmpty = false := by
    cases tok with
    | nil => exact absurd rfl hne
    | cons _ _ => rfl
  have he1 : out1.isEmpty = false := by
    cases out1 with
    | nil => exact absurd rfl hout
    | cons _ _ => rfl
  unfold parse_channels
  simp only [hf, he, Bool.false_eq_true, if_false, all_test_iff, hall, compact_loop_eq,
    splitComma_free_single tok hcomma]
  have hl : loopPieces [tok] [] = .ok out1 := by
    simp only [loopPieces, he, Bool.false_eq_true, if_false, htok]
  rw [hl]
  simp only [he1, Bool.false_eq_true, if_false]

theorem all_not_after_plus {s : Str} (h : ¬ "all".toList <:+: s.map tolower) :
    ¬ "all".toList <:+: ('+' :: s).map tolower := by
  intro hin
  rw [List.map_cons] at hin
  rcases List.infix_cons_iff.mp hin with h1 | h1
  · obtain ⟨t, ht⟩ := h1
    have : tolower '+' = '+' := by decide
    rw [this] at ht
    cases ht
  · exact h h1

/-- A spec made of one single-number piece is accepted on its leading digits. -/
theorem parse_channels_leading {ds rest : Str} (h : IsNumber ds)
    (hr : ∀ c, rest.head? = some c → isdigit c = false)
    (hrest : ∀ c ∈ rest, isspace c = false ∧ c ≠ ',' ∧ c ≠ '-')
    (hall : ¬ "all".toList <:+: (ds ++ rest).map tolower) :
    parse_channels (ds ++ rest) [] = some (.ok [(digitsValue ds : Int)]) ∧
    parse_channels ('+' :: (ds ++ rest)) [] = some (.ok [(digitsValue ds : Int)]) := by
  have hdash : '-' ∉ rest := fun hm => (hrest _ hm).2.2 rfl
  obtain ⟨t1, t2⟩ := parse_tok_leading h hr hdash []
  have hsp : ∀ c ∈ ds ++ rest, isspace c = false := by
    intro c hc
    rcases List.mem_append.mp hc with h1 | h1
    · exact isdigit_not_space (h.2.1 c h1)
    · exact (hrest c h1).1
  have hcomma : ',' ∉ ds ++ rest := by
    intro hc
    rcases List.mem_append.mp hc with h1 | h1
    · exact digits_no_comma h.2.1 h1
    · exact (hrest _ h1).2.1 rfl
  have hne : ds ++ rest ≠ [] := by
    obtain ⟨x, t, e⟩ := List.exists_cons_of_ne_nil h.1
    rw [e]
    simp
  have hcan : std_unique (std_sort ([] ++ [(digitsValue ds : Int)])) = [(digitsValue ds : Int)] :=
    canonical_of_strict (by simp)
  constructor
  · rw [parse_channels_one_piece hne hsp hcomma hall t1 (by simp), hcan]
  · rw [parse_channels_one_piece (by simp) ?_ ?_ (all_not_after_plus hall) t2 (by simp), hcan]
    · intro c hc
      rcases List.mem_cons.mp hc with h1 | h1
      · subst h1; decide
      · exact hsp c h1
    · intro hc
      rcases List.mem_cons.mp hc with h1 | h1
      · cases h1
      · exact hcomma h1

/-- A spec made of one range piece is accepted on the leading digits of the two
sides of its first dash. -/
theorem parse_channels_range_leading {a ra b rb : Str} (ha : IsNumber a) (hb : IsNumber b)
    (hra : ∀ c, ra.head? = some c → isdigit c = false)
    (hrb : ∀ c, rb.head? = some c → isdigit c = false)
    (hresta : ∀ c ∈ ra, isspace c = false ∧ c ≠ ',' ∧ c ≠ '-')
    (hrestb : ∀ c ∈ rb, isspace c = false ∧ c ≠ ',')
    (hall : ¬ "all".toList <:+: ((a ++ ra) ++ '-' :: (b ++ rb)).map tolower) :
    parse_channels ((a ++ ra) ++ '-' :: (b ++ rb)) []
      = some (.ok (push_range (min (digitsValue a : Int) (digitsValue b : Int))
          (max (digitsValue a : Int) (digitsValue b : Int)) [])) := by
  have hdash : '-' ∉ ra := fun hm => (hresta _ hm).2.2 rfl
  have t := parse_tok_range_leading ha hb hra hdash hrb []
  have hmem : ∀ c ∈ (a ++ ra) ++ '-' :: (b ++ rb), isspace c = false ∧ c ≠ ',' := by
    intro c hc
    simp only [List.mem_append, List.mem_cons] at hc
    rcases hc with (h1 | h1) | h1 | h1 | h1
    · exact ⟨isdigit_not_space (ha.2.1 c h1), isdigit_ne_comma (ha.2.1 c h1)⟩
    · exact ⟨(hresta c h1).1, (hresta c h1).2.1⟩
    · subst h1; exact ⟨by decide, by decide⟩
    · exact ⟨isdigit_not_space (hb.2.1 c h1), isdigit_ne_comma (hb.2.1 c h1)⟩
    · exact hrestb c h1
  have hne : push_range (min (digitsValue a : Int) (digitsValue b : Int))
      (max (digitsValue a : Int) (digitsValue b : Int)) [] ≠ [] := by
    intro h0
    have : (min (digitsValue a : Int) (digitsValue b : Int)) ∈ push_range
        (min (digitsValue a : Int) (digitsValue b : Int))
        (max (digitsValue a : Int) (digitsValue b : Int)) [] :=
      mem_push_range.mpr (Or.inr ⟨le_refl _, min_le_max⟩)
    rw [h0] at this
    simp at this
  rw [parse_channels_one_piece (by simp) (fun c hc => (hmem c hc).1)
    (fun hc => (hmem _ hc).2 rfl) hall t hne, canonical_of_strict (push_range_strict _ _)]

end SetGetCompact

/-! ## The keyword anywhere in the lenient parsers -/

/-- A spec whose stripped, lower-cased form contains `all` gives all the channels in
the three lenient parsers. -/
theorem lenient_all {raw : Str}
    (hall : "all".toList <:+: (raw.filter (fun c => !isspace c)).map tolower) :
    SetGetCompact.parse_channels raw [] = some (.ok allChannels) ∧
    SetGet.parse_channels raw [] = some (.ok allChannels) ∧
    Ref.parse_joined raw [] = some (.ok allChannels) := by
  have h := @SetGetCompact.parse_channels_all raw (find_str_isSome_iff.mpr hall)
  refine ⟨h, ?_, ?_⟩
  · rw [SetGet.parse_channels_same]; exact h
  · rw [Ref.parse_joined_same _ []]
    · exact h
    · intro h0
      rw [h0] at hall
      exact absurd (List.eq_nil_of_infix_nil hall) (by decide)

theorem Ref.join_specs_nil : Ref.join_specs [] = [] := rfl

/-- The arguments `set <specs> <state>` of ref.cpp, when the joined specs contain
`all` and the state is a value word. -/
theorem Ref.parse_args_all (specs : List Str) (state : Str)
    (hall : "all".toList <:+:
      ((Ref.join_specs specs).filter (fun c => !isspace c)).map tolower)
    (hstate : state.map tolower = "on".toList ∨ state.map tolower = "true".toList
      ∨ state.map tolower = "1".toList ∨ state.map tolower = "off".toList
      ∨ state.map tolower = "false".toList ∨ state.map tolower = "0".toList) :
    ∃ val, Ref.parse_args ("set".toList :: (specs ++ [state]))
      = some (.ok ⟨"localhost".toList, "3001".toList, allChannels, val⟩) := by
  have hne : specs ≠ [] := by
    rintro rfl
    rw [Ref.join_specs_nil] at hall
    exact absurd (List.eq_nil_of_infix_nil hall) (by decide)
  have hpos : 0 < specs.length := List.length_pos.mpr hne
  have hlen : ¬ (("set".toList :: (specs ++ [state])).length + 1 < 4) := by
    simp only [List.length_cons, List.length_append, List.length_singleton]
    omega
  have hdrop : (List.drop 1 ("set".toList :: (specs ++ [state]))).dropLast = specs := by
    show (specs ++ [state]).dropLast = specs
    exact List.dropLast_concat
  have hlast : ("set".toList :: (specs ++ [state])).getLast? = some state := by
    exact List.getLast?_concat ("set".toList :: specs)
  have hj := (lenient_all hall).2.2
  have hrest : ∀ val, Ref.parse_rest "localhost".toList "3001".toList val specs
      = some (.ok ⟨"localhost".toList, "3001".toList, allChannels, val⟩) := by
    intro val
    unfold Ref.parse_rest
    rw [hj]
  unfold Ref.parse_args
  simp only [hlen, if_false, List.getD_cons_zero, ne_eq, not_true_eq_false, decide_False,
    Bool.false_and, Bool.false_eq_true, hdrop, hlast, Option.getD_some, hrest]
  split_ifs with h1 h2
  · exact ⟨true, rfl⟩
  · exact ⟨false, rfl⟩
  · exfalso
    rcases hstate with h | h | h | h | h | h
    · exact h1 (Or.inl h)
    · exact h1 (Or.inr (Or.inl h))
    · exact h1 (Or.inr (Or.inr h))
    · exact h2 (Or.inl h)
    · exact h2 (Or.inr (Or.inl h))
    · exact h2 (Or.inr (Or.inr h))

/-! ## Messages, pauses and receives of set_get_compact.cpp -/

namespace SetGetCompact

theorem compact_wire_append (a b : List Event) : wire (a ++ b) = wire a ++ wire b :=
  List.filter_append _ _

theorem compact_delays_append (a b : List Event) : delays (a ++ b) = delays a ++ delays b :=
  List.filterMap_append _ _ _

theorem compact_reads_append (a b : List Event) : reads (a ++ b) = reads a + reads b :=
  List.count_append _ _ _

theorem compact_set_phase_cons2 (val : Bool) (c d : Int) (ds : List Int) :
    set_phase val (c :: d :: ds)
      = [Event.write (set_payload c val),
         Event.cout ("Sent: set ch=".toList ++ to_string c ++ " val=".toList
            ++ (if val then "on".toList else "off".toList) ++ "\n".toList),
         Event.sleep 50] ++ set_phase val (d :: ds) := rfl

theorem compact_wire_set_phase (val : Bool) (channels : List Int) :
    wire (set_phase val channels)
      = List.intersperse (Event.sleep 50)
          (channels.map (fun c => Event.write (set_payload c val))) := by
  induction channels with
  | nil => rfl
  | cons c cs ih =>
    cases cs with
    | nil => rfl
    | cons d ds =>
      rw [compact_set_phase_cons2, compact_wire_append, ih]
      rfl

theorem compact_delays_set_phase (val : Bool) (channels : List Int) :
    delays (set_phase val channels) = List.replicate (channels.length - 1) 50 := by
  induction channels with
  | nil => rfl
  | cons c cs ih =>
    cases cs with
    | nil => rfl
    | cons d ds =>
      rw [compact_set_phase_cons2, compact_delays_append, ih]
      rfl

theorem compact_reads_set_phase (val : Bool) (channels : List Int) :
    reads (set_phase val channels) = 0 := by
  induction channels with
  | nil => rfl
  | cons c cs ih =>
    cases cs with
    | nil => rfl
    | cons d ds =>
      rw [compact_set_phase_cons2, compact_reads_append, ih]
      rfl

theorem compact_quiet_report (pins : List Bool) (channels : List Int) (cnt : Nat) :
    wire (report pins channels cnt) = [] ∧ delays (report pins channels cnt) = [] ∧
    reads (report pins channels cnt) = 0 := by
  induction channels generalizing cnt with
  | nil => exact ⟨rfl, rfl, rfl⟩
  | cons c cs ih =>
    obtain ⟨a, b, d⟩ := ih (cnt + 1)
    rw [report]
    refine ⟨?_, ?_, ?_⟩
    · unfold wire at a ⊢
      rw [List.filter_cons]
      exact a
    · unfold delays at b ⊢
      rw [List.filterMap_cons]
      exact b
    · unfold reads at d ⊢
      rw [List.count_cons, d]
      rfl

/-- The end of a run, after the receive: report or raw text. It writes nothing to the
connection, pauses nowhere and receives nothing. -/
theorem compact_quiet_tail (pins : List Bool) (channels : List Int) (body warn : Str) :
    sends (if pins.isEmpty then
        [Event.cout ("Received (raw): ".toList ++ body ++ "\n".toList), Event.cerr warn]
      else
        [Event.cout "Status:\n".toList] ++ report pins channels 0
          ++ (if channels.length % 16 ≠ 0 then [Event.cout "\n".toList] else [])) = [] ∧
    wire (if pins.isEmpty then
        [Event.cout ("Received (raw): ".toList ++ body ++ "\n".toList), Event.cerr warn]
      else
        [Event.cout "Status:\n".toList] ++ report pins channels 0
          ++ (if channels.length % 16 ≠ 0 then [Event.cout "\n".toList] else [])) = [] ∧
    delays (if pins.isEmpty then
        [Event.cout ("Received (raw): ".toList ++ body ++ "\n".toList), Event.cerr warn]
      else
        [Event.cout "Status:\n".toList] ++ report pins channels 0
          ++ (if channels.length % 16 ≠ 0 then [Event.cout "\n".toList] else [])) = [] ∧
    reads (if pins.isEmpty then
        [Event.cout ("Received (raw): ".toList ++ body ++ "\n".toList), Event.cerr warn]
      else
        [Event.cout "Status:\n".toList] ++ report pins channels 0
          ++ (if channels.length % 16 ≠ 0 then [Event.cout "\n".toList] else [])) = 0 := by
  obtain ⟨a, b, d⟩ := compact_quiet_report pins channels 0
  have s := compact_sends_report pins channels 0
  split
  · exact ⟨rfl, rfl, rfl, rfl⟩
  · refine ⟨?_, ?_, ?_, ?_⟩
    · rw [compact_sends_append, compact_sends_append, s]
      split <;> rfl
    · rw [compact_wire_append, compact_wire_append, a]
      split <;> rfl
    · rw [compact_delays_append, compact_delays_append, b]
      split <;> rfl
    · rw [compact_reads_append, compact_reads_append, d]
      split <;> rfl

theorem replicate_pred_succ {n : Nat} (h : 0 < n) (x : Nat) :
    List.replicate (n - 1) x ++ [x] = List.replicate n x := by
  obtain ⟨m, rfl⟩ : ∃ m, n = m + 1 := ⟨n - 1, by omega⟩
  simp only [Nat.add_sub_cancel]
  rw [← List.replicate_succ']

/-- What a run of set_get_compact.cpp that passes `parse_args` writes, pauses and
receives. -/
theorem compact_main_observe {args : List Str} {a : Args} (body : Str)
    (h : parse_args args = some (.ok a)) :
    ∃ run, main args body = some run ∧ run.exit = 0 ∧ a.channels ≠ [] ∧
      sends run.events
        = (if a.mode = Mode.SET then a.channels.map (fun c => set_payload c a.val) else [])
          ++ [get_payload] ∧
      wire run.events
        = (if a.mode = Mode.SET then
            List.intersperse (Event.sleep 50)
              (a.channels.map (fun c => Event.write (set_payload c a.val)))
              ++ [Event.sleep 50]
          else []) ++ [Event.write get_payload] ∧
      delays run.events
        = (if a.mode = Mode.SET then List.replicate a.channels.length 50 else []) ∧
      reads run.events = 1 := by
  obtain ⟨pins, hpins⟩ := compact_pins_total body
  obtain ⟨spec, hspec⟩ := parse_args_ok h
  have hne := parse_channels_ne_nil hspec
  obtain ⟨q1, q2, q3, q4⟩ := compact_quiet_tail pins a.channels body
    "Warning: 'pins' array not found.\n".toList
  have s1 : sends [Event.connect a.host a.port, Event.cout ("Connected to ".toList ++ a.host
      ++ ":".toList ++ a.port ++ "\n".toList)] = [] := rfl
  have s2 : sends [Event.sleep 50] = [] := rfl
  have s3 : sends [Event.write get_payload, Event.read] = [get_payload] := rfl
  have s4 : sends [Event.close] = [] := rfl
  have w1 : wire [Event.connect a.host a.port, Event.cout ("Connected to ".toList ++ a.host
      ++ ":".toList ++ a.port ++ "\n".toList)] = [] := rfl
  have w2 : wire [Event.sleep 50] = [Event.sleep 50] := rfl
  have w3 : wire [Event.write get_payload, Event.read] = [Event.write get_payload] := rfl
  have w4 : wire [Event.close] = [] := rfl
  have d1 : delays [Event.connect a.host a.port, Event.cout ("Connected to ".toList ++ a.host
      ++ ":".toList ++ a.port ++ "\n".toList)] = [] := rfl
  have d2 : delays [Event.sleep 50] = [50] := rfl
  have d3 : delays [Event.write get_payload, Event.read] = [] := rfl
  have d4 : delays [Event.close] = [] := rfl
  have r1 : reads [Event.connect a.host a.port, Event.cout ("Connected to ".toList ++ a.host
      ++ ":".toList ++ a.port ++ "\n".toList)] = 0 := rfl
  have r2 : reads [Event.sleep 50] = 0 := rfl
  have r3 : reads [Event.write get_payload, Event.read] = 1 := rfl
  have r4 : reads [Event.close] = 0 := rfl
  refine ⟨_, by unfold main; rw [h, hpins], rfl, hne, ?_, ?_, ?_, ?_⟩
  · simp only [compact_sends_append, q1, s1, s3, s4, List.append_nil, List.nil_append]
    by_cases hm : a.mode = Mode.SET
    · rw [if_pos hm, if_pos hm, compact_sends_append, compact_sends_set_phase, s2,
        List.append_nil]
    · rw [if_neg hm, if_neg hm]
      rfl
  · simp only [compact_wire_append, q2, w1, w3, w4, List.append_nil, List.nil_append]
    by_cases hm : a.mode = Mode.SET
    · rw [if_pos hm, if_pos hm, compact_wire_append, compact_wire_set_phase, w2]
    · rw [if_neg hm, if_neg hm]
      rfl
  · simp only [compact_delays_append, q3, d1, d3, d4, List.append_nil, List.nil_append]
    by_cases hm : a.mode = Mode.SET
    · rw [if_pos hm, if_pos hm, compact_delays_append, compact_delays_set_phase, d2,
        replicate_pred_succ (List.length_pos.mpr hne)]
    · rw [if_neg hm, if_neg hm]
      rfl
  · simp only [compact_reads_append, q4, r1, r3, r4, Nat.zero_add, Nat.add_zero]
    by_cases hm : a.mode = Mode.SET
    · rw [if_pos hm, compact_reads_append, compact_reads_set_phase, r2]
    · rw [if_neg hm]
      rfl

/-- A run of set_get_compact.cpp that fails in `parse_args` does nothing but write
to the error stream. -/
theorem compact_main_error {args : List Str} {evs : List Event} (body : Str)
    (h : parse_args args = some (.error evs)) :
    main args body = some ⟨evs, 1⟩ ∧ sends evs = [] := by
  refine ⟨by unfold main; rw [h], parse_args_error h⟩

end SetGetCompact

/-! ## Messages, pauses and receives of set_get.cpp -/

namespace SetGet

theorem status_text_same (pins : List Bool) (ch : Int) :
    status_text pins ch = SetGetCompact.status_text pins ch := rfl

theorem report_same (pins : List Bool) : ∀ (channels : List Int) (cnt : Nat),
    report pins channels cnt = SetGetCompact.report pins channels cnt := by
  intro channels
  induction channels with
  | nil => intro cnt; rfl
  | cons c cs ih =>
    intro cnt
    rw [report, SetGetCompact.report, ih, status_text_same]

theorem join_specs_same (toks : List Str) :
    join_specs toks = SetGetCompact.join_specs toks := rfl

/-- The function `parse_args` of set_get.cpp computes what the one of
set_get_compact.cpp does. -/
theorem parse_args_same (args : List Str) :
    parse_args args = SetGetCompact.parse_args args := by
  unfold parse_args SetGetCompact.parse_args
  simp only [parse_channels_same, join_specs_same]

theorem setget_pins_total (js : Str) : ∃ pins, parse_pins_from_json js = some pins := by
  rw [parse_pins_same]
  exact Kulgad.parse_pins_total js

theorem setget_args_ok {args : List Str} {a : SetGetCompact.Args}
    (h : parse_args args = some (.ok a)) :
    ∃ spec, SetGetCompact.parse_channels spec [] = some (.ok a.channels) := by
  rw [parse_args_same] at h
  exact SetGetCompact.parse_args_ok h

theorem setget_quiet_tail (pins : List Bool) (channels : List Int) (body warn : Str) :
    SetGetCompact.sends (if pins.isEmpty then
        [SetGetCompact.Event.cout ("Received (raw): ".toList ++ body ++ "\n".toList),
         SetGetCompact.Event.cerr warn]
      else
        [SetGetCompact.Event.cout "Status:\n".toList] ++ report pins channels 0
          ++ (if channels.length % 16 ≠ 0 then [SetGetCompact.Event.cout "\n".toList]
              else [])) = [] ∧
    SetGetCompact.wire (if pins.isEmpty then
        [SetGetCompact.Event.cout ("Received (raw): ".toList ++ body ++ "\n".toList),
         SetGetCompact.Event.cerr warn]
      else
        [SetGetCompact.Event.cout "Status:\n".toList] ++ report pins channels 0
          ++ (if channels.length % 16 ≠ 0 then [SetGetCompact.Event.cout "\n".toList]
              else [])) = [] ∧
    SetGetCompact.delays (if pins.isEmpty then
        [SetGetCompact.Event.cout ("Received (raw): ".toList ++ body ++ "\n".toList),
         SetGetCompact.Event.cerr warn]
      else
        [SetGetCompact.Event.cout "Status:\n".toList] ++ report pins channels 0
          ++ (if channels.length % 16 ≠ 0 then [SetGetCompact.Event.cout "\n".toList]
              else [])) = [] ∧
    SetGetCompact.reads (if pins.isEmpty then
        [SetGetCompact.Event.cout ("Received (raw): ".toList ++ body ++ "\n".toList),
         SetGetCompact.Event.cerr warn]
      else
        [SetGetCompact.Event.cout "Status:\n".toList] ++ report pins channels 0
          ++ (if channels.length % 16 ≠ 0 then [SetGetCompact.Event.cout "\n".toList]
              else [])) = 0 := by
  rw [report_same]
  exact SetGetCompact.compact_quiet_tail pins channels body warn

theorem setget_sends_set_phase (val : Bool) (channels : List Int) :
    SetGetCompact.sends (set_phase val channels) = channels.map (fun c => set_payload c val) := by
  induction channels with
  | nil => rfl
  | cons c cs ih =>
    have hstep : set_phase val (c :: cs)
        = [SetGetCompact.Event.write (set_payload c val),
           SetGetCompact.Event.cout ("Sent: set ch=".toList ++ to_string c ++ " val=".toList
              ++ (if val then "on".toList else "off".toList) ++ "\n".toList)]
          ++ (if cs.isEmpty then [] else [SetGetCompact.Event.sleep 50]) ++ set_phase val cs := rfl
    rw [hstep]
    unfold SetGetCompact.sends at ih ⊢
    rw [List.filterMap_append, ih]
    cases cs <;> rfl

theorem setget_set_phase_cons2 (val : Bool) (c d : Int) (ds : List Int) :
    set_phase val (c :: d :: ds)
      = [SetGetCompact.Event.write (set_payload c val),
         SetGetCompact.Event.cout ("Sent: set ch=".toList ++ to_string c ++ " val=".toList
            ++ (if val then "on".toList else "off".toList) ++ "\n".toList),
         SetGetCompact.Event.sleep 50] ++ set_phase val (d :: ds) := rfl

theorem setget_wire_set_phase (val : Bool) (channels : List Int) :
    SetGetCompact.wire (set_phase val channels)
      = List.intersperse (SetGetCompact.Event.sleep 50)
          (channels.map (fun c => SetGetCompact.Event.write (set_payload c val))) := by
  induction channels with
  | nil => rfl
  | cons c cs ih =>
    cases cs with
    | nil => rfl
    | cons d ds =>
      rw [setget_set_phase_cons2, SetGetCompact.compact_wire_append, ih]
      rfl

theorem setget_delays_set_phase (val : Bool) (channels : List Int) :
    SetGetCompact.delays (set_phase val channels) = List.replicate (channels.length - 1) 50 := by
  induction channels with
  | nil => rfl
  | cons c cs ih =>
    cases cs with
    | nil => rfl
    | cons d ds =>
      rw [setget_set_phase_cons2, SetGetCompact.compact_delays_append, ih]
      rfl

theorem setget_reads_set_phase (val : Bool) (channels : List Int) :
    SetGetCompact.reads (set_phase val channels) = 0 := by
  induction channels with
  | nil => rfl
  | cons c cs ih =>
    cases cs with
    | nil => rfl
    | cons d ds =>
      rw [setget_set_phase_cons2, SetGetCompact.compact_reads_append, ih]
      rfl

/-- What a run of set_get.cpp that passes `parse_args` writes, pauses and
receives. -/
theorem setget_main_observe {args : List Str} {a : SetGetCompact.Args} (body : Str)
    (h : parse_args args = some (.ok a)) :
    ∃ run, main args body = some run ∧ run.exit = 0 ∧ a.channels ≠ [] ∧
      SetGetCompact.sends run.events
        = (if a.mode = SetGetCompact.Mode.SET then a.channels.map (fun c => set_payload c a.val) else [])
          ++ [get_payload] ∧
      SetGetCompact.wire run.events
        = (if a.mode = SetGetCompact.Mode.SET then
            List.intersperse (SetGetCompact.Event.sleep 50)
              (a.channels.map (fun c => SetGetCompact.Event.write (set_payload c a.val)))
              ++ [SetGetCompact.Event.sleep 50]
          else []) ++ [SetGetCompact.Event.write get_payload] ∧
      SetGetCompact.delays run.events
        = (if a.mode = SetGetCompact.Mode.SET then List.replicate a.channels.length 50 else []) ∧
      SetGetCompact.reads run.events = 1 := by
  obtain ⟨pins, hpins⟩ := setget_pins_total body
  obtain ⟨spec, hspec⟩ := setget_args_ok h
  have hne := SetGetCompact.parse_channels_ne_nil hspec
  obtain ⟨q1, q2, q3, q4⟩ := setget_quiet_tail pins a.channels body
    "Warning: 'pins' array not found in response.\n".toList
  have s1 : SetGetCompact.sends [SetGetCompact.Event.connect a.host a.port, SetGetCompact.Event.cout ("Connected to ".toList ++ a.host
      ++ ":".toList ++ a.port ++ "\n".toList)] = [] := rfl
  have s2 : SetGetCompact.sends [SetGetCompact.Event.sleep 50] = [] := rfl
  have s3 : SetGetCompact.sends [SetGetCompact.Event.write get_payload, SetGetCompact.Event.read] = [get_payload] := rfl
  have s4 : SetGetCompact.sends [SetGetCompact.Event.close] = [] := rfl
  have w1 : SetGetCompact.wire [SetGetCompact.Event.connect a.host a.port, SetGetCompact.Event.cout ("Connected to ".toList ++ a.host
      ++ ":".toList ++ a.port ++ "\n".toList)] = [] := rfl
  have w2 : SetGetCompact.wire [SetGetCompact.Event.sleep 50] = [SetGetCompact.Event.sleep 50] := rfl
  have w3 : SetGetCompact.wire [SetGetCompact.Event.write get_payload, SetGetCompact.Event.read] = [SetGetCompact.Event.write get_payload] := rfl
  have w4 : SetGetCompact.wire [SetGetCompact.Event.close] = [] := rfl
  have d1 : SetGetCompact.delays [SetGetCompact.Event.connect a.host a.port, SetGetCompact.Event.cout ("Connected to ".toList ++ a.host
      ++ ":".toList ++ a.port ++ "\n".toList)] = [] := rfl
  have d2 : SetGetCompact.delays [SetGetCompact.Event.sleep 50] = [50] := rfl
  have d3 : SetGetCompact.delays [SetGetCompact.Event.write get_payload, SetGetCompact.Event.read] = [] := rfl
  have d4 : SetGetCompact.delays [SetGetCompact.Event.close] = [] := rfl
  have r1 : SetGetCompact.reads [SetGetCompact.Event.connect a.host a.port, SetGetCompact.Event.cout ("Connected to ".toList ++ a.host
      ++ ":".toList ++ a.port ++ "\n".toList)] = 0 := rfl
  have r2 : SetGetCompact.reads [SetGetCompact.Event.sleep 50] = 0 := rfl
  have r3 : SetGetCompact.reads [SetGetCompact.Event.write get_payload, SetGetCompact.Event.read] = 1 := rfl
  have r4 : SetGetCompact.reads [SetGetCompact.Event.close] = 0 := rfl
  refine ⟨_, by unfold main; rw [h, hpins], rfl, hne, ?_, ?_, ?_, ?_⟩
  · simp only [SetGetCompact.compact_sends_append, q1, s1, s3, s4, List.append_nil, List.nil_append]
    by_cases hm : a.mode = SetGetCompact.Mode.SET
    · rw [if_pos hm, if_pos hm, SetGetCompact.compact_sends_append, setget_sends_set_phase, s2,
        List.append_nil]
    · rw [if_neg hm, if_neg hm]
      rfl
  · simp only [SetGetCompact.compact_wire_append, q2, w1, w3, w4, List.append_nil, List.nil_append]
    by_cases hm : a.mode = SetGetCompact.Mode.SET
    · rw [if_pos hm, if_pos hm, SetGetCompact.compact_wire_append, setget_wire_set_phase, w2]
    · rw [if_neg hm, if_neg hm]
      rfl
  · simp only [SetGetCompact.compact_delays_append, q3, d1, d3, d4, List.append_nil, List.nil_append]
    by_cases hm : a.mode = SetGetCompact.Mode.SET
    · rw [if_pos hm, if_pos hm, SetGetCompact.compact_delays_append, setget_delays_set_phase, d2,
        SetGetCompact.replicate_pred_succ (List.length_pos.mpr hne)]
    · rw [if_neg hm, if_neg hm]
      rfl
  · simp only [SetGetCompact.compact_reads_append, q4, r1, r3, r4, Nat.zero_add, Nat.add_zero]
    by_cases hm : a.mode = SetGetCompact.Mode.SET
    · rw [if_pos hm, SetGetCompact.compact_reads_append, setget_reads_set_phase, r2]
    · rw [if_neg hm]
      rfl

/-- A run of set_get.cpp that fails in `parse_args` does nothing but write to the
error stream. -/
theorem setget_main_error {args : List Str} {evs : List SetGetCompact.Event} (body : Str)
    (h : parse_args args = some (.error evs)) :
    main args body = some ⟨evs, 1⟩ ∧ SetGetCompact.sends evs = [] := by
  refine ⟨by unfold main; rw [h], ?_⟩
  rw [parse_args_same] at h
  exact SetGetCompact.parse_args_error h

end SetGet

/-! ## The texts of the messages -/

theorem SetGetCompact.compact_payload_ne_get (c : Int) (v : Bool) :
    SetGetCompact.set_payload c v ≠ SetGetCompact.get_payload :=
  Kulgad.set_payload_ne_get c v

theorem SetGet.setget_payload_ne_get (c : Int) (v : Bool) :
    SetGet.set_payload c v ≠ SetGet.get_payload := by
  intro h
  have := congrArg (fun l => l.get? 9) h
  simp [SetGet.set_payload, SetGet.get_payload, String.toList] at this

theorem SetGetCompact.parse_args_error_reads {args : List Str}
    {evs : List SetGetCompact.Event} (h : SetGetCompact.parse_args args = some (.error evs)) :
    SetGetCompact.reads evs = 0 := by
  unfold SetGetCompact.parse_args at h
  simp only at h
  split_ifs at h
  all_goals first
    | (split at h <;> first
        | (cases h; rfl)
        | (cases h; split <;> rfl)
        | cases h)
    | (cases h; rfl)

/-- The text of the messages of set_get.cpp and ref.cpp, without its white space, is
the text of the messages of kulgad.cpp and set_get_compact.cpp. -/
theorem SetGet.payload_stripped {c : Int} (h0 : 0 ≤ c) (h1 : c ≤ 255) (v : Bool) :
    (SetGet.set_payload c v).filter (fun ch => !isspace ch) = Kulgad.set_payload c v := by
  obtain ⟨hd, -, -⟩ := to_string_decimal h0 h1
  have hs : (to_string c).filter (fun ch => !isspace ch) = to_string c := by
    rw [List.filter_eq_self]
    intro ch hch
    rw [isdigit_not_space (hd.2 ch hch)]
    rfl
  unfold SetGet.set_payload Kulgad.set_payload
  simp only [List.filter_append, hs]
  cases v <;> rfl

/-! ## The strict parser against the lenient one -/

theorem filter_nonempty_texts {ps : List Piece} (hwf : ∀ p ∈ ps, p.WF) :
    (ps.map Piece.text).filter (fun p => !p.isEmpty) = ps.map Piece.text := by
  rw [List.filter_eq_self]
  intro t ht
  obtain ⟨p, hp, rfl⟩ := List.mem_map.mp ht
  have := Piece.text_ne_nil (hwf p hp)
  cases h : p.text with
  | nil => exact absurd h this
  | cons _ _ => rfl

theorem filter_nonempty_trailing {ps : List Piece} (hwf : ∀ p ∈ ps, p.WF) :
    (ps.map Piece.text ++ [[]]).filter (fun p => !p.isEmpty) = ps.map Piece.text := by
  rw [List.filter_append, filter_nonempty_texts hwf]
  simp

/-- A spec accepted by `parse_channels_token` of kulgad.cpp is accepted by
`parse_channels` of set_get_compact.cpp, with the same canonical list. -/
theorem strict_in_lenient {spec : Str} {out : List Int}
    (h : Kulgad.parse_channels_token spec [] = some (.ok out)) :
    SetGetCompact.parse_channels spec [] = some (.ok (std_unique (std_sort out))) := by
  have hacc := h
  rw [Kulgad.parse_channels_token_eq] at h
  by_cases h1 : spec.isEmpty = true
  · rw [if_pos h1] at h
    cases h
  rw [if_neg h1] at h
  by_cases h2 : Kulgad.lower_copy spec = "all".toList
  · rw [if_pos h2] at h
    simp only [Option.some.injEq, ParseResult.ok.injEq] at h
    subst h
    have hstrip : spec.filter (fun c => !isspace c) = spec := by
      rw [List.filter_eq_self]
      intro c hc
      cases hs : isspace c with
      | false => rfl
      | true =>
        have hl := lower_eq_all_mem h2 hc
        rw [Kulgad.isspace_tolower hs] at hl
        rcases hl with e | e <;> subst e <;> revert hs <;> decide
    rw [canonical_push_all]
    apply SetGetCompact.parse_channels_all
    rw [hstrip]
    have h3 : spec.map tolower = "all".toList := h2
    rw [h3]
    decide
  · rw [if_neg h2] at h
    simp only [Option.some.injEq] at h
    have hplain : Plain spec := by
      rcases Kulgad.accepted_all_or_plain ⟨out, hacc⟩ with e | e
      · exact absurd e h2
      · exact e
    obtain ⟨ps, hwf, hts, hout⟩ := Kulgad.kulgad_loop_ok _ h
    have hne : ps ≠ [] := by
      rintro rfl
      rcases hts with e | e
      · exact splitComma_ne_nil spec e
      · have := joinComma_splitComma spec
        rw [e] at this
        simp only [List.map_nil, List.nil_append] at this
        rw [← this] at h1
        exact h1 rfl
    have hloop : SetGetCompact.loopPieces (splitComma spec) [] = .ok (applyPieces ps []) := by
      rw [SetGetCompact.compact_loop_skip]
      rcases hts with e | e
      · rw [e, filter_nonempty_texts hwf, SetGetCompact.compact_pieces hwf]
      · rw [e, filter_nonempty_trailing hwf, SetGetCompact.compact_pieces hwf]
    have hnz : (applyPieces ps []).isEmpty = false := by
      cases hx : applyPieces ps [] with
      | nil => exact absurd hx (applyPieces_ne_nil hne)
      | cons _ _ => rfl
    have he : spec.isEmpty = false := by
      cases hx : spec.isEmpty with
      | true => exact absurd hx h1
      | false => rfl
    unfold SetGetCompact.parse_channels
    simp only [hplain.filter, he, Bool.false_eq_true, if_false, hplain.lower, hplain.not_all.1,
      hplain.not_all.2, Option.isSome_none, or_self, SetGetCompact.compact_loop_eq, hloop, hnz,
      hout]

/-! ## Bounds of the pins decoder -/

theorem findIdxFrom_get {c : Char} : ∀ {s : Str} {d : Nat}, findIdxFrom c s = some d →
    d < s.length ∧ s[d]? = some c := by
  intro s
  induction s with
  | nil => intro d h; simp [findIdxFrom] at h
  | cons x t ih =>
    intro d h
    rw [findIdxFrom] at h
    by_cases hx : x = c
    · rw [if_pos hx] at h
      cases h
      simp [hx]
    · rw [if_neg hx] at h
      cases ht : findIdxFrom c t with
      | none => rw [ht] at h; cases h
      | some d1 =>
        rw [ht] at h
        simp only [Option.map_some', Option.some.injEq] at h
        subst h
        obtain ⟨h1, h2⟩ := ih ht
        exact ⟨by simp; omega, by simpa using h2⟩

/-- Where `find` finds a character: at or after the start, inside the string, and the
character is there. -/
theorem find_spec {s : Str} {c : Char} {pos k : Nat} (h : find s c pos = some k) :
    pos ≤ k ∧ k < s.length ∧ s[k]? = some c := by
  unfold find at h
  cases hf : findIdxFrom c (s.drop pos) with
  | none => rw [hf] at h; cases h
  | some d =>
    rw [hf] at h
    simp only [Option.map_some', Option.some.injEq] at h
    subst h
    obtain ⟨hlen, hget⟩ := findIdxFrom_get hf
    rw [List.length_drop] at hlen
    rw [List.getElem?_drop] at hget
    refine ⟨by omega, by omega, ?_⟩
    rw [Nat.add_comm]
    exact hget

namespace Kulgad

/-- The traced loop computes the vector of `scan_pins`. -/
theorem scan_pins_traced_fst (arr : Str) : ∀ (fuel i : Nat) (pins : List Bool)
    (calls : List (Nat × Nat)),
    (scan_pins_traced arr fuel i pins calls).map Prod.fst = scan_pins arr fuel i pins := by
  intro fuel
  induction fuel with
  | zero => intro i pins calls; rfl
  | succ fuel ih =>
    intro i pins calls
    rw [scan_pins_traced, scan_pins]
    simp only
    split_ifs <;> first | exact ih _ _ _ | rfl

/-- Every comparison of the traced loop lies inside the array body. -/
theorem scan_pins_traced_bounds (arr : Str) : ∀ (fuel i : Nat) (pins : List Bool)
    (calls : List (Nat × Nat)) (r : List Bool × List (Nat × Nat)),
    (∀ c ∈ calls, c.1 + c.2 ≤ arr.length) →
    scan_pins_traced arr fuel i pins calls = some r →
      ∀ c ∈ r.2, c.1 + c.2 ≤ arr.length := by
  intro fuel
  induction fuel with
  | zero => intro i pins calls r _ h; cases h
  | succ fuel ih =>
    intro i pins calls r hc h
    rw [scan_pins_traced] at h
    simp only at h
    have h1 : ∀ c ∈ (if i + 4 ≤ arr.length then calls ++ [(i, 4)] else calls),
        c.1 + c.2 ≤ arr.length := by
      intro c hm
      split at hm
      · rcases List.mem_append.mp hm with h0 | h0
        · exact hc c h0
        · rw [List.mem_singleton] at h0
          subst h0
          assumption
      · exact hc c hm
    have h2 : ∀ c ∈ (if i + 5 ≤ arr.length then
        (if i + 4 ≤ arr.length then calls ++ [(i, 4)] else calls) ++ [(i, 5)]
        else (if i + 4 ≤ arr.length then calls ++ [(i, 4)] else calls)),
        c.1 + c.2 ≤ arr.length := by
      intro c hm
      split at hm
      · rcases List.mem_append.mp hm with h0 | h0
        · exact h1 c h0
        · rw [List.mem_singleton] at h0
          subst h0
          assumption
      · exact h1 c hm
    split at h
    · split at h
      · exact ih _ _ _ r h1 h
      · split at h
        · exact ih _ _ _ r h2 h
        · exact ih _ _ _ r h2 h
    · cases h
      exact hc

/-- Each token takes at least four characters of the array body. -/
theorem scan_pins_count (arr : Str) : ∀ (fuel i : Nat) (pins r : List Bool),
    i ≤ arr.length → scan_pins arr fuel i pins = some r →
      4 * r.length + i ≤ 4 * pins.length + arr.length := by
  intro fuel
  induction fuel with
  | zero => intro i pins r _ h; cases h
  | succ fuel ih =>
    intro i pins r hi h
    rw [scan_pins_succ] at h
    split at h
    · split at h
      · rename_i h3
        have := ih _ _ _ (by omega) h
        simp only [List.length_append, List.length_singleton] at this
        omega
      · split at h
        · rename_i h3
          have := ih _ _ _ (by omega) h
          simp only [List.length_append, List.length_singleton] at this
          omega
        · have := ih _ _ _ (by omega) h
          omega
    · cases h
      omega

/-- The array body located by `parse_pins_from_json`: the closing bracket is found
strictly after the opening one, and the body has the length `rb - lb - 1`. -/
theorem array_body {js : Str} {p lb rb : Nat} (hlb : find js '[' p = some lb)
    (hrb : find js ']' lb = some rb) :
    lb < rb ∧ rb < js.length ∧ (substr js (lb + 1) (some (rb - lb - 1))).length = rb - lb - 1 := by
  obtain ⟨-, h1, g1⟩ := find_spec hlb
  obtain ⟨h2, h3, g2⟩ := find_spec hrb
  have hne : lb ≠ rb := by
    intro e
    rw [e, g2] at g1
    cases g1
  refine ⟨by omega, h3, ?_⟩
  simp only [substr, List.length_take, List.length_drop]
  omega

end Kulgad

/-! ## When the decoded pins are empty -/

/-- The decoder scans the located array, and gives the empty vector without one. -/
theorem Kulgad.parse_pins_located (js : Str) :
    Kulgad.parse_pins_from_json js =
      match Kulgad.located_array js with
      | none => some []
      | some arr => Kulgad.scan_pins arr (arr.length + 1) 0 [] := by
  unfold Kulgad.parse_pins_from_json Kulgad.located_array
  cases h1 : find_str js "\"pins\"".toList with
  | none => rfl
  | some p =>
    simp only
    cases h2 : find js '[' p with
    | none => rfl
    | some lb =>
      simp only
      cases h3 : find js ']' lb with
      | none => rfl
      | some rb => rfl

/-- The scan only appends to the vector it is given. -/
theorem Kulgad.scan_pins_grows (arr : Str) : ∀ (fuel i : Nat) (pins r : List Bool),
    Kulgad.scan_pins arr fuel i pins = some r → ∃ t, r = pins ++ t := by
  intro fuel
  induction fuel with
  | zero =>
    intro i pins r h
    rw [Kulgad.scan_pins] at h
    cases h
  | succ fuel ih =>
    intro i pins r h
    rw [Kulgad.scan_pins_succ] at h
    by_cases h0 : i < arr.length
    · rw [if_pos h0] at h
      by_cases h1 : i + 4 ≤ arr.length ∧ substr arr i (some 4) = "true".toList
      · rw [if_pos h1] at h
        obtain ⟨t, ht⟩ := ih _ _ _ h
        exact ⟨true :: t, by rw [ht, List.append_assoc]; rfl⟩
      · rw [if_neg h1] at h
        by_cases h2 : i + 5 ≤ arr.length ∧ substr arr i (some 5) = "false".toList
        · rw [if_pos h2] at h
          obtain ⟨t, ht⟩ := ih _ _ _ h
          exact ⟨false :: t, by rw [ht, List.append_assoc]; rfl⟩
        · rw [if_neg h2] at h
          exact ih _ _ _ h
    · rw [if_neg h0] at h
      cases h
      exact ⟨[], (List.append_nil _).symm⟩

/-- A token at or after the position of the scan is not skipped: the vector grows. -/
theorem Kulgad.scan_pins_finds (arr : Str) (j : Nat) (rest : Str)
    (hj : arr.drop j = "true".toList ++ rest ∨ arr.drop j = "false".toList ++ rest) :
    ∀ (fuel i : Nat) (pins r : List Bool), i ≤ j →
      Kulgad.scan_pins arr fuel i pins = some r → pins.length < r.length := by
  intro fuel
  induction fuel with
  | zero =>
    intro i pins r _ h
    rw [Kulgad.scan_pins] at h
    cases h
  | succ fuel ih =>
    intro i pins r hij h
    by_cases he : i = j
    · subst he
      rcases hj with hj | hj
      · rw [Kulgad.scan_pins_true pins hj] at h
        obtain ⟨t, ht⟩ := Kulgad.scan_pins_grows _ _ _ _ _ h
        rw [ht]
        simp
      · rw [Kulgad.scan_pins_false pins hj] at h
        obtain ⟨t, ht⟩ := Kulgad.scan_pins_grows _ _ _ _ _ h
        rw [ht]
        simp
    · rw [Kulgad.scan_pins_succ] at h
      have hjlt : j < arr.length := by
        rcases hj with hj | hj
        · have := drop_len_of_drop hj (by decide)
          have e : "true".toList.length = 4 := rfl
          omega
        · have := drop_len_of_drop hj (by decide)
          have e : "false".toList.length = 5 := rfl
          omega
      rw [if_pos (by omega)] at h
      by_cases h1 : i + 4 ≤ arr.length ∧ substr arr i (some 4) = "true".toList
      · rw [if_pos h1] at h
        obtain ⟨t, ht⟩ := Kulgad.scan_pins_grows _ _ _ _ _ h
        rw [ht]
        simp
      · rw [if_neg h1] at h
        by_cases h2 : i + 5 ≤ arr.length ∧ substr arr i (some 5) = "false".toList
        · rw [if_pos h2] at h
          obtain ⟨t, ht⟩ := Kulgad.scan_pins_grows _ _ _ _ _ h
          rw [ht]
          simp
        · rw [if_neg h2] at h
          exact ih _ _ _ (by omega) h

/-- The scan appends only where the text holds a token. -/
theorem Kulgad.scan_pins_source (arr : Str) : ∀ (fuel i : Nat) (pins r : List Bool),
    Kulgad.scan_pins arr fuel i pins = some r → r = pins ∨ HasToken arr := by
  intro fuel
  induction fuel with
  | zero =>
    intro i pins r h
    rw [Kulgad.scan_pins] at h
    cases h
  | succ fuel ih =>
    intro i pins r h
    have hsub : ∀ n, substr arr i (some n) <:+: arr := fun n =>
      ⟨arr.take i, (arr.drop i).drop n, by
        show arr.take i ++ (arr.drop i).take n ++ (arr.drop i).drop n = arr
        rw [List.append_assoc, List.take_append_drop, List.take_append_drop]⟩
    rw [Kulgad.scan_pins_succ] at h
    by_cases h0 : i < arr.length
    · rw [if_pos h0] at h
      by_cases h1 : i + 4 ≤ arr.length ∧ substr arr i (some 4) = "true".toList
      · exact Or.inr (Or.inl (h1.2 ▸ hsub 4))
      · rw [if_neg h1] at h
        by_cases h2 : i + 5 ≤ arr.length ∧ substr arr i (some 5) = "false".toList
        · exact Or.inr (Or.inr (h2.2 ▸ hsub 5))
        · rw [if_neg h2] at h
          exact ih _ _ _ h
    · rw [if_neg h0] at h
      cases h
      exact Or.inl rfl

/-- An occurrence of a text is a position where the rest starts with it. -/
theorem drop_of_within {t arr : Str} (h : t <:+: arr) : ∃ j rest, arr.drop j = t ++ rest := by
  obtain ⟨u, v, huv⟩ := h
  refine ⟨u.length, v, ?_⟩
  rw [← huv, List.append_assoc, List.drop_left]

/-- The scan of a whole text gives the empty vector exactly when the text holds no
`true` and no `false`. -/
theorem Kulgad.scan_pins_empty_iff {arr : Str} {r : List Bool}
    (h : Kulgad.scan_pins arr (arr.length + 1) 0 [] = some r) : r = [] ↔ ¬ HasToken arr := by
  constructor
  · intro hr ht
    have hj : ∃ j rest, arr.drop j = "true".toList ++ rest ∨ arr.drop j = "false".toList ++ rest := by
      rcases ht with ht | ht
      · obtain ⟨j, rest, hd⟩ := drop_of_within ht
        exact ⟨j, rest, Or.inl hd⟩
      · obtain ⟨j, rest, hd⟩ := drop_of_within ht
        exact ⟨j, rest, Or.inr hd⟩
    obtain ⟨j, rest, hd⟩ := hj
    have := Kulgad.scan_pins_finds arr j rest hd _ _ _ _ (Nat.zero_le _) h
    rw [hr] at this
    exact Nat.lt_irrefl _ this
  · intro hn
    rcases Kulgad.scan_pins_source arr _ _ _ _ h with h1 | h1
    · exact h1
    · exact absurd h1 hn

/-- The decoded vector is empty exactly when no array is located or the located array
holds no `true` and no `false`. -/
theorem Kulgad.parse_pins_empty_iff {js : Str} {pins : List Bool}
    (h : Kulgad.parse_pins_from_json js = some pins) :
    pins = [] ↔ ∀ arr, Kulgad.located_array js = some arr → ¬ HasToken arr := by
  rw [Kulgad.parse_pins_located] at h
  cases hl : Kulgad.located_array js with
  | none =>
    rw [hl] at h
    simp only [Option.some.injEq] at h
    exact ⟨fun _ arr ha => (by cases ha), fun _ => h.symm⟩
  | some arr =>
    rw [hl] at h
    have := Kulgad.scan_pins_empty_iff h
    constructor
    · intro hp arr1 ha
      cases ha
      exact this.mp hp
    · intro hall
      exact this.mpr (hall arr rfl)

/-! ## Order and repetition of the pieces -/

/-- A loop that handles the pieces in order and stops at the first failure: when it
succeeds, every piece is accepted alone, and the vector holds what it held and the
channels of the pieces. -/
theorem loop_mem (f : Str → List Int → ParseResult) (L : List Str → List Int → ParseResult)
    (G : Str → Prop)
    (hmem : ∀ p out out1, f p out = .ok out1 →
      ∃ r, f p [] = .ok r ∧ ∀ x, x ∈ out1 ↔ x ∈ out ∨ x ∈ r)
    (hnil : ∀ out, L [] out = .ok out)
    (hcons : ∀ p ps out, G p →
      L (p :: ps) out = match f p out with
        | .ok out1 => L ps out1
        | r => r) :
    ∀ (ps : List Str) (out out1 : List Int), (∀ p ∈ ps, G p) → L ps out = .ok out1 →
      (∀ p ∈ ps, ∃ r, f p [] = .ok r) ∧
      ∀ x, x ∈ out1 ↔ x ∈ out ∨ ∃ p ∈ ps, ∃ r, f p [] = .ok r ∧ x ∈ r := by
  intro ps
  induction ps with
  | nil =>
    intro out out1 _ h
    rw [hnil] at h
    cases h
    simp
  | cons p ps ih =>
    intro out out1 hG h
    rw [hcons p ps out (hG p (List.mem_cons_self _ _))] at h
    cases hp : f p out with
    | fail e => rw [hp] at h; cases h
    | thrown e => rw [hp] at h; cases h
    | ok out2 =>
      rw [hp] at h
      simp only at h
      obtain ⟨r, hr, hm⟩ := hmem p out out2 hp
      obtain ⟨hacc, hm1⟩ := ih out2 out1 (fun q hq => hG q (List.mem_cons_of_mem _ hq)) h
      constructor
      · intro q hq
        rcases List.mem_cons.mp hq with e | e
        · subst e
          exact ⟨r, hr⟩
        · exact hacc q e
      · intro x
        rw [hm1 x, hm x]
        constructor
        · rintro ((hx | hx) | ⟨q, hq, r1, hr1, hx⟩)
          · exact Or.inl hx
          · exact Or.inr ⟨p, List.mem_cons_self _ _, r, hr, hx⟩
          · exact Or.inr ⟨q, List.mem_cons_of_mem _ hq, r1, hr1, hx⟩
        · rintro (hx | ⟨q, hq, r1, hr1, hx⟩)
          · exact Or.inl (Or.inl hx)
          · rcases List.mem_cons.mp hq with e | e
            · subst e
              rw [hr] at hr1
              cases hr1
              exact Or.inl (Or.inr hx)
            · exact Or.inr ⟨q, e, r1, hr1, hx⟩

/-- Such a loop succeeds when every piece is accepted alone. -/
theorem loop_accepts (f : Str → List Int → ParseResult)
    (L : List Str → List Int → ParseResult) (G : Str → Prop)
    (hacc : ∀ p r, f p [] = .ok r → ∀ out, ∃ out1, f p out = .ok out1)
    (hcons : ∀ p ps out, G p →
      L (p :: ps) out = match f p out with
        | .ok out1 => L ps out1
        | r => r)
    (hnil : ∀ out, L [] out = .ok out) :
    ∀ (ps : List Str), (∀ p ∈ ps, G p) → (∀ p ∈ ps, ∃ r, f p [] = .ok r) →
      ∀ out, ∃ out1, L ps out = .ok out1 := by
  intro ps
  induction ps with
  | nil => intro _ _ out; exact ⟨out, hnil out⟩
  | cons p ps ih =>
    intro hG h out
    obtain ⟨r, hr⟩ := h p (List.mem_cons_self _ _)
    obtain ⟨out2, h2⟩ := hacc p r hr out
    obtain ⟨out1, h1⟩ := ih (fun q hq => hG q (List.mem_cons_of_mem _ hq))
      (fun q hq => h q (List.mem_cons_of_mem _ hq)) out2
    refine ⟨out1, ?_⟩
    rw [hcons p ps out (hG p (List.mem_cons_self _ _)), h2]
    exact h1

/-- The outcome of such a loop depends only on the set of its pieces. -/
theorem loop_same_pieces (f : Str → List Int → ParseResult)
    (L : List Str → List Int → ParseResult) (G : Str → Prop)
    (hmem : ∀ p out out1, f p out = .ok out1 →
      ∃ r, f p [] = .ok r ∧ ∀ x, x ∈ out1 ↔ x ∈ out ∨ x ∈ r)
    (hacc : ∀ p r, f p [] = .ok r → ∀ out, ∃ out1, f p out = .ok out1)
    (hnil : ∀ out, L [] out = .ok out)
    (hcons : ∀ p ps out, G p →
      L (p :: ps) out = match f p out with
        | .ok out1 => L ps out1
        | r => r)
    {ps qs : List Str} (hps : ∀ p ∈ ps, G p) (hqs : ∀ p ∈ qs, G p)
    (hsame : ∀ p, p ∈ ps ↔ p ∈ qs) {out1 : List Int} (h : L ps [] = .ok out1) :
    ∃ out2, L qs [] = .ok out2 ∧ ∀ x, x ∈ out2 ↔ x ∈ out1 := by
  obtain ⟨ha, hm⟩ := loop_mem f L G hmem hnil hcons ps [] out1 hps h
  obtain ⟨out2, h2⟩ := loop_accepts f L G hacc hcons hnil qs hqs
    (fun q hq => ha q ((hsame q).mpr hq)) []
  obtain ⟨-, hm2⟩ := loop_mem f L G hmem hnil hcons qs [] out2 hqs h2
  refine ⟨out2, h2, ?_⟩
  intro x
  rw [hm x, hm2 x]
  constructor
  · rintro (hx | ⟨q, hq, rest⟩)
    · exact Or.inl hx
    · exact Or.inr ⟨q, (hsame q).mpr hq, rest⟩
  · rintro (hx | ⟨q, hq, rest⟩)
    · exact Or.inl hx
    · exact Or.inr ⟨q, (hsame q).mp hq, rest⟩

/-! ### The loop of kulgad.cpp -/

theorem Kulgad.kulgad_loop_cons (p : Str) (ps : List Str) (out : List Int) (hp : p ≠ []) :
    Kulgad.loopPieces (p :: ps) out = match Kulgad.parse_part p out with
      | .ok out1 => Kulgad.loopPieces ps out1
      | r => r := by
  have hpe : p.isEmpty = false := by simpa using hp
  cases ps with
  | nil =>
    rw [Kulgad.loopPieces, hpe]
    simp only [Bool.false_eq_true, if_false]
    cases Kulgad.parse_part p out <;> rfl
  | cons q ps =>
    rw [Kulgad.loopPieces, hpe]
    simp only [Bool.false_eq_true, if_false]

theorem Kulgad.part_mem (p : Str) (out out1 : List Int)
    (h : Kulgad.parse_part p out = .ok out1) :
    ∃ r, Kulgad.parse_part p [] = .ok r ∧ ∀ x, x ∈ out1 ↔ x ∈ out ∨ x ∈ r := by
  obtain ⟨piece, hwf, ht, rfl⟩ := Kulgad.parse_part_ok h
  refine ⟨piece.apply [], ?_, ?_⟩
  · rw [← ht]
    exact Kulgad.parse_part_piece hwf []
  · intro x
    rw [Piece.mem_apply, Piece.mem_apply]
    simp

theorem Kulgad.part_accepts (p : Str) (r : List Int) (h : Kulgad.parse_part p [] = .ok r)
    (out : List Int) : ∃ out1, Kulgad.parse_part p out = .ok out1 := by
  obtain ⟨piece, hwf, ht, -⟩ := Kulgad.parse_part_ok h
  exact ⟨piece.apply out, by rw [← ht]; exact Kulgad.parse_part_piece hwf out⟩

/-- A single spec of kulgad.cpp: the canonical list comes from `parse_channels_token`. -/
theorem Kulgad.parse_canonical_single (spec : Str) :
    Kulgad.parse_canonical [spec] =
      match Kulgad.parse_channels_token spec [] with
      | some (.ok out) => some (.ok (std_unique (std_sort out)))
      | r => r := by
  unfold Kulgad.parse_canonical
  rw [Kulgad.parse_specs]
  obtain ⟨r, hr⟩ := Kulgad.parse_channels_token_total spec []
  rw [hr]
  cases r <;> rfl

/-- In kulgad.cpp the canonical list of a joined spec depends only on the set of its
pieces, when neither spec spells the keyword, or both do. -/
theorem Kulgad.canonical_same_pieces {ps qs : List Str}
    (hps : ∀ p ∈ ps, p ≠ [] ∧ ',' ∉ p) (hqs : ∀ p ∈ qs, p ≠ [] ∧ ',' ∉ p)
    (hsame : ∀ p, p ∈ ps ↔ p ∈ qs)
    (hall : Kulgad.lower_copy (joinComma ps) = "all".toList
      ↔ Kulgad.lower_copy (joinComma qs) = "all".toList)
    {C : List Int} (h : Kulgad.parse_canonical [joinComma ps] = some (.ok C)) :
    Kulgad.parse_canonical [joinComma qs] = some (.ok C) := by
  rw [Kulgad.parse_canonical_single, Kulgad.parse_channels_token_eq] at h
  rw [Kulgad.parse_canonical_single, Kulgad.parse_channels_token_eq]
  by_cases he : (joinComma ps).isEmpty = true
  · rw [if_pos he] at h
    cases h
  rw [if_neg he] at h
  have hpne : ps ≠ [] := by
    rintro rfl
    exact he rfl
  obtain ⟨q0, qrest, hq0⟩ : ∃ q0 qrest, qs = q0 :: qrest := by
    obtain ⟨p0, prest, rfl⟩ := List.exists_cons_of_ne_nil hpne
    have : p0 ∈ qs := (hsame p0).mp (List.mem_cons_self _ _)
    exact List.exists_cons_of_ne_nil (List.ne_nil_of_mem this)
  have hqne : qs ≠ [] := by rw [hq0]; simp
  have heq : (joinComma qs).isEmpty = false := by
    have := joinComma_ne_nil qrest (hqs q0 (by rw [hq0]; exact List.mem_cons_self _ _)).1
    rw [← hq0] at this
    simpa using this
  rw [heq]
  simp only [Bool.false_eq_true, if_false]
  by_cases ha : Kulgad.lower_copy (joinComma ps) = "all".toList
  · rw [if_pos ha] at h
    rw [if_pos (hall.mp ha)]
    exact h
  · rw [if_neg ha] at h
    rw [if_neg (fun hb => ha (hall.mpr hb))]
    rw [splitComma_joinComma hpne (fun p hp => (hps p hp).2)] at h
    rw [splitComma_joinComma hqne (fun p hp => (hqs p hp).2)]
    cases hl : Kulgad.loopPieces ps [] with
    | fail e => rw [hl] at h; cases h
    | thrown e => rw [hl] at h; cases h
    | ok out1 =>
      rw [hl] at h
      simp only [Option.some.injEq, ParseResult.ok.injEq] at h
      obtain ⟨out2, h2, hm⟩ := loop_same_pieces Kulgad.parse_part Kulgad.loopPieces
        (fun p => p ≠ []) Kulgad.part_mem Kulgad.part_accepts (fun _ => rfl)
        (fun p ps out hp => Kulgad.kulgad_loop_cons p ps out hp)
        (fun p hp => (hps p hp).1) (fun p hp => (hqs p hp).1) hsame hl
      rw [h2]
      simp only [Option.some.injEq, ParseResult.ok.injEq]
      rw [← h]
      exact canonical_eq_of_mem (canonical_strict out1)
        (fun x => (hm x).trans mem_canonical.symm)

/-! ### The loop of set_get_compact.cpp -/

/-- An accepted piece is accepted whatever the vector holds, and appends the same
channels to it. -/
theorem SetGetCompact.parse_tok_shape {tok : Str} {out out1 : List Int}
    (h : SetGetCompact.parse_tok tok out = .ok out1) :
    ∃ d : List Int, ∀ out2, SetGetCompact.parse_tok tok out2 = .ok (out2 ++ d) := by
  unfold SetGetCompact.parse_tok at h
  cases hf : find tok '-' 0 with
  | none =>
    rw [hf] at h
    simp only at h
    cases hs : stoi tok with
    | value ch =>
      rw [hs] at h
      simp only [SetGetCompact.add] at h
      by_cases hr : ch < 0 ∨ ch > 255
      · rw [if_pos hr] at h
        cases h
      · refine ⟨[ch], fun out2 => ?_⟩
        unfold SetGetCompact.parse_tok
        rw [hf]
        simp only [hs, SetGetCompact.add, if_neg hr]
    | invalid_argument => rw [hs] at h; cases h
    | out_of_range => rw [hs] at h; cases h
  | some dash =>
    rw [hf] at h
    simp only at h
    by_cases he : (substr tok 0 (some dash)).isEmpty || (substr tok (dash + 1) none).isEmpty
    · rw [if_pos he] at h
      cases h
    · rw [if_neg he] at h
      cases hsa : stoi (substr tok 0 (some dash)) with
      | value a0 =>
        rw [hsa] at h
        simp only at h
        cases hsb : stoi (substr tok (dash + 1) none) with
        | value b0 =>
          rw [hsb] at h
          simp only at h
          by_cases hr : (if a0 > b0 then b0 else a0) < 0 ∨ (if a0 > b0 then a0 else b0) > 255
          · rw [if_pos hr] at h
            cases h
          · refine ⟨push_range (if a0 > b0 then b0 else a0) (if a0 > b0 then a0 else b0) [],
              fun out2 => ?_⟩
            unfold SetGetCompact.parse_tok
            rw [hf]
            simp only [if_neg he, hsa, hsb, if_neg hr]
            simp [push_range]
        | invalid_argument => rw [hsb] at h; cases h
        | out_of_range => rw [hsb] at h; cases h
      | invalid_argument => rw [hsa] at h; cases h
      | out_of_range => rw [hsa] at h; cases h

theorem SetGetCompact.compact_loop_cons (p : Str) (ps : List Str) (out : List Int) :
    SetGetCompact.loopPieces (p :: ps) out
      = match (if p.isEmpty then ParseResult.ok out else SetGetCompact.parse_tok p out) with
        | .ok out1 => SetGetCompact.loopPieces ps out1
        | r => r := by
  rfl

theorem SetGetCompact.step_mem (p : Str) (out out1 : List Int)
    (h : (if p.isEmpty then ParseResult.ok out else SetGetCompact.parse_tok p out) = .ok out1) :
    ∃ r, (if p.isEmpty then ParseResult.ok [] else SetGetCompact.parse_tok p []) = .ok r ∧
      ∀ x, x ∈ out1 ↔ x ∈ out ∨ x ∈ r := by
  by_cases hp : p.isEmpty = true
  · rw [if_pos hp] at h
    cases h
    exact ⟨[], by rw [if_pos hp], by simp⟩
  · rw [if_neg hp] at h
    obtain ⟨d, hd⟩ := SetGetCompact.parse_tok_shape h
    rw [hd out] at h
    cases h
    refine ⟨d, by rw [if_neg hp, hd []]; rfl, ?_⟩
    intro x
    rw [List.mem_append]

theorem SetGetCompact.step_accepts (p : Str) (r : List Int)
    (h : (if p.isEmpty then ParseResult.ok [] else SetGetCompact.parse_tok p []) = .ok r)
    (out : List Int) :
    ∃ out1, (if p.isEmpty then ParseResult.ok out else SetGetCompact.parse_tok p out)
      = .ok out1 := by
  by_cases hp : p.isEmpty = true
  · exact ⟨out, by rw [if_pos hp]⟩
  · rw [if_neg hp] at h
    obtain ⟨d, hd⟩ := SetGetCompact.parse_tok_shape h
    exact ⟨out ++ d, by rw [if_neg hp, hd out]⟩

/-- The parser of set_get_compact.cpp on a joined spec, in terms of the pieces with
their white space removed. -/
theorem SetGetCompact.parse_channels_joined (ps : List Str) (hne : ps ≠ [])
    (hfree : ∀ p ∈ ps, ',' ∉ p) (out : List Int) :
    SetGetCompact.parse_channels (joinComma ps) out =
      if (joinComma (ps.map (fun p => p.filter (fun c => !isspace c)))).isEmpty then
        some (.fail [])
      else if "all".toList
          <:+: (joinComma (ps.map (fun p => p.filter (fun c => !isspace c)))).map tolower then
        some (.ok (std_unique (std_sort (push_range 0 255 out))))
      else
        match SetGetCompact.loopPieces (ps.map (fun p => p.filter (fun c => !isspace c))) out with
        | .ok out1 =>
          if out1.isEmpty then some (.fail "No valid channels parsed\n".toList)
          else some (.ok (std_unique (std_sort out1)))
        | r => some r := by
  have hs : (joinComma ps).filter (fun c => !isspace c)
      = joinComma (ps.map (fun p => p.filter (fun c => !isspace c))) := by
    rw [← joinComma_splitComma ((joinComma ps).filter (fun c => !isspace c)),
      splitComma_filter, splitComma_joinComma hne hfree]
  have hsp : splitComma (joinComma (ps.map (fun p => p.filter (fun c => !isspace c))))
      = ps.map (fun p => p.filter (fun c => !isspace c)) := by
    rw [← hs, splitComma_filter, splitComma_joinComma hne hfree]
  unfold SetGetCompact.parse_channels
  simp only [SetGetCompact.compact_loop_eq, hs, hsp]
  by_cases he : (joinComma (ps.map (fun p => p.filter (fun c => !isspace c)))).isEmpty = true
  · rw [if_pos he, if_pos he]
  · rw [if_neg he, if_neg he]
    by_cases ha : "all".toList
        <:+: (joinComma (ps.map (fun p => p.filter (fun c => !isspace c)))).map tolower
    · rw [if_pos ((all_test_iff _).mpr ha), if_pos ha]
    · rw [if_neg (fun hb => ha ((all_test_iff _).mp hb)), if_neg ha]
      cases SetGetCompact.loopPieces (ps.map (fun p => p.filter (fun c => !isspace c))) out
        <;> rfl

/-- In set_get_compact.cpp the canonical list of a joined spec depends only on the set
of its pieces. -/
theorem SetGetCompact.channels_same_pieces {ps qs : List Str}
    (hps : ∀ p ∈ ps, ',' ∉ p) (hqs : ∀ p ∈ qs, ',' ∉ p)
    (hsame : ∀ p, p ∈ ps ↔ p ∈ qs) {C : List Int}
    (h : SetGetCompact.parse_channels (joinComma ps) [] = some (.ok C)) :
    SetGetCompact.parse_channels (joinComma qs) [] = some (.ok C) := by
  by_cases hpne : ps = []
  · have hq : qs = [] := by
      cases qs with
      | nil => rfl
      | cons q qs =>
        have := (hsame q).mpr (List.mem_cons_self _ _)
        rw [hpne] at this
        cases this
    rw [hq, ← hpne]
    exact h
  have hqne : qs ≠ [] := by
    obtain ⟨p0, prest, rfl⟩ := List.exists_cons_of_ne_nil hpne
    exact List.ne_nil_of_mem ((hsame p0).mp (List.mem_cons_self _ _))
  have hsame1 : ∀ p, p ∈ ps.map (fun p => p.filter (fun c => !isspace c))
      ↔ p ∈ qs.map (fun p => p.filter (fun c => !isspace c)) := by
    intro p
    simp only [List.mem_map]
    constructor
    · rintro ⟨a, ha, e⟩
      exact ⟨a, (hsame a).mp ha, e⟩
    · rintro ⟨a, ha, e⟩
      exact ⟨a, (hsame a).mpr ha, e⟩
  rw [SetGetCompact.parse_channels_joined ps hpne hps] at h
  rw [SetGetCompact.parse_channels_joined qs hqne hqs]
  by_cases he : (joinComma (ps.map (fun p => p.filter (fun c => !isspace c)))).isEmpty = true
  · rw [if_pos he] at h
    cases h
  rw [if_neg he] at h
  by_cases ha : "all".toList
      <:+: (joinComma (ps.map (fun p => p.filter (fun c => !isspace c)))).map tolower
  · rw [if_pos ha] at h
    have hb : "all".toList
        <:+: (joinComma (qs.map (fun p => p.filter (fun c => !isspace c)))).map tolower := by
      rw [all_in_pieces] at ha ⊢
      obtain ⟨p, hp, hin⟩ := ha
      exact ⟨p, (hsame1 p).mp hp, hin⟩
    have hqe : ¬ (joinComma (qs.map (fun p => p.filter (fun c => !isspace c)))).isEmpty
        = true := by
      intro hqe
      rw [List.isEmpty_iff] at hqe
      rw [hqe] at hb
      have := List.eq_nil_of_infix_nil hb
      cases this
    rw [if_neg hqe, if_pos hb]
    exact h
  · rw [if_neg ha] at h
    have hb : ¬ "all".toList
        <:+: (joinComma (qs.map (fun p => p.filter (fun c => !isspace c)))).map tolower := by
      intro hb
      apply ha
      rw [all_in_pieces] at hb ⊢
      obtain ⟨p, hp, hin⟩ := hb
      exact ⟨p, (hsame1 p).mpr hp, hin⟩
    cases hl : SetGetCompact.loopPieces
        (ps.map (fun p => p.filter (fun c => !isspace c))) [] with
    | fail e => rw [hl] at h; cases h
    | thrown e => rw [hl] at h; cases h
    | ok out1 =>
      rw [hl] at h
      simp only at h
      by_cases ho : out1.isEmpty = true
      · rw [if_pos ho] at h
        cases h
      rw [if_neg ho] at h
      simp only [Option.some.injEq, ParseResult.ok.injEq] at h
      obtain ⟨out2, h2, hm⟩ := loop_same_pieces
        (fun p out => if p.isEmpty then ParseResult.ok out else SetGetCompact.parse_tok p out)
        SetGetCompact.loopPieces (fun _ => True) SetGetCompact.step_mem
        SetGetCompact.step_accepts (fun _ => rfl)
        (fun p ps out _ => SetGetCompact.compact_loop_cons p ps out)
        (fun _ _ => trivial) (fun _ _ => trivial) hsame1 hl
      have ho2 : ¬ out2.isEmpty = true := by
        intro ho2
        rw [List.isEmpty_iff] at ho2
        apply ho
        rw [List.isEmpty_iff]
        apply List.eq_nil_iff_forall_not_mem.mpr
        intro x hx
        have := (hm x).mpr hx
        rw [ho2] at this
        cases this
      have hqe : ¬ (joinComma (qs.map (fun p => p.filter (fun c => !isspace c)))).isEmpty
          = true := by
        intro hqe
        rw [List.isEmpty_iff] at hqe
        have hsp : splitComma (joinComma (qs.map (fun p => p.filter (fun c => !isspace c))))
            = qs.map (fun p => p.filter (fun c => !isspace c)) := by
          apply splitComma_joinComma (by simpa using hqne)
          intro p hp
          obtain ⟨a, ha1, rfl⟩ := List.mem_map.mp hp
          intro hc
          exact hqs a ha1 (List.mem_filter.mp hc).1
        rw [hqe] at hsp
        rw [← hsp] at h2
        apply ho2
        have e : SetGetCompact.loopPieces (splitComma []) [] = .ok [] := rfl
        rw [e] at h2
        cases h2
        rfl
      rw [if_neg hqe, if_neg hb, h2]
      simp only
      rw [if_neg ho2, ← h]
      simp only [Option.some.injEq, ParseResult.ok.injEq]
      exact canonical_eq_of_mem (canonical_strict out1)
        (fun x => (hm x).trans mem_canonical.symm)

/-! ## No clamping: the numbers read are in range and returned as they are -/

/-- When the loop body of set_get_compact.cpp accepts a piece, every number it reads
is a value in `[0, 255]`, and that value is in the vector. -/
theorem SetGetCompact.parse_tok_reads {p : Str} {out out1 : List Int}
    (h : SetGetCompact.parse_tok p out = .ok out1) :
    ∀ r ∈ SetGetCompact.numbers_read p, ∃ v, r = .value v ∧ 0 ≤ v ∧ v ≤ 255 ∧ v ∈ out1 := by
  unfold SetGetCompact.parse_tok at h
  unfold SetGetCompact.numbers_read
  cases hf : find p '-' 0 with
  | none =>
    rw [hf] at h
    simp only at h
    cases hs : stoi p with
    | value ch =>
      rw [hs] at h
      simp only [SetGetCompact.add] at h
      by_cases hr : ch < 0 ∨ ch > 255
      · rw [if_pos hr] at h
        cases h
      · rw [if_neg hr] at h
        cases h
        intro r hrm
        simp only [List.mem_singleton] at hrm
        subst hrm
        exact ⟨ch, rfl, by omega, by omega, by simp⟩
    | invalid_argument => rw [hs] at h; cases h
    | out_of_range => rw [hs] at h; cases h
  | some dash =>
    rw [hf] at h
    simp only at h
    by_cases he : (substr p 0 (some dash)).isEmpty || (substr p (dash + 1) none).isEmpty
    · rw [if_pos he] at h
      cases h
    · rw [if_neg he] at h
      cases hsa : stoi (substr p 0 (some dash)) with
      | value a0 =>
        rw [hsa] at h
        simp only at h
        cases hsb : stoi (substr p (dash + 1) none) with
        | value b0 =>
          rw [hsb] at h
          simp only at h
          by_cases hr : (if a0 > b0 then b0 else a0) < 0 ∨ (if a0 > b0 then a0 else b0) > 255
          · rw [if_pos hr] at h
            cases h
          · rw [if_neg hr] at h
            cases h
            have hlo : 0 ≤ (if a0 > b0 then b0 else a0) := by omega
            have hhi : (if a0 > b0 then a0 else b0) ≤ 255 := by omega
            have hab : 0 ≤ a0 ∧ a0 ≤ 255 ∧ 0 ≤ b0 ∧ b0 ≤ 255 ∧
                (if a0 > b0 then b0 else a0) ≤ a0 ∧ a0 ≤ (if a0 > b0 then a0 else b0) ∧
                (if a0 > b0 then b0 else a0) ≤ b0 ∧ b0 ≤ (if a0 > b0 then a0 else b0) := by
              by_cases hc : a0 > b0
              · simp only [hc, if_true] at hlo hhi ⊢
                omega
              · simp only [hc, if_false] at hlo hhi ⊢
                omega
            intro r hrm
            simp only [List.mem_cons, List.mem_singleton, List.not_mem_nil, or_false] at hrm
            rcases hrm with e | e
            · subst e
              exact ⟨a0, hsa, hab.1, hab.2.1,
                mem_push_range.mpr (Or.inr ⟨hab.2.2.2.2.1, hab.2.2.2.2.2.1⟩)⟩
            · subst e
              exact ⟨b0, hsb, hab.2.2.1, hab.2.2.2.1,
                mem_push_range.mpr (Or.inr ⟨hab.2.2.2.2.2.2.1, hab.2.2.2.2.2.2.2⟩)⟩
        | invalid_argument => rw [hsb] at h; cases h
        | out_of_range => rw [hsb] at h; cases h
      | invalid_argument => rw [hsa] at h; cases h
      | out_of_range => rw [hsa] at h; cases h

/-- The loop of set_get_compact.cpp keeps what the vector holds. -/
theorem SetGetCompact.compact_loop_keeps : ∀ (ps : List Str) {out out1 : List Int},
    SetGetCompact.loopPieces ps out = .ok out1 → ∀ x ∈ out, x ∈ out1 := by
  intro ps out out1 h x hx
  exact ((loop_mem
    (fun p out => if p.isEmpty then ParseResult.ok out else SetGetCompact.parse_tok p out)
    SetGetCompact.loopPieces (fun _ => True) SetGetCompact.step_mem (fun _ => rfl)
    (fun p ps out _ => SetGetCompact.compact_loop_cons p ps out) ps out out1
    (fun _ _ => trivial) h).2 x).mpr (Or.inl hx)

/-- When the loop of set_get_compact.cpp succeeds, every number read from a non-empty
piece is a value in `[0, 255]`, and that value is in the vector. -/
theorem SetGetCompact.compact_loop_reads : ∀ (ps : List Str) {out out1 : List Int},
    SetGetCompact.loopPieces ps out = .ok out1 → ∀ p ∈ ps, p ≠ [] →
      ∀ r ∈ SetGetCompact.numbers_read p, ∃ v, r = .value v ∧ 0 ≤ v ∧ v ≤ 255 ∧ v ∈ out1 := by
  intro ps
  induction ps with
  | nil => intro out out1 _ p hp; cases hp
  | cons q qs ih =>
    intro out out1 h p hp hne r hr
    rw [SetGetCompact.compact_loop_cons] at h
    cases hq : (if q.isEmpty then ParseResult.ok out else SetGetCompact.parse_tok q out) with
    | fail e => rw [hq] at h; cases h
    | thrown e => rw [hq] at h; cases h
    | ok out2 =>
      rw [hq] at h
      simp only at h
      rcases List.mem_cons.mp hp with e | e
      · subst e
        have hpe : ¬ p.isEmpty = true := by simpa using hne
        rw [if_neg hpe] at hq
        obtain ⟨v, hv, h0, h1, hm⟩ := SetGetCompact.parse_tok_reads hq r hr
        exact ⟨v, hv, h0, h1, SetGetCompact.compact_loop_keeps qs h v hm⟩
      · exact ih h p e hne r hr

/-- When `parse_channels` of set_get_compact.cpp succeeds on a spec without `all`, every
number read from a non-empty piece is a value in `[0, 255]` and is in the result. -/
theorem SetGetCompact.parse_channels_reads {raw : Str} {out0 L : List Int}
    (h : SetGetCompact.parse_channels raw out0 = some (.ok L))
    (hall : ¬ "all".toList <:+: (raw.filter (fun c => !isspace c)).map tolower) :
    ∀ p ∈ splitComma (raw.filter (fun c => !isspace c)), p ≠ [] →
      ∀ r ∈ SetGetCompact.numbers_read p, ∃ v, r = .value v ∧ 0 ≤ v ∧ v ≤ 255 ∧ v ∈ L := by
  unfold SetGetCompact.parse_channels at h
  simp only [SetGetCompact.compact_loop_eq] at h
  by_cases he : (raw.filter (fun c => !isspace c)).isEmpty = true
  · rw [if_pos he] at h
    cases h
  rw [if_neg he, if_neg (fun hb => hall ((all_test_iff _).mp hb))] at h
  cases hl : SetGetCompact.loopPieces (splitComma (raw.filter (fun c => !isspace c))) out0 with
  | fail e => rw [hl] at h; cases h
  | thrown e => rw [hl] at h; cases h
  | ok out1 =>
    rw [hl] at h
    simp only at h
    by_cases ho : out1.isEmpty = true
    · rw [if_pos ho] at h
      cases h
    rw [if_neg ho] at h
    simp only [Option.some.injEq, ParseResult.ok.injEq] at h
    intro p hp hne r hr
    obtain ⟨v, hv, h0, h1, hm⟩ := SetGetCompact.compact_loop_reads _ hl p hp hne r hr
    exact ⟨v, hv, h0, h1, by rw [← h]; exact mem_canonical.mpr hm⟩

/-- The loop body of set_get_compact.cpp rejects a number above 255 and a range of two
numbers with a bound above 255. -/
theorem SetGetCompact.parse_tok_out_of_range {p : Str} (h : OutOfRangePiece p)
    (out out1 : List Int) : SetGetCompact.parse_tok p out ≠ .ok out1 := by
  intro hok
  have hreads := SetGetCompact.parse_tok_reads hok
  have hbig : ∀ {s : Str}, IsDigits s → 255 < digitsValue s →
      ¬ ∃ v, stoi s = StoiResult.value v ∧ 0 ≤ v ∧ v ≤ 255 ∧ v ∈ out1 := by
    intro s hs hv
    rintro ⟨v, e, -, h1, -⟩
    rw [stoi_digits hs.1 hs.2] at e
    by_cases hb : digitsValue s > 2147483647
    · rw [if_pos hb] at e
      cases e
    · rw [if_neg hb] at e
      cases e
      omega
  rcases h with ⟨hd, hv⟩ | ⟨a, b, rfl, ha, hb, hv⟩
  · apply hbig hd hv
    apply hreads
    unfold SetGetCompact.numbers_read
    rw [find_dash_none hd.no_dash]
    exact List.mem_singleton.mpr rfl
  · obtain ⟨h1, h2, h3⟩ := find_dash_some b ha.no_dash
    have hnr : SetGetCompact.numbers_read (a ++ '-' :: b) = [stoi a, stoi b] := by
      unfold SetGetCompact.numbers_read
      rw [h1]
      simp only [h2, h3]
    rcases hv with hv | hv
    · apply hbig ha hv
      apply hreads
      rw [hnr]
      exact List.mem_cons_self _ _
    · apply hbig hb hv
      apply hreads
      rw [hnr]
      exact List.mem_cons_of_mem _ (List.mem_singleton.mpr rfl)

/-- A number or range above 255 holds no white space. -/
theorem OutOfRangePiece.stripped {p : Str} (h : OutOfRangePiece p) :
    p.filter (fun c => !isspace c) = p := by
  rw [List.filter_eq_self]
  intro c hc
  have hns : isspace c = false := by
    rcases h with ⟨hd, -⟩ | ⟨a, b, rfl, ha, hb, -⟩
    · exact isdigit_not_space (hd.2 c hc)
    · rcases List.mem_append.mp hc with h1 | h1
      · exact isdigit_not_space (ha.2 c h1)
      · rcases List.mem_cons.mp h1 with h2 | h2
        · subst h2
          decide
        · exact isdigit_not_space (hb.2 c h2)
  simp [hns]

/-- A spec of set_get_compact.cpp without `all` that has a piece above 255 fails. -/
theorem SetGetCompact.parse_channels_out_of_range {raw p : Str}
    (hall : ¬ "all".toList <:+: (raw.filter (fun c => !isspace c)).map tolower)
    (hp : p ∈ splitComma raw) (h : OutOfRangePiece p) (out0 : List Int) :
    Fails (SetGetCompact.parse_channels raw out0) := by
  have hp1 : p ∈ splitComma (raw.filter (fun c => !isspace c)) := by
    rw [splitComma_filter]
    exact List.mem_map.mpr ⟨p, hp, h.stripped⟩
  obtain ⟨c, hc, -⟩ := h.bad.bad_has_digit
  exact SetGetCompact.parse_channels_rejects (find_str_none hall) hp1
    (List.ne_nil_of_mem hc) (SetGetCompact.parse_tok_out_of_range h)

/-! ## Empty pieces in kulgad.cpp -/

/-- A spec of the grammar has no empty piece. -/
theorem Conforms.no_empty_piece {spec : Str} (h : Conforms spec) :
    ([] : Str) ∉ splitComma spec := by
  intro hmem
  rcases h with h | ⟨ts, hne, htok, hs⟩
  · have hfree : ',' ∉ spec := by
      intro hc
      rcases lower_eq_all_mem h hc with e | e
      · revert e; decide
      · revert e; decide
    rw [splitComma_free_single spec hfree, List.mem_singleton] at hmem
    rw [← hmem] at h
    revert h
    decide
  · have hsplit : splitComma (joinComma ts) = ts :=
      splitComma_joinComma hne (fun t ht => (htok t ht).token_free_of_comma)
    rw [hs, hsplit] at hmem
    exact (htok [] hmem).ne_nil rfl

/-! ## The claims -/

/-- C1: whenever channel parsing succeeds the returned list is strictly ascending
(sorted, no duplicate), both for kulgad.cpp (the channel loop of `main` over any
list of channel arguments, then sort and unique) and for `parse_channels` of
set_get_compact.cpp; and both parsers always terminate with an outcome. -/
theorem C1_output_strictly_ascending :
    (∀ (chanSpecs : List Str) (L : List Int),
        Kulgad.parse_canonical chanSpecs = some (.ok L) → L.Pairwise (· < ·)) ∧
    (∀ (raw : Str) (out0 L : List Int),
        SetGetCompact.parse_channels raw out0 = some (.ok L) → L.Pairwise (· < ·)) ∧
    (∀ chanSpecs : List Str, ∃ r, Kulgad.parse_canonical chanSpecs = some r) ∧
    (∀ (raw : Str) (out0 : List Int), ∃ r, SetGetCompact.parse_channels raw out0 = some r) :=
  ⟨fun _ _ h => Kulgad.parse_canonical_strict h,
   fun _ _ _ h => SetGetCompact.parse_channels_strict h,
   Kulgad.parse_canonical_total,
   SetGetCompact.parse_channels_total⟩

theorem C1_output_strictly_ascending_witness :
    Kulgad.parse_canonical ["7,3,1-4".toList, "2,9".toList] = some (.ok [1, 2, 3, 4, 7, 9]) ∧
    SetGetCompact.parse_channels "7, 3,1-4,2,9".toList [] = some (.ok [1, 2, 3, 4, 7, 9]) ∧
    ([1, 2, 3, 4, 7, 9] : List Int).Pairwise (· < ·) ∧
    ([1, 2, 3, 4, 7, 9] : List Int).Pairwise (· < ·) :=
  ⟨by decide, by decide,
   C1_output_strictly_ascending.1 ["7,3,1-4".toList, "2,9".toList] _ (by decide),
   C1_output_strictly_ascending.2.1 "7, 3,1-4,2,9".toList [] _ (by decide)⟩

/-- C2: on success every returned index lies in `[0, 255]`, for
`parse_channels_token` of kulgad.cpp (whatever in-range channels the vector already
holds) and for `parse_channels` of set_get_compact.cpp, and a number outside the range
is never clamped or wrapped into it. A spec that is one all-digit number above 255, of
any length, is not accepted by either parser. In kulgad.cpp a spec fails when any of
its comma-separated pieces is an all-digit number above 255 or has a dash with an
all-digit side above 255. In set_get_compact.cpp a spec that does not contain `all`
fails when any of its pieces is an all-digit number above 255 or a range of two
all-digit numbers with a bound above 255; and when such a spec is accepted, every
number that `std::stoi` reads from a piece (from the piece, or from the two sides of
its first dash) is a value in `[0, 255]` and is itself in the result. -/
theorem C2_output_in_range :
    (∀ (spec : Str) (out0 out : List Int), (∀ c ∈ out0, 0 ≤ c ∧ c ≤ 255) →
        Kulgad.parse_channels_token spec out0 = some (.ok out) → ∀ c ∈ out, 0 ≤ c ∧ c ≤ 255) ∧
    (∀ (raw : Str) (out0 L : List Int), (∀ c ∈ out0, 0 ≤ c ∧ c ≤ 255) →
        SetGetCompact.parse_channels raw out0 = some (.ok L) → ∀ c ∈ L, 0 ≤ c ∧ c ≤ 255) ∧
    (∀ (ds : Str) (out0 : List Int), ds ≠ [] → (∀ c ∈ ds, isdigit c = true) →
        255 < digitsValue ds →
        Fails (Kulgad.parse_channels_token ds out0) ∧
        Fails (SetGetCompact.parse_channels ds out0)) ∧
    (∀ (spec p : Str) (out0 : List Int), p ∈ splitComma spec → BadPiece p →
        Fails (Kulgad.parse_channels_token spec out0)) ∧
    (∀ (raw p : Str) (out0 : List Int),
        ¬ "all".toList <:+: (raw.filter (fun c => !isspace c)).map tolower →
        p ∈ splitComma raw → OutOfRangePiece p →
        Fails (SetGetCompact.parse_channels raw out0)) ∧
    (∀ (raw : Str) (out0 L : List Int),
        SetGetCompact.parse_channels raw out0 = some (.ok L) →
        ¬ "all".toList <:+: (raw.filter (fun c => !isspace c)).map tolower →
        ∀ p ∈ splitComma (raw.filter (fun c => !isspace c)), p ≠ [] →
          ∀ r ∈ SetGetCompact.numbers_read p,
            ∃ v, r = .value v ∧ 0 ≤ v ∧ v ≤ 255 ∧ v ∈ L) := by
  refine ⟨?_, ?_, ?_, ?_, ?_, ?_⟩
  · intro spec out0 out h0 h c hc
    rcases Kulgad.parse_channels_token_extends h c hc with h1 | h1
    · exact h0 c h1
    · exact h1
  · intro raw out0 L h0 h c hc
    rcases SetGetCompact.parse_channels_extends h c hc with h1 | h1
    · exact h0 c h1
    · exact h1
  · intro ds out0 hne hd hv
    exact ⟨Kulgad.parse_token_big hne hd hv out0, SetGetCompact.parse_channels_big hne hd hv out0⟩
  · intro spec p out0 hp hbad
    exact Kulgad.parse_token_bad hp hbad out0
  · intro raw p out0 hall hp hbad
    exact SetGetCompact.parse_channels_out_of_range hall hp hbad out0
  · intro raw out0 L h hall
    exact SetGetCompact.parse_channels_reads h hall

theorem C2_output_in_range_witness :
    (∀ c ∈ ([0, 4, 0, 1, 2, 3, 4, 255] : List Int), 0 ≤ c ∧ c ≤ 255) ∧
    (∀ c ∈ ([5, 6, 7] : List Int), 0 ≤ c ∧ c ≤ 255) ∧
    Fails (Kulgad.parse_channels_token "4294967297".toList []) ∧
    Fails (SetGetCompact.parse_channels "4294967297".toList []) ∧
    Fails (Kulgad.parse_channels_token "1,250-300".toList []) ∧
    Fails (Kulgad.parse_channels_token "300-x,2".toList []) ∧
    Fails (SetGetCompact.parse_channels "7 ,250-300".toList []) ∧
    Fails (SetGetCompact.parse_channels "4294967297-3,2".toList []) ∧
    (∃ v, stoi "6".toList = .value v ∧ 0 ≤ v ∧ v ≤ 255 ∧ v ∈ ([5, 6, 7] : List Int)) :=
  ⟨C2_output_in_range.1 "0-4,255".toList [0, 4] [0, 4, 0, 1, 2, 3, 4, 255] (by decide)
      (by decide),
   C2_output_in_range.2.1 "7, 5-6".toList [] [5, 6, 7] (by simp) (by decide),
   (C2_output_in_range.2.2.1 "4294967297".toList [] (by decide) (by decide) (by decide)).1,
   (C2_output_in_range.2.2.1 "4294967297".toList [] (by decide) (by decide) (by decide)).2,
   C2_output_in_range.2.2.2.1 "1,250-300".toList "250-300".toList [] (by decide)
     (Or.inr ⟨"250".toList, "300".toList, rfl, Or.inr ⟨⟨by decide, by decide⟩, by decide⟩⟩),
   C2_output_in_range.2.2.2.1 "300-x,2".toList "300-x".toList [] (by decide)
     (Or.inr ⟨"300".toList, "x".toList, rfl, Or.inl ⟨⟨by decide, by decide⟩, by decide⟩⟩),
   C2_output_in_range.2.2.2.2.1 "7 ,250-300".toList "250-300".toList [] (by decide)
     (by decide)
     (Or.inr ⟨"250".toList, "300".toList, rfl, ⟨by decide, by decide⟩,
       ⟨by decide, by decide⟩, Or.inr (by decide)⟩),
   C2_output_in_range.2.2.2.2.1 "4294967297-3,2".toList "4294967297-3".toList [] (by decide)
     (by decide)
     (Or.inr ⟨"4294967297".toList, "3".toList, rfl, ⟨by decide, by decide⟩,
       ⟨by decide, by decide⟩, Or.inl (by decide)⟩),
   C2_output_in_range.2.2.2.2.2 "7, 5-6".toList [] [5, 6, 7] (by decide) (by decide)
     "5-6".toList (by decide) (by decide) (stoi "6".toList) (by decide)⟩

/-- C3: for every comma-separated list of one or more pieces, each a decimal number
of value at most 255 or a range `A-B` with both bounds at most 255, the parser of
kulgad.cpp (with sort and unique) and `parse_channels` of set_get_compact.cpp succeed
and return the ascending list of exactly the channels covered by some piece; in
particular `"3,1,2"` gives `[1,2,3]` and `"0-4,7,10-12"` gives `[0,1,2,3,4,7,10,11,12]`. -/
theorem C3_list_of_pieces :
    (∀ ps : List Piece, ps ≠ [] → (∀ p ∈ ps, p.WF) →
      Kulgad.parse_canonical [joinComma (ps.map Piece.text)] = some (.ok (channelsOf ps)) ∧
      SetGetCompact.parse_channels (joinComma (ps.map Piece.text)) []
        = some (.ok (channelsOf ps)) ∧
      (channelsOf ps).Pairwise (· < ·) ∧
      (∀ c : Int, c ∈ channelsOf ps ↔ ∃ p ∈ ps, p.covers c = true)) ∧
    Kulgad.parse_canonical ["3,1,2".toList] = some (.ok [1, 2, 3]) ∧
    SetGetCompact.parse_channels "3,1,2".toList [] = some (.ok [1, 2, 3]) ∧
    Kulgad.parse_canonical ["0-4,7,10-12".toList]
      = some (.ok [0, 1, 2, 3, 4, 7, 10, 11, 12]) ∧
    SetGetCompact.parse_channels "0-4,7,10-12".toList []
      = some (.ok [0, 1, 2, 3, 4, 7, 10, 11, 12]) :=
  ⟨fun ps hne hwf =>
    ⟨Kulgad.parse_canonical_pieces hne hwf, SetGetCompact.parse_channels_pieces hne hwf,
     channelsOf_strict ps, fun _ => mem_channelsOf hwf⟩,
   by decide, by decide, by decide, by decide⟩

theorem C3_list_of_pieces_witness :
    Kulgad.parse_canonical [joinComma ([Piece.range "9".toList "07".toList,
        Piece.single "8".toList, Piece.single "250".toList].map Piece.text)]
      = some (.ok (channelsOf [Piece.range "9".toList "07".toList,
        Piece.single "8".toList, Piece.single "250".toList])) ∧
    channelsOf [Piece.range "9".toList "07".toList,
        Piece.single "8".toList, Piece.single "250".toList] = [7, 8, 9, 250] :=
  ⟨(C3_list_of_pieces.1 [Piece.range "9".toList "07".toList,
        Piece.single "8".toList, Piece.single "250".toList] (by decide) (by decide)).1,
   by decide⟩

/-- C4: every spec that spells `all` in any mix of upper and lower case is accepted,
by kulgad.cpp and by set_get_compact.cpp, and gives exactly the 256 indices
`0, 1, ..., 255` in ascending order. -/
theorem C4_all_keyword (c1 c2 c3 : Char) (h1 : c1 = 'a' ∨ c1 = 'A')
    (h2 : c2 = 'l' ∨ c2 = 'L') (h3 : c3 = 'l' ∨ c3 = 'L') :
    Kulgad.parse_channels_token [c1, c2, c3] [] = some (.ok allChannels) ∧
    Kulgad.parse_canonical [[c1, c2, c3]] = some (.ok allChannels) ∧
    SetGetCompact.parse_channels [c1, c2, c3] [] = some (.ok allChannels) ∧
    allChannels = (List.range 256).map Int.ofNat ∧ allChannels.length = 256 ∧
    allChannels.Pairwise (· < ·) := by
  have hk : Kulgad.parse_channels_token [c1, c2, c3] [] = some (.ok allChannels) := by
    unfold Kulgad.parse_channels_token
    rw [Kulgad.lower_copy, tolower_all h1 h2 h3, push_range_all]
    rfl
  refine ⟨hk, ?_, ?_, rfl, allChannels_length, allChannels_strict⟩
  · simp only [Kulgad.parse_canonical, Kulgad.parse_specs, hk]
    rw [canonical_of_strict allChannels_strict]
  · unfold SetGetCompact.parse_channels
    simp only [not_space_all h1 h2 h3, tolower_all h1 h2 h3, canonical_push_all]
    rfl

theorem C4_all_keyword_witness :
    Kulgad.parse_channels_token "AlL".toList [] = some (.ok allChannels) ∧
    SetGetCompact.parse_channels "AlL".toList [] = some (.ok allChannels) :=
  ⟨(C4_all_keyword 'A' 'l' 'L' (by decide) (by decide) (by decide)).1,
   (C4_all_keyword 'A' 'l' 'L' (by decide) (by decide) (by decide)).2.2.1⟩

/-- C5: for all `A` and `B` in `[0, 255]` the ranges `A-B` and `B-A` are accepted with
the same result, in kulgad.cpp and in set_get_compact.cpp: the ascending list of the
integers from `min A B` to `max A B`, which has `|A - B| + 1` elements; `"5-3"` gives
`[3,4,5]`. -/
theorem C5_range_direction :
    (∀ A B : Int, 0 ≤ A → A ≤ 255 → 0 ≤ B → B ≤ 255 →
      ∃ r : List Int,
        Kulgad.parse_canonical [to_string A ++ '-' :: to_string B] = some (.ok r) ∧
        Kulgad.parse_canonical [to_string B ++ '-' :: to_string A] = some (.ok r) ∧
        SetGetCompact.parse_channels (to_string A ++ '-' :: to_string B) [] = some (.ok r) ∧
        SetGetCompact.parse_channels (to_string B ++ '-' :: to_string A) [] = some (.ok r) ∧
        r.Pairwise (· < ·) ∧ (∀ c : Int, c ∈ r ↔ min A B ≤ c ∧ c ≤ max A B) ∧
        r.length = (A - B).natAbs + 1) ∧
    Kulgad.parse_canonical ["5-3".toList] = some (.ok [3, 4, 5]) ∧
    SetGetCompact.parse_channels "5-3".toList [] = some (.ok [3, 4, 5]) := by
  refine ⟨?_, by decide, by decide⟩
  intro A B hA0 hA1 hB0 hB1
  obtain ⟨hnA, hvA⟩ := to_string_number hA0 hA1
  obtain ⟨hnB, hvB⟩ := to_string_number hB0 hB1
  have hAB : ∀ p ∈ [Piece.range (to_string A) (to_string B)], p.WF := by
    intro p hp
    simp only [List.mem_singleton] at hp
    subst hp
    exact ⟨hnA, hnB⟩
  have hBA : ∀ p ∈ [Piece.range (to_string B) (to_string A)], p.WF := by
    intro p hp
    simp only [List.mem_singleton] at hp
    subst hp
    exact ⟨hnB, hnA⟩
  have e1 : channelsOf [Piece.range (to_string A) (to_string B)]
      = push_range (min A B) (max A B) [] := by
    rw [channelsOf_range_eq hnA hnB, hvA, hvB]
  have e2 : channelsOf [Piece.range (to_string B) (to_string A)]
      = push_range (min A B) (max A B) [] := by
    rw [channelsOf_range_eq hnB hnA, hvA, hvB, min_comm, max_comm]
  refine ⟨push_range (min A B) (max A B) [], ?_, ?_, ?_, ?_, push_range_strict _ _, ?_, ?_⟩
  · rw [← e1]; exact Kulgad.parse_canonical_pieces (by simp) hAB
  · rw [← e2]; exact Kulgad.parse_canonical_pieces (by simp) hBA
  · rw [← e1]; exact SetGetCompact.parse_channels_pieces (by simp) hAB
  · rw [← e2]; exact SetGetCompact.parse_channels_pieces (by simp) hBA
  · intro c
    rw [mem_push_range]
    simp
  · rw [push_range_length]
    rcases le_total A B with h | h
    · rw [min_eq_left h, max_eq_right h]
      simp only [List.length_nil, Nat.zero_add]
      omega
    · rw [min_eq_right h, max_eq_left h]
      simp only [List.length_nil, Nat.zero_add]
      omega

theorem C5_range_direction_witness :
    ∃ r : List Int,
      Kulgad.parse_canonical [to_string 12 ++ '-' :: to_string 9] = some (.ok r) ∧
      Kulgad.parse_canonical [to_string 9 ++ '-' :: to_string 12] = some (.ok r) ∧
      SetGetCompact.parse_channels (to_string 12 ++ '-' :: to_string 9) [] = some (.ok r) ∧
      SetGetCompact.parse_channels (to_string 9 ++ '-' :: to_string 12) [] = some (.ok r) ∧
      r.Pairwise (· < ·) ∧ (∀ c : Int, c ∈ r ↔ min 12 9 ≤ c ∧ c ≤ max 12 9) ∧
      r.length = ((12 : Int) - 9).natAbs + 1 :=
  C5_range_direction.1 12 9 (by decide) (by decide) (by decide) (by decide)

/-- C6: round trip on canonical sets: for every non-empty strictly ascending list `L`
of integers in `[0, 255]`, the decimal renderings of `L` joined by commas parse back
to exactly `L`, in kulgad.cpp (with sort and unique) and in set_get_compact.cpp. -/
theorem C6_round_trip (L : List Int) (hne : L ≠ []) (hs : L.Pairwise (· < ·))
    (hr : ∀ c ∈ L, 0 ≤ c ∧ c ≤ 255) :
    Kulgad.parse_canonical [joinComma (L.map to_string)] = some (.ok L) ∧
    SetGetCompact.parse_channels (joinComma (L.map to_string)) [] = some (.ok L) := by
  have hwf : ∀ p ∈ L.map (fun c => Piece.single (to_string c)), p.WF := by
    intro p hp
    obtain ⟨c, hc, rfl⟩ := List.mem_map.mp hp
    exact (to_string_number (hr c hc).1 (hr c hc).2).1
  have hne1 : L.map (fun c => Piece.single (to_string c)) ≠ [] := by simpa using hne
  have htext : (L.map (fun c => Piece.single (to_string c))).map Piece.text
      = L.map to_string := by
    rw [List.map_map]; rfl
  have h1 := Kulgad.parse_canonical_pieces hne1 hwf
  have h2 := SetGetCompact.parse_channels_pieces hne1 hwf
  rw [htext, channelsOf_singles hs hr] at h1 h2
  exact ⟨h1, h2⟩

theorem C6_round_trip_witness :
    Kulgad.parse_canonical [joinComma (([0, 7, 42, 255] : List Int).map to_string)]
      = some (.ok [0, 7, 42, 255]) ∧
    SetGetCompact.parse_channels (joinComma (([0, 7, 42, 255] : List Int).map to_string)) []
      = some (.ok [0, 7, 42, 255]) :=
  C6_round_trip [0, 7, 42, 255] (by decide) (by decide) (by decide)

/-- C7, amended: in kulgad.cpp every spec with a piece that is an all-digit number
above 255 (of any length), or that has a dash with an all-digit side above 255, makes
the run fail: the spec is not parsed into a channel list, `main` returns 1, and nothing
is done on the network. The error reported is the first one met while parsing: it is
an out-of-range error (one of the two range messages, or the `std::out_of_range` of
`std::stoi`) when the spec is the first channel argument of a run that passes the
usage checks, every piece before the offending one is valid, and the offending piece
is a number or a range of two numbers. The specs `256`, `7-300` and a 20-digit number
are such runs. -/
theorem C7_out_of_range_fails :
    (∀ (argv : List Str) (body spec p : Str), spec ∈ argv → p ∈ splitComma spec →
      BadPiece p →
        (∀ out0, Fails (Kulgad.parse_channels_token spec out0)) ∧
        ∃ run, Kulgad.main argv body = some run ∧ run.exit = 1 ∧ run.noNetwork) ∧
    (∀ (argv : List Str) (body : Str) (o : Kulgad.Opts) (valid : List Piece) (bad : Str)
        (rest others : List Str),
      Kulgad.scan_args argv Kulgad.initOpts = .ok o →
      (o.want_set = true ∨ o.want_get = true) → (o.want_set = true → o.have_val = true) →
      o.chanSpecs = joinComma (valid.map Piece.text ++ bad :: rest) :: others →
      (∀ p ∈ valid, p.WF) → OutOfRangePiece bad → (∀ t ∈ rest, ',' ∉ t) →
        ∃ run, Kulgad.main argv body = some run ∧ run.outOfRange) ∧
    Kulgad.main ["-g".toList, "256".toList] []
      = some ⟨[.cerr "Channel out of range: 256\n".toList], 1⟩ ∧
    Kulgad.main ["-g".toList, "7-300".toList] []
      = some ⟨[.cerr "Range out of bounds: 7-300\n".toList], 1⟩ ∧
    Kulgad.main ["-g".toList, "99999999999999999999".toList] []
      = some ⟨[.error .out_of_range], 1⟩ := by
  refine ⟨?_, ?_, by decide, by decide, by decide⟩
  · intro argv body spec p hmem hp hbad
    have hrej : ∀ out0, Fails (Kulgad.parse_channels_token spec out0) :=
      Kulgad.parse_token_bad hp hbad
    obtain ⟨c, hc, hcd⟩ := hbad.bad_has_digit
    have hkw := Kulgad.not_keyword_of_digit (mem_splitComma_subset hp hc) hcd
    refine ⟨hrej, Kulgad.main_stops argv body ?_⟩
    intro o hscan
    exact Kulgad.parse_canonical_fails
      (Kulgad.parse_specs_rejects hrej _ ((Kulgad.scan_args_keeps _ _ _ hscan).2 spec hmem hkw) [])
  · intro argv body o valid bad rest others hscan hmode hval hspecs hwf hbad hrest
    obtain ⟨r, hr, hoor⟩ := Kulgad.parse_token_out_of_range hwf hbad hrest []
    have hargv : argv.isEmpty = false := by
      cases argv with
      | nil =>
        simp only [Kulgad.scan_args, Except.ok.injEq] at hscan
        rw [← hscan] at hspecs
        simp [Kulgad.initOpts] at hspecs
      | cons x t => rfl
    have h1 : (!o.want_set && !o.want_get) = false := by
      rcases hmode with h | h <;> simp [h]
    have h2 : o.chanSpecs.isEmpty = false := by rw [hspecs]; rfl
    have h3 : (o.want_set && !o.have_val) = false := by
      cases hs : o.want_set with
      | false => rfl
      | true => simp [hval hs]
    have hcan : Kulgad.parse_canonical o.chanSpecs = some r := by
      rw [hspecs]
      unfold Kulgad.parse_canonical Kulgad.parse_specs
      rw [hr]
      rcases hoor with h | ⟨t, h⟩ | ⟨t, h⟩ <;> subst h <;> rfl
    unfold Kulgad.main
    simp only [hargv, hscan, h1, h2, h3, hcan, Bool.false_eq_true, if_false]
    rcases hoor with h | ⟨t, h⟩ | ⟨t, h⟩ <;> subst h
    · exact ⟨_, rfl, rfl, Or.inl rfl⟩
    · exact ⟨_, rfl, rfl, Or.inr (Or.inl ⟨t, rfl⟩)⟩
    · exact ⟨_, rfl, rfl, Or.inr (Or.inr ⟨t, rfl⟩)⟩

theorem C7_out_of_range_fails_witness :
    (∃ run, Kulgad.main ["-s".toList, "x,1-99999999999999999999".toList, "-on".toList] []
        = some run ∧ run.exit = 1 ∧ run.noNetwork) ∧
    (∃ run, Kulgad.main ["-g".toList, "3,7-300,x".toList] [] = some run ∧ run.outOfRange) :=
  ⟨(C7_out_of_range_fails.1 ["-s".toList, "x,1-99999999999999999999".toList, "-on".toList] []
      "x,1-99999999999999999999".toList "1-99999999999999999999".toList (by decide) (by decide)
      (Or.inr ⟨"1".toList, "99999999999999999999".toList, rfl,
        Or.inr ⟨⟨by decide, by decide⟩, by decide⟩⟩)).2,
   C7_out_of_range_fails.2.1 ["-g".toList, "3,7-300,x".toList] []
      ⟨false, true, false, false, ["3,7-300,x".toList]⟩ [Piece.single "3".toList]
      "7-300".toList ["x".toList] [] rfl (Or.inr rfl) (by decide) rfl (by decide)
      (Or.inr ⟨"7".toList, "300".toList, rfl, ⟨by decide, by decide⟩,
        ⟨by decide, by decide⟩, Or.inr (by decide)⟩) (by decide)⟩

/-- C7, as stated, fails: the spec `x,256` has the piece `256`, an all-digit number
above 255, and the run reports the invalid piece `x`, not an out-of-range error. -/
theorem C7_counterexample :
    "256".toList ∈ splitComma "x,256".toList ∧ BadPiece "256".toList ∧
    Kulgad.main ["-g".toList, "x,256".toList] []
      = some ⟨[.cerr "Invalid channel: x\n".toList], 1⟩ ∧
    ¬ Kulgad.Run.outOfRange ⟨[.cerr "Invalid channel: x\n".toList], 1⟩ := by
  refine ⟨by decide, Or.inl ⟨⟨by decide, by decide⟩, by decide⟩, by decide, ?_⟩
  rintro ⟨-, h | ⟨t, h⟩ | ⟨t, h⟩⟩
  · simp at h
  · simp [String.toList] at h
  · simp [String.toList] at h

/-- C8 at the failing input: the spec `3,` has an empty piece, its last one, and
`parse_channels_token` of kulgad.cpp accepts it with the channel 3. A spec with an
empty piece is accepted exactly when it is a token list of the grammar followed by one
comma; every other spec with an empty piece fails, among them the empty spec, every
spec that starts with a comma and every spec with two consecutive commas (`""`, `","`
and `"3,,5"` fail with the messages of the empty-token checks). -/
theorem C8_empty_piece_fails_unless_last :
    ([] : Str) ∈ splitComma "3,".toList ∧
    Kulgad.parse_channels_token "3,".toList [] = some (.ok [3]) ∧
    (∀ (spec : Str) (out0 : List Int), ([] : Str) ∈ splitComma spec →
      ((∃ out, Kulgad.parse_channels_token spec out0 = some (.ok out)) ↔
        ∃ s, IsTokenList s ∧ spec = s ++ [','])) ∧
    (∀ (spec : Str) (out0 : List Int), ([] : Str) ∈ splitComma spec →
      (¬ ∃ s, IsTokenList s ∧ spec = s ++ [',']) →
        Fails (Kulgad.parse_channels_token spec out0)) ∧
    (∀ (spec : Str) (out0 : List Int),
      (spec = [] ∨ (∃ rest, spec = ',' :: rest) ∨
        (∃ pre post, spec = pre ++ ',' :: ',' :: post)) →
        Fails (Kulgad.parse_channels_token spec out0)) ∧
    Kulgad.parse_channels_token "".toList [] = some (.fail "Empty channel token.\n".toList) ∧
    Kulgad.parse_channels_token ",".toList []
      = some (.fail "Invalid channel list near ','\n".toList) ∧
    Kulgad.parse_channels_token "3,,5".toList []
      = some (.fail "Invalid channel list near ','\n".toList) := by
  have hiff : ∀ (spec : Str) (out0 : List Int), ([] : Str) ∈ splitComma spec →
      ((∃ out, Kulgad.parse_channels_token spec out0 = some (.ok out)) ↔
        ∃ s, IsTokenList s ∧ spec = s ++ [',']) := by
    intro spec out0 hmem
    constructor
    · intro hacc
      rcases (Kulgad.accepts_iff spec out0).mp hacc with hc | ht
      · exact absurd hmem hc.no_empty_piece
      · exact ht
    · intro ht
      exact (Kulgad.accepts_iff spec out0).mpr (Or.inr ht)
  refine ⟨by decide, by decide, hiff, ?_, ?_, by decide, by decide, by decide⟩
  · intro spec out0 hmem hnot
    exact Kulgad.fails_of_not_accepted (fun hacc => hnot ((hiff spec out0 hmem).mp hacc))
  · rintro spec out0 (h | ⟨rest, h⟩ | ⟨pre, post, h⟩)
    · subst h
      exact Or.inl ⟨_, rfl⟩
    · subst h
      exact Kulgad.parse_token_empty_piece [] (splitComma_cons_comma rest)
        (splitComma_ne_nil rest) (List.mem_cons_self _ _) out0
    · subst h
      refine Kulgad.parse_token_empty_piece (splitComma pre) ?_ (splitComma_ne_nil post)
        (List.mem_append_right _ (List.mem_cons_self _ _)) out0
      rw [splitComma_append_comma, splitComma_cons_comma]

theorem C8_empty_piece_fails_unless_last_witness :
    (∃ out, Kulgad.parse_channels_token "0-4,7,".toList [] = some (.ok out)) ∧
    Fails (Kulgad.parse_channels_token "1-2,,x".toList [7]) ∧
    Fails (Kulgad.parse_channels_token "3,,".toList []) :=
  ⟨(C8_empty_piece_fails_unless_last.2.2.1 "0-4,7,".toList [] (by decide)).mpr
      ⟨"0-4,7".toList, ⟨["0-4".toList, "7".toList], by decide,
        fun t ht => by
          rcases List.mem_cons.mp ht with e | e
          · subst e
            exact Or.inr ⟨"0".toList, "4".toList, rfl, by decide, by decide⟩
          · rw [List.mem_singleton.mp e]
            exact Or.inl (by decide),
        rfl⟩, rfl⟩,
   C8_empty_piece_fails_unless_last.2.2.2.2.1 "1-2,,x".toList [7]
     (Or.inr (Or.inr ⟨"1-2".toList, "x".toList, rfl⟩)),
   C8_empty_piece_fails_unless_last.2.2.2.2.1 "3,,".toList []
     (Or.inr (Or.inr ⟨"3".toList, [], rfl⟩))⟩

/-- C9, amended: in kulgad.cpp every spec with a piece that begins or ends with a dash
is rejected by `parse_channels_token`. In set_get_compact.cpp `parse_channels` rejects
a spec with a piece whose first dash has an empty left or right side, when the
stripped, lower-cased spec does not contain `all`. The pieces `3-`, `-5` and `-`
alone are rejected by both. -/
theorem C9_empty_side_fails :
    (∀ (spec p a b : Str) (out0 : List Int), p ∈ splitComma spec → p = a ++ '-' :: b →
      (a = [] ∨ b = []) → Fails (Kulgad.parse_channels_token spec out0)) ∧
    (∀ (raw p a b : Str) (out0 : List Int), p ∈ splitComma raw → p = a ++ '-' :: b →
      '-' ∉ a → (a = [] ∨ b = []) →
      find_str ((raw.filter (fun c => !isspace c)).map tolower) "all".toList = none →
        Fails (SetGetCompact.parse_channels raw out0)) ∧
    Kulgad.parse_channels_token "3-".toList [] = some (.fail "Invalid range: 3-\n".toList) ∧
    Kulgad.parse_channels_token "-5".toList [] = some (.fail "Invalid range: -5\n".toList) ∧
    Kulgad.parse_channels_token "-".toList [] = some (.fail "Invalid range: -\n".toList) ∧
    SetGetCompact.parse_channels "3-".toList [] = some (.fail "Invalid range: 3-\n".toList) ∧
    SetGetCompact.parse_channels "-5".toList [] = some (.fail "Invalid range: -5\n".toList) ∧
    SetGetCompact.parse_channels "-".toList [] = some (.fail "Invalid range: -\n".toList) := by
  refine ⟨?_, ?_, by decide, by decide, by decide, by decide, by decide, by decide⟩
  · intro spec p a b out0 hp hpab hside
    subst hpab
    exact Kulgad.parse_token_rejects hp (c := '-')
      (List.mem_append_right _ (List.mem_cons_self _ _)) (Or.inr (Or.inl rfl))
      (Kulgad.parse_part_empty_side hside) out0
  · intro raw p a b out0 hp hpab hdash hside hall
    subst hpab
    have hns : isspace '-' = false := by decide
    have hfil : (a ++ '-' :: b).filter (fun c => !isspace c)
        = a.filter (fun c => !isspace c) ++ '-' :: b.filter (fun c => !isspace c) := by
      simp [List.filter_append, List.filter, hns]
    have hp1 : a.filter (fun c => !isspace c) ++ '-' :: b.filter (fun c => !isspace c)
        ∈ splitComma (raw.filter (fun c => !isspace c)) := by
      rw [splitComma_filter, ← hfil]
      exact List.mem_map.mpr ⟨_, hp, rfl⟩
    have hdash1 : '-' ∉ a.filter (fun c => !isspace c) :=
      fun hm => hdash (List.mem_filter.mp hm).1
    have hside1 : a.filter (fun c => !isspace c) = [] ∨ b.filter (fun c => !isspace c) = [] := by
      rcases hside with h | h
      · left; rw [h]; rfl
      · right; rw [h]; rfl
    exact SetGetCompact.parse_channels_rejects hall hp1 (by simp)
      (SetGetCompact.parse_tok_empty_side hdash1 hside1)

theorem C9_empty_side_fails_witness :
    Fails (Kulgad.parse_channels_token "1,7-,2".toList []) ∧
    Fails (SetGetCompact.parse_channels "1,-7 ,2".toList []) :=
  ⟨C9_empty_side_fails.1 "1,7-,2".toList "7-".toList "7".toList [] [] (by decide) rfl
      (Or.inr rfl),
   C9_empty_side_fails.2.1 "1,-7 ,2".toList "-7 ".toList [] "7 ".toList []
      (by decide) rfl (by decide) (Or.inl rfl) (by decide)⟩

/-- C9, as stated, fails for set_get_compact.cpp: `all,3-` has the piece `3-`, whose
dash has an empty right side, and is read as every channel; `1-2-` ends with a dash
and is read as the range `1-2`. -/
theorem C9_counterexample :
    "3-".toList ∈ splitComma "all,3-".toList ∧ "3-".toList = "3".toList ++ '-' :: [] ∧
    SetGetCompact.parse_channels "all,3-".toList [] = some (.ok allChannels) ∧
    "1-2-".toList ∈ splitComma "1-2-".toList ∧ "1-2-".toList = "1-2".toList ++ '-' :: [] ∧
    SetGetCompact.parse_channels "1-2-".toList [] = some (.ok [1, 2]) :=
  ⟨by decide, rfl, SetGetCompact.parse_channels_all (by decide), by decide, rfl, by decide⟩

/-- C10 at the failing input: `parse_channels_token` of kulgad.cpp accepts `3,`, which
ends with an empty token and so is not a spec of the grammar. -/
theorem C10_trailing_comma_accepted :
    Kulgad.parse_channels_token "3,".toList [] = some (.ok [3]) ∧
    ¬ Conforms "3,".toList := by
  refine ⟨by decide, ?_⟩
  rintro (h | ⟨ts, hne, htok, hs⟩)
  · revert h; decide
  · have hsplit : splitComma (joinComma ts) = ts :=
      splitComma_joinComma hne (fun t ht => (htok t ht).token_free_of_comma)
    rw [← hs] at hsplit
    have hmem : ([] : Str) ∈ ts := by
      rw [← hsplit]
      decide
    exact (htok [] hmem).ne_nil rfl

/-- C11: `parse_channels_token` of kulgad.cpp rejects every spec that contains a
white-space character (space, tab, newline, and the other characters of
`std::isspace`), wherever it stands; nothing is stripped, and `"1, 2"` fails. -/
theorem C11_whitespace_rejected :
    (∀ (spec : Str) (out0 : List Int) (c : Char), c ∈ spec → isspace c = true →
      Fails (Kulgad.parse_channels_token spec out0)) ∧
    Kulgad.parse_channels_token "1, 2".toList []
      = some (.fail "Invalid channel:  2\n".toList) ∧
    Kulgad.parse_channels_token "1 ,2".toList []
      = some (.fail "Invalid channel: 1 \n".toList) ∧
    Kulgad.parse_channels_token " all".toList []
      = some (.fail "Invalid channel:  all\n".toList) ∧
    Kulgad.parse_channels_token "1\t-3".toList []
      = some (.fail "Invalid range: 1\t-3\n".toList) ∧
    Kulgad.parse_channels_token "7\n".toList []
      = some (.fail "Invalid channel: 7\n\n".toList) := by
  refine ⟨?_, by decide, by decide, by decide, by decide, by decide⟩
  intro spec out0 c hc hsp
  apply Kulgad.fails_of_not_accepted
  intro hacc
  rcases Kulgad.accepted_all_or_plain hacc with hall | hpl
  · have h1 := lower_eq_all_mem hall hc
    rw [Kulgad.isspace_tolower hsp] at h1
    rcases h1 with h1 | h1 <;> subst h1 <;> revert hsp <;> decide
  · rw [plain_char_not_space (hpl c hc)] at hsp
    cases hsp

theorem C11_whitespace_rejected_witness :
    Fails (Kulgad.parse_channels_token "0-4, 7".toList [9]) :=
  C11_whitespace_rejected.1 "0-4, 7".toList [9] ' ' (by decide) (by decide)

/-- C12: in kulgad.cpp the expansion to all channels needs an exact match: every spec
whose lower-cased form contains `all` without being equal to `all` is rejected by
`parse_channels_token`; `ball`, `allison`, `all,3` and `3,all` fail. -/
theorem C12_all_exact_match_only :
    (∀ (spec pre post : Str) (out0 : List Int),
      spec.map tolower = pre ++ "all".toList ++ post → spec.map tolower ≠ "all".toList →
        Fails (Kulgad.parse_channels_token spec out0)) ∧
    Kulgad.parse_channels_token "ball".toList []
      = some (.fail "Invalid channel: ball\n".toList) ∧
    Kulgad.parse_channels_token "allison".toList []
      = some (.fail "Invalid channel: allison\n".toList) ∧
    Kulgad.parse_channels_token "all,3".toList []
      = some (.fail "Invalid channel: all\n".toList) ∧
    Kulgad.parse_channels_token "3,all".toList []
      = some (.fail "Invalid channel: all\n".toList) := by
  refine ⟨?_, by decide, by decide, by decide, by decide⟩
  intro spec pre post out0 hsub hne
  apply Kulgad.fails_of_not_accepted
  intro hacc
  rcases Kulgad.accepted_all_or_plain hacc with hall | hpl
  · exact hne hall
  · rw [hpl.lower] at hsub
    apply hpl.no_a
    rw [hsub]
    simp [String.toList]

theorem C12_all_exact_match_only_witness :
    Fails (Kulgad.parse_channels_token "1,ALL,2".toList []) :=
  C12_all_exact_match_only.1 "1,ALL,2".toList "1,".toList ",2".toList [] (by decide) (by decide)

/-- C13: SET sequencing in kulgad.cpp: for every channel list `c1, ..., cN` and every
value `v`, the writes and pauses of the SET loop are exactly
`send(set c1 v), delay 50, send(set c2 v), ..., delay 50, send(set cN v)`: one set
message per channel in the order of the list, `N - 1` pauses of 50 ms, each between
two sends, and the last event is the send for `cN`. A run of `main` in which SET is
requested performs this sequence on the canonical (strictly ascending) channel set
with the value given, followed at most by the get message, and pauses nowhere else. -/
theorem C13_set_sequencing :
    (∀ (v : Bool) (channels : List Int),
      Kulgad.wire (Kulgad.set_phase v channels)
        = List.intersperse (Kulgad.Event.sleep 50)
            (channels.map (fun c => Kulgad.Event.write (Kulgad.set_payload c v))) ∧
      Kulgad.sends (Kulgad.set_phase v channels)
        = channels.map (fun c => Kulgad.set_payload c v) ∧
      Kulgad.delays (Kulgad.set_phase v channels) = List.replicate (channels.length - 1) 50 ∧
      (∀ cN, channels.getLast? = some cN →
        (Kulgad.wire (Kulgad.set_phase v channels)).getLast?
          = some (Kulgad.Event.write (Kulgad.set_payload cN v)))) ∧
    (∀ (argv : List Str) (body : Str) (o : Kulgad.Opts) (channels : List Int),
      Kulgad.scan_args argv Kulgad.initOpts = .ok o → o.want_set = true →
      o.have_val = true → o.chanSpecs ≠ [] →
      Kulgad.parse_canonical o.chanSpecs = some (.ok channels) →
        channels.Pairwise (· < ·) ∧
        ∃ run, Kulgad.main argv body = some run ∧ run.exit = 0 ∧
          Kulgad.wire run.events
            = List.intersperse (Kulgad.Event.sleep 50)
                (channels.map (fun c => Kulgad.Event.write (Kulgad.set_payload c o.val)))
              ++ (if o.want_get then [Kulgad.Event.write Kulgad.get_payload] else []) ∧
          Kulgad.delays run.events = List.replicate (channels.length - 1) 50) ∧
    Kulgad.wire (Kulgad.set_phase true [1, 2, 3])
      = [.write "\x7b\"cmd\":\"set\",\"ch\":1,\"val\":true\x7d".toList, .sleep 50,
         .write "\x7b\"cmd\":\"set\",\"ch\":2,\"val\":true\x7d".toList, .sleep 50,
         .write "\x7b\"cmd\":\"set\",\"ch\":3,\"val\":true\x7d".toList] := by
  refine ⟨?_, ?_, by decide⟩
  · intro v channels
    refine ⟨Kulgad.wire_set_phase v channels, Kulgad.sends_set_phase v channels,
      Kulgad.delays_set_phase v channels, ?_⟩
    intro cN hN
    rw [Kulgad.wire_set_phase, getLast_intersperse, List.getLast?_map, hN]
    rfl
  · intro argv body o channels hscan hset hval hne hparse
    refine ⟨Kulgad.parse_canonical_strict hparse, ?_⟩
    obtain ⟨pins, -, hmain⟩ := Kulgad.main_ok body hscan (Or.inl hset)
      (fun _ => hval) hne hparse
    obtain ⟨-, hw, hd, -⟩ := Kulgad.observe_normal o channels body pins
    refine ⟨_, hmain, rfl, ?_, ?_⟩
    · rw [hw, hset]; rfl
    · rw [hd, hset]; rfl

theorem C13_set_sequencing_witness :
    ([2, 7] : List Int).Pairwise (· < ·) ∧
    ∃ run, Kulgad.main ["7,2".toList, "-s".toList, "-off".toList] [] = some run ∧
      run.exit = 0 ∧
      Kulgad.wire run.events
        = List.intersperse (Kulgad.Event.sleep 50)
            (([2, 7] : List Int).map (fun c => Kulgad.Event.write (Kulgad.set_payload c false)))
          ++ (if false then [Kulgad.Event.write Kulgad.get_payload] else []) ∧
      Kulgad.delays run.events = List.replicate (([2, 7] : List Int).length - 1) 50 :=
  C13_set_sequencing.2.1 ["7,2".toList, "-s".toList, "-off".toList] []
    ⟨true, false, true, false, ["7,2".toList]⟩ [2, 7] rfl rfl rfl (by decide) (by decide)

/-- C14: in kulgad.cpp and set_get_compact.cpp the set message for a channel `c` in
`[0, 255]` and a value `v` is exactly `{"cmd":"set","ch":<c>,"val":<true|false>}`:
the channel in decimal (digits only, of value `c`, no leading zero), `true` exactly
when `v` is on, no white space and nothing else. In every run of either program all
the set messages carry one and the same value, and every message written is a set
message for a channel in `[0, 255]` or the get message. -/
theorem C14_set_message_text :
    (∀ (c : Int) (v : Bool), 0 ≤ c → c ≤ 255 →
      Kulgad.set_payload c v = setMessage (to_string c) v ∧
      SetGetCompact.set_payload c v = setMessage (to_string c) v ∧
      IsDigits (to_string c) ∧ (digitsValue (to_string c) : Int) = c ∧
      (to_string c = ['0'] ∨ (to_string c).head? ≠ some '0') ∧
      (∀ ch ∈ setMessage (to_string c) v, isspace ch = false)) ∧
    (∀ (argv : List Str) (body : Str) (run : Kulgad.Run), Kulgad.main argv body = some run →
      ∃ v : Bool, ∀ p ∈ Kulgad.sends run.events,
        p = Kulgad.get_payload ∨ ∃ c : Int, 0 ≤ c ∧ c ≤ 255 ∧ p = Kulgad.set_payload c v) ∧
    (∀ (args : List Str) (body : Str) (run : SetGetCompact.Run),
      SetGetCompact.main args body = some run →
      ∃ v : Bool, ∀ p ∈ SetGetCompact.sends run.events,
        p = SetGetCompact.get_payload ∨
          ∃ c : Int, 0 ≤ c ∧ c ≤ 255 ∧ p = SetGetCompact.set_payload c v) ∧
    Kulgad.set_payload 7 true = "\x7b\"cmd\":\"set\",\"ch\":7,\"val\":true\x7d".toList ∧
    SetGetCompact.set_payload 255 false
      = "\x7b\"cmd\":\"set\",\"ch\":255,\"val\":false\x7d".toList := by
  refine ⟨?_, ?_, ?_, by decide, by decide⟩
  · intro c v h0 h1
    obtain ⟨hd, hv, hz⟩ := to_string_decimal h0 h1
    exact ⟨Kulgad.set_payload_eq c v, SetGetCompact.compact_payload_eq c v, hd, hv, hz,
      setMessage_no_space hd.2 v⟩
  · intro argv body run hrun
    rcases Kulgad.main_cases argv body with ⟨run1, h1, -, hnet⟩ |
      ⟨o, channels, pins, -, -, -, -, hparse, -, hmain⟩
    · rw [hrun] at h1
      cases h1
      refine ⟨true, ?_⟩
      rw [(Kulgad.observe_no_network hnet).1]
      intro p hp
      simp at hp
    · rw [hrun] at hmain
      cases hmain
      refine ⟨o.val, ?_⟩
      intro p hp
      rw [(Kulgad.observe_normal o channels body pins).1] at hp
      rcases List.mem_append.mp hp with h | h
      · right
        split at h
        · obtain ⟨c, hc, rfl⟩ := List.mem_map.mp h
          exact ⟨c, (Kulgad.parse_canonical_range hparse c hc).1,
            (Kulgad.parse_canonical_range hparse c hc).2, rfl⟩
        · simp at h
      · left
        split at h
        · simpa using h
        · simp at h
  · intro args body run hrun
    rcases SetGetCompact.compact_sends_main hrun with h | ⟨v, channels, ⟨hr, h⟩ | h⟩
    · refine ⟨true, ?_⟩
      rw [h]
      intro p hp
      simp at hp
    · refine ⟨v, ?_⟩
      rw [h]
      intro p hp
      rcases List.mem_append.mp hp with hp | hp
      · obtain ⟨c, hc, rfl⟩ := List.mem_map.mp hp
        right
        rcases hr c hc with h | h
        · simp at h
        · exact ⟨c, h.1, h.2, rfl⟩
      · left
        simpa using hp
    · refine ⟨true, ?_⟩
      rw [h]
      intro p hp
      left
      simpa using hp

theorem C14_set_message_text_witness :
    Kulgad.set_payload 42 false = setMessage (to_string 42) false ∧
    (digitsValue (to_string 42) : Int) = 42 :=
  ⟨(C14_set_message_text.1 42 false (by decide) (by decide)).1,
   (C14_set_message_text.1 42 false (by decide) (by decide)).2.2.2.1⟩

/-- C16: GET report of kulgad.cpp and set_get_compact.cpp: for every decoded pins
vector `pins` and every channel list, the report has one entry per channel, in the
order of the list (ascending for a canonical set), made of the channel, a colon, the
status and a separator; for a channel `c >= 0` the status is `on` if `c` is below the
length of `pins` and `pins[c]` is true, `off` if it is below the length and `pins[c]`
is false, and `n/a`, never `off`, if `c` is at or beyond the length. A run of kulgad
that requests GET and decodes a non-empty `pins` prints `Status:` and this report for
its canonical channel set. Pins `[true,false,true]` and the set `{0,2,5}` give
`0:on`, `2:on`, `5:n/a`. -/
theorem C16_get_report :
    (∀ (pins : List Bool) (channels : List Int),
      (∃ seps : List Str, seps.length = channels.length ∧
        (∀ s ∈ seps, s = "  ".toList ∨ s = "\n".toList) ∧
        Kulgad.report pins channels 0
          = List.zipWith (fun c sep => Kulgad.Event.cout
              (to_string c ++ ":".toList ++ Kulgad.status_text pins c ++ sep))
              channels seps) ∧
      (∃ seps : List Str, seps.length = channels.length ∧
        (∀ s ∈ seps, s = "  ".toList ∨ s = "\n".toList) ∧
        SetGetCompact.report pins channels 0
          = List.zipWith (fun c sep => SetGetCompact.Event.cout
              (to_string c ++ ":".toList ++ SetGetCompact.status_text pins c ++ sep))
              channels seps)) ∧
    (∀ (pins : List Bool) (c : Int), 0 ≤ c →
      SetGetCompact.status_text pins c = Kulgad.status_text pins c ∧
      (pins[c.toNat]? = some true → Kulgad.status_text pins c = "on".toList) ∧
      (pins[c.toNat]? = some false → Kulgad.status_text pins c = "off".toList) ∧
      ((pins.length : Int) ≤ c → Kulgad.status_text pins c = "n/a".toList)) ∧
    (∀ (argv : List Str) (body : Str) (o : Kulgad.Opts) (channels : List Int)
      (pins : List Bool),
      Kulgad.scan_args argv Kulgad.initOpts = .ok o → o.want_get = true →
      (o.want_set = true → o.have_val = true) → o.chanSpecs ≠ [] →
      Kulgad.parse_canonical o.chanSpecs = some (.ok channels) →
      Kulgad.parse_pins_from_json body = some pins → pins ≠ [] →
        channels.Pairwise (· < ·) ∧
        Kulgad.main argv body
          = some ⟨[Kulgad.Event.connect, .cout "Connected to localhost:3001\n".toList]
              ++ (if o.want_set then Kulgad.set_phase o.val channels else [])
              ++ ([.write Kulgad.get_payload, .read, .cout "Status:\n".toList]
                  ++ Kulgad.report pins channels 0
                  ++ (if channels.length % 16 ≠ 0 then [.cout "\n".toList] else []))
              ++ [.close], 0⟩) ∧
    Kulgad.main ["-g".toList, "0,2,5".toList] "\x7b\"pins\":[true,false,true]\x7d".toList
      = some ⟨[.connect, .cout "Connected to localhost:3001\n".toList,
               .write "\x7b\"cmd\":\"get\"\x7d".toList, .read, .cout "Status:\n".toList,
               .cout "0:on  ".toList, .cout "2:on  ".toList, .cout "5:n/a  ".toList,
               .cout "\n".toList, .close], 0⟩ ∧
    SetGetCompact.main ["get".toList, "0,2,5".toList]
        "\x7b\"pins\":[true,false,true]\x7d".toList
      = some ⟨[.connect "localhost".toList "3001".toList,
               .cout "Connected to localhost:3001\n".toList,
               .write "\x7b\"cmd\":\"get\"\x7d".toList, .read, .cout "Status:\n".toList,
               .cout "0:on  ".toList, .cout "2:on  ".toList, .cout "5:n/a  ".toList,
               .cout "\n".toList, .close], 0⟩ := by
  refine ⟨?_, ?_, ?_, by decide, by decide⟩
  · intro pins channels
    exact ⟨Kulgad.report_entries pins channels 0,
      SetGetCompact.compact_report_entries pins channels 0⟩
  · intro pins c h0
    exact ⟨SetGetCompact.compact_status_eq pins c, Kulgad.status_text_cases pins c h0⟩
  · intro argv body o channels pins hscan hget hval hne hparse hpins hnon
    refine ⟨Kulgad.parse_canonical_strict hparse, ?_⟩
    obtain ⟨pins1, hp, hmain⟩ := Kulgad.main_ok body hscan (Or.inr hget) hval hne
      hparse
    rw [hpins] at hp
    cases hp
    rw [hmain]
    unfold Kulgad.normal_events Kulgad.get_events
    have he : pins.isEmpty = false := by
      cases pins with
      | nil => exact absurd rfl hnon
      | cons _ _ => rfl
    rw [hget, he]
    rfl

theorem C16_get_report_witness :
    Kulgad.status_text [true, false, true] 0 = "on".toList ∧
    Kulgad.status_text [true, false, true] 2 = "on".toList ∧
    Kulgad.status_text [true, false, true] 5 = "n/a".toList ∧
    ([0, 2, 5] : List Int).Pairwise (· < ·) :=
  ⟨(C16_get_report.2.1 [true, false, true] 0 (by decide)).2.1 (by decide),
   (C16_get_report.2.1 [true, false, true] 2 (by decide)).2.1 (by decide),
   (C16_get_report.2.1 [true, false, true] 5 (by decide)).2.2.2 (by decide),
   (C16_get_report.2.2.1 ["-g".toList, "0,2,5".toList]
      "\x7b\"pins\":[true,false,true]\x7d".toList
      ⟨false, true, false, false, ["0,2,5".toList]⟩
      [0, 2, 5] [true, false, true] rfl rfl (by decide) (by decide) (by decide) (by decide)
      (by decide)).1⟩

/-- C17: pins decoder round trip, for `parse_pins_from_json` of kulgad.cpp and of
set_get.cpp: for every list of booleans `bs`, every prefix `p` that does not contain
the text `pins` and every suffix `s`, decoding
`p ++ "\"pins\":[" ++ (the tokens true/false of bs joined by commas) ++ "]" ++ s`
returns exactly `bs`, whatever `p` and `s` are. -/
theorem C17_pins_round_trip (bs : List Bool) (p s : Str) (hp : ¬ "pins".toList <:+: p) :
    Kulgad.parse_pins_from_json
        (p ++ "\"pins\":[".toList ++ joinComma (bs.map boolToken) ++ "]".toList ++ s)
      = some bs ∧
    SetGet.parse_pins_from_json
        (p ++ "\"pins\":[".toList ++ joinComma (bs.map boolToken) ++ "]".toList ++ s)
      = some bs ∧
    (∀ b, boolToken b = if b then "true".toList else "false".toList) := by
  have h := Kulgad.parse_pins_response hp bs s
  unfold pinsResponse pinsText at h
  refine ⟨h, ?_, fun b => by cases b <;> rfl⟩
  rw [SetGet.parse_pins_same]
  exact h

theorem C17_pins_round_trip_witness :
    Kulgad.parse_pins_from_json
        ("\x7b\"ok\":1,".toList ++ "\"pins\":[".toList
          ++ joinComma ([true, false, true].map boolToken) ++ "]".toList
          ++ ",\"n\":[0]\x7d".toList)
      = some [true, false, true] ∧
    SetGet.parse_pins_from_json
        ("\x7b\"ok\":1,".toList ++ "\"pins\":[".toList
          ++ joinComma ([true, false, true].map boolToken) ++ "]".toList
          ++ ",\"n\":[0]\x7d".toList)
      = some [true, false, true] :=
  ⟨(C17_pins_round_trip [true, false, true] "\x7b\"ok\":1,".toList
      ",\"n\":[0]\x7d".toList (by decide)).1,
   (C17_pins_round_trip [true, false, true] "\x7b\"ok\":1,".toList
      ",\"n\":[0]\x7d".toList (by decide)).2.1⟩

/-- C18: malformed GET response in kulgad.cpp: for every response text that does not
contain the key `"pins"` (with its quotes), `parse_pins_from_json` returns the empty
vector, and every run that requests GET and passes the argument checks and the
channel parsing writes the raw response text verbatim (`Received (raw): ` followed by
the text), warns on the error stream, closes the connection and returns exit code 0. -/
theorem C18_malformed_response (body : Str) (hb : ¬ "\"pins\"".toList <:+: body) :
    Kulgad.parse_pins_from_json body = some [] ∧
    ∀ (argv : List Str) (o : Kulgad.Opts) (channels : List Int),
      Kulgad.scan_args argv Kulgad.initOpts = .ok o → o.want_get = true →
      (o.want_set = true → o.have_val = true) → o.chanSpecs ≠ [] →
      Kulgad.parse_canonical o.chanSpecs = some (.ok channels) →
        Kulgad.main argv body
          = some ⟨[Kulgad.Event.connect, .cout "Connected to localhost:3001\n".toList]
              ++ (if o.want_set then Kulgad.set_phase o.val channels else [])
              ++ [.write Kulgad.get_payload, .read,
                  .cout ("Received (raw): ".toList ++ body ++ "\n".toList),
                  .cerr "Warning: 'pins' array not found.\n".toList]
              ++ [.close], 0⟩ := by
  have hpins : Kulgad.parse_pins_from_json body = some [] := by
    unfold Kulgad.parse_pins_from_json
    rw [find_str_none hb]
  refine ⟨hpins, ?_⟩
  intro argv o channels hscan hget hval hne hparse
  obtain ⟨pins, hp, hmain⟩ := Kulgad.main_ok body hscan (Or.inr hget) hval hne hparse
  rw [hpins] at hp
  cases hp
  rw [hmain]
  unfold Kulgad.normal_events Kulgad.get_events
  rw [hget]
  rfl

theorem C18_malformed_response_witness :
    Kulgad.parse_pins_from_json "\x7b\"error\":\"busy\"\x7d".toList = some [] ∧
    Kulgad.main ["-g".toList, "5".toList] "\x7b\"error\":\"busy\"\x7d".toList
      = some ⟨[Kulgad.Event.connect, .cout "Connected to localhost:3001\n".toList]
          ++ (if false then Kulgad.set_phase false [5] else [])
          ++ [.write Kulgad.get_payload, .read,
              .cout ("Received (raw): ".toList ++ "\x7b\"error\":\"busy\"\x7d".toList
                ++ "\n".toList),
              .cerr "Warning: 'pins' array not found.\n".toList]
          ++ [.close], 0⟩ :=
  ⟨(C18_malformed_response "\x7b\"error\":\"busy\"\x7d".toList (by decide)).1,
   (C18_malformed_response "\x7b\"error\":\"busy\"\x7d".toList (by decide)).2
      ["-g".toList, "5".toList] ⟨false, true, false, false, ["5".toList]⟩ [5]
      rfl rfl (by decide) (by decide) (by decide)⟩

/-- C19: usage preconditions of kulgad.cpp: when neither SET nor GET is requested, or
SET is requested without an on/off value, or no channel specification is given, `main`
returns 1 and does nothing on the network (no connect, no send, no receive, no close). -/
theorem C19_usage_preconditions (argv : List Str) (body : Str)
    (h : (¬ Kulgad.SetRequested argv ∧ ¬ Kulgad.GetRequested argv) ∨
      (Kulgad.SetRequested argv ∧ ¬ Kulgad.ValueGiven argv) ∨
      Kulgad.specArgs argv = []) :
    ∃ run, Kulgad.main argv body = some run ∧ run.exit = 1 ∧ run.noNetwork := by
  apply Kulgad.main_usage_stops
  intro o hscan
  obtain ⟨hs, hg, hv, hc⟩ := Kulgad.scan_args_init hscan
  rcases h with ⟨h1, h2⟩ | ⟨h1, h2⟩ | h1
  · left
    constructor
    · cases hw : o.want_set with
      | false => rfl
      | true => exact absurd (hs.mp hw) h1
    · cases hw : o.want_get with
      | false => rfl
      | true => exact absurd (hg.mp hw) h2
  · right; right
    refine ⟨hs.mpr h1, ?_⟩
    cases hw : o.have_val with
    | false => rfl
    | true => exact absurd (hv.mp hw) h2
  · right; left
    rw [hc, h1]

theorem C19_usage_preconditions_witness :
    (∃ run, Kulgad.main ["1,2".toList, "-on".toList] [] = some run ∧ run.exit = 1 ∧
      run.noNetwork) ∧
    (∃ run, Kulgad.main ["-s".toList, "1,2".toList, "-g".toList] [] = some run ∧
      run.exit = 1 ∧ run.noNetwork) ∧
    (∃ run, Kulgad.main ["-g".toList, "SET".toList, "off".toList] [] = some run ∧
      run.exit = 1 ∧ run.noNetwork) :=
  ⟨C19_usage_preconditions ["1,2".toList, "-on".toList] [] (Or.inl ⟨by decide, by decide⟩),
   C19_usage_preconditions ["-s".toList, "1,2".toList, "-g".toList] []
     (Or.inr (Or.inl ⟨by decide, by decide⟩)),
   C19_usage_preconditions ["-g".toList, "SET".toList, "off".toList] []
     (Or.inr (Or.inr (by decide)))⟩

/-- C20: no partial sends in kulgad.cpp: when at least one channel specification of
the argument list fails to parse, wherever it stands and whatever precedes it, `main`
returns 1 and does nothing on the network: no set message and no get message is sent. -/
theorem C20_no_partial_sends :
    (∀ (argv : List Str) (body spec : Str), spec ∈ Kulgad.specArgs argv →
      Fails (Kulgad.parse_channels_token spec []) →
        ∃ run, Kulgad.main argv body = some run ∧ run.exit = 1 ∧ run.noNetwork) ∧
    Kulgad.main ["-s".toList, "0-200".toList, "-on".toList, "1,2,x".toList, "-g".toList] []
      = some ⟨[.cerr "Invalid channel: x\n".toList], 1⟩ := by
  refine ⟨?_, by decide⟩
  intro argv body spec hmem hfail
  apply Kulgad.main_stops
  intro o hscan
  obtain ⟨-, -, -, hc⟩ := Kulgad.scan_args_init hscan
  rw [hc]
  exact Kulgad.parse_canonical_fails
    (Kulgad.parse_specs_rejects (Kulgad.fails_any_out hfail) _ hmem [])

theorem C20_no_partial_sends_witness :
    ∃ run, Kulgad.main ["-g".toList, "7".toList, "all".toList, "5-3,300".toList] []
      = some run ∧ run.exit = 1 ∧ run.noNetwork :=
  C20_no_partial_sends.1 ["-g".toList, "7".toList, "all".toList, "5-3,300".toList] []
    "5-3,300".toList (by decide) (Or.inl ⟨"Channel out of range: 300\n".toList, by decide⟩)

/-- C21: option order is free in kulgad.cpp: for every argument list and every
permutation of it, the outcome of the argument scan and of the channel parsing is
the same: either both runs stop with exit code 1 before they connect, or both scans
succeed with the same SET flag, GET flag, value flag and on/off value, both channel
parsings succeed with the same canonical channel set, and the two runs are the same,
event for event, with exit code 0. -/
theorem C21_option_order_free (argv argv1 : List Str) (body : Str)
    (hperm : argv.Perm argv1) :
    (∃ run run1, Kulgad.main argv body = some run ∧ Kulgad.main argv1 body = some run1 ∧
      run.exit = 1 ∧ run1.exit = 1 ∧ run.noNetwork ∧ run1.noNetwork) ∨
    (∃ o o1 channels, Kulgad.scan_args argv Kulgad.initOpts = .ok o ∧
      Kulgad.scan_args argv1 Kulgad.initOpts = .ok o1 ∧
      o1.want_set = o.want_set ∧ o1.want_get = o.want_get ∧ o1.have_val = o.have_val ∧
      o1.val = o.val ∧
      Kulgad.parse_canonical o.chanSpecs = some (.ok channels) ∧
      Kulgad.parse_canonical o1.chanSpecs = some (.ok channels) ∧
      Kulgad.main argv1 body = Kulgad.main argv body ∧
      ∃ run, Kulgad.main argv body = some run ∧ run.exit = 0) := by
  rcases Kulgad.main_cases argv body with ⟨run, hrun, hexit, hnet⟩ |
    ⟨o, channels, pins, hscan, hmode, hval, hne, hparse, -, hmain⟩
  · rcases Kulgad.main_cases argv1 body with ⟨run1, hrun1, hexit1, hnet1⟩ |
      ⟨o1, channels1, pins1, hscan1, hmode1, hval1, hne1, hparse1, -, hmain1⟩
    · exact Or.inl ⟨run, run1, hrun, hrun1, hexit, hexit1, hnet, hnet1⟩
    · obtain ⟨o, -, -, -, -, -, -, hsame⟩ :=
        Kulgad.main_perm_normal hperm.symm body hscan1 hmode1 hval1 hne1 hparse1
      rw [hrun, hmain1] at hsame
      cases hsame
      cases hexit
  · obtain ⟨o1, hscan1, a, b, c, d, hparse1, hsame⟩ :=
      Kulgad.main_perm_normal hperm body hscan hmode hval hne hparse
    exact Or.inr ⟨o, o1, channels, hscan, hscan1, a, b, c, d, hparse, hparse1, hsame,
      _, hmain, rfl⟩

theorem C21_option_order_free_witness :
    Kulgad.main ["10,2,3".toList, "-s".toList, "-on".toList] []
      = Kulgad.main ["-s".toList, "-on".toList, "10,2,3".toList] [] ∧
    Kulgad.main ["-on".toList, "10,2,3".toList, "-s".toList] []
      = Kulgad.main ["-s".toList, "-on".toList, "10,2,3".toList] [] ∧
    Kulgad.main ["-s".toList, "-on".toList, "10,2,3".toList] []
      = some ⟨[.connect, .cout "Connected to localhost:3001\n".toList,
               .write "\x7b\"cmd\":\"set\",\"ch\":2,\"val\":true\x7d".toList,
               .cout "Sent: set ch=2 val=on\n".toList, .sleep 50,
               .write "\x7b\"cmd\":\"set\",\"ch\":3,\"val\":true\x7d".toList,
               .cout "Sent: set ch=3 val=on\n".toList, .sleep 50,
               .write "\x7b\"cmd\":\"set\",\"ch\":10,\"val\":true\x7d".toList,
               .cout "Sent: set ch=10 val=on\n".toList, .close], 0⟩ := by
  have h1 := C21_option_order_free ["-s".toList, "-on".toList, "10,2,3".toList]
    ["10,2,3".toList, "-s".toList, "-on".toList] [] (by decide)
  have h2 := C21_option_order_free ["-s".toList, "-on".toList, "10,2,3".toList]
    ["-on".toList, "10,2,3".toList, "-s".toList] [] (by decide)
  have h0 : Kulgad.main ["-s".toList, "-on".toList, "10,2,3".toList] []
      = some ⟨[.connect, .cout "Connected to localhost:3001\n".toList,
               .write "\x7b\"cmd\":\"set\",\"ch\":2,\"val\":true\x7d".toList,
               .cout "Sent: set ch=2 val=on\n".toList, .sleep 50,
               .write "\x7b\"cmd\":\"set\",\"ch\":3,\"val\":true\x7d".toList,
               .cout "Sent: set ch=3 val=on\n".toList, .sleep 50,
               .write "\x7b\"cmd\":\"set\",\"ch\":10,\"val\":true\x7d".toList,
               .cout "Sent: set ch=10 val=on\n".toList, .close], 0⟩ := by
    decide
  refine ⟨?_, ?_, h0⟩
  · rcases h1 with ⟨run, run1, hr, -, he, -⟩ | ⟨_, _, _, _, _, _, _, _, _, _, _, h, _⟩
    · rw [h0] at hr
      cases hr
      cases he
    · exact h
  · rcases h2 with ⟨run, run1, hr, -, he, -⟩ | ⟨_, _, _, _, _, _, _, _, _, _, _, h, _⟩
    · rw [h0] at hr
      cases hr
      cases he
    · exact h

/-- C22: a successfully parsed canonical channel set has at least 1 and at most 256
elements, whatever the length of the spec and however its pieces repeat or overlap:
in kulgad.cpp for the channel list of `main` after sort and unique (one spec, or any
non-empty list of specs), and in set_get_compact.cpp for `parse_channels`. The spec
`all` reaches 256, and `7,7,7,0-4,2-3` gives 6 channels. -/
theorem C22_size_bounds :
    (∀ (spec : Str) (channels : List Int),
      Kulgad.parse_canonical [spec] = some (.ok channels) →
        1 ≤ channels.length ∧ channels.length ≤ 256) ∧
    (∀ (specs : List Str) (channels : List Int), specs ≠ [] →
      Kulgad.parse_canonical specs = some (.ok channels) →
        1 ≤ channels.length ∧ channels.length ≤ 256) ∧
    (∀ (raw : Str) (L : List Int), SetGetCompact.parse_channels raw [] = some (.ok L) →
      1 ≤ L.length ∧ L.length ≤ 256) ∧
    (∃ channels, Kulgad.parse_canonical ["all".toList] = some (.ok channels) ∧
      channels.length = 256) ∧
    (∃ L, SetGetCompact.parse_channels "all".toList [] = some (.ok L) ∧ L.length = 256) ∧
    Kulgad.parse_canonical ["7,7,7,0-4,2-3".toList] = some (.ok [0, 1, 2, 3, 4, 7]) ∧
    SetGetCompact.parse_channels "7,7,7,0-4,2-3".toList [] = some (.ok [0, 1, 2, 3, 4, 7]) := by
  refine ⟨?_, ?_, ?_, ?_, ?_, by decide, by decide⟩
  · intro spec channels h
    exact Kulgad.parse_canonical_size (by simp) h
  · intro specs channels hne h
    exact Kulgad.parse_canonical_size hne h
  · intro raw L h
    exact SetGetCompact.parse_channels_size h
  · refine ⟨allChannels, ?_, allChannels_length⟩
    have h : Kulgad.parse_canonical ["all".toList]
        = some (.ok (std_unique (std_sort (push_range 0 255 [])))) := rfl
    rw [h, canonical_push_all]
  · refine ⟨allChannels, ?_, allChannels_length⟩
    exact SetGetCompact.parse_channels_all (by decide)

theorem C22_size_bounds_witness :
    (1 ≤ ([0, 1, 2, 3, 4, 7] : List Int).length ∧ ([0, 1, 2, 3, 4, 7] : List Int).length ≤ 256) ∧
    (1 ≤ ([0, 1, 2, 3, 4, 7] : List Int).length ∧ ([0, 1, 2, 3, 4, 7] : List Int).length ≤ 256) :=
  ⟨C22_size_bounds.1 "7,7,7,0-4,2-3".toList [0, 1, 2, 3, 4, 7] (by decide),
   C22_size_bounds.2.2.1 "0-4, 7, 2-3".toList [0, 1, 2, 3, 4, 7] (by decide)⟩

/-- C23: in kulgad.cpp every run that passes the argument checks and the channel
parsing (a normal run; the network calls succeed) returns 0 and closes the connection
exactly once, as its last event: the events are `init` followed by the close, `init`
has no close, and every set message, the get message and the single receive are in
`init`. A run that returns another exit code (it fails in the argument checks or in
the channel parsing) returns 1 and issues no close. -/
theorem C23_close_once :
    (∀ (argv : List Str) (body : Str) (o : Kulgad.Opts) (channels : List Int),
      Kulgad.scan_args argv Kulgad.initOpts = .ok o →
      (o.want_set = true ∨ o.want_get = true) → (o.want_set = true → o.have_val = true) →
      o.chanSpecs ≠ [] → Kulgad.parse_canonical o.chanSpecs = some (.ok channels) →
        ∃ init, Kulgad.main argv body = some ⟨init ++ [Kulgad.Event.close], 0⟩ ∧
          Kulgad.Event.close ∉ init ∧
          Kulgad.sends init
            = (if o.want_set then channels.map (fun c => Kulgad.set_payload c o.val) else [])
              ++ (if o.want_get then [Kulgad.get_payload] else []) ∧
          Kulgad.reads init = (if o.want_get then 1 else 0)) ∧
    (∀ (argv : List Str) (body : Str), ∃ run, Kulgad.main argv body = some run ∧
      ((run.exit = 0 ∧ ∃ init, run.events = init ++ [Kulgad.Event.close] ∧
          Kulgad.Event.close ∉ init) ∨
       (run.exit = 1 ∧ Kulgad.Event.close ∉ run.events))) := by
  constructor
  · intro argv body o channels hscan hmode hval hne hparse
    obtain ⟨pins, -, hmain⟩ := Kulgad.main_ok body hscan hmode hval hne hparse
    obtain ⟨init, hinit, hno, hs, hr⟩ := Kulgad.normal_events_close o channels body pins
    obtain ⟨a, -, -, b⟩ := Kulgad.observe_normal o channels body pins
    refine ⟨init, ?_, hno, ?_, ?_⟩
    · rw [hmain, hinit]
    · rw [hs, a]
    · rw [hr, b]
  · intro argv body
    rcases Kulgad.main_cases argv body with ⟨run, hrun, hexit, hnet⟩ |
      ⟨o, channels, pins, -, -, -, -, -, -, hmain⟩
    · exact ⟨run, hrun, Or.inr ⟨hexit, Kulgad.no_network_no_close hnet⟩⟩
    · obtain ⟨init, hinit, hno, -, -⟩ := Kulgad.normal_events_close o channels body pins
      exact ⟨_, hmain, Or.inl ⟨rfl, init, hinit, hno⟩⟩

theorem C23_close_once_witness :
    ∃ init, Kulgad.main ["-s".toList, "-g".toList, "off".toList, "4".toList] "ok".toList
        = some ⟨init ++ [Kulgad.Event.close], 0⟩ ∧
      Kulgad.Event.close ∉ init ∧
      Kulgad.sends init
        = (if true then ([4] : List Int).map (fun c => Kulgad.set_payload c false) else [])
          ++ (if true then [Kulgad.get_payload] else []) ∧
      Kulgad.reads init = (if true then 1 else 0) :=
  C23_close_once.1 ["-s".toList, "-g".toList, "off".toList, "4".toList] "ok".toList
    ⟨true, true, true, false, ["4".toList]⟩ [4] rfl (Or.inl rfl) (fun _ => rfl) (by decide)
    (by decide)

/-- C24 (amended): in set_get.cpp and set_get_compact.cpp `parse_channels` skips
empty pieces: a spec with at least one non-empty piece has the outcome of the spec
made of its non-empty pieces, so `3,,5` is accepted with the channels 3 and 5, like
`3,5`; a spec without any non-empty piece, such as `,`, is rejected. -/
theorem C24_empty_piece_skipped :
    (∀ (raw : Str) (out : List Int), nonEmptyPieces raw ≠ [] →
      SetGetCompact.parse_channels raw out
        = SetGetCompact.parse_channels (joinComma (nonEmptyPieces raw)) out ∧
      SetGet.parse_channels raw out
        = SetGet.parse_channels (joinComma (nonEmptyPieces raw)) out) ∧
    (∀ (raw : Str), nonEmptyPieces raw = [] →
      Fails (SetGetCompact.parse_channels raw []) ∧ Fails (SetGet.parse_channels raw [])) ∧
    nonEmptyPieces "3,,5".toList = ["3".toList, "5".toList] ∧
    SetGetCompact.parse_channels "3,5".toList [] = some (.ok [3, 5]) ∧
    SetGet.parse_channels "3,5".toList [] = some (.ok [3, 5]) ∧
    SetGetCompact.parse_channels ",".toList []
      = some (.fail "No valid channels parsed\n".toList) ∧
    SetGet.parse_channels ",".toList [] = some (.fail "No valid channels parsed\n".toList) := by
  refine ⟨?_, ?_, by decide, by decide, by decide, by decide, by decide⟩
  · intro raw out hne
    have h := SetGetCompact.parse_channels_skip raw out hne
    refine ⟨h, ?_⟩
    rw [SetGet.parse_channels_same, SetGet.parse_channels_same]
    exact h
  · intro raw hnil
    have h : Fails (SetGetCompact.parse_channels raw []) := by
      rcases SetGetCompact.parse_channels_no_piece raw hnil with h | h
      · exact Or.inl ⟨_, h⟩
      · exact Or.inl ⟨_, h⟩
    refine ⟨h, ?_⟩
    rw [SetGet.parse_channels_same]
    exact h

theorem C24_empty_piece_skipped_witness :
    (SetGetCompact.parse_channels "3,,5".toList []
        = SetGetCompact.parse_channels (joinComma (nonEmptyPieces "3,,5".toList)) [] ∧
      SetGet.parse_channels "3,,5".toList []
        = SetGet.parse_channels (joinComma (nonEmptyPieces "3,,5".toList)) []) ∧
    (Fails (SetGetCompact.parse_channels ", ,".toList []) ∧
      Fails (SetGet.parse_channels ", ,".toList [])) :=
  ⟨C24_empty_piece_skipped.1 "3,,5".toList [] (by decide),
   C24_empty_piece_skipped.2.1 ", ,".toList (by decide)⟩

/-- C24, as first stated, fails: `3,,5` has an empty piece between two commas and is
accepted by `parse_channels` of set_get.cpp and of set_get_compact.cpp, with the
channels 3 and 5. -/
theorem C24_counterexample :
    SetGet.parse_channels "3,,5".toList [] = some (.ok [3, 5]) ∧
    SetGetCompact.parse_channels "3,,5".toList [] = some (.ok [3, 5]) ∧
    ¬ Fails (SetGet.parse_channels "3,,5".toList []) ∧
    ¬ Fails (SetGetCompact.parse_channels "3,,5".toList []) := by
  have h1 : SetGet.parse_channels "3,,5".toList [] = some (.ok [3, 5]) := by decide
  have h2 : SetGetCompact.parse_channels "3,,5".toList [] = some (.ok [3, 5]) := by decide
  refine ⟨h1, h2, ?_, ?_⟩
  · intro hf
    exact fails_not_ok hf _ h1
  · intro hf
    exact fails_not_ok hf _ h2

/-- C25 (amended): in set_get.cpp and set_get_compact.cpp `parse_channels` converts a
single-number piece, and each side of the first dash of a range piece, with
`std::stoi`, which reads the digits at the start, after an optional sign, and ignores
what follows them. A one-piece spec is accepted on the leading digits of its number
parts when their values are at most 255 (`+5` is 5, `3x` is 3, `1-2-3` is the range
1-2, `5-7abc` the range 5-7), and a spec that does not contain `all` is rejected when
a non-empty piece has a number part that does not begin with a digit or with a sign
followed by a digit (`x3`, `3-x`). -/
theorem C25_stoi_lenient :
    (∀ (ds rest : Str), IsNumber ds → (∀ c, rest.head? = some c → isdigit c = false) →
      (∀ c ∈ rest, isspace c = false ∧ c ≠ ',' ∧ c ≠ '-') →
      ¬ "all".toList <:+: (ds ++ rest).map tolower →
        SetGetCompact.parse_channels (ds ++ rest) [] = some (.ok [(digitsValue ds : Int)]) ∧
        SetGetCompact.parse_channels ('+' :: (ds ++ rest)) []
          = some (.ok [(digitsValue ds : Int)]) ∧
        SetGet.parse_channels (ds ++ rest) [] = some (.ok [(digitsValue ds : Int)]) ∧
        SetGet.parse_channels ('+' :: (ds ++ rest)) []
          = some (.ok [(digitsValue ds : Int)])) ∧
    (∀ (a ra b rb : Str), IsNumber a → IsNumber b →
      (∀ c, ra.head? = some c → isdigit c = false) →
      (∀ c, rb.head? = some c → isdigit c = false) →
      (∀ c ∈ ra, isspace c = false ∧ c ≠ ',' ∧ c ≠ '-') →
      (∀ c ∈ rb, isspace c = false ∧ c ≠ ',') →
      ¬ "all".toList <:+: ((a ++ ra) ++ '-' :: (b ++ rb)).map tolower →
        SetGetCompact.parse_channels ((a ++ ra) ++ '-' :: (b ++ rb)) []
          = some (.ok (push_range (min (digitsValue a : Int) (digitsValue b : Int))
              (max (digitsValue a : Int) (digitsValue b : Int)) [])) ∧
        SetGet.parse_channels ((a ++ ra) ++ '-' :: (b ++ rb)) []
          = some (.ok (push_range (min (digitsValue a : Int) (digitsValue b : Int))
              (max (digitsValue a : Int) (digitsValue b : Int)) []))) ∧
    (∀ (raw p : Str) (out0 : List Int),
      ¬ "all".toList <:+: (raw.filter (fun c => !isspace c)).map tolower →
      p ∈ splitComma (raw.filter (fun c => !isspace c)) → BadNumberPart p →
        Fails (SetGetCompact.parse_channels raw out0) ∧
        Fails (SetGet.parse_channels raw out0)) ∧
    SetGetCompact.parse_channels "x3".toList [] = some (.fail "Invalid channel: x3\n".toList) ∧
    SetGet.parse_channels "3-x".toList [] = some (.fail "Invalid range: 3-x\n".toList) := by
  refine ⟨?_, ?_, ?_, by decide, by decide⟩
  · intro ds rest h hr hrest hall
    obtain ⟨a, b⟩ := SetGetCompact.parse_channels_leading h hr hrest hall
    refine ⟨a, b, ?_, ?_⟩
    · rw [SetGet.parse_channels_same]; exact a
    · rw [SetGet.parse_channels_same]; exact b
  · intro a ra b rb ha hb hra hrb hresta hrestb hall
    have h := SetGetCompact.parse_channels_range_leading ha hb hra hrb hresta hrestb hall
    refine ⟨h, ?_⟩
    rw [SetGet.parse_channels_same]
    exact h
  · intro raw p out0 hall hp hbad
    have h := SetGetCompact.parse_channels_bad_number out0 hall hp hbad
    refine ⟨h, ?_⟩
    rw [SetGet.parse_channels_same]
    exact h

theorem C25_stoi_lenient_witness :
    (SetGetCompact.parse_channels ("3".toList ++ "x".toList) []
        = some (.ok [(digitsValue "3".toList : Int)]) ∧
      SetGetCompact.parse_channels ('+' :: ("3".toList ++ "x".toList)) []
        = some (.ok [(digitsValue "3".toList : Int)]) ∧
      SetGet.parse_channels ("3".toList ++ "x".toList) []
        = some (.ok [(digitsValue "3".toList : Int)]) ∧
      SetGet.parse_channels ('+' :: ("3".toList ++ "x".toList)) []
        = some (.ok [(digitsValue "3".toList : Int)])) ∧
    (SetGetCompact.parse_channels (("5".toList ++ []) ++ '-' :: ("7".toList ++ "abc".toList)) []
        = some (.ok (push_range (min (digitsValue "5".toList : Int) (digitsValue "7".toList : Int))
            (max (digitsValue "5".toList : Int) (digitsValue "7".toList : Int)) [])) ∧
      SetGet.parse_channels (("5".toList ++ []) ++ '-' :: ("7".toList ++ "abc".toList)) []
        = some (.ok (push_range (min (digitsValue "5".toList : Int) (digitsValue "7".toList : Int))
            (max (digitsValue "5".toList : Int) (digitsValue "7".toList : Int)) []))) ∧
    (Fails (SetGetCompact.parse_channels "1, x3".toList [9]) ∧
      Fails (SetGet.parse_channels "1, x3".toList [9])) :=
  ⟨C25_stoi_lenient.1 "3".toList "x".toList (by decide) (by decide) (by decide) (by decide),
   C25_stoi_lenient.2.1 "5".toList [] "7".toList "abc".toList (by decide) (by decide)
     (by decide) (by decide) (by decide) (by decide) (by decide),
   C25_stoi_lenient.2.2.1 "1, x3".toList "x3".toList [9] (by decide) (by decide)
     ⟨by decide, Or.inl ⟨by decide, by decide⟩⟩⟩

/-- C25, as first stated, fails: the pieces `+5` (a sign), `3x` (a letter), `1-2-3`
(a second dash) and `5-7abc` are accepted by `parse_channels` of set_get.cpp and of
set_get_compact.cpp. -/
theorem C25_counterexample :
    SetGet.parse_channels "+5".toList [] = some (.ok [5]) ∧
    SetGet.parse_channels "3x".toList [] = some (.ok [3]) ∧
    SetGet.parse_channels "1-2-3".toList [] = some (.ok [1, 2]) ∧
    SetGet.parse_channels "5-7abc".toList [] = some (.ok [5, 6, 7]) ∧
    SetGetCompact.parse_channels "+5".toList [] = some (.ok [5]) ∧
    SetGetCompact.parse_channels "3x".toList [] = some (.ok [3]) ∧
    SetGetCompact.parse_channels "1-2-3".toList [] = some (.ok [1, 2]) ∧
    SetGetCompact.parse_channels "5-7abc".toList [] = some (.ok [5, 6, 7]) := by
  refine ⟨by decide, by decide, by decide, by decide, by decide, by decide, by decide,
    by decide⟩

/-- C26: in set_get.cpp, set_get_compact.cpp and ref.cpp, for every spec whose
whitespace-stripped, lower-cased form contains `all` anywhere, the channel parsing
succeeds and returns exactly the channels 0..255, whatever else the spec holds
(`ball`, `3,all`, `all,999`): `parse_channels` of the first two, and in ref.cpp the
channel parsing of `parse_args`, also through `parse_args` itself on the arguments
`set <specs> <state>`. -/
theorem C26_all_anywhere :
    (∀ (raw : Str), "all".toList <:+: (raw.filter (fun c => !isspace c)).map tolower →
      SetGet.parse_channels raw [] = some (.ok allChannels) ∧
      SetGetCompact.parse_channels raw [] = some (.ok allChannels) ∧
      Ref.parse_joined raw [] = some (.ok allChannels)) ∧
    (∀ (specs : List Str) (state : Str),
      "all".toList <:+: ((Ref.join_specs specs).filter (fun c => !isspace c)).map tolower →
      (state.map tolower = "on".toList ∨ state.map tolower = "true".toList
        ∨ state.map tolower = "1".toList ∨ state.map tolower = "off".toList
        ∨ state.map tolower = "false".toList ∨ state.map tolower = "0".toList) →
      ∃ a, Ref.parse_args ("set".toList :: (specs ++ [state])) = some (.ok a) ∧
        a.channels = allChannels) ∧
    allChannels.Pairwise (· < ·) ∧ allChannels.length = 256 ∧
    (∀ x, x ∈ allChannels ↔ 0 ≤ x ∧ x ≤ 255) := by
  refine ⟨?_, ?_, allChannels_strict, allChannels_length, fun x => mem_allChannels⟩
  · intro raw hall
    obtain ⟨a, b, c⟩ := lenient_all hall
    exact ⟨b, a, c⟩
  · intro specs state hall hstate
    obtain ⟨val, h⟩ := Ref.parse_args_all specs state hall hstate
    exact ⟨_, h, rfl⟩

theorem C26_all_anywhere_witness :
    SetGet.parse_channels "ball".toList [] = some (.ok allChannels) ∧
    SetGetCompact.parse_channels "3,all".toList [] = some (.ok allChannels) ∧
    Ref.parse_joined "all,999".toList [] = some (.ok allChannels) ∧
    SetGet.parse_channels "x, A LL ,999-".toList [] = some (.ok allChannels) ∧
    (∃ a, Ref.parse_args ("set".toList :: (["3,".toList, "ALL".toList] ++ ["ON".toList]))
        = some (.ok a) ∧ a.channels = allChannels) :=
  ⟨(C26_all_anywhere.1 "ball".toList (by decide)).1,
   (C26_all_anywhere.1 "3,all".toList (by decide)).2.1,
   (C26_all_anywhere.1 "all,999".toList (by decide)).2.2,
   (C26_all_anywhere.1 "x, A LL ,999-".toList (by decide)).1,
   C26_all_anywhere.2.1 ["3,".toList, "ALL".toList] "ON".toList (by decide) (by decide)⟩

/-- C27: in set_get.cpp and set_get_compact.cpp `parse_channels` ignores white space:
for every spec, and whatever the vector holds, `parse_channels` has on the spec the
very outcome it has on the spec with every white-space character removed (the same
list, or the same failure); `1, 2 - 4` parses like `1,2-4`. -/
theorem C27_whitespace_ignored :
    (∀ (raw : Str) (out : List Int),
      SetGet.parse_channels raw out
        = SetGet.parse_channels (raw.filter (fun c => !isspace c)) out ∧
      SetGetCompact.parse_channels raw out
        = SetGetCompact.parse_channels (raw.filter (fun c => !isspace c)) out) ∧
    "1, 2 - 4".toList.filter (fun c => !isspace c) = "1,2-4".toList ∧
    SetGet.parse_channels "1, 2 - 4".toList [] = some (.ok [1, 2, 3, 4]) ∧
    SetGet.parse_channels "1,2-4".toList [] = some (.ok [1, 2, 3, 4]) ∧
    SetGetCompact.parse_channels "1, 2 - 4".toList [] = some (.ok [1, 2, 3, 4]) ∧
    SetGetCompact.parse_channels "1,2-4".toList [] = some (.ok [1, 2, 3, 4]) ∧
    SetGet.parse_channels "1,\t2 -\n".toList [] = SetGet.parse_channels "1,2-".toList [] ∧
    SetGet.parse_channels "1,2-".toList [] = some (.fail "Invalid range: 2-\n".toList) := by
  refine ⟨?_, by decide, by decide, by decide, by decide, by decide, by decide, by decide⟩
  intro raw out
  have h : SetGetCompact.parse_channels raw out
      = SetGetCompact.parse_channels (raw.filter (fun c => !isspace c)) out := by
    unfold SetGetCompact.parse_channels
    simp only [strip_strip]
  refine ⟨?_, h⟩
  rw [SetGet.parse_channels_same, SetGet.parse_channels_same]
  exact h

/-- C28 (amended): in SET mode of set_get.cpp and set_get_compact.cpp, for a channel
set of size `N` (at least 1) the run contains exactly `N` pacing delays of 50 ms:
one between each two consecutive set messages (`N - 1` in the loop) and one more
after the last set message, before the get message. -/
theorem C28_set_pacing :
    (∀ (args : List Str) (body : Str) (a : SetGetCompact.Args),
      SetGetCompact.parse_args args = some (.ok a) → a.mode = SetGetCompact.Mode.SET →
        ∃ run, SetGetCompact.main args body = some run ∧ run.exit = 0 ∧
          1 ≤ a.channels.length ∧
          SetGetCompact.wire run.events
            = List.intersperse (SetGetCompact.Event.sleep 50)
                (a.channels.map
                  (fun c => SetGetCompact.Event.write (SetGetCompact.set_payload c a.val)))
              ++ [SetGetCompact.Event.sleep 50]
              ++ [SetGetCompact.Event.write SetGetCompact.get_payload] ∧
          SetGetCompact.delays run.events = List.replicate a.channels.length 50) ∧
    (∀ (args : List Str) (body : Str) (a : SetGetCompact.Args),
      SetGet.parse_args args = some (.ok a) → a.mode = SetGetCompact.Mode.SET →
        ∃ run, SetGet.main args body = some run ∧ run.exit = 0 ∧
          1 ≤ a.channels.length ∧
          SetGetCompact.wire run.events
            = List.intersperse (SetGetCompact.Event.sleep 50)
                (a.channels.map
                  (fun c => SetGetCompact.Event.write (SetGet.set_payload c a.val)))
              ++ [SetGetCompact.Event.sleep 50]
              ++ [SetGetCompact.Event.write SetGet.get_payload] ∧
          SetGetCompact.delays run.events = List.replicate a.channels.length 50) ∧
    (∀ (val : Bool) (channels : List Int),
      SetGetCompact.delays (SetGetCompact.set_phase val channels)
        = List.replicate (channels.length - 1) 50 ∧
      SetGetCompact.delays (SetGet.set_phase val channels)
        = List.replicate (channels.length - 1) 50) := by
  refine ⟨?_, ?_, ?_⟩
  · intro args body a h hm
    obtain ⟨run, hrun, hexit, hne, -, hw, hd, -⟩ := SetGetCompact.compact_main_observe body h
    rw [if_pos hm] at hw hd
    exact ⟨run, hrun, hexit, List.length_pos.mpr hne, hw, hd⟩
  · intro args body a h hm
    obtain ⟨run, hrun, hexit, hne, -, hw, hd, -⟩ := SetGet.setget_main_observe body h
    rw [if_pos hm] at hw hd
    exact ⟨run, hrun, hexit, List.length_pos.mpr hne, hw, hd⟩
  · intro val channels
    exact ⟨SetGetCompact.compact_delays_set_phase val channels,
      SetGet.setget_delays_set_phase val channels⟩

theorem C28_set_pacing_witness :
    ∃ run, SetGetCompact.main ["set".toList, "1,2".toList, "on".toList] [] = some run ∧
      run.exit = 0 ∧ 1 ≤ ([1, 2] : List Int).length ∧
      SetGetCompact.wire run.events
        = List.intersperse (SetGetCompact.Event.sleep 50)
            (([1, 2] : List Int).map
              (fun c => SetGetCompact.Event.write (SetGetCompact.set_payload c true)))
          ++ [SetGetCompact.Event.sleep 50]
          ++ [SetGetCompact.Event.write SetGetCompact.get_payload] ∧
      SetGetCompact.delays run.events = List.replicate ([1, 2] : List Int).length 50 :=
  C28_set_pacing.1 ["set".toList, "1,2".toList, "on".toList] []
    ⟨"localhost".toList, "3001".toList, .SET, [1, 2], true⟩ rfl rfl

/-- C28, as first stated, fails: the run `set 1,2 on` of set_get_compact.cpp and of
set_get.cpp, with `N = 2` channels, pauses twice, not once, and the second pause
comes after the last set message. -/
theorem C28_counterexample :
    (SetGetCompact.main ["set".toList, "1,2".toList, "on".toList] []).map
        (fun run => SetGetCompact.wire run.events)
      = some [.write "\x7b\"cmd\":\"set\",\"ch\":1,\"val\":true\x7d".toList, .sleep 50,
              .write "\x7b\"cmd\":\"set\",\"ch\":2,\"val\":true\x7d".toList, .sleep 50,
              .write "\x7b\"cmd\":\"get\"\x7d".toList] ∧
    (SetGet.main ["set".toList, "1,2".toList, "on".toList] []).map
        (fun run => SetGetCompact.wire run.events)
      = some [.write "\x7b\"cmd\": \"set\", \"ch\":1, \"val\": true\x7d".toList, .sleep 50,
              .write "\x7b\"cmd\": \"set\", \"ch\":2, \"val\": true\x7d".toList, .sleep 50,
              .write "\x7b\"cmd\": \"get\"\x7d".toList] ∧
    (SetGetCompact.main ["set".toList, "1,2".toList, "on".toList] []).map
        (fun run => SetGetCompact.delays run.events) = some [50, 50] ∧
    (SetGet.main ["set".toList, "1,2".toList, "on".toList] []).map
        (fun run => SetGetCompact.delays run.events) = some [50, 50] := by
  refine ⟨by decide, by decide, by decide, by decide⟩

/-- C29 (amended): in set_get.cpp and set_get_compact.cpp every run that passes
`parse_args` sends the get message exactly once, as its last message, and receives
one response, in SET mode too (after the set messages): the GET phase is always
performed. In GET mode no set message is sent, and a run that fails in `parse_args`
returns 1 and sends and receives nothing. -/
theorem C29_get_always :
    (∀ (args : List Str) (body : Str) (a : SetGetCompact.Args),
      SetGetCompact.parse_args args = some (.ok a) →
        ∃ run sets, SetGetCompact.main args body = some run ∧ run.exit = 0 ∧
          SetGetCompact.sends run.events = sets ++ [SetGetCompact.get_payload] ∧
          SetGetCompact.get_payload ∉ sets ∧
          sets = (if a.mode = SetGetCompact.Mode.SET then
                    a.channels.map (fun c => SetGetCompact.set_payload c a.val) else []) ∧
          SetGetCompact.reads run.events = 1) ∧
    (∀ (args : List Str) (body : Str) (a : SetGetCompact.Args),
      SetGet.parse_args args = some (.ok a) →
        ∃ run sets, SetGet.main args body = some run ∧ run.exit = 0 ∧
          SetGetCompact.sends run.events = sets ++ [SetGet.get_payload] ∧
          SetGet.get_payload ∉ sets ∧
          sets = (if a.mode = SetGetCompact.Mode.SET then
                    a.channels.map (fun c => SetGet.set_payload c a.val) else []) ∧
          SetGetCompact.reads run.events = 1) ∧
    (∀ (args : List Str) (body : Str) (evs : List SetGetCompact.Event),
      (SetGetCompact.parse_args args = some (.error evs) →
        SetGetCompact.main args body = some ⟨evs, 1⟩ ∧ SetGetCompact.sends evs = [] ∧
        SetGetCompact.reads evs = 0) ∧
      (SetGet.parse_args args = some (.error evs) →
        SetGet.main args body = some ⟨evs, 1⟩ ∧ SetGetCompact.sends evs = [] ∧
        SetGetCompact.reads evs = 0)) := by
  refine ⟨?_, ?_, ?_⟩
  · intro args body a h
    obtain ⟨run, hrun, hexit, -, hs, -, -, hr⟩ := SetGetCompact.compact_main_observe body h
    refine ⟨run, _, hrun, hexit, hs, ?_, rfl, hr⟩
    split
    · intro hm
      obtain ⟨c, -, hc⟩ := List.mem_map.mp hm
      exact SetGetCompact.compact_payload_ne_get c a.val hc
    · simp
  · intro args body a h
    obtain ⟨run, hrun, hexit, -, hs, -, -, hr⟩ := SetGet.setget_main_observe body h
    refine ⟨run, _, hrun, hexit, hs, ?_, rfl, hr⟩
    split
    · intro hm
      obtain ⟨c, -, hc⟩ := List.mem_map.mp hm
      exact SetGet.setget_payload_ne_get c a.val hc
    · simp
  · intro args body evs
    constructor
    · intro h
      obtain ⟨a, b⟩ := SetGetCompact.compact_main_error body h
      exact ⟨a, b, SetGetCompact.parse_args_error_reads h⟩
    · intro h
      obtain ⟨a, b⟩ := SetGet.setget_main_error body h
      rw [SetGet.parse_args_same] at h
      exact ⟨a, b, SetGetCompact.parse_args_error_reads h⟩

theorem C29_get_always_witness :
    ∃ run sets, SetGet.main ["set".toList, "3".toList, "off".toList] [] = some run ∧
      run.exit = 0 ∧
      SetGetCompact.sends run.events = sets ++ [SetGet.get_payload] ∧
      SetGet.get_payload ∉ sets ∧
      sets = (if SetGetCompact.Mode.SET = SetGetCompact.Mode.SET then
                ([3] : List Int).map (fun c => SetGet.set_payload c false) else []) ∧
      SetGetCompact.reads run.events = 1 :=
  C29_get_always.2.1 ["set".toList, "3".toList, "off".toList] []
    ⟨"localhost".toList, "3001".toList, .SET, [3], false⟩ rfl

/-- C29, as first stated, fails: the run `set 3 on` of set_get_compact.cpp and of
set_get.cpp is in SET mode, GET is not requested, and it sends the get message after
the set message and receives one response. -/
theorem C29_counterexample :
    (SetGetCompact.main ["set".toList, "3".toList, "on".toList] []).map
        (fun run => (SetGetCompact.sends run.events, SetGetCompact.reads run.events))
      = some (["\x7b\"cmd\":\"set\",\"ch\":3,\"val\":true\x7d".toList,
               "\x7b\"cmd\":\"get\"\x7d".toList], 1) ∧
    (SetGet.main ["set".toList, "3".toList, "on".toList] []).map
        (fun run => (SetGetCompact.sends run.events, SetGetCompact.reads run.events))
      = some (["\x7b\"cmd\": \"set\", \"ch\":3, \"val\": true\x7d".toList,
               "\x7b\"cmd\": \"get\"\x7d".toList], 1) := by
  refine ⟨by decide, by decide⟩

/-- C30 (amended): the set message of set_get.cpp and of ref.cpp is, character for
character, `{"cmd": "set", "ch":<c>, "val": <true|false>}` and their get message is
`{"cmd": "get"}`, with blanks after the colons of `cmd` and `val` and after the
commas; kulgad.cpp and set_get_compact.cpp build `{"cmd":"set","ch":<c>,"val":<v>}`
and `{"cmd":"get"}` without any blank. For a channel in `[0, 255]` the two forms are
the same text once the white space is removed. -/
theorem C30_wire_protocol :
    (∀ (c : Int) (v : Bool),
      SetGet.set_payload c v = Ref.set_payload c v ∧
      SetGet.set_payload c v
        = "\x7b\"cmd\": \"set\", \"ch\":".toList ++ to_string c ++ ", \"val\": ".toList
            ++ boolToken v ++ "\x7d".toList ∧
      Kulgad.set_payload c v = SetGetCompact.set_payload c v ∧
      Kulgad.set_payload c v = setMessage (to_string c) v) ∧
    (∀ (c : Int) (v : Bool), 0 ≤ c → c ≤ 255 →
      (SetGet.set_payload c v).filter (fun ch => !isspace ch) = Kulgad.set_payload c v ∧
      (Ref.set_payload c v).filter (fun ch => !isspace ch)
        = SetGetCompact.set_payload c v) ∧
    SetGet.get_payload = Ref.get_payload ∧
    SetGet.get_payload = "\x7b\"cmd\": \"get\"\x7d".toList ∧
    Kulgad.get_payload = SetGetCompact.get_payload ∧
    Kulgad.get_payload = "\x7b\"cmd\":\"get\"\x7d".toList ∧
    SetGet.get_payload.filter (fun ch => !isspace ch) = Kulgad.get_payload := by
  refine ⟨?_, ?_, rfl, rfl, rfl, rfl, by decide⟩
  · intro c v
    refine ⟨rfl, ?_, rfl, Kulgad.set_payload_eq c v⟩
    cases v <;> rfl
  · intro c v h0 h1
    exact ⟨SetGet.payload_stripped h0 h1 v, SetGet.payload_stripped h0 h1 v⟩

theorem C30_wire_protocol_witness :
    (SetGet.set_payload 7 true).filter (fun ch => !isspace ch) = Kulgad.set_payload 7 true ∧
    (Ref.set_payload 255 false).filter (fun ch => !isspace ch)
      = SetGetCompact.set_payload 255 false :=
  ⟨(C30_wire_protocol.2.1 7 true (by decide) (by decide)).1,
   (C30_wire_protocol.2.1 255 false (by decide) (by decide)).2⟩

/-- C30, as first stated, fails: for channel 3 and the value on, set_get.cpp and
ref.cpp build `{"cmd": "set", "ch":3, "val": true}`, which is not the text
`{"cmd":"set","ch":3,"val":true}` of kulgad.cpp and set_get_compact.cpp, and their
get message `{"cmd": "get"}` is not `{"cmd":"get"}`. -/
theorem C30_counterexample :
    SetGet.set_payload 3 true = "\x7b\"cmd\": \"set\", \"ch\":3, \"val\": true\x7d".toList ∧
    Ref.set_payload 3 true = "\x7b\"cmd\": \"set\", \"ch\":3, \"val\": true\x7d".toList ∧
    Kulgad.set_payload 3 true = "\x7b\"cmd\":\"set\",\"ch\":3,\"val\":true\x7d".toList ∧
    SetGetCompact.set_payload 3 true = "\x7b\"cmd\":\"set\",\"ch\":3,\"val\":true\x7d".toList ∧
    SetGet.set_payload 3 true ≠ Kulgad.set_payload 3 true ∧
    Ref.set_payload 3 true ≠ SetGetCompact.set_payload 3 true ∧
    SetGet.get_payload ≠ Kulgad.get_payload ∧
    Ref.get_payload ≠ SetGetCompact.get_payload := by
  refine ⟨by decide, by decide, by decide, by decide, by decide, by decide, by decide,
    by decide⟩

/-- C31 (amended): the raw-text branch of kulgad.cpp and of set_get_compact.cpp is
taken exactly when the decoded vector is empty, that is when the `"pins"` key is
absent, no bracketed array is located after it, or the located array holds no `true`
and no `false` (as in `{"pins":[]}`). When the located array holds a token, a run that
performs GET writes `Status:` and the per-channel report, and every requested channel
at or beyond the decoded length is reported as `n/a`. -/
theorem C31_raw_branch_iff_no_token (body : Str) :
    ∃ pins, Kulgad.parse_pins_from_json body = some pins ∧
      SetGetCompact.parse_pins_from_json body = some pins ∧
      (pins = [] ↔ ∀ arr, Kulgad.located_array body = some arr → ¬ HasToken arr) ∧
      (∀ (argv : List Str) (o : Kulgad.Opts) (channels : List Int),
        Kulgad.scan_args argv Kulgad.initOpts = .ok o → o.want_get = true →
        (o.want_set = true → o.have_val = true) → o.chanSpecs ≠ [] →
        Kulgad.parse_canonical o.chanSpecs = some (.ok channels) →
          Kulgad.main argv body
            = some ⟨[Kulgad.Event.connect, .cout "Connected to localhost:3001\n".toList]
                ++ (if o.want_set then Kulgad.set_phase o.val channels else [])
                ++ [.write Kulgad.get_payload, .read]
                ++ (if pins = [] then
                      [.cout ("Received (raw): ".toList ++ body ++ "\n".toList),
                       .cerr "Warning: 'pins' array not found.\n".toList]
                    else
                      [.cout "Status:\n".toList] ++ Kulgad.report pins channels 0
                        ++ (if channels.length % 16 ≠ 0 then [.cout "\n".toList] else []))
                ++ [.close], 0⟩) ∧
      (∀ (args : List Str) (a : SetGetCompact.Args),
        SetGetCompact.parse_args args = some (.ok a) →
          SetGetCompact.main args body
            = some ⟨[SetGetCompact.Event.connect a.host a.port,
                  .cout ("Connected to ".toList ++ a.host ++ ":".toList ++ a.port
                    ++ "\n".toList)]
                ++ (if a.mode = SetGetCompact.Mode.SET then
                      SetGetCompact.set_phase a.val a.channels ++ [.sleep 50] else [])
                ++ [.write SetGetCompact.get_payload, .read]
                ++ (if pins = [] then
                      [.cout ("Received (raw): ".toList ++ body ++ "\n".toList),
                       .cerr "Warning: 'pins' array not found.\n".toList]
                    else
                      [.cout "Status:\n".toList] ++ SetGetCompact.report pins a.channels 0
                        ++ (if a.channels.length % 16 ≠ 0 then [.cout "\n".toList] else []))
                ++ [.close], 0⟩) ∧
      (∀ c : Int, (pins.length : Int) ≤ c →
        Kulgad.status_text pins c = "n/a".toList ∧
        SetGetCompact.status_text pins c = "n/a".toList) := by
  obtain ⟨pins, hp⟩ := Kulgad.parse_pins_total body
  have hc : SetGetCompact.parse_pins_from_json body = some pins := by
    rw [SetGetCompact.parse_pins_eq, hp]
  have hempty : pins.isEmpty = decide (pins = []) := by cases pins <;> rfl
  refine ⟨pins, hp, hc, Kulgad.parse_pins_empty_iff hp, ?_, ?_, ?_⟩
  · intro argv o channels hscan hget hval hne hparse
    obtain ⟨pins1, hp1, hmain⟩ := Kulgad.main_ok body hscan (Or.inr hget) hval hne hparse
    rw [hp] at hp1
    cases hp1
    rw [hmain]
    unfold Kulgad.normal_events Kulgad.get_events
    rw [hget, hempty]
    simp only [if_true, decide_eq_true_eq, List.append_assoc]
  · intro args a ha
    unfold SetGetCompact.main
    simp only [ha, hc, hempty, decide_eq_true_eq]
  · intro c hlen
    have hn : ¬ (0 ≤ c ∧ c < (pins.length : Int)) := by omega
    constructor
    · unfold Kulgad.status_text
      rw [if_neg hn]
    · unfold SetGetCompact.status_text
      rw [if_neg hn]

theorem C31_raw_branch_iff_no_token_witness :
    Kulgad.located_array "\x7b\"pins\":[true,false]\x7d".toList = some "true,false".toList ∧
    HasToken "true,false".toList ∧
    Kulgad.main ["-g".toList, "0-2".toList] "\x7b\"pins\":[true,false]\x7d".toList
      = some ⟨[Kulgad.Event.connect, .cout "Connected to localhost:3001\n".toList,
          .write "\x7b\"cmd\":\"get\"\x7d".toList, .read,
          .cout "Status:\n".toList, .cout "0:on  ".toList, .cout "1:off  ".toList,
          .cout "2:n/a  ".toList, .cout "\n".toList, .close], 0⟩ ∧
    SetGetCompact.main ["get".toList, "0-2".toList] "\x7b\"pins\":[true,false]\x7d".toList
      = some ⟨[SetGetCompact.Event.connect "localhost".toList "3001".toList,
          .cout "Connected to localhost:3001\n".toList,
          .write "\x7b\"cmd\":\"get\"\x7d".toList, .read,
          .cout "Status:\n".toList, .cout "0:on  ".toList, .cout "1:off  ".toList,
          .cout "2:n/a  ".toList, .cout "\n".toList, .close], 0⟩ ∧
    Kulgad.status_text [true, false] 2 = "n/a".toList := by
  obtain ⟨pins, hp, -, -, hk, hc, hs⟩ :=
    C31_raw_branch_iff_no_token "\x7b\"pins\":[true,false]\x7d".toList
  have e : Kulgad.parse_pins_from_json "\x7b\"pins\":[true,false]\x7d".toList
      = some [true, false] := by decide
  rw [e] at hp
  cases hp
  refine ⟨by decide, by decide, ?_, ?_, (hs 2 (by decide)).1⟩
  · rw [hk ["-g".toList, "0-2".toList] ⟨false, true, false, false, ["0-2".toList]⟩ [0, 1, 2]
      rfl rfl (by decide) (by decide) (by decide)]
    decide
  · rw [hc ["get".toList, "0-2".toList]
      ⟨"localhost".toList, "3001".toList, .GET, [0, 1, 2], false⟩ rfl]
    decide

/-- C31, as first stated, fails: in the response `{"pins":[]}` the key is followed by a
bracketed array, the array located by the decoder is the empty text, the decoded
vector is empty, and the GET runs of kulgad.cpp and of set_get_compact.cpp write the
raw text and the warning, not a report. -/
theorem C31_counterexample :
    Kulgad.located_array "\x7b\"pins\":[]\x7d".toList = some [] ∧
    Kulgad.parse_pins_from_json "\x7b\"pins\":[]\x7d".toList = some [] ∧
    Kulgad.main ["-g".toList, "0".toList] "\x7b\"pins\":[]\x7d".toList
      = some ⟨[Kulgad.Event.connect, .cout "Connected to localhost:3001\n".toList,
          .write "\x7b\"cmd\":\"get\"\x7d".toList, .read,
          .cout "Received (raw): \x7b\"pins\":[]\x7d\n".toList,
          .cerr "Warning: 'pins' array not found.\n".toList, .close], 0⟩ ∧
    SetGetCompact.main ["get".toList, "0".toList] "\x7b\"pins\":[]\x7d".toList
      = some ⟨[SetGetCompact.Event.connect "localhost".toList "3001".toList,
          .cout "Connected to localhost:3001\n".toList,
          .write "\x7b\"cmd\":\"get\"\x7d".toList, .read,
          .cout "Received (raw): \x7b\"pins\":[]\x7d\n".toList,
          .cerr "Warning: 'pins' array not found.\n".toList, .close], 0⟩ := by
  refine ⟨by decide, by decide, by decide, by decide⟩

/-- C32: the lenient parser extends the strict one: for every single spec that
kulgad.cpp accepts (`parse_channels_token` followed by the sort and unique of `main`),
`parse_channels` of set_get_compact.cpp succeeds and returns the same canonical
channel set. -/
theorem C32_lenient_extends_strict (spec : Str) (L : List Int)
    (h : Kulgad.parse_canonical [spec] = some (.ok L)) :
    SetGetCompact.parse_channels spec [] = some (.ok L) := by
  obtain ⟨out, hout, rfl⟩ := Kulgad.parse_canonical_ok h
  have htok : Kulgad.parse_channels_token spec [] = some (.ok out) := by
    rw [Kulgad.parse_specs] at hout
    obtain ⟨r, hr⟩ := Kulgad.parse_channels_token_total spec []
    rw [hr] at hout
    cases r with
    | ok out1 =>
      simp only [Kulgad.parse_specs, Option.some.injEq, ParseResult.ok.injEq] at hout
      rw [hr, hout]
    | fail e => cases hout
    | thrown e => cases hout
  exact strict_in_lenient htok

theorem C32_lenient_extends_strict_witness :
    SetGetCompact.parse_channels "12,0-4,3,7-5,".toList [] = some (.ok [0, 1, 2, 3, 4, 5, 6, 7, 12]) ∧
    SetGetCompact.parse_channels "aLL".toList [] = some (.ok allChannels) :=
  ⟨C32_lenient_extends_strict "12,0-4,3,7-5,".toList [0, 1, 2, 3, 4, 5, 6, 7, 12] (by decide),
   C32_lenient_extends_strict "aLL".toList allChannels (by
    have h : Kulgad.parse_canonical ["aLL".toList]
        = some (.ok (std_unique (std_sort (push_range 0 255 [])))) := rfl
    rw [h, canonical_push_all])⟩

/-- C33 (amended): piece order and repetition do not matter in set_get_compact.cpp:
for every two lists of non-empty comma-free pieces that contain the same pieces up to
order and multiplicity, parsing their comma-joined strings has the same outcome: both
fail, or both succeed with the same canonical channel set. In kulgad.cpp (one spec,
`parse_channels_token` followed by the sort and unique of `main`) the same holds when
the two joined strings both spell the keyword `all` or both do not: the keyword is
recognised only as the whole token. -/
theorem C33_piece_order_free (ps qs : List Str)
    (hps : ∀ p ∈ ps, p ≠ [] ∧ ',' ∉ p) (hqs : ∀ p ∈ qs, p ≠ [] ∧ ',' ∉ p)
    (hsame : ∀ p, p ∈ ps ↔ p ∈ qs) :
    ((Fails (SetGetCompact.parse_channels (joinComma ps) []) ∧
        Fails (SetGetCompact.parse_channels (joinComma qs) [])) ∨
      ∃ C, SetGetCompact.parse_channels (joinComma ps) [] = some (.ok C) ∧
        SetGetCompact.parse_channels (joinComma qs) [] = some (.ok C)) ∧
    ((Kulgad.lower_copy (joinComma ps) = "all".toList
        ↔ Kulgad.lower_copy (joinComma qs) = "all".toList) →
      ((Fails (Kulgad.parse_canonical [joinComma ps]) ∧
          Fails (Kulgad.parse_canonical [joinComma qs])) ∨
        ∃ C, Kulgad.parse_canonical [joinComma ps] = some (.ok C) ∧
          Kulgad.parse_canonical [joinComma qs] = some (.ok C))) := by
  have hsame1 : ∀ p, p ∈ qs ↔ p ∈ ps := fun p => (hsame p).symm
  constructor
  · obtain ⟨r1, h1⟩ := SetGetCompact.parse_channels_total (joinComma ps) []
    obtain ⟨r2, h2⟩ := SetGetCompact.parse_channels_total (joinComma qs) []
    have hfp : ∀ p ∈ ps, ',' ∉ p := fun p hp => (hps p hp).2
    have hfq : ∀ p ∈ qs, ',' ∉ p := fun p hp => (hqs p hp).2
    cases r1 with
    | ok C => exact Or.inr ⟨C, h1, SetGetCompact.channels_same_pieces hfp hfq hsame h1⟩
    | fail e1 =>
      cases r2 with
      | ok C =>
        have := SetGetCompact.channels_same_pieces hfq hfp hsame1 h2
        rw [h1] at this
        cases this
      | fail e2 => exact Or.inl ⟨Or.inl ⟨e1, h1⟩, Or.inl ⟨e2, h2⟩⟩
      | thrown e2 => exact Or.inl ⟨Or.inl ⟨e1, h1⟩, Or.inr ⟨e2, h2⟩⟩
    | thrown e1 =>
      cases r2 with
      | ok C =>
        have := SetGetCompact.channels_same_pieces hfq hfp hsame1 h2
        rw [h1] at this
        cases this
      | fail e2 => exact Or.inl ⟨Or.inr ⟨e1, h1⟩, Or.inl ⟨e2, h2⟩⟩
      | thrown e2 => exact Or.inl ⟨Or.inr ⟨e1, h1⟩, Or.inr ⟨e2, h2⟩⟩
  · intro hall
    obtain ⟨r1, h1⟩ := Kulgad.parse_canonical_total [joinComma ps]
    obtain ⟨r2, h2⟩ := Kulgad.parse_canonical_total [joinComma qs]
    cases r1 with
    | ok C => exact Or.inr ⟨C, h1, Kulgad.canonical_same_pieces hps hqs hsame hall h1⟩
    | fail e1 =>
      cases r2 with
      | ok C =>
        have := Kulgad.canonical_same_pieces hqs hps hsame1 hall.symm h2
        rw [h1] at this
        cases this
      | fail e2 => exact Or.inl ⟨Or.inl ⟨e1, h1⟩, Or.inl ⟨e2, h2⟩⟩
      | thrown e2 => exact Or.inl ⟨Or.inl ⟨e1, h1⟩, Or.inr ⟨e2, h2⟩⟩
    | thrown e1 =>
      cases r2 with
      | ok C =>
        have := Kulgad.canonical_same_pieces hqs hps hsame1 hall.symm h2
        rw [h1] at this
        cases this
      | fail e2 => exact Or.inl ⟨Or.inr ⟨e1, h1⟩, Or.inl ⟨e2, h2⟩⟩
      | thrown e2 => exact Or.inl ⟨Or.inr ⟨e1, h1⟩, Or.inr ⟨e2, h2⟩⟩

theorem C33_piece_order_free_witness :
    joinComma ["7".toList, "0-4".toList] = "7,0-4".toList ∧
    joinComma ["0-4".toList, "7".toList, "7".toList] = "0-4,7,7".toList ∧
    SetGetCompact.parse_channels "7,0-4".toList [] = some (.ok [0, 1, 2, 3, 4, 7]) ∧
    SetGetCompact.parse_channels "0-4,7,7".toList [] = some (.ok [0, 1, 2, 3, 4, 7]) ∧
    Kulgad.parse_canonical ["7,0-4".toList] = some (.ok [0, 1, 2, 3, 4, 7]) ∧
    Kulgad.parse_canonical ["0-4,7,7".toList] = some (.ok [0, 1, 2, 3, 4, 7]) := by
  have h := C33_piece_order_free ["7".toList, "0-4".toList]
    ["0-4".toList, "7".toList, "7".toList] (by decide) (by decide)
    (by
      intro p
      simp only [List.mem_cons, List.mem_singleton, List.not_mem_nil, or_false]
      tauto)
  have e1 : SetGetCompact.parse_channels (joinComma ["7".toList, "0-4".toList]) []
      = some (.ok [0, 1, 2, 3, 4, 7]) := by decide
  have e2 : Kulgad.parse_canonical [joinComma ["7".toList, "0-4".toList]]
      = some (.ok [0, 1, 2, 3, 4, 7]) := by decide
  refine ⟨rfl, rfl, e1, ?_, e2, ?_⟩
  · rcases h.1 with ⟨hf, -⟩ | ⟨C, hc1, hc2⟩
    · exact absurd e1 (fails_not_ok hf _)
    · rw [e1] at hc1
      cases hc1
      exact hc2
  · rcases h.2 (by decide) with ⟨hf, -⟩ | ⟨C, hc1, hc2⟩
    · exact absurd e2 (fails_not_ok hf _)
    · rw [e2] at hc1
      cases hc1
      exact hc2

/-- C33, as first stated, fails in kulgad.cpp: the piece lists `["all"]` and
`["all", "all"]` hold the same pieces up to multiplicity, the spec `all` is accepted
with all 256 channels, and the spec `all,all` is rejected. -/
theorem C33_counterexample :
    (["all".toList, "all".toList] : List Str).dedup = ["all".toList] ∧
    joinComma ["all".toList] = "all".toList ∧
    joinComma ["all".toList, "all".toList] = "all,all".toList ∧
    Kulgad.parse_canonical ["all".toList] = some (.ok allChannels) ∧
    Kulgad.parse_canonical ["all,all".toList]
      = some (.fail "Invalid channel: all\n".toList) := by
  refine ⟨by decide, rfl, rfl, ?_, by decide⟩
  have h : Kulgad.parse_canonical ["all".toList]
      = some (.ok (std_unique (std_sort (push_range 0 255 [])))) := rfl
  rw [h, canonical_push_all]

/-- C34: `parse_pins_from_json` of kulgad.cpp and of set_get_compact.cpp is total and
in bounds: on every input the scan terminates with a vector; when the key, an opening
bracket after it and a closing bracket after that are found, the closing bracket is
strictly after the opening one, the extracted array body has the length `rb - lb - 1`,
every 4- or 5-character comparison of the loop lies inside the body, and the result
has at most `length(body) / 4` elements (rounded down). -/
theorem C34_pins_total_in_bounds :
    (∀ (js : Str), ∃ pins, Kulgad.parse_pins_from_json js = some pins ∧
      SetGetCompact.parse_pins_from_json js = some pins) ∧
    (∀ (js : Str) (p lb rb : Nat), find_str js "\"pins\"".toList = some p →
      find js '[' p = some lb → find js ']' lb = some rb →
        lb < rb ∧ rb < js.length ∧
        (substr js (lb + 1) (some (rb - lb - 1))).length = rb - lb - 1 ∧
        ∃ pins calls,
          Kulgad.scan_pins_traced (substr js (lb + 1) (some (rb - lb - 1)))
            ((substr js (lb + 1) (some (rb - lb - 1))).length + 1) 0 [] []
              = some (pins, calls) ∧
          Kulgad.parse_pins_from_json js = some pins ∧
          SetGetCompact.parse_pins_from_json js = some pins ∧
          (∀ c ∈ calls, c.1 + c.2 ≤ (substr js (lb + 1) (some (rb - lb - 1))).length) ∧
          pins.length ≤ (substr js (lb + 1) (some (rb - lb - 1))).length / 4) := by
  constructor
  · intro js
    obtain ⟨pins, h⟩ := Kulgad.parse_pins_total js
    exact ⟨pins, h, by rw [SetGetCompact.parse_pins_eq, h]⟩
  · intro js p lb rb hp hlb hrb
    obtain ⟨h1, h2, h3⟩ := Kulgad.array_body hlb hrb
    refine ⟨h1, h2, h3, ?_⟩
    have hparse : Kulgad.parse_pins_from_json js
        = Kulgad.scan_pins (substr js (lb + 1) (some (rb - lb - 1)))
            ((substr js (lb + 1) (some (rb - lb - 1))).length + 1) 0 [] := by
      unfold Kulgad.parse_pins_from_json
      simp only [hp, hlb, hrb]
    obtain ⟨pins, hpins⟩ := Kulgad.parse_pins_total js
    have hscan := hparse ▸ hpins
    have hfst := Kulgad.scan_pins_traced_fst (substr js (lb + 1) (some (rb - lb - 1)))
      ((substr js (lb + 1) (some (rb - lb - 1))).length + 1) 0 [] []
    rw [hscan] at hfst
    cases ht : Kulgad.scan_pins_traced (substr js (lb + 1) (some (rb - lb - 1)))
        ((substr js (lb + 1) (some (rb - lb - 1))).length + 1) 0 [] [] with
    | none => rw [ht] at hfst; cases hfst
    | some r =>
      obtain ⟨r1, calls⟩ := r
      rw [ht] at hfst
      simp only [Option.map_some', Option.some.injEq] at hfst
      subst hfst
      refine ⟨r1, calls, rfl, hpins, by rw [SetGetCompact.parse_pins_eq, hpins], ?_, ?_⟩
      · exact Kulgad.scan_pins_traced_bounds _ _ _ _ _ _ (by simp) ht
      · have := Kulgad.scan_pins_count _ _ _ _ _ (Nat.zero_le _) hscan
        simp only [List.length_nil, Nat.mul_zero, Nat.zero_add, Nat.add_zero] at this
        omega

theorem C34_pins_total_in_bounds_witness :
    8 < 19 ∧ 19 < "\x7b\"pins\":[true,false]\x7d".toList.length ∧
    (substr "\x7b\"pins\":[true,false]\x7d".toList (8 + 1) (some (19 - 8 - 1))).length
      = 19 - 8 - 1 ∧
    ∃ pins calls,
      Kulgad.scan_pins_traced
        (substr "\x7b\"pins\":[true,false]\x7d".toList (8 + 1) (some (19 - 8 - 1)))
        ((substr "\x7b\"pins\":[true,false]\x7d".toList (8 + 1) (some (19 - 8 - 1))).length + 1)
        0 [] [] = some (pins, calls) ∧
      Kulgad.parse_pins_from_json "\x7b\"pins\":[true,false]\x7d".toList = some pins ∧
      SetGetCompact.parse_pins_from_json "\x7b\"pins\":[true,false]\x7d".toList = some pins ∧
      (∀ c ∈ calls, c.1 + c.2
        ≤ (substr "\x7b\"pins\":[true,false]\x7d".toList (8 + 1) (some (19 - 8 - 1))).length) ∧
      pins.length
        ≤ (substr "\x7b\"pins\":[true,false]\x7d".toList (8 + 1) (some (19 - 8 - 1))).length / 4 :=
  C34_pins_total_in_bounds.2 "\x7b\"pins\":[true,false]\x7d".toList 1 8 19 (by decide)
    (by decide) (by decide)

/-- C35: the near-duplicate variants agree: for every input string (and whatever the
vector holds) `parse_channels` of set_get.cpp and of set_get_compact.cpp return the
same result, that is the same success flag and the same channel list (and the same
error text), and `parse_pins_from_json` of kulgad.cpp, of set_get.cpp and of
set_get_compact.cpp return the same vector; each of them returns on every input. -/
theorem C35_variants_agree :
    (∀ (raw : Str) (out : List Int),
      SetGet.parse_channels raw out = SetGetCompact.parse_channels raw out ∧
      ∃ r, SetGetCompact.parse_channels raw out = some r) ∧
    (∀ (js : Str), ∃ pins, Kulgad.parse_pins_from_json js = some pins ∧
      SetGet.parse_pins_from_json js = some pins ∧
      SetGetCompact.parse_pins_from_json js = some pins) ∧
    SetGet.parse_channels "7, 0-4,x".toList [] = some (.fail "Invalid channel: x\n".toList) ∧
    SetGetCompact.parse_channels "7, 0-4,x".toList []
      = some (.fail "Invalid channel: x\n".toList) ∧
    SetGet.parse_pins_from_json "\x7b\"pins\":[true,false]\x7d".toList = some [true, false] := by
  refine ⟨?_, ?_, by decide, by decide, by decide⟩
  · intro raw out
    exact ⟨SetGet.parse_channels_same raw out, SetGetCompact.parse_channels_total raw out⟩
  · intro js
    obtain ⟨pins, h⟩ := Kulgad.parse_pins_total js
    refine ⟨pins, h, ?_, ?_⟩
    · rw [SetGet.parse_pins_same, h]
    · rw [SetGetCompact.parse_pins_eq, h]

end MTD
